import Mathlib

/-!
# Monocle JSON parser (`src/json.c`): shallow embedding and verified properties

The parser is a recursive-descent reader over a byte buffer with an explicit length.
The embedding keeps the shape of the C source:

* the parse context `JSON_PARSE_CTX` is a record that is threaded through every rule
  (the C code mutates it through a pointer);
* the process-wide `error_str` buffer is threaded as a list of bytes;
* bytes are natural numbers below 256, C `int` counters are natural numbers
  (inputs are far below the `int` range, so no counter wraps);
* `malloc` is taken to succeed, so the "Out of memory" returns are not modelled;
* `snprintf(error_str, 512, ...)` never reaches its bound for `int` line and column
  numbers (the longest diagnostic is below 70 bytes), so no truncation is modelled;
* loops that consume one byte per iteration are structural recursions on a fuel that
  is initialised with the number of bytes left in the buffer; the mutually recursive
  rules `value` / `array` / `object` take an explicit fuel and return `none` when it
  is exhausted;
* the model cannot fault: a read behind the memory yields 0 (`word` reads `*s` before
  its bound test) or ends the text (`strtod`), and the nesting is bounded by the fuel,
  not by the machine stack. Whether the program returns at all where it reads behind
  the buffer is therefore not settled by the model; the inputs concerned are recorded
  with the theorems on reads behind the buffer.
-/

namespace Json

/-! ## Data model -/

/-- Bytes of a C string literal. -/
def bytes (s : String) : List Nat := s.data.map Char.toNat

/-- The parse context: `s` is the memory starting at the buffer pointer (it may extend
beyond `size`, the buffer need not be NUL-terminated), `i` the cursor offset, `line`
and `col` the cursor location. Reading `s` past the end of the list yields 0. -/
structure JSON_PARSE_CTX where
  s : List Nat
  size : Nat
  i : Nat
  line : Nat
  col : Nat

/-- The tagged value tree. `number` carries the subject sequence that `strtod` converts
(the double is a function of it), `string` the bytes stored in the `str` block,
`array` the `size` field together with the slots that were filled, in slot order, and
`object` the mapping handle. -/
inductive JSON_VALUE where
  | null
  | boolean (b : Bool)
  | number (x : List Nat)
  | string (str : List Nat)
  | array (size : Nat) (data : List JSON_VALUE)
  | object (kv : List (List Nat × JSON_VALUE))

/-- A `JSON_VALUE *` as returned by the rules: `NULL`, the address of the global
`json_dummy` (`json_ok`), or a freshly allocated node. -/
inductive Ptr where
  | NULL
  | json_ok
  | node (v : JSON_VALUE)

/-- The global `json_dummy` object: static storage, hence zero-initialised. -/
def json_dummy : JSON_VALUE := JSON_VALUE.null

/-- The object a non-NULL pointer designates. -/
def Ptr.deref : Ptr → JSON_VALUE
  | Ptr.node v => v
  | _ => json_dummy

/-- Outcome of a grammar rule: returned pointer, updated context, updated `error_str`. -/
abbrev Outcome := Ptr × JSON_PARSE_CTX × List Nat

/-! ## The mapping collaborator -/

/-- Modelled from the spec: the key to value mapping (`mncl_alloc_kv`,
`mncl_kv_insert`, `mncl_kv_find`) lives outside `src/`. The spec asks for a mapping
that is created empty, copies the key on insertion and returns on lookup what was
inserted under the key; the policy for duplicate keys is left to the collaborator.
The model is the insertion log. -/
abbrev MNCL_KV := List (List Nat × JSON_VALUE)

/-- Modelled from the spec: a fresh mapping holds nothing. -/
def mncl_alloc_kv : MNCL_KV := []

/-- Modelled from the spec: insertion records the copied key with the value. -/
def mncl_kv_insert (kv : MNCL_KV) (key : List Nat) (val : JSON_VALUE) : MNCL_KV :=
  kv ++ [(key, val)]

/-- The C string held in a byte block: the bytes before the first NUL. -/
def cstr (block : List Nat) : List Nat := block.takeWhile (fun b => b != 0)

/-! ## `ctype.h` and `snprintf` -/

/-- The `isspace` classification of the "C" locale. -/
def isspace (c : Nat) : Bool := c == 32 || (decide (9 ≤ c) && decide (c ≤ 13))

/-- The `isdigit` classification. -/
def isdigit (c : Nat) : Bool := decide (48 ≤ c) && decide (c ≤ 57)

/-- The `isxdigit` classification. -/
def isxdigit (c : Nat) : Bool :=
  isdigit c || (decide (65 ≤ c) && decide (c ≤ 70)) || (decide (97 ≤ c) && decide (c ≤ 102))

/-- The `%d` conversion of a non-negative `int`. -/
def fmt_d (n : Nat) : List Nat := (Nat.toDigits 10 n).map Char.toNat

/-- The text `snprintf(error_str, 512, "%d:%d: <msg>", line, col)` leaves in `error_str`. -/
def diag (line col : Nat) (msg : List Nat) : List Nat :=
  fmt_d line ++ 58 :: (fmt_d col ++ 58 :: 32 :: msg)

/-! ## Cursor -/

/-- The byte under the cursor, or 0 at the end of the buffer. -/
def peekch (ctx : JSON_PARSE_CTX) : Nat :=
  if ctx.i ≥ ctx.size then 0 else ctx.s.getD ctx.i 0

/-- Consume the byte under the cursor unless it is 0; a newline starts a new line. -/
def readch (ctx : JSON_PARSE_CTX) : Nat × JSON_PARSE_CTX :=
  let c := peekch ctx
  if c ≠ 0 then
    if c = 10 then
      (c, { ctx with i := ctx.i + 1, col := 1, line := ctx.line + 1 })
    else
      (c, { ctx with i := ctx.i + 1, col := ctx.col + 1 })
  else
    (c, ctx)

/-- The `while (1)` loop of `space`; every iteration that does not leave consumes a byte. -/
def space_loop : Nat → JSON_PARSE_CTX → JSON_PARSE_CTX
  | fuel, ctx =>
    let c := peekch ctx
    if c = 0 ∨ isspace c = false then ctx
    else
      match fuel with
      | 0 => ctx
      | f + 1 => space_loop f (readch ctx).2

/-- Skip whitespace. -/
def space (ctx : JSON_PARSE_CTX) : JSON_PARSE_CTX :=
  space_loop (ctx.size - ctx.i) ctx

/-- The `for (i = 0; i < n; ++i) readch(ctx);` loops of `word`. -/
def readch_n : Nat → JSON_PARSE_CTX → JSON_PARSE_CTX
  | 0, ctx => ctx
  | n + 1, ctx => readch_n n (readch ctx).2

/-! ## Literal words -/

/-- The test `!strncmp(s, lit, n)` for a literal of `n` non-NUL bytes. -/
def strncmp_eq (mem lit : List Nat) : Bool := mem.take lit.length == lit

/-- The rule for `null`, `true` and `false`. The source reads the byte `*s` under the
cursor before it tests `ctx->i + n <= ctx->size`, also with the cursor at the end of the
buffer; where the memory ends there, the model takes the byte to be 0. -/
def word (ctx : JSON_PARSE_CTX) (err : List Nat) (scan : Bool) : Outcome :=
  let s := ctx.s.drop ctx.i
  let c := s.getD 0 0
  if c = 110 ∧ ctx.i + 4 ≤ ctx.size ∧ strncmp_eq s (bytes "null") = true then
    let ctx := readch_n 4 ctx
    if scan then (Ptr.json_ok, ctx, err) else (Ptr.node JSON_VALUE.null, ctx, err)
  else if c = 116 ∧ ctx.i + 4 ≤ ctx.size ∧ strncmp_eq s (bytes "true") = true then
    let ctx := readch_n 4 ctx
    if scan then (Ptr.json_ok, ctx, err) else (Ptr.node (JSON_VALUE.boolean true), ctx, err)
  else if c = 102 ∧ ctx.i + 5 ≤ ctx.size ∧ strncmp_eq s (bytes "false") = true then
    let ctx := readch_n 5 ctx
    if scan then (Ptr.json_ok, ctx, err) else (Ptr.node (JSON_VALUE.boolean false), ctx, err)
  else
    (Ptr.NULL, ctx, diag ctx.line ctx.col (bytes "Expected value"))

/-! ## Numbers -/

/-- Exponent part of a decimal floating constant, empty when there is none. -/
def strtod_exp (r : List Nat) : List Nat :=
  match r with
  | [] => []
  | c :: r1 =>
    if c = 101 ∨ c = 69 then
      let sg := match r1 with
        | [] => []
        | d :: _ => if d = 43 ∨ d = 45 then [d] else []
      let ds := (r1.drop sg.length).takeWhile isdigit
      if ds = [] then [] else c :: (sg ++ ds)
    else []

/-- Longest decimal floating constant at the head of the text, empty when there is none. -/
def strtod_dec (m : List Nat) : List Nat :=
  let ip := m.takeWhile isdigit
  let r1 := m.dropWhile isdigit
  let fp := match r1 with
    | [] => []
    | c :: r => if c = 46 then c :: r.takeWhile isdigit else []
  if ip = [] ∧ fp.length ≤ 1 then []
  else
    let mant := ip ++ fp
    mant ++ strtod_exp (m.drop mant.length)

/-- Binary exponent part of a hexadecimal floating constant. -/
def strtod_pexp (r : List Nat) : List Nat :=
  match r with
  | [] => []
  | c :: r1 =>
    if c = 112 ∨ c = 80 then
      let sg := match r1 with
        | [] => []
        | d :: _ => if d = 43 ∨ d = 45 then [d] else []
      let ds := (r1.drop sg.length).takeWhile isdigit
      if ds = [] then [] else c :: (sg ++ ds)
    else []

/-- Longest hexadecimal floating constant at the head of the text, empty when there is
none. -/
def strtod_hex (m : List Nat) : List Nat :=
  match m with
  | z :: x :: r =>
    if z = 48 ∧ (x = 120 ∨ x = 88) then
      let ip := r.takeWhile isxdigit
      let r1 := r.dropWhile isxdigit
      let fp := match r1 with
        | [] => []
        | c :: r2 => if c = 46 then c :: r2.takeWhile isxdigit else []
      if ip = [] ∧ fp.length ≤ 1 then []
      else
        let mant := ip ++ fp
        z :: x :: (mant ++ strtod_pexp (r.drop mant.length))
    else []
  | _ => []

/-- The subject sequence `strtod` converts (C99 7.20.1.3): after leading white space
and an optional sign, the longest hexadecimal or decimal floating constant. The value
`strtod` returns is the conversion of this text; the INF and NAN forms begin with a
letter and are left out, `number` hands over text that begins with an optional `-`
and a digit. The result is empty when no conversion can be performed. -/
def strtod (mem : List Nat) : List Nat :=
  let m := mem.dropWhile isspace
  let sg := match m with
    | [] => []
    | c :: _ => if c = 43 ∨ c = 45 then [c] else []
  let r := m.drop sg.length
  let h := strtod_hex r
  if h ≠ [] then sg ++ h
  else
    let d := strtod_dec r
    if d = [] then [] else sg ++ d

/-- The loops `while (isdigit(peekch(ctx))) { readch(ctx); ++n; }`. -/
def digits_loop : Nat → JSON_PARSE_CTX → Nat → JSON_PARSE_CTX × Nat
  | fuel, ctx, n =>
    if isdigit (peekch ctx) = true then
      match fuel with
      | 0 => (ctx, n)
      | f + 1 => digits_loop f (readch ctx).2 (n + 1)
    else (ctx, n)

/-- A digit loop started with `n = 0`. -/
def digits (ctx : JSON_PARSE_CTX) : JSON_PARSE_CTX × Nat :=
  digits_loop (ctx.size - ctx.i) ctx 0

/-- The end of `number`: the scan marker, or a node holding `strtod(s, NULL)`, where
`s` is the memory from the first byte of the number on. -/
def number_finish (s : List Nat) (ctx : JSON_PARSE_CTX) (err : List Nat) (scan : Bool) :
    Outcome :=
  if scan then (Ptr.json_ok, ctx, err)
  else (Ptr.node (JSON_VALUE.number (strtod s)), ctx, err)

/-- The exponent part of `number` and what follows. -/
def number_exp (s : List Nat) (ctx : JSON_PARSE_CTX) (err : List Nat) (scan : Bool) :
    Outcome :=
  let ch := peekch ctx
  if ch = 101 ∨ ch = 69 then
    let ctx := (readch ctx).2
    let ch := peekch ctx
    let ctx := if ch = 43 ∨ ch = 45 then (readch ctx).2 else ctx
    let (ctx, n) := digits ctx
    if n = 0 then
      (Ptr.NULL, ctx, diag ctx.line ctx.col (bytes "Expected number after exponent"))
    else number_finish s ctx err scan
  else number_finish s ctx err scan

/-- The fraction part of `number` and what follows. -/
def number_frac (s : List Nat) (ctx : JSON_PARSE_CTX) (err : List Nat) (scan : Bool) :
    Outcome :=
  if peekch ctx = 46 then
    let (ctx, n) := digits (readch ctx).2
    if n = 0 then
      (Ptr.NULL, ctx, diag ctx.line ctx.col (bytes "Expected number after decimal point"))
    else number_exp s ctx err scan
  else number_exp s ctx err scan

/-- The number rule. -/
def number (ctx : JSON_PARSE_CTX) (err : List Nat) (scan : Bool) : Outcome :=
  let s := ctx.s.drop ctx.i
  let ctx := if peekch ctx = 45 then (readch ctx).2 else ctx
  if peekch ctx = 48 then
    let ctx := (readch ctx).2
    if isdigit (peekch ctx) = true then
      (Ptr.NULL, ctx, diag ctx.line ctx.col (bytes "Numbers may not have leading zeros"))
    else number_frac s ctx err scan
  else
    let (ctx, n) := digits ctx
    if n = 0 then
      (Ptr.NULL, ctx, diag ctx.line ctx.col (bytes "Expected number"))
    else number_frac s ctx err scan

/-! ## Strings -/

/-- The loop of `hex_decode`, with `k` iterations left. The first component is `none`
for the return value -1. -/
def hex_decode_loop : Nat → JSON_PARSE_CTX → List Nat → Nat →
    Option Nat × JSON_PARSE_CTX × List Nat
  | 0, ctx, err, result => (some result, ctx, err)
  | k + 1, ctx0, err, result =>
    let c := (readch ctx0).1
    let ctx := (readch ctx0).2
    if 48 ≤ c ∧ c ≤ 57 then hex_decode_loop k ctx err (result * 16 + (c - 48))
    else if 65 ≤ c ∧ c ≤ 70 then hex_decode_loop k ctx err (result * 16 + (c - 65 + 10))
    else if 97 ≤ c ∧ c ≤ 102 then hex_decode_loop k ctx err (result * 16 + (c - 97 + 10))
    else (none, ctx, diag ctx.line ctx.col (bytes "Expected hex digit"))

/-- Read four hexadecimal digits. -/
def hex_decode (ctx : JSON_PARSE_CTX) (err : List Nat) :
    Option Nat × JSON_PARSE_CTX × List Nat :=
  hex_decode_loop 4 ctx err 0

/-- The text of the diagnostic for an escape character that is not recognised. -/
def illegal_escape (c : Nat) : List Nat :=
  bytes "Illegal string escape " ++ [39, c, 39]

/-- The `while (1)` loop of `json_str_size`, run on the private copy `ctx0` of the
context. The first component is `none` for the return value -1; the second is the
caller's context `*ctx_orig` after the call. An iteration that does not return has
consumed a byte, so the fuel (the bytes left) is never exhausted. -/
def json_str_size_loop (ctx_orig : JSON_PARSE_CTX) (scan : Bool) :
    Nat → JSON_PARSE_CTX → List Nat → Nat → Option Nat × JSON_PARSE_CTX × List Nat
  | fuel, ctx0, err, result =>
    let c := (readch ctx0).1
    let ctx := (readch ctx0).2
    if c = 10 then
      (none, ctx_orig,
        diag ctx_orig.line ctx_orig.col (bytes "Unterminated string constant"))
    else if c < 32 then
      (none, ctx_orig, diag ctx.line ctx.col (bytes "Illegal string character"))
    else if c = 34 then
      (some result, if scan then ctx else ctx_orig, err)
    else
      match fuel with
      | 0 => (none, ctx_orig, err)
      | f + 1 =>
        if c = 92 then
          let c1 := (readch ctx).1
          let ctx1 := (readch ctx).2
          if c1 < 32 then
            (none, ctx_orig,
              diag ctx_orig.line ctx_orig.col (bytes "Unterminated string constant"))
          else if c1 = 117 then
            match hex_decode ctx1 err with
            | (none, _, err1) => (none, ctx_orig, err1)
            | (some ch, ctx2, err1) =>
              if ch = 0 then
                (none, ctx_orig,
                  diag ctx2.line ctx2.col (bytes "NULL character in string"))
              else if ch < 0x80 then json_str_size_loop ctx_orig scan f ctx2 err1 (result + 1)
              else if ch < 0x800 then
                json_str_size_loop ctx_orig scan f ctx2 err1 (result + 2)
              else json_str_size_loop ctx_orig scan f ctx2 err1 (result + 3)
          else if c1 = 34 ∨ c1 = 92 ∨ c1 = 47 ∨ c1 = 98 ∨ c1 = 102 ∨ c1 = 110 ∨ c1 = 114
              ∨ c1 = 116 then
            json_str_size_loop ctx_orig scan f ctx1 err (result + 1)
          else
            (none, ctx_orig, diag ctx1.line ctx1.col (illegal_escape c1))
        else json_str_size_loop ctx_orig scan f ctx err (result + 1)

/-- The size scan of a string literal: the number of decoded bytes, or `none` for -1.
The caller's context moves past the closing quote only when `scan` is set. -/
def json_str_size (ctx_orig : JSON_PARSE_CTX) (err : List Nat) (scan : Bool) :
    Option Nat × JSON_PARSE_CTX × List Nat :=
  let c := (readch ctx_orig).1
  let ctx := (readch ctx_orig).2
  if c ≠ 34 then (none, ctx_orig, diag ctx.line ctx.col (bytes "Expected string"))
  else json_str_size_loop ctx_orig scan (ctx.size - ctx.i) ctx err 0

/-- The bytes `json_strcpy` stores for the escape `\uXXXX` of value `ch`. -/
def utf8_store (ch : Nat) : List Nat :=
  if ch < 0x80 then [ch % 256]
  else if ch < 0x800 then
    [(((ch >>> 6) &&& 0xff) ||| 0xC0) % 256, ((ch &&& 0x3f) ||| 0x80) % 256]
  else
    [(((ch >>> 12) &&& 0xff) ||| 0xe0) % 256, (((ch >>> 6) &&& 0x3f) ||| 0x80) % 256,
      ((ch &&& 0x3f) ||| 0x80) % 256]

/-- The `while (1)` loop of `json_strcpy`. `dst` lists the bytes stored so far through
the destination pointer, in order. The result is `none` when the loop never returns:
once `readch` yields 0 the cursor stays where it is and every further iteration stores
another zero byte. The first component of a result is the returned `int`. -/
def json_strcpy_loop : Nat → JSON_PARSE_CTX → List Nat → List Nat →
    Option (Nat × List Nat × JSON_PARSE_CTX × List Nat)
  | fuel, ctx0, err, dst =>
    let c := (readch ctx0).1
    let ctx := (readch ctx0).2
    if c = 34 then some (1, dst ++ [0], ctx, err)
    else if c = 0 then none
    else
      match fuel with
      | 0 => none
      | f + 1 =>
        if c = 92 then
          let c1 := (readch ctx).1
          let ctx1 := (readch ctx).2
          if c1 = 117 then
            match hex_decode ctx1 err with
            | (none, ctx2, err1) => some (0, dst, ctx2, err1)
            | (some ch, ctx2, err1) => json_strcpy_loop f ctx2 err1 (dst ++ utf8_store ch)
          else if c1 = 34 ∨ c1 = 92 ∨ c1 = 47 then json_strcpy_loop f ctx1 err (dst ++ [c1])
          else if c1 = 98 then json_strcpy_loop f ctx1 err (dst ++ [8])
          else if c1 = 102 then json_strcpy_loop f ctx1 err (dst ++ [12])
          else if c1 = 110 then json_strcpy_loop f ctx1 err (dst ++ [10])
          else if c1 = 114 then json_strcpy_loop f ctx1 err (dst ++ [13])
          else if c1 = 116 then json_strcpy_loop f ctx1 err (dst ++ [9])
          else some (0, dst, ctx1, diag ctx1.line ctx1.col (illegal_escape c1))
        else json_strcpy_loop f ctx err (dst ++ [c])

/-- Decode a string literal into the destination block: returned `int`, the bytes
stored from offset 0 of the block in order, the context and `error_str`. -/
def json_strcpy (ctx : JSON_PARSE_CTX) (err : List Nat) :
    Option (Nat × List Nat × JSON_PARSE_CTX × List Nat) :=
  let ctx1 := (readch ctx).2
  json_strcpy_loop (ctx1.size - ctx1.i) ctx1 err []

/-- The string rule: the block of `sz + 1` bytes receives what `json_strcpy` stores. -/
def string (ctx : JSON_PARSE_CTX) (err : List Nat) (scan : Bool) : Option Outcome :=
  match json_str_size ctx err scan with
  | (none, ctx1, err1) => some (Ptr.NULL, ctx1, err1)
  | (some _, ctx1, err1) =>
    if scan then some (Ptr.json_ok, ctx1, err1)
    else
      match json_strcpy ctx1 err1 with
      | none => none
      | some (ok, written, ctx2, err2) =>
        if ok ≠ 0 then some (Ptr.node (JSON_VALUE.string written), ctx2, err2)
        else some (Ptr.NULL, ctx2, err2)

/-! ## Arrays and objects

Both rules call `value`; they are written over the function `vF` that stands for it,
and `value` ties the knot by recursion on the fuel. -/

/-- The type of the `value` rule as seen by `array` and `object`. -/
abbrev ValueFn := Bool → JSON_PARSE_CTX → List Nat → Option Outcome

/-- The first `while (1)` loop of `array` (sizing). The first component of a result is
the element count when the loop is left through `break`, `none` when the rule returns
NULL. -/
def array_pass1 (vF : ValueFn) (start : JSON_PARSE_CTX) :
    Nat → JSON_PARSE_CTX → List Nat → Nat → Option (Option Nat × JSON_PARSE_CTX × List Nat)
  | 0, _, _, _ => none
  | f + 1, ctx, err, count =>
    let ch := peekch ctx
    if ch = 93 then some (some count, (readch ctx).2, err)
    else if ch = 0 then
      some (none, ctx, diag start.line start.col (bytes "Unterminated array"))
    else if count ≠ 0 ∧ ch ≠ 44 then
      some (none, ctx, diag ctx.line ctx.col (bytes "Expected " ++ [39, 44, 39]))
    else
      let ctx1 := if count ≠ 0 then (readch ctx).2 else ctx
      match vF true ctx1 err with
      | none => none
      | some (Ptr.NULL, ctx2, err2) => some (none, ctx2, err2)
      | some (_, ctx2, err2) => array_pass1 vF start f ctx2 err2 (count + 1)

/-- The second `while (1)` loop of `array` (building). `data` lists the pointers stored
into the slots 0, 1, ..., `i - 1` so far. -/
def array_pass2 (vF : ValueFn) (start : JSON_PARSE_CTX) :
    Nat → JSON_PARSE_CTX → List Nat → Nat → List JSON_VALUE →
      Option (Option (List JSON_VALUE) × JSON_PARSE_CTX × List Nat)
  | 0, _, _, _, _ => none
  | f + 1, ctx, err, i, data =>
    let ch := peekch ctx
    if ch = 93 then some (some data, (readch ctx).2, err)
    else if ch = 0 then
      some (none, ctx, diag start.line start.col (bytes "Unterminated array"))
    else if i ≠ 0 ∧ ch ≠ 44 then
      some (none, ctx, diag ctx.line ctx.col (bytes "Expected " ++ [39, 44, 39]))
    else
      let ctx1 := if i ≠ 0 then (readch ctx).2 else ctx
      match vF false ctx1 err with
      | none => none
      | some (Ptr.NULL, ctx2, err2) => some (none, ctx2, err2)
      | some (p, ctx2, err2) => array_pass2 vF start f ctx2 err2 (i + 1) (data ++ [p.deref])

/-- The array rule: a sizing pass, then a rewind to `start` and a building pass. -/
def array (vF : ValueFn) (fuel : Nat) (ctx : JSON_PARSE_CTX) (err : List Nat)
    (scan : Bool) : Option Outcome :=
  let start := ctx
  let ch := (readch ctx).1
  let ctx0 := (readch ctx).2
  if ch ≠ 91 then
    some (Ptr.NULL, ctx0, diag ctx0.line ctx0.col (bytes "Expected " ++ [39, 91, 39]))
  else
    match array_pass1 vF start fuel (space ctx0) err 0 with
    | none => none
    | some (none, ctx1, err1) => some (Ptr.NULL, ctx1, err1)
    | some (some count, ctx1, err1) =>
      if scan then some (Ptr.json_ok, ctx1, err1)
      else
        match array_pass2 vF start fuel (space (readch start).2) err1 0 [] with
        | none => none
        | some (none, ctx2, err2) => some (Ptr.NULL, ctx2, err2)
        | some (some data, ctx2, err2) =>
          some (Ptr.node (JSON_VALUE.array count data), ctx2, err2)

/-- The `while (1)` loop of `object`. The first component of a result is the mapping
when the loop is left through `break`, `none` when the rule returns NULL. -/
def object_loop (vF : ValueFn) (scan : Bool) :
    Nat → Bool → JSON_PARSE_CTX → List Nat → MNCL_KV →
      Option (Option MNCL_KV × JSON_PARSE_CTX × List Nat)
  | 0, _, _, _, _ => none
  | f + 1, first, ctx0, err, kv =>
    let ctx := space ctx0
    let ch := peekch ctx
    if ch = 125 then some (some kv, (readch ctx).2, err)
    else if first = false ∧ ch ≠ 44 then
      some (none, ctx, diag ctx.line ctx.col (bytes "Expected " ++ [39, 58, 39]))
    else
      let ctx1 := if first then ctx else space (readch ctx).2
      match json_str_size ctx1 err scan with
      | (none, ctx2, err2) => some (none, ctx2, err2)
      | (some _, ctx2, err2) =>
        let copied : Option (List Nat × JSON_PARSE_CTX × List Nat) :=
          if scan then some ([], ctx2, err2)
          else
            match json_strcpy ctx2 err2 with
            | none => none
            | some (_, written, ctx3, err3) => some (written, ctx3, err3)
        match copied with
        | none => none
        | some (curkey, ctx3, err3) =>
          let ctx4 := space ctx3
          let ch1 := (readch ctx4).1
          let ctx5 := (readch ctx4).2
          if ch1 ≠ 58 then
            some (none, ctx5, diag ctx5.line ctx5.col (bytes "Expected " ++ [39, 58, 39]))
          else
            match vF scan ctx5 err3 with
            | none => none
            | some (Ptr.NULL, ctx6, err6) => some (none, ctx6, err6)
            | some (p, ctx6, err6) =>
              object_loop vF scan f false ctx6 err6
                (if scan then kv else mncl_kv_insert kv (cstr curkey) p.deref)

/-- The object rule. -/
def object (vF : ValueFn) (fuel : Nat) (ctx : JSON_PARSE_CTX) (err : List Nat)
    (scan : Bool) : Option Outcome :=
  let ch := (readch ctx).1
  let ctx0 := (readch ctx).2
  if ch ≠ 123 then
    some (Ptr.NULL, ctx0, diag ctx0.line ctx0.col (bytes "Out of memory"))
  else
    match object_loop vF scan fuel true ctx0 err mncl_alloc_kv with
    | none => none
    | some (none, ctx1, err1) => some (Ptr.NULL, ctx1, err1)
    | some (some kv, ctx1, err1) =>
      some (if scan then Ptr.json_ok else Ptr.node (JSON_VALUE.object kv), ctx1, err1)

/-! ## Value dispatch and entry point -/

/-- The body of `value` over the function `vF` used for nested values. -/
def value_step (vF : ValueFn) (fuel : Nat) (scan : Bool) (ctx0 : JSON_PARSE_CTX)
    (err : List Nat) : Option Outcome :=
  let ctx := space ctx0
  let ch := peekch ctx
  let result : Option Outcome :=
    if ch = 123 then object vF fuel ctx err scan
    else if ch = 91 then array vF fuel ctx err scan
    else if ch = 45 then some (number ctx err scan)
    else if ch = 34 then string ctx err scan
    else if isdigit ch = true then some (number ctx err scan)
    else some (word ctx err scan)
  match result with
  | none => none
  | some (p, ctx1, err1) => some (p, space ctx1, err1)

/-- The value rule. The fuel bounds the nesting depth and the number of iterations of
the element loops; `none` means that it did not suffice. -/
def value : Nat → ValueFn
  | 0, _, _, _ => none
  | f + 1, scan, ctx, err => value_step (fun s c e => value f s c e) f scan ctx err

/-- The entry point `json_parse(data, size)`: the returned pointer and the contents
of `error_str` afterwards. -/
def json_parse (fuel : Nat) (data : List Nat) (size : Nat) : Option (Ptr × List Nat) :=
  match value fuel false { s := data, size := size, i := 0, line := 0, col := 0 } [] with
  | none => none
  | some (Ptr.NULL, _, err) => some (Ptr.NULL, err)
  | some (result, ctx, err) =>
    if peekch ctx ≠ 0 then
      some (Ptr.NULL, diag ctx.line ctx.col (bytes "Extra garbage after value"))
    else some (result, err)

/-! ## Views of the context used in the statements -/

/-- The bytes of the buffer from the cursor on. -/
def rem (ctx : JSON_PARSE_CTX) : List Nat := (ctx.s.take ctx.size).drop ctx.i

/-- The memory from the cursor on (it may extend beyond the buffer). -/
def mem (ctx : JSON_PARSE_CTX) : List Nat := ctx.s.drop ctx.i

/-- The context after consuming the non-zero byte `c`. -/
def step (c : Nat) (ctx : JSON_PARSE_CTX) : JSON_PARSE_CTX :=
  if c = 10 then { ctx with i := ctx.i + 1, col := 1, line := ctx.line + 1 }
  else { ctx with i := ctx.i + 1, col := ctx.col + 1 }

/-- The context after consuming the non-zero bytes `bs` one after the other. -/
def steps (bs : List Nat) (ctx : JSON_PARSE_CTX) : JSON_PARSE_CTX :=
  bs.foldl (fun c b => step b c) ctx

/-- The context `json_parse` starts from. -/
def ctx_init (data : List Nat) (size : Nat) : JSON_PARSE_CTX :=
  { s := data, size := size, i := 0, line := 0, col := 0 }

/-! ## String contents, as the size scan accepts them -/

/-- One unit of string content between the quotes: a raw byte, a single-character
escape (the byte after the backslash), or a `u` escape with its four digits. -/
inductive Item where
  | plain (b : Nat)
  | esc (x : Nat)
  | uni (h1 h2 h3 h4 : Nat)

/-- Value of a hexadecimal digit. -/
def hexval (c : Nat) : Nat :=
  if c ≤ 57 then c - 48 else if c ≤ 70 then c - 55 else c - 87

/-- Value of four hexadecimal digits. -/
def hex4 (h1 h2 h3 h4 : Nat) : Nat :=
  ((hexval h1 * 16 + hexval h2) * 16 + hexval h3) * 16 + hexval h4

/-- The eight escape characters that stand for one byte. -/
def simple_escapes : List Nat := [34, 92, 47, 98, 102, 110, 114, 116]

/-- The byte a single-character escape stands for. -/
def esc_byte (x : Nat) : Nat :=
  if x = 98 then 8 else if x = 102 then 12 else if x = 110 then 10
  else if x = 114 then 13 else if x = 116 then 9 else x

/-- Well-formed string content: raw bytes from 0x20 on other than the quote and the
backslash, the eight single-character escapes, `u` escapes of non-zero value. -/
def Item.valid : Item → Prop
  | Item.plain b => 32 ≤ b ∧ b ≠ 34 ∧ b ≠ 92
  | Item.esc x => x ∈ simple_escapes
  | Item.uni h1 h2 h3 h4 =>
    isxdigit h1 = true ∧ isxdigit h2 = true ∧ isxdigit h3 = true ∧ isxdigit h4 = true ∧
      hex4 h1 h2 h3 h4 ≠ 0

/-- The source text of an item. -/
def Item.render : Item → List Nat
  | Item.plain b => [b]
  | Item.esc x => [92, x]
  | Item.uni h1 h2 h3 h4 => [92, 117, h1, h2, h3, h4]

/-- The bytes an item decodes to. -/
def Item.decode : Item → List Nat
  | Item.plain b => [b]
  | Item.esc x => [esc_byte x]
  | Item.uni h1 h2 h3 h4 => utf8_store (hex4 h1 h2 h3 h4)

/-- The source text of a sequence of items. -/
def render (items : List Item) : List Nat := (items.map Item.render).flatten

/-- The decoded bytes of a sequence of items. -/
def decode (items : List Item) : List Nat := (items.map Item.decode).flatten

/-- The UTF-8 encoding of a code point below 0x10000 taken on its own, after the spec:
one byte below 0x80, two bytes below 0x800, three bytes otherwise. -/
def utf8_encode (cp : Nat) : List Nat :=
  if cp < 0x80 then [cp]
  else if cp < 0x800 then [0xC0 + cp / 64, 0x80 + cp % 64]
  else [0xE0 + cp / 4096, 0x80 + cp / 64 % 64, 0x80 + cp % 64]

instance Item.decValid (it : Item) : Decidable it.valid := by
  cases it <;> unfold Item.valid <;> infer_instance

/-! ## The number grammar of the spec -/

/-- The integer part `0|[1-9][0-9]*`. -/
def IntPart (ip : List Nat) : Prop :=
  ip = [48] ∨ (ip ≠ [] ∧ (∀ b ∈ ip, isdigit b = true) ∧ ip.headD 0 ≠ 48)

/-- The optional fraction `(\.[0-9]+)?`. -/
def FracPart (fp : List Nat) : Prop :=
  fp = [] ∨ ∃ ds, ds ≠ [] ∧ (∀ b ∈ ds, isdigit b = true) ∧ fp = 46 :: ds

/-- The optional exponent `([eE][+-]?[0-9]+)?`. -/
def ExpPart (ep : List Nat) : Prop :=
  ep = [] ∨ ∃ e sg ds, (e = 101 ∨ e = 69) ∧ (sg = [] ∨ sg = [43] ∨ sg = [45]) ∧ ds ≠ [] ∧
    (∀ b ∈ ds, isdigit b = true) ∧ ep = e :: (sg ++ ds)

/-- The grammar `-?(0|[1-9][0-9]*)(\.[0-9]+)?([eE][+-]?[0-9]+)?`. -/
def NumberText (N : List Nat) : Prop :=
  ∃ sg ip fp ep, (sg = [] ∨ sg = [45]) ∧ IntPart ip ∧ FracPart fp ∧ ExpPart ep ∧
    N = sg ++ (ip ++ (fp ++ ep))

/-- A byte that cannot continue a number: no digit, no `.`, no `e`, no `E`. -/
def numstop (c : Nat) : Prop := isdigit c = false ∧ c ≠ 46 ∧ c ≠ 101 ∧ c ≠ 69

/-! ## Embedding a text in a larger buffer -/

/-- A byte that ends every token: no white space, no character of a decimal or
hexadecimal floating constant. The separators `,` `]` `}` and `:` are of this kind. -/
def hardstop (d : Nat) : Bool :=
  !(isspace d || isxdigit d || d == 43 || d == 45 || d == 46 || d == 120 || d == 88 ||
    d == 112 || d == 80)

/-- The context `c2` reads, from its cursor on, what the context `c1` reads up to the
end of its buffer, and then the byte `d` and further bytes: `c1` works on a text taken
on its own (no NUL byte, nothing behind the buffer), `c2` on the same text embedded
in front of `d`. -/
structure Frame (d : Nat) (post post' : List Nat) (c1 c2 : JSON_PARSE_CTX) : Prop where
  mem1 : mem c1 = rem c1
  nz : ∀ b ∈ rem c1, b ≠ 0
  rem2 : rem c2 = rem c1 ++ d :: post
  mem2 : mem c2 = rem c1 ++ d :: post'

/-! ## Properties of the function that stands for `value` -/

/-- A successful call leaves `error_str` as it found it. -/
def ErrKeep (vF : ValueFn) : Prop :=
  ∀ scan ctx err p c' e', vF scan ctx err = some (p, c', e') → p ≠ Ptr.NULL → e' = err

/-- Where a materialize call succeeds, the scan call from the same state succeeds with
`json_ok` and ends in the same state. -/
def ScanOfMat (vF : ValueFn) : Prop :=
  ∀ ctx err p c' e', vF false ctx err = some (p, c', e') → p ≠ Ptr.NULL →
    vF true ctx err = some (Ptr.json_ok, c', e')

/-- A successful call on a text taken on its own succeeds with the same result on the
text embedded in front of a separator, and stops at the separator. -/
def Framed (vF : ValueFn) : Prop :=
  ∀ d post post' scan c1 c2 err p c1' e', hardstop d = true → Frame d post post' c1 c2 →
    vF scan c1 err = some (p, c1', e') → p ≠ Ptr.NULL →
    ∃ c2', vF scan c2 err = some (p, c2', e') ∧ Frame d post post' c1' c2'

/-- Every result of `vF` is a result of `vG`. -/
def Below (vF vG : ValueFn) : Prop :=
  ∀ scan ctx err o, vF scan ctx err = some o → vG scan ctx err = some o

/-! ## Lookup -/

/-- Modelled from the spec: lookup returns the value inserted under the key, nothing
when no insertion used the key. Of several insertions under one key the model returns
the last one; the spec leaves that policy to the collaborator. -/
def mncl_kv_find : MNCL_KV → List Nat → Option JSON_VALUE
  | [], _ => none
  | (k, v) :: rest, key =>
    match mncl_kv_find rest key with
    | some w => some w
    | none => if k = key then some v else none

/-- The accessor `json_lookup(map, key)`: `key` is the block holding the C string. The
result is `NULL` for not-found. -/
def json_lookup (map : Ptr) (key : List Nat) : Ptr :=
  match map with
  | Ptr.NULL => Ptr.NULL
  | p =>
    match p.deref with
    | JSON_VALUE.object kv =>
      match mncl_kv_find kv (cstr key) with
      | some v => Ptr.node v
      | none => Ptr.NULL
    | _ => Ptr.NULL

/-- Where a scan call succeeds, the materialize call from the same state succeeds with
a node and ends in the same state. -/
def MatOfScan (vF : ValueFn) : Prop :=
  ∀ ctx err p c' e', vF true ctx err = some (p, c', e') → p ≠ Ptr.NULL →
    ∃ v, vF false ctx err = some (Ptr.node v, c', e')

/-- A failing call leaves a diagnostic in `error_str`. -/
def ErrSet (vF : ValueFn) : Prop :=
  ∀ scan ctx err c' e', vF scan ctx err = some (Ptr.NULL, c', e') → e' ≠ []

/-- On every state with fewer than `m` bytes left, the call returns, and a successful
call has consumed at least one byte. -/
def Progress (m : Nat) (vF : ValueFn) : Prop :=
  ∀ scan ctx err, (rem ctx).length < m →
    ∃ p c e, vF scan ctx err = some (p, c, e) ∧
      (p ≠ Ptr.NULL → (rem c).length < (rem ctx).length)

/-! ## Texts of composite literals -/

/-- What follows an element of a comma-separated sequence: each further element behind
its comma, then the closing byte. -/
def sep_tail (close : Nat) : List (List Nat) → List Nat
  | [] => [close]
  | v :: vs => 44 :: (v ++ sep_tail close vs)

/-- A member `key : value` of an object literal: white space, the key literal with the
content `key`, white space, the colon, the text of the value, and the value that text
stands for. -/
structure Member where
  pre : List Nat
  key : List Item
  mid : List Nat
  text : List Nat
  val : JSON_VALUE

/-- The source text of a member. -/
def Member.render (m : Member) : List Nat :=
  m.pre ++ 34 :: (Json.render m.key ++ 34 :: (m.mid ++ 58 :: m.text))

/-- The key a member is stored under. -/
def Member.name (m : Member) : List Nat := decode m.key

/-- A well-formed member: white space where white space is expected, a well-formed key,
and a value text without NUL byte that `json_parse` with fuel `f` maps to `val`. -/
def Member.ok (f : Nat) (m : Member) : Prop :=
  (∀ b ∈ m.pre, isspace b = true) ∧ (∀ b ∈ m.mid, isspace b = true) ∧
    (∀ it ∈ m.key, it.valid) ∧ (∀ b ∈ m.text, b ≠ 0) ∧
    json_parse f m.text m.text.length = some (Ptr.node m.val, [])

/-! ## Positions at which a value is required -/

/-- An enclosing composite, read up to the position of one of its values: an array with
the texts of the elements in front, each followed by its comma; or an object with the
members in front, each followed by its comma, and the key and colon of the current
member. -/
inductive Layer where
  | arr (done : List (List Nat))
  | obj (done : List Member) (pre : List Nat) (key : List Item) (mid : List Nat)

/-- The source text of a layer, up to the position of the value. -/
def Layer.render : Layer → List Nat
  | Layer.arr done => 91 :: (done.map (fun v => v ++ [44])).flatten
  | Layer.obj done pre key mid =>
    123 :: ((done.map (fun m => m.render ++ [44])).flatten ++
      (pre ++ 34 :: (Json.render key ++ 34 :: (mid ++ [58]))))

/-- The elements and members in front are well formed and accepted by `json_parse`
with fuel `f`. -/
def Layer.ok (f : Nat) : Layer → Prop
  | Layer.arr done =>
    ∀ v ∈ done, (∀ b ∈ v, b ≠ 0) ∧ ∃ r, json_parse f v v.length = some (Ptr.node r, [])
  | Layer.obj done pre key mid =>
    (∀ m ∈ done, m.ok f) ∧ (∀ b ∈ pre, isspace b = true) ∧ (∀ b ∈ mid, isspace b = true) ∧
      (∀ it ∈ key, it.valid)

/-- The number of loop iterations a layer takes, plus one. -/
def Layer.weight : Layer → Nat
  | Layer.arr done => done.length + 2
  | Layer.obj done _ _ _ => done.length + 2

/-- No value starts at the head of `t`: the first byte is no white space, none of
`{`, `[`, `"`, `-`, no digit, and `t` does not begin with `null`, `true` or `false`. -/
def NoValueStart (t : List Nat) : Prop :=
  isspace (t.headD 0) = false ∧ t.headD 0 ≠ 123 ∧ t.headD 0 ≠ 91 ∧ t.headD 0 ≠ 34 ∧
    t.headD 0 ≠ 45 ∧ isdigit (t.headD 0) = false ∧ ¬ (bytes "null" <+: t) ∧
    ¬ (bytes "true" <+: t) ∧ ¬ (bytes "false" <+: t)

/-! ## White space behind the buffer -/

/-- The context `c2` reads what `c1` reads and then white space; no memory is read behind
either buffer. -/
def Padded (c1 c2 : JSON_PARSE_CTX) : Prop :=
  mem c1 = rem c1 ∧ mem c2 = rem c2 ∧ ∃ w, (∀ b ∈ w, isspace b = true) ∧ rem c2 = rem c1 ++ w

/-- As `Padded`, once white space has been skipped: where `c1` is at its end, `c2` is
at its end too. -/
def PaddedS (c1 c2 : JSON_PARSE_CTX) : Prop :=
  Padded c1 c2 ∧ (rem c1 = [] → rem c2 = [])

/-- The call returns the same pointer with or without white space behind the buffer. -/
def SamePtr (vF : ValueFn) : Prop :=
  ∀ c1 c2, Padded c1 c2 → ∀ scan err1 err2 p c1' e1, vF scan c1 err1 = some (p, c1', e1) →
    ∃ c2' e2, vF scan c2 err2 = some (p, c2', e2) ∧ (p ≠ Ptr.NULL → PaddedS c1' c2')

/-! ## The cursor location as a function of the bytes consumed -/

/-- The context `c'` is reached from `c` by consuming bytes of the buffer one after the
other: it is `c` advanced over a prefix of what `c` has left. -/
def Reach (c c' : JSON_PARSE_CTX) : Prop := ∃ bs, rem c = bs ++ rem c' ∧ c' = steps bs c

/-- A successful call ends in a context reached from the one it started in. -/
def Traced (vF : ValueFn) : Prop :=
  ∀ scan ctx err p c' e', vF scan ctx err = some (p, c', e') → p ≠ Ptr.NULL → Reach ctx c'
/-! ## Positions at which a string literal is read -/

/-- A position at which the parser reads a string literal: `val`, a value position
inside the enclosing composites `layers` (outermost first), after the white space
`ws`; or `key`, the position of a key of an object that is itself a value inside
`layers`, behind the members `done`, each followed by its comma, and the white space
`pre`. With no layers `val` is the start of the input. -/
inductive Spot where
  | val (layers : List Layer) (ws : List Nat)
  | key (layers : List Layer) (done : List Member) (pre : List Nat)

/-- The source text in front of the position. -/
def Spot.render : Spot → List Nat
  | Spot.val layers ws => (layers.map Layer.render).flatten ++ ws
  | Spot.key layers done pre =>
    (layers.map Layer.render).flatten ++
      123 :: ((done.map (fun m => m.render ++ [44])).flatten ++ pre)

/-- The text in front of the position is well formed: the elements and members in
front are accepted by `json_parse` with fuel `f`, white space is white space. -/
def Spot.ok (f : Nat) : Spot → Prop
  | Spot.val layers ws => (∀ L ∈ layers, L.ok f) ∧ (∀ b ∈ ws, isspace b = true)
  | Spot.key layers done pre =>
    (∀ L ∈ layers, L.ok f) ∧ (∀ m ∈ done, m.ok f) ∧ (∀ b ∈ pre, isspace b = true)

/-- Fuel that suffices to reach the position, beyond the fuel of the elements in front. -/
def Spot.weight : Spot → Nat
  | Spot.val layers _ => (layers.map Layer.weight).sum + 2
  | Spot.key layers done _ => (layers.map Layer.weight).sum + done.length + 4

/-! # Verified properties -/

/-! ## The cursor -/

theorem peekch_rem (ctx : JSON_PARSE_CTX) : peekch ctx = (rem ctx).headD 0 := by
  unfold peekch rem
  split
  · rename_i h
    rw [List.drop_eq_nil_of_le]
    · rfl
    · simp only [List.length_take]; omega
  · rename_i h
    by_cases hl : ctx.i < ctx.s.length
    · rw [List.getD_eq_getElem _ _ hl]
      have : ctx.i < (ctx.s.take ctx.size).length := by simp only [List.length_take]; omega
      rw [List.drop_eq_getElem_cons this]
      simp
    · rw [List.drop_eq_nil_of_le]
      · have : ctx.s[ctx.i]? = none := List.getElem?_eq_none (Nat.le_of_not_lt hl)
        simp [this]
      · simp only [List.length_take]; omega

theorem peekch_nil {ctx : JSON_PARSE_CTX} (h : rem ctx = []) : peekch ctx = 0 := by
  rw [peekch_rem, h]; rfl

theorem peekch_cons {ctx : JSON_PARSE_CTX} {c : Nat} {r : List Nat} (h : rem ctx = c :: r) :
    peekch ctx = c := by
  rw [peekch_rem, h]; rfl

theorem readch_zero {ctx : JSON_PARSE_CTX} (h : peekch ctx = 0) : readch ctx = (0, ctx) := by
  simp [readch, h]

theorem readch_step {ctx : JSON_PARSE_CTX} {c : Nat} (h : peekch ctx = c) (hc : c ≠ 0) :
    readch ctx = (c, step c ctx) := by
  unfold readch step
  simp only [h]
  by_cases h10 : c = 10 <;> simp [h10, hc]

theorem rem_step {ctx : JSON_PARSE_CTX} {c : Nat} {r : List Nat} (h : rem ctx = c :: r) :
    rem (step c ctx) = r := by
  have : rem (step c ctx) = (rem ctx).drop 1 := by
    unfold step rem
    split <;> simp [List.drop_drop, Nat.add_comm]
  rw [this, h]; rfl

theorem mem_step {ctx : JSON_PARSE_CTX} {c x : Nat} {r : List Nat} (h : mem ctx = x :: r) :
    mem (step c ctx) = r := by
  have : mem (step c ctx) = (mem ctx).drop 1 := by
    unfold step mem
    split <;> simp [List.drop_drop, Nat.add_comm]
  rw [this, h]; rfl

@[simp] theorem step_s (c : Nat) (ctx : JSON_PARSE_CTX) : (step c ctx).s = ctx.s := by
  unfold step; split <;> rfl

@[simp] theorem step_size (c : Nat) (ctx : JSON_PARSE_CTX) : (step c ctx).size = ctx.size := by
  unfold step; split <;> rfl

@[simp] theorem step_i (c : Nat) (ctx : JSON_PARSE_CTX) : (step c ctx).i = ctx.i + 1 := by
  unfold step; split <;> rfl

theorem rem_length (ctx : JSON_PARSE_CTX) : (rem ctx).length ≤ ctx.size - ctx.i := by
  unfold rem
  simp only [List.length_drop, List.length_take]
  omega

/-- The memory view starts with the buffer view. -/
theorem rem_prefix_mem (ctx : JSON_PARSE_CTX) : rem ctx <+: mem ctx := by
  unfold rem mem
  rw [List.drop_take]
  exact List.take_prefix _ _

/-! ## Concrete runs of the entry point -/

/-- C2, evaluated: on the three bytes `1`, NUL, `x` the parse succeeds with the Number
read from `1`, although the byte `x` is never consumed. -/
theorem json_parse_nul_then_garbage :
    json_parse 1 [49, 0, 120] 3 = some (Ptr.node (JSON_VALUE.number [49]), []) := by
  rfl

/-- C10, evaluated: the one-byte input `x` fails and the diagnostic left behind names
line 0, column 0 for the byte at the very start of the buffer. -/
theorem json_parse_reports_zero_based :
    json_parse 1 [120] 1 = some (Ptr.NULL, bytes "0:0: Expected value") := by
  rfl

@[simp] theorem steps_nil (ctx : JSON_PARSE_CTX) : steps [] ctx = ctx := rfl

@[simp] theorem steps_cons (b : Nat) (bs : List Nat) (ctx : JSON_PARSE_CTX) :
    steps (b :: bs) ctx = steps bs (step b ctx) := rfl

theorem steps_append (as bs : List Nat) (ctx : JSON_PARSE_CTX) :
    steps (as ++ bs) ctx = steps bs (steps as ctx) := by
  simp [steps, List.foldl_append]

@[simp] theorem steps_s (bs : List Nat) (ctx : JSON_PARSE_CTX) : (steps bs ctx).s = ctx.s := by
  induction bs generalizing ctx with
  | nil => rfl
  | cons b bs ih => simp [ih]

@[simp] theorem steps_size (bs : List Nat) (ctx : JSON_PARSE_CTX) :
    (steps bs ctx).size = ctx.size := by
  induction bs generalizing ctx with
  | nil => rfl
  | cons b bs ih => simp [ih]

@[simp] theorem steps_i (bs : List Nat) (ctx : JSON_PARSE_CTX) :
    (steps bs ctx).i = ctx.i + bs.length := by
  induction bs generalizing ctx with
  | nil => rfl
  | cons b bs ih => simp [ih]; omega

theorem rem_steps {ctx : JSON_PARSE_CTX} {bs r : List Nat} (h : rem ctx = bs ++ r) :
    rem (steps bs ctx) = r := by
  induction bs generalizing ctx with
  | nil => simpa using h
  | cons b bs ih => exact ih (rem_step h)

theorem mem_steps {ctx : JSON_PARSE_CTX} {bs r : List Nat} (h : mem ctx = bs ++ r) :
    mem (steps bs ctx) = r := by
  induction bs generalizing ctx with
  | nil => simpa using h
  | cons b bs ih => exact ih (mem_step (c := b) h)

theorem readch_cons {ctx : JSON_PARSE_CTX} {c : Nat} {r : List Nat} (h : rem ctx = c :: r)
    (hc : c ≠ 0) : readch ctx = (c, step c ctx) :=
  readch_step (peekch_cons h) hc

theorem readch_nil {ctx : JSON_PARSE_CTX} (h : rem ctx = []) : readch ctx = (0, ctx) :=
  readch_zero (peekch_nil h)

theorem isspace_ne_zero {c : Nat} (h : isspace c = true) : c ≠ 0 := by
  rintro rfl; simp [isspace] at h

theorem isdigit_ne_zero {c : Nat} (h : isdigit c = true) : c ≠ 0 := by
  rintro rfl; simp [isdigit] at h

/-- `space` consumes exactly a maximal run of whitespace. -/
theorem space_loop_eq (fuel : Nat) (ctx : JSON_PARSE_CTX) (ws r : List Nat)
    (h : rem ctx = ws ++ r) (hws : ∀ b ∈ ws, isspace b = true)
    (hr : isspace (r.headD 0) = false) (hf : ws.length ≤ fuel) :
    space_loop fuel ctx = steps ws ctx := by
  induction ws generalizing fuel ctx with
  | nil =>
    unfold space_loop
    simp only [List.nil_append] at h
    have hp : peekch ctx = r.headD 0 := by rw [peekch_rem, h]
    simp only [hp, hr, or_true, if_true, steps_nil]
  | cons b ws ih =>
    have hb : isspace b = true := hws b (List.mem_cons_self _ _)
    have hp : peekch ctx = b := peekch_cons h
    unfold space_loop
    cases fuel with
    | zero => simp at hf
    | succ f =>
      simp only [hp, hb, isspace_ne_zero hb, or_self, if_false, Bool.true_eq_false]
      rw [readch_cons h (isspace_ne_zero hb)]
      simp only [steps_cons]
      exact ih f _ (rem_step h) (fun x hx => hws x (List.mem_cons_of_mem _ hx))
        (by simpa using hf)

theorem space_eq {ctx : JSON_PARSE_CTX} {ws r : List Nat}
    (h : rem ctx = ws ++ r) (hws : ∀ b ∈ ws, isspace b = true)
    (hr : isspace (r.headD 0) = false) : space ctx = steps ws ctx := by
  unfold space
  apply space_loop_eq _ _ ws r h hws hr
  have := rem_length ctx
  rw [h, List.length_append] at this
  omega

theorem space_id {ctx : JSON_PARSE_CTX} (hr : isspace (peekch ctx) = false) :
    space ctx = ctx := by
  have := @space_eq ctx [] (rem ctx) rfl (by simp)
    (by rw [← peekch_rem]; exact hr)
  simpa using this

/-! ## String decoding -/

theorem isxdigit_cases {c : Nat} (h : isxdigit c = true) :
    (48 ≤ c ∧ c ≤ 57) ∨ (65 ≤ c ∧ c ≤ 70) ∨ (97 ≤ c ∧ c ≤ 102) := by
  simp only [isxdigit, isdigit, Bool.or_eq_true, Bool.and_eq_true, decide_eq_true_eq] at h
  omega

theorem hex_decode_loop_digit (k : Nat) {ctx : JSON_PARSE_CTX} (err : List Nat) (res : Nat)
    {h : Nat} {r : List Nat} (hrem : rem ctx = h :: r) (hx : isxdigit h = true) :
    hex_decode_loop (k + 1) ctx err res =
      hex_decode_loop k (step h ctx) err (res * 16 + hexval h) := by
  have h0 : h ≠ 0 := by rcases isxdigit_cases hx with h1 | h1 | h1 <;> omega
  rw [hex_decode_loop, readch_cons hrem h0]
  simp only [hexval]
  rcases isxdigit_cases hx with h1 | h1 | h1
  · rw [if_pos h1, if_pos h1.2]
  · have : ¬ (48 ≤ h ∧ h ≤ 57) := by omega
    have h2 : ¬ h ≤ 57 := by omega
    rw [if_neg this, if_pos h1, if_neg h2, if_pos h1.2]
    congr 1; omega
  · have : ¬ (48 ≤ h ∧ h ≤ 57) := by omega
    have h2 : ¬ h ≤ 57 := by omega
    have h3 : ¬ (65 ≤ h ∧ h ≤ 70) := by omega
    have h4 : ¬ h ≤ 70 := by omega
    rw [if_neg this, if_neg h3, if_pos h1, if_neg h2, if_neg h4]
    congr 1; omega

/-- Four hexadecimal digits are read as their value. -/
theorem hex_decode_digits {ctx : JSON_PARSE_CTX} (err : List Nat) {h1 h2 h3 h4 : Nat}
    {r : List Nat} (hrem : rem ctx = h1 :: h2 :: h3 :: h4 :: r)
    (x1 : isxdigit h1 = true) (x2 : isxdigit h2 = true) (x3 : isxdigit h3 = true)
    (x4 : isxdigit h4 = true) :
    hex_decode ctx err = (some (hex4 h1 h2 h3 h4), steps [h1, h2, h3, h4] ctx, err) := by
  have r1 := rem_step hrem
  have r2 := rem_step r1
  have r3 := rem_step r2
  unfold hex_decode
  rw [hex_decode_loop_digit 3 err 0 hrem x1, hex_decode_loop_digit 2 err _ r1 x2,
    hex_decode_loop_digit 1 err _ r2 x3, hex_decode_loop_digit 0 err _ r3 x4]
  simp [hex_decode_loop, hex4]

theorem utf8_store_length (ch : Nat) :
    (utf8_store ch).length = if ch < 0x80 then 1 else if ch < 0x800 then 2 else 3 := by
  unfold utf8_store
  split
  · rfl
  · split <;> rfl

theorem json_str_size_loop_plain (co : JSON_PARSE_CTX) (scan : Bool) (f : Nat)
    {ctx : JSON_PARSE_CTX} (err : List Nat) (res : Nat) {b : Nat} {r : List Nat}
    (hrem : rem ctx = b :: r) (hb : 32 ≤ b) (hq : b ≠ 34) (hs : b ≠ 92) :
    json_str_size_loop co scan (f + 1) ctx err res =
      json_str_size_loop co scan f (step b ctx) err (res + 1) := by
  have h0 : b ≠ 0 := by omega
  have h10 : b ≠ 10 := by omega
  have h32 : ¬ b < 32 := by omega
  rw [json_str_size_loop, readch_cons hrem h0]
  simp only [h10, h32, hq, hs, if_false]

theorem json_str_size_loop_esc (co : JSON_PARSE_CTX) (scan : Bool) (f : Nat)
    {ctx : JSON_PARSE_CTX} (err : List Nat) (res : Nat) {x : Nat} {r : List Nat}
    (hrem : rem ctx = 92 :: x :: r) (hx : x ∈ simple_escapes) :
    json_str_size_loop co scan (f + 1) ctx err res =
      json_str_size_loop co scan f (steps [92, x] ctx) err (res + 1) := by
  have hx' : x = 34 ∨ x = 92 ∨ x = 47 ∨ x = 98 ∨ x = 102 ∨ x = 110 ∨ x = 114 ∨ x = 116 := by
    simpa [simple_escapes] using hx
  have h0 : x ≠ 0 := by omega
  have h32 : ¬ x < 32 := by omega
  have h117 : x ≠ 117 := by omega
  rw [json_str_size_loop, readch_cons hrem (by decide)]
  simp only [show (92 : Nat) ≠ 10 by decide, show ¬ (92 : Nat) < 32 by decide,
    show (92 : Nat) ≠ 34 by decide, if_false, if_true]
  rw [readch_cons (rem_step hrem) h0]
  simp only [h32, h117, hx', if_false, if_true, steps_cons, steps_nil]

theorem json_str_size_loop_uni (co : JSON_PARSE_CTX) (scan : Bool) (f : Nat)
    {ctx : JSON_PARSE_CTX} (err : List Nat) (res : Nat) {h1 h2 h3 h4 : Nat} {r : List Nat}
    (hrem : rem ctx = 92 :: 117 :: h1 :: h2 :: h3 :: h4 :: r)
    (x1 : isxdigit h1 = true) (x2 : isxdigit h2 = true) (x3 : isxdigit h3 = true)
    (x4 : isxdigit h4 = true) (hne : hex4 h1 h2 h3 h4 ≠ 0) :
    json_str_size_loop co scan (f + 1) ctx err res =
      json_str_size_loop co scan f (steps [92, 117, h1, h2, h3, h4] ctx) err
        (res + (utf8_store (hex4 h1 h2 h3 h4)).length) := by
  rw [json_str_size_loop, readch_cons hrem (by decide)]
  simp only [show (92 : Nat) ≠ 10 by decide, show ¬ (92 : Nat) < 32 by decide,
    show (92 : Nat) ≠ 34 by decide, if_false, if_true]
  rw [readch_cons (rem_step hrem) (by decide)]
  simp only [show ¬ (117 : Nat) < 32 by decide, if_false, if_true]
  rw [hex_decode_digits err (rem_step (rem_step hrem)) x1 x2 x3 x4]
  simp only [hne, if_false, utf8_store_length, steps_cons, steps_nil]
  split
  · rfl
  · split <;> rfl

theorem render_cons (it : Item) (items : List Item) :
    render (it :: items) = it.render ++ render items := by
  simp [render]

theorem decode_cons (it : Item) (items : List Item) :
    decode (it :: items) = it.decode ++ decode items := by
  simp [decode]

/-- The size scan walks over well-formed content, counting the decoded bytes. -/
theorem json_str_size_loop_items (co : JSON_PARSE_CTX) (scan : Bool) (items : List Item)
    (hv : ∀ it ∈ items, it.valid) (f : Nat) (ctx : JSON_PARSE_CTX) (err : List Nat)
    (res : Nat) (r : List Nat) (hrem : rem ctx = render items ++ r) :
    json_str_size_loop co scan (f + items.length) ctx err res =
      json_str_size_loop co scan f (steps (render items) ctx) err
        (res + (decode items).length) := by
  induction items generalizing ctx res with
  | nil => simp [render, decode]
  | cons it items ih =>
    have hv' : ∀ it ∈ items, it.valid := fun x hx => hv x (List.mem_cons_of_mem _ hx)
    have hit : it.valid := hv it (List.mem_cons_self _ _)
    rw [render_cons, List.append_assoc] at hrem
    rw [render_cons, decode_cons, steps_append, List.length_cons, ← Nat.add_assoc,
      List.length_append, ← Nat.add_assoc]
    cases it with
    | plain b =>
      obtain ⟨hb, hq, hs⟩ := hit
      rw [json_str_size_loop_plain co scan _ err res hrem hb hq hs]
      exact ih hv' _ _ (rem_step hrem)
    | esc x =>
      rw [json_str_size_loop_esc co scan _ err res hrem hit]
      exact ih hv' _ _ (@rem_steps _ [92, x] _ hrem)
    | uni h1 h2 h3 h4 =>
      obtain ⟨x1, x2, x3, x4, hne⟩ := hit
      rw [json_str_size_loop_uni co scan _ err res hrem x1 x2 x3 x4 hne]
      exact ih hv' _ _ (@rem_steps _ [92, 117, h1, h2, h3, h4] _ hrem)

theorem json_strcpy_loop_plain (f : Nat) {ctx : JSON_PARSE_CTX} (err dst : List Nat)
    {b : Nat} {r : List Nat} (hrem : rem ctx = b :: r) (hb : 32 ≤ b) (hq : b ≠ 34)
    (hs : b ≠ 92) :
    json_strcpy_loop (f + 1) ctx err dst = json_strcpy_loop f (step b ctx) err (dst ++ [b]) := by
  have h0 : b ≠ 0 := by omega
  rw [json_strcpy_loop, readch_cons hrem h0]
  simp only [h0, hq, hs, if_false]

theorem json_strcpy_loop_esc (f : Nat) {ctx : JSON_PARSE_CTX} (err dst : List Nat)
    {x : Nat} {r : List Nat} (hrem : rem ctx = 92 :: x :: r) (hx : x ∈ simple_escapes) :
    json_strcpy_loop (f + 1) ctx err dst =
      json_strcpy_loop f (steps [92, x] ctx) err (dst ++ [esc_byte x]) := by
  have hx' : x = 34 ∨ x = 92 ∨ x = 47 ∨ x = 98 ∨ x = 102 ∨ x = 110 ∨ x = 114 ∨ x = 116 := by
    simpa [simple_escapes] using hx
  have h0 : x ≠ 0 := by omega
  rw [json_strcpy_loop, readch_cons hrem (by decide)]
  simp only [show (92 : Nat) ≠ 0 by decide, show (92 : Nat) ≠ 34 by decide, if_false, if_true]
  rw [readch_cons (rem_step hrem) h0]
  simp only [steps_cons, steps_nil, esc_byte]
  rcases hx' with h | h | h | h | h | h | h | h <;> subst h <;> simp

theorem json_strcpy_loop_uni (f : Nat) {ctx : JSON_PARSE_CTX} (err dst : List Nat)
    {h1 h2 h3 h4 : Nat} {r : List Nat}
    (hrem : rem ctx = 92 :: 117 :: h1 :: h2 :: h3 :: h4 :: r)
    (x1 : isxdigit h1 = true) (x2 : isxdigit h2 = true) (x3 : isxdigit h3 = true)
    (x4 : isxdigit h4 = true) :
    json_strcpy_loop (f + 1) ctx err dst =
      json_strcpy_loop f (steps [92, 117, h1, h2, h3, h4] ctx) err
        (dst ++ utf8_store (hex4 h1 h2 h3 h4)) := by
  rw [json_strcpy_loop, readch_cons hrem (by decide)]
  simp only [show (92 : Nat) ≠ 0 by decide, show (92 : Nat) ≠ 34 by decide, if_false, if_true]
  rw [readch_cons (rem_step hrem) (by decide)]
  simp only [if_true]
  rw [hex_decode_digits err (rem_step (rem_step hrem)) x1 x2 x3 x4]
  simp only [steps_cons, steps_nil]

/-- The copy walks over well-formed content, storing the decoded bytes. -/
theorem json_strcpy_loop_items (items : List Item) (hv : ∀ it ∈ items, it.valid) (f : Nat)
    (ctx : JSON_PARSE_CTX) (err dst : List Nat) (r : List Nat)
    (hrem : rem ctx = render items ++ r) :
    json_strcpy_loop (f + items.length) ctx err dst =
      json_strcpy_loop f (steps (render items) ctx) err (dst ++ decode items) := by
  induction items generalizing ctx dst with
  | nil => simp [render, decode]
  | cons it items ih =>
    have hv' : ∀ it ∈ items, it.valid := fun x hx => hv x (List.mem_cons_of_mem _ hx)
    have hit : it.valid := hv it (List.mem_cons_self _ _)
    rw [render_cons, List.append_assoc] at hrem
    rw [render_cons, decode_cons, steps_append, List.length_cons, ← Nat.add_assoc,
      ← List.append_assoc]
    cases it with
    | plain b =>
      obtain ⟨hb, hq, hs⟩ := hit
      rw [json_strcpy_loop_plain _ err dst hrem hb hq hs]
      exact ih hv' _ _ (rem_step hrem)
    | esc x =>
      rw [json_strcpy_loop_esc _ err dst hrem hit]
      exact ih hv' _ _ (@rem_steps _ [92, x] _ hrem)
    | uni h1 h2 h3 h4 =>
      obtain ⟨x1, x2, x3, x4, _⟩ := hit
      rw [json_strcpy_loop_uni _ err dst hrem x1 x2 x3 x4]
      exact ih hv' _ _ (@rem_steps _ [92, 117, h1, h2, h3, h4] _ hrem)

theorem json_str_size_loop_quote (co : JSON_PARSE_CTX) (scan : Bool) (fuel : Nat)
    {ctx : JSON_PARSE_CTX} (err : List Nat) (res : Nat) {r : List Nat}
    (hrem : rem ctx = 34 :: r) :
    json_str_size_loop co scan fuel ctx err res =
      (some res, if scan then step 34 ctx else co, err) := by
  cases fuel <;>
  · rw [json_str_size_loop, readch_cons hrem (by decide)]
    simp

theorem json_strcpy_loop_quote (fuel : Nat) {ctx : JSON_PARSE_CTX} (err dst : List Nat)
    {r : List Nat} (hrem : rem ctx = 34 :: r) :
    json_strcpy_loop fuel ctx err dst = some (1, dst ++ [0], step 34 ctx, err) := by
  cases fuel <;>
  · rw [json_strcpy_loop, readch_cons hrem (by decide)]
    simp

theorem render_length_ge (items : List Item) : items.length ≤ (render items).length := by
  induction items with
  | nil => simp [render]
  | cons it items ih =>
    rw [render_cons, List.length_append, List.length_cons]
    cases it <;> simp [Item.render] <;> omega

/-- The size scan of a well-formed literal: it returns the number of decoded bytes, and
moves the caller's context past the closing quote exactly in scan mode. -/
theorem json_str_size_literal {ctx : JSON_PARSE_CTX} (err : List Nat) (scan : Bool)
    {items : List Item} (hv : ∀ it ∈ items, it.valid) {r : List Nat}
    (hrem : rem ctx = 34 :: (render items ++ 34 :: r)) :
    json_str_size ctx err scan =
      (some (decode items).length,
        if scan then steps (34 :: (render items ++ [34])) ctx else ctx, err) := by
  have hlen := rem_length (step 34 ctx)
  rw [rem_step hrem, List.length_append, List.length_cons] at hlen
  have hle := render_length_ge items
  obtain ⟨f, hf⟩ : ∃ f, (step 34 ctx).size - (step 34 ctx).i = f + items.length :=
    ⟨(step 34 ctx).size - (step 34 ctx).i - items.length, by omega⟩
  unfold json_str_size
  rw [readch_cons hrem (by decide)]
  simp only [ne_eq, not_true_eq_false, if_false]
  rw [hf, json_str_size_loop_items _ scan items hv f _ err 0 _ (rem_step hrem)]
  have hrem2 : rem (steps (render items) (step 34 ctx)) = 34 :: r :=
    rem_steps (rem_step hrem)
  rw [json_str_size_loop_quote _ _ _ _ _ hrem2]
  simp [steps_append]

/-- The copy of a well-formed literal: it succeeds, stores the decoded bytes and a
terminating zero, and stops past the closing quote. -/
theorem json_strcpy_literal {ctx : JSON_PARSE_CTX} (err : List Nat)
    {items : List Item} (hv : ∀ it ∈ items, it.valid) {r : List Nat}
    (hrem : rem ctx = 34 :: (render items ++ 34 :: r)) :
    json_strcpy ctx err =
      some (1, decode items ++ [0], steps (34 :: (render items ++ [34])) ctx, err) := by
  have hlen := rem_length (step 34 ctx)
  rw [rem_step hrem, List.length_append, List.length_cons] at hlen
  have hle := render_length_ge items
  obtain ⟨f, hf⟩ : ∃ f, (step 34 ctx).size - (step 34 ctx).i = f + items.length :=
    ⟨(step 34 ctx).size - (step 34 ctx).i - items.length, by omega⟩
  unfold json_strcpy
  rw [readch_cons hrem (by decide)]
  simp only []
  rw [hf, json_strcpy_loop_items items hv f _ err [] _ (rem_step hrem)]
  have hrem2 : rem (steps (render items) (step 34 ctx)) = 34 :: r :=
    rem_steps (rem_step hrem)
  rw [json_strcpy_loop_quote _ _ _ hrem2]
  simp [steps_append]

/-- The string rule on a well-formed literal. -/
theorem string_literal {ctx : JSON_PARSE_CTX} (err : List Nat) (scan : Bool)
    {items : List Item} (hv : ∀ it ∈ items, it.valid) {r : List Nat}
    (hrem : rem ctx = 34 :: (render items ++ 34 :: r)) :
    string ctx err scan =
      some (if scan then Ptr.json_ok else Ptr.node (JSON_VALUE.string (decode items ++ [0])),
        steps (34 :: (render items ++ [34])) ctx, err) := by
  unfold string
  rw [json_str_size_literal err scan hv hrem]
  cases scan
  · simp [json_strcpy_literal err hv hrem]
  · simp

/-! ## Value dispatch and entry point: unfolding lemmas -/

theorem value_succ (f : Nat) (scan : Bool) (ctx : JSON_PARSE_CTX) (err : List Nat) :
    value (f + 1) scan ctx err = value_step (fun s c e => value f s c e) f scan ctx err := rfl

theorem value_of_string {f : Nat} {scan : Bool} {ctx : JSON_PARSE_CTX} {err : List Nat}
    (hp : peekch (space ctx) = 34) {p : Ptr} {c1 : JSON_PARSE_CTX} {e1 : List Nat}
    (h : string (space ctx) err scan = some (p, c1, e1)) :
    value (f + 1) scan ctx err = some (p, space c1, e1) := by
  rw [value_succ]
  unfold value_step
  simp only [hp, h, show (34 : Nat) ≠ 123 by decide, show (34 : Nat) ≠ 91 by decide,
    show (34 : Nat) ≠ 45 by decide, if_false, if_true]

theorem value_of_number {f : Nat} {scan : Bool} {ctx : JSON_PARSE_CTX} {err : List Nat}
    (hp : peekch (space ctx) = 45 ∨ isdigit (peekch (space ctx)) = true) :
    value (f + 1) scan ctx err =
      some ((number (space ctx) err scan).1, space (number (space ctx) err scan).2.1,
        (number (space ctx) err scan).2.2) := by
  rw [value_succ]
  unfold value_step
  have h123 : peekch (space ctx) ≠ 123 := by
    rcases hp with h | h
    · omega
    · intro h'; rw [h'] at h; simp [isdigit] at h
  have h91 : peekch (space ctx) ≠ 91 := by
    rcases hp with h | h
    · omega
    · intro h'; rw [h'] at h; simp [isdigit] at h
  have h34 : peekch (space ctx) ≠ 34 := by
    rcases hp with h | h
    · omega
    · intro h'; rw [h'] at h; simp [isdigit] at h
  simp only [h123, h91, h34, if_false]
  rcases hp with h | h
  · simp only [h, if_true]
  · simp only [h, if_true, ite_self]

theorem value_of_word {f : Nat} {scan : Bool} {ctx : JSON_PARSE_CTX} {err : List Nat}
    (h123 : peekch (space ctx) ≠ 123) (h91 : peekch (space ctx) ≠ 91)
    (h45 : peekch (space ctx) ≠ 45) (h34 : peekch (space ctx) ≠ 34)
    (hd : isdigit (peekch (space ctx)) = false) :
    value (f + 1) scan ctx err =
      some ((word (space ctx) err scan).1, space (word (space ctx) err scan).2.1,
        (word (space ctx) err scan).2.2) := by
  rw [value_succ]
  unfold value_step
  simp only [h123, h91, h45, h34, hd, if_false, Bool.false_eq_true]

theorem json_parse_of_null {f : Nat} {data : List Nat} {size : Nat} {c : JSON_PARSE_CTX}
    {e : List Nat} (h : value f false (ctx_init data size) [] = some (Ptr.NULL, c, e)) :
    json_parse f data size = some (Ptr.NULL, e) := by
  unfold json_parse
  unfold ctx_init at h
  rw [h]

theorem json_parse_of_node {f : Nat} {data : List Nat} {size : Nat} {c : JSON_PARSE_CTX}
    {e : List Nat} {v : JSON_VALUE}
    (h : value f false (ctx_init data size) [] = some (Ptr.node v, c, e))
    (hp : peekch c = 0) :
    json_parse f data size = some (Ptr.node v, e) := by
  unfold json_parse
  unfold ctx_init at h
  rw [h]
  simp [hp]

theorem rem_ctx_init (data : List Nat) : rem (ctx_init data data.length) = data := by
  simp [rem, ctx_init]

theorem mem_ctx_init (data : List Nat) (size : Nat) : mem (ctx_init data size) = data := by
  simp [mem, ctx_init]

/-- A buffer that holds exactly a well-formed string literal parses to the String of
the decoded bytes, followed by the terminating zero. -/
theorem json_parse_string_literal (f : Nat) {items : List Item}
    (hv : ∀ it ∈ items, it.valid) :
    json_parse (f + 1) (34 :: (render items ++ [34])) (render items).length.succ.succ =
      some (Ptr.node (JSON_VALUE.string (decode items ++ [0])), []) := by
  have hlen : (34 :: (render items ++ [34])).length = (render items).length.succ.succ := by
    simp
  have hrem : rem (ctx_init (34 :: (render items ++ [34])) (render items).length.succ.succ)
      = 34 :: (render items ++ 34 :: []) := by
    rw [← hlen, rem_ctx_init]
  have hsp : space (ctx_init (34 :: (render items ++ [34])) (render items).length.succ.succ)
      = ctx_init (34 :: (render items ++ [34])) (render items).length.succ.succ :=
    space_id (by rw [peekch_cons hrem]; decide)
  have hstr := string_literal [] false hv hrem
  have hend : rem (steps (34 :: (render items ++ [34]))
      (ctx_init (34 :: (render items ++ [34])) (render items).length.succ.succ)) = [] :=
    rem_steps (by rw [hrem]; simp)
  have hv1 := @value_of_string f false
    (ctx_init (34 :: (render items ++ [34])) (render items).length.succ.succ) []
    (by rw [hsp, peekch_cons hrem]) _ _ _ (by rw [hsp]; exact hstr)
  simp only [Bool.false_eq_true, if_false] at hv1
  rw [space_id (by rw [peekch_nil hend]; decide)] at hv1
  exact json_parse_of_node hv1 (peekch_nil hend)

/-! ## Escapes (C5, C6) -/

theorem hexval_lt {c : Nat} (h : isxdigit c = true) : hexval c < 16 := by
  unfold hexval
  rcases isxdigit_cases h with h1 | h1 | h1
  · rw [if_pos h1.2]; omega
  · rw [if_neg (by omega), if_pos h1.2]; omega
  · rw [if_neg (by omega), if_neg (by omega)]; omega

theorem hex4_lt {h1 h2 h3 h4 : Nat} (x1 : isxdigit h1 = true) (x2 : isxdigit h2 = true)
    (x3 : isxdigit h3 = true) (x4 : isxdigit h4 = true) : hex4 h1 h2 h3 h4 < 65536 := by
  have a1 := hexval_lt x1
  have a2 := hexval_lt x2
  have a3 := hexval_lt x3
  have a4 := hexval_lt x4
  unfold hex4
  omega

theorem or_128 : ∀ y < 64, ((y ||| 0x80) % 256 = 0x80 + y) := by decide

theorem or_192 : ∀ x < 32, (((x &&& 0xff) ||| 0xC0) % 256 = 0xC0 + x) := by decide

theorem or_224 : ∀ x < 16, (((x &&& 0xff) ||| 0xe0) % 256 = 0xE0 + x) := by decide

theorem and_63 (x : Nat) : x &&& 0x3f = x % 64 :=
  Nat.and_pow_two_sub_one_eq_mod x 6

/-- The bytes stored for a `u` escape are the UTF-8 encoding of its value. -/
theorem utf8_store_eq {cp : Nat} (h : cp < 65536) : utf8_store cp = utf8_encode cp := by
  unfold utf8_store utf8_encode
  by_cases h1 : cp < 0x80
  · rw [if_pos h1, if_pos h1, Nat.mod_eq_of_lt (by omega)]
  · rw [if_neg h1, if_neg h1]
    by_cases h2 : cp < 0x800
    · rw [if_pos h2, if_pos h2, and_63, Nat.shiftRight_eq_div_pow,
        or_192 _ (by norm_num; omega), or_128 _ (Nat.mod_lt _ (by decide))]
    · rw [if_neg h2, if_neg h2, and_63, and_63, Nat.shiftRight_eq_div_pow,
        Nat.shiftRight_eq_div_pow, or_224 _ (by norm_num; omega),
        or_128 _ (Nat.mod_lt _ (by decide)), or_128 _ (Nat.mod_lt _ (by decide))]

theorem json_str_size_init_literal (scan : Bool) {items : List Item}
    (hv : ∀ it ∈ items, it.valid) :
    (json_str_size (ctx_init (34 :: (render items ++ [34])) (render items).length.succ.succ)
      [] scan).1 = some (decode items).length := by
  have hlen : (34 :: (render items ++ [34])).length = (render items).length.succ.succ := by
    simp
  have hrem : rem (ctx_init (34 :: (render items ++ [34])) (render items).length.succ.succ)
      = 34 :: (render items ++ 34 :: []) := by
    rw [← hlen, rem_ctx_init]
  rw [json_str_size_literal [] scan hv hrem]

/-- C5 (amended): for four hexadecimal digits (either case) of non-zero value `cp`, the
literal made of the escape alone parses to the String whose bytes are the UTF-8
encoding of `cp` taken on its own (1 byte below 0x80, 2 bytes below 0x800, 3 bytes
otherwise, surrogates included), and the size scan counts that many bytes. -/
theorem unicode_escape_decodes (h1 h2 h3 h4 : Nat) (x1 : isxdigit h1 = true)
    (x2 : isxdigit h2 = true) (x3 : isxdigit h3 = true) (x4 : isxdigit h4 = true)
    (hne : hex4 h1 h2 h3 h4 ≠ 0) (f : Nat) (scan : Bool) :
    json_parse (f + 1) [34, 92, 117, h1, h2, h3, h4, 34] 8 =
        some (Ptr.node (JSON_VALUE.string (utf8_encode (hex4 h1 h2 h3 h4) ++ [0])), [])
      ∧ (json_str_size (ctx_init [34, 92, 117, h1, h2, h3, h4, 34] 8) [] scan).1 =
        some (utf8_encode (hex4 h1 h2 h3 h4)).length
      ∧ (utf8_encode (hex4 h1 h2 h3 h4)).length =
        (if hex4 h1 h2 h3 h4 < 0x80 then 1 else if hex4 h1 h2 h3 h4 < 0x800 then 2 else 3)
      ∧ utf8_encode 0x41 = [0x41] ∧ utf8_encode 0xe9 = [0xC3, 0xA9]
      ∧ utf8_encode 0xd800 = [0xED, 0xA0, 0x80] := by
  have hv : ∀ it ∈ [Item.uni h1 h2 h3 h4], it.valid := by
    intro it hit
    rw [List.mem_singleton] at hit
    subst hit
    exact ⟨x1, x2, x3, x4, hne⟩
  have e := utf8_store_eq (hex4_lt x1 x2 x3 x4)
  refine ⟨?_, ?_, ?_, by decide, by decide, by decide⟩
  · have := json_parse_string_literal f hv
    simpa [render, decode, Item.render, Item.decode, e] using this
  · have := json_str_size_init_literal scan hv
    simpa [render, decode, Item.render, Item.decode, e] using this
  · rw [← e, utf8_store_length]

/-- Witness for `unicode_escape_decodes`: the escape `u00e9` gives the bytes C3 A9. -/
theorem unicode_escape_decodes_witness :
    json_parse 1 [34, 92, 117, 48, 48, 101, 57, 34] 8 =
        some (Ptr.node (JSON_VALUE.string (utf8_encode (hex4 48 48 101 57) ++ [0])), [])
      ∧ (json_str_size (ctx_init [34, 92, 117, 48, 48, 101, 57, 34] 8) [] true).1 =
        some (utf8_encode (hex4 48 48 101 57)).length
      ∧ (utf8_encode (hex4 48 48 101 57)).length =
        (if hex4 48 48 101 57 < 0x80 then 1 else if hex4 48 48 101 57 < 0x800 then 2 else 3)
      ∧ utf8_encode 0x41 = [0x41] ∧ utf8_encode 0xe9 = [0xC3, 0xA9]
      ∧ utf8_encode 0xd800 = [0xED, 0xA0, 0x80] :=
  unicode_escape_decodes 48 48 101 57 (by decide) (by decide) (by decide) (by decide)
    (by decide) 0 true

/-- C5, as stated, fails for the value zero: the literal holding the escape `u0000` is
rejected. -/
theorem unicode_escape_zero_rejected :
    json_parse 1 (bytes "\"\\u0000\"") 8 =
      some (Ptr.NULL, bytes "0:7: NULL character in string") := by
  rfl

theorem render_append (as bs : List Item) : render (as ++ bs) = render as ++ render bs := by
  simp [render]

theorem decode_append (as bs : List Item) : decode (as ++ bs) = decode as ++ decode bs := by
  simp [decode]

/-- C6: each of the eight single-character escapes decodes to exactly one byte, the one
of the table, wherever it stands in a well-formed string literal; the size scan counts
one byte for it; the literal holding the escape `n` alone parses to the String of a
single newline byte (followed by the terminating zero of the block). -/
theorem single_escape_decodes (x b : Nat)
    (hx : (x, b) ∈ [(34, 0x22), (92, 0x5C), (47, 0x2F), (98, 0x08), (102, 0x0C), (110, 0x0A),
      (114, 0x0D), (116, 0x09)])
    (pre post : List Item) (hpre : ∀ it ∈ pre, it.valid) (hpost : ∀ it ∈ post, it.valid)
    (f : Nat) (scan : Bool) :
    json_parse (f + 1) (34 :: (render pre ++ 92 :: x :: render post ++ [34]))
        (34 :: (render pre ++ 92 :: x :: render post ++ [34])).length =
        some (Ptr.node (JSON_VALUE.string (decode pre ++ b :: decode post ++ [0])), [])
      ∧ (json_str_size (ctx_init (34 :: (render pre ++ 92 :: x :: render post ++ [34]))
          (34 :: (render pre ++ 92 :: x :: render post ++ [34])).length) [] scan).1 =
        some ((decode pre).length + 1 + (decode post).length)
      ∧ json_parse (f + 1) [34, 92, 110, 34] 4 =
        some (Ptr.node (JSON_VALUE.string [10, 0]), []) := by
  have hxb : x ∈ simple_escapes ∧ esc_byte x = b := by
    simp only [List.mem_cons, Prod.mk.injEq, List.mem_singleton, List.not_mem_nil,
      or_false] at hx
    rcases hx with ⟨h1, h2⟩ | ⟨h1, h2⟩ | ⟨h1, h2⟩ | ⟨h1, h2⟩ | ⟨h1, h2⟩ | ⟨h1, h2⟩ |
      ⟨h1, h2⟩ | ⟨h1, h2⟩ <;> subst h1 <;> subst h2 <;> decide
  have hv : ∀ it ∈ pre ++ Item.esc x :: post, it.valid := by
    intro it hit
    rw [List.mem_append, List.mem_cons] at hit
    rcases hit with h | h | h
    · exact hpre it h
    · subst h; exact hxb.1
    · exact hpost it h
  have hr : render (pre ++ Item.esc x :: post) = render pre ++ 92 :: x :: render post := by
    rw [render_append, render_cons]; rfl
  have hd : decode (pre ++ Item.esc x :: post) = decode pre ++ b :: decode post := by
    rw [decode_append, decode_cons, ← hxb.2]; rfl
  have hl : (34 :: (render pre ++ 92 :: x :: render post ++ [34])).length =
      (render (pre ++ Item.esc x :: post)).length.succ.succ := by
    rw [hr]; simp; omega
  refine ⟨?_, ?_, ?_⟩
  · have := json_parse_string_literal f hv
    rw [hr, hd] at this
    rw [hl, hr]
    simpa using this
  · have := json_str_size_init_literal scan hv
    rw [hr, hd] at this
    rw [hl, hr]
    simpa [Nat.add_assoc, Nat.add_comm 1] using this
  · have := @json_parse_string_literal f [Item.esc 110] (by
      intro it hit
      rw [List.mem_singleton] at hit
      subst hit
      decide)
    simpa [render, decode, Item.render, Item.decode, esc_byte] using this

/-- Witness for `single_escape_decodes`: the escape `t` between `a` and `b`. -/
theorem single_escape_decodes_witness :
    json_parse 1 (34 :: (render [Item.plain 97] ++ 92 :: 116 :: render [Item.plain 98] ++ [34]))
        (34 :: (render [Item.plain 97] ++ 92 :: 116 :: render [Item.plain 98] ++ [34])).length =
        some (Ptr.node (JSON_VALUE.string
          (decode [Item.plain 97] ++ 9 :: decode [Item.plain 98] ++ [0])), [])
      ∧ (json_str_size (ctx_init
          (34 :: (render [Item.plain 97] ++ 92 :: 116 :: render [Item.plain 98] ++ [34]))
          (34 :: (render [Item.plain 97] ++ 92 :: 116 :: render [Item.plain 98] ++ [34])).length)
          [] true).1 =
        some ((decode [Item.plain 97]).length + 1 + (decode [Item.plain 98]).length)
      ∧ json_parse 1 [34, 92, 110, 34] 4 =
        some (Ptr.node (JSON_VALUE.string [10, 0]), []) :=
  single_escape_decodes 116 9 (by decide) [Item.plain 97] [Item.plain 98]
    (by intro it hit; rw [List.mem_singleton] at hit; subst hit; decide)
    (by intro it hit; rw [List.mem_singleton] at hit; subst hit; decide) 0 true

/-! ## Size scans that fail -/

theorem infix_diag (l k : Nat) (msg tail : List Nat) : msg <:+: diag l k (msg ++ tail) :=
  ⟨fmt_d l ++ 58 :: (fmt_d k ++ [58, 32]), tail, by simp [diag]⟩

theorem suffix_diag (l k : Nat) (msg : List Nat) : msg <:+ diag l k msg :=
  ⟨fmt_d l ++ 58 :: (fmt_d k ++ [58, 32]), by simp [diag]⟩

theorem json_str_size_loop_bad_escape (co : JSON_PARSE_CTX) (scan : Bool) (f : Nat)
    {ctx : JSON_PARSE_CTX} (err : List Nat) (res : Nat) {c : Nat} {r : List Nat}
    (hrem : rem ctx = 92 :: c :: r) (hc : 32 ≤ c)
    (hne : c ∉ [34, 92, 47, 98, 102, 110, 114, 116, 117]) :
    json_str_size_loop co scan (f + 1) ctx err res =
      (none, co, diag (steps [92, c] ctx).line (steps [92, c] ctx).col (illegal_escape c)) := by
  simp only [List.mem_cons, List.mem_singleton, List.not_mem_nil, or_false, not_or] at hne
  have h0 : c ≠ 0 := by omega
  have h32 : ¬ c < 32 := by omega
  rw [json_str_size_loop, readch_cons hrem (by decide)]
  simp only [show (92 : Nat) ≠ 10 by decide, show ¬ (92 : Nat) < 32 by decide,
    show (92 : Nat) ≠ 34 by decide, if_false, if_true]
  rw [readch_cons (rem_step hrem) h0]
  simp only [h32, hne, if_false, steps_cons, steps_nil, or_self]

theorem json_str_size_loop_control (co : JSON_PARSE_CTX) (scan : Bool) (fuel : Nat)
    {ctx : JSON_PARSE_CTX} (err : List Nat) (res : Nat) {c : Nat} {r : List Nat}
    (hrem : rem ctx = c :: r) (hc : c < 32) :
    json_str_size_loop co scan fuel ctx err res =
      (none, co,
        if c = 10 then diag co.line co.col (bytes "Unterminated string constant")
        else diag (readch ctx).2.line (readch ctx).2.col (bytes "Illegal string character")) := by
  have hr : (readch ctx).1 = c := by
    by_cases h0 : c = 0
    · rw [readch_zero (by rw [peekch_cons hrem, h0]), h0]
    · rw [readch_cons hrem h0]
  cases fuel <;>
  · rw [json_str_size_loop]
    simp only [hr, hc, if_true]
    split <;> rfl

/-- The string rule, the value rule and the entry point when the size scan fails. -/
theorem string_of_size_fail {ctx : JSON_PARSE_CTX} {err : List Nat} {scan : Bool}
    {c1 : JSON_PARSE_CTX} {e1 : List Nat} (h : json_str_size ctx err scan = (none, c1, e1)) :
    string ctx err scan = some (Ptr.NULL, c1, e1) := by
  unfold string
  rw [h]

theorem json_str_size_fail_ctx {ctx : JSON_PARSE_CTX} {err : List Nat} {scan : Bool}
    {items : List Item} (hv : ∀ it ∈ items, it.valid) {r : List Nat}
    (hrem : rem ctx = 34 :: (render items ++ r)) (hr : r ≠ []) :
    json_str_size ctx err scan =
      json_str_size_loop ctx scan ((step 34 ctx).size - (step 34 ctx).i - items.length)
        (steps (render items) (step 34 ctx)) err (decode items).length
      ∧ 0 < (step 34 ctx).size - (step 34 ctx).i - items.length := by
  have hlen := rem_length (step 34 ctx)
  rw [rem_step hrem, List.length_append] at hlen
  have hle := render_length_ge items
  have hrl : 0 < r.length := List.length_pos.mpr hr
  obtain ⟨f, hf⟩ : ∃ f, (step 34 ctx).size - (step 34 ctx).i = f + items.length :=
    ⟨(step 34 ctx).size - (step 34 ctx).i - items.length, by omega⟩
  constructor
  · unfold json_str_size
    rw [readch_cons hrem (by decide)]
    simp only [ne_eq, not_true_eq_false, if_false]
    rw [hf, json_str_size_loop_items _ scan items hv f _ err 0 _ (rem_step hrem)]
    simp
  · omega

/-- A literal at the start of the buffer, after optional whitespace, whose size scan
fails: the parse fails and the diagnostic of the scan is what `error_str` holds. -/
theorem json_parse_of_size_fail (f : Nat) {ws tail : List Nat} {size : Nat}
    (hsz : size = (ws ++ 34 :: tail).length)
    (hws : ∀ b ∈ ws, isspace b = true) {c1 : JSON_PARSE_CTX} {e1 : List Nat}
    (h : json_str_size (steps ws (ctx_init (ws ++ 34 :: tail) size)) [] false = (none, c1, e1)) :
    json_parse (f + 1) (ws ++ 34 :: tail) size = some (Ptr.NULL, e1) := by
  have hrem : rem (ctx_init (ws ++ 34 :: tail) size) = ws ++ 34 :: tail := by
    rw [hsz, rem_ctx_init]
  have hsp : space (ctx_init (ws ++ 34 :: tail) size) =
      steps ws (ctx_init (ws ++ 34 :: tail) size) := space_eq hrem hws (by simp [isspace])
  have hp : peekch (space (ctx_init (ws ++ 34 :: tail) size)) = 34 := by
    rw [hsp]; exact peekch_cons (rem_steps hrem)
  exact json_parse_of_null
    (value_of_string hp (by rw [hsp]; exact string_of_size_fail h))

/-! ## Numbers -/

theorem digits_loop_eq (fuel : Nat) (ctx : JSON_PARSE_CTX) (n : Nat) (ds r : List Nat)
    (h : rem ctx = ds ++ r) (hds : ∀ b ∈ ds, isdigit b = true)
    (hr : isdigit (r.headD 0) = false) (hf : ds.length ≤ fuel) :
    digits_loop fuel ctx n = (steps ds ctx, n + ds.length) := by
  induction ds generalizing fuel ctx n with
  | nil =>
    simp only [List.nil_append] at h
    have hp : peekch ctx = r.headD 0 := by rw [peekch_rem, h]
    cases fuel <;>
    · rw [digits_loop]
      simp only [hp, hr, Bool.false_eq_true, if_false, steps_nil, List.length_nil, Nat.add_zero]
  | cons b ds ih =>
    have hb : isdigit b = true := hds b (List.mem_cons_self _ _)
    have hp : peekch ctx = b := peekch_cons h
    cases fuel with
    | zero => simp at hf
    | succ f =>
      rw [digits_loop]
      simp only [hp, hb, if_true]
      rw [readch_cons h (isdigit_ne_zero hb)]
      simp only [steps_cons, List.length_cons]
      rw [ih f _ (n + 1) (rem_step h) (fun x hx => hds x (List.mem_cons_of_mem _ hx))
        (by simpa using hf)]
      congr 1
      omega

theorem digits_eq {ctx : JSON_PARSE_CTX} {ds r : List Nat}
    (h : rem ctx = ds ++ r) (hds : ∀ b ∈ ds, isdigit b = true)
    (hr : isdigit (r.headD 0) = false) : digits ctx = (steps ds ctx, ds.length) := by
  unfold digits
  have := rem_length ctx
  rw [h, List.length_append] at this
  rw [digits_loop_eq _ _ 0 ds r h hds hr (by omega)]
  simp

theorem headD_dropWhile_isdigit (l : List Nat) :
    isdigit ((l.dropWhile isdigit).headD 0) = false := by
  induction l with
  | nil => rfl
  | cons a l ih =>
    rw [List.dropWhile_cons]
    split
    · exact ih
    · rename_i h
      simpa using h

/-- A digit loop consumes exactly the longest run of digits under the cursor. -/
theorem digits_takeWhile (ctx : JSON_PARSE_CTX) :
    digits ctx = (steps ((rem ctx).takeWhile isdigit) ctx, ((rem ctx).takeWhile isdigit).length) :=
  digits_eq (List.takeWhile_append_dropWhile isdigit (rem ctx)).symm
    (fun _ hb => (List.mem_takeWhile_imp hb)) (headD_dropWhile_isdigit _)

theorem rem_of_peekch {ctx : JSON_PARSE_CTX} {c : Nat} (h : peekch ctx = c) (hc : c ≠ 0) :
    ∃ r, rem ctx = c :: r := by
  rw [peekch_rem] at h
  cases hr : rem ctx with
  | nil => rw [hr] at h; exact absurd h.symm hc
  | cons a r => rw [hr] at h; exact ⟨r, by simpa using h⟩

theorem number_finish_ctx (s : List Nat) (ctx : JSON_PARSE_CTX) (err : List Nat) (scan : Bool) :
    (number_finish s ctx err scan).1 ≠ Ptr.NULL ∧ (number_finish s ctx err scan).2 = (ctx, err) := by
  unfold number_finish
  cases scan <;> simp

theorem FracPart.head_dot {fp : List Nat} (h : FracPart fp) (hne : fp ≠ []) : fp.headD 0 = 46 := by
  rcases h with h | ⟨ds, _, _, h⟩
  · exact absurd h hne
  · rw [h]; rfl

theorem ExpPart.head_e {ep : List Nat} (h : ExpPart ep) (hne : ep ≠ []) :
    ep.headD 0 = 101 ∨ ep.headD 0 = 69 := by
  rcases h with h | ⟨e, sg, ds, he, _, _, _, h⟩
  · exact absurd h hne
  · rw [h]; exact he

theorem headD_append (a b : List Nat) :
    (a ++ b).headD 0 = if a = [] then b.headD 0 else a.headD 0 := by
  cases a <;> simp

theorem headD_digits {ds : List Nat} (hne : ds ≠ []) (hds : ∀ b ∈ ds, isdigit b = true) :
    isdigit (ds.headD 0) = true := by
  cases ds with
  | nil => exact absurd rfl hne
  | cons a l => exact hds a (List.mem_cons_self _ _)

/-- The exponent phase accepts an exponent of the grammar. -/
theorem number_exp_complete (s : List Nat) {ctx : JSON_PARSE_CTX} (err : List Nat) (scan : Bool)
    {ep r : List Nat} (hrem : rem ctx = ep ++ r) (hep : ExpPart ep) (hr : numstop (r.headD 0)) :
    number_exp s ctx err scan = number_finish s (steps ep ctx) err scan := by
  unfold number_exp
  rcases hep with h | ⟨e, sg, ds, he, hsg, hne, hds, h⟩
  · subst h
    simp only [List.nil_append] at hrem
    have hp : peekch ctx = r.headD 0 := by rw [peekch_rem, hrem]
    simp only [hp, hr.2.2.1, hr.2.2.2, or_self, if_false, steps_nil]
  · subst h
    replace hrem : rem ctx = e :: (sg ++ (ds ++ r)) := by rw [hrem]; simp
    have hp : peekch ctx = e := peekch_cons hrem
    have he0 : e ≠ 0 := by omega
    simp only [hp, he, if_true]
    rw [readch_cons hrem he0]
    have hrem1 : rem (step e ctx) = sg ++ (ds ++ r) := rem_step hrem
    have hdd := headD_digits hne hds
    have key : ∀ c3 : JSON_PARSE_CTX, c3 = steps sg (step e ctx) →
        digits c3 = (steps ds c3, ds.length) := by
      intro c3 hc3
      subst hc3
      exact digits_eq (rem_steps hrem1) hds hr.1
    have hsel : (if peekch (step e ctx) = 43 ∨ peekch (step e ctx) = 45
        then (readch (step e ctx)).2 else step e ctx) = steps sg (step e ctx) := by
      rcases hsg with h | h | h
      · subst h
        simp only [List.nil_append] at hrem1
        have hp1 : peekch (step e ctx) = (ds ++ r).headD 0 := by rw [peekch_rem, hrem1]
        rw [headD_append, if_neg hne] at hp1
        have h43 : ¬ (peekch (step e ctx) = 43 ∨ peekch (step e ctx) = 45) := by
          rw [hp1]
          rintro (h | h) <;> rw [h] at hdd <;> simp [isdigit] at hdd
        rw [if_neg h43]; rfl
      · subst h
        rw [if_pos (Or.inl (peekch_cons hrem1)), readch_cons hrem1 (by decide)]; rfl
      · subst h
        rw [if_pos (Or.inr (peekch_cons hrem1)), readch_cons hrem1 (by decide)]; rfl
    simp only [hsel]
    rw [key _ rfl]
    have hl : ds.length ≠ 0 := by
      intro h0; exact hne (List.length_eq_zero.mp h0)
    simp only [hl, if_false]
    rw [show e :: (sg ++ ds) = [e] ++ (sg ++ ds) by rfl, steps_append, steps_append]
    rfl

/-- The fraction phase accepts a fraction and an exponent of the grammar. -/
theorem number_frac_complete (s : List Nat) {ctx : JSON_PARSE_CTX} (err : List Nat)
    (scan : Bool) {fp ep r : List Nat} (hrem : rem ctx = fp ++ (ep ++ r)) (hfp : FracPart fp)
    (hep : ExpPart ep) (hr : numstop (r.headD 0)) :
    number_frac s ctx err scan = number_finish s (steps (fp ++ ep) ctx) err scan := by
  have hhead : isdigit ((ep ++ r).headD 0) = false ∧ (ep ++ r).headD 0 ≠ 46 := by
    rw [headD_append]
    by_cases hne : ep = []
    · rw [if_pos hne]; exact ⟨hr.1, hr.2.1⟩
    · rw [if_neg hne]
      rcases hep.head_e hne with h | h <;> rw [h] <;> exact ⟨by decide, by decide⟩
  unfold number_frac
  rcases hfp with h | ⟨ds, hne, hds, h⟩
  · subst h
    simp only [List.nil_append] at hrem ⊢
    have hp : peekch ctx = (ep ++ r).headD 0 := by rw [peekch_rem, hrem]
    simp only [hp, hhead.2, if_false]
    exact number_exp_complete s err scan hrem hep hr
  · subst h
    replace hrem : rem ctx = 46 :: (ds ++ (ep ++ r)) := by rw [hrem]; simp
    have hp : peekch ctx = 46 := peekch_cons hrem
    simp only [hp, if_true]
    rw [readch_cons hrem (by decide)]
    have hrem1 : rem (step 46 ctx) = ds ++ (ep ++ r) := rem_step hrem
    rw [digits_eq hrem1 hds hhead.1]
    have hl : ds.length ≠ 0 := by
      intro h0; exact hne (List.length_eq_zero.mp h0)
    simp only [hl, if_false]
    rw [number_exp_complete s err scan (rem_steps hrem1) hep hr]
    rw [show (46 :: ds) ++ ep = [46] ++ (ds ++ ep) by rfl, steps_append, steps_append]
    rfl

/-- The number rule accepts every text of the grammar that is followed by a byte which
cannot continue a number (or by the end of the buffer), and consumes exactly that text. -/
theorem number_complete {ctx : JSON_PARSE_CTX} (err : List Nat) (scan : Bool)
    {N r : List Nat} (hrem : rem ctx = N ++ r) (hN : NumberText N) (hr : numstop (r.headD 0)) :
    number ctx err scan = number_finish (mem ctx) (steps N ctx) err scan := by
  obtain ⟨sg, ip, fp, ep, hsg, hip, hfp, hep, hN⟩ := hN
  subst hN
  have hiphead : isdigit (ip.headD 0) = true ∧ ip ≠ [] := by
    rcases hip with h | ⟨h1, h2, _⟩
    · subst h; exact ⟨by decide, by simp⟩
    · exact ⟨headD_digits h1 h2, h1⟩
  have hnext : isdigit ((fp ++ (ep ++ r)).headD 0) = false := by
    rw [headD_append]
    by_cases hne : fp = []
    · rw [if_pos hne, headD_append]
      by_cases hne2 : ep = []
      · rw [if_pos hne2]; exact hr.1
      · rw [if_neg hne2]
        rcases hep.head_e hne2 with h | h <;> rw [h] <;> decide
    · rw [if_neg hne, hfp.head_dot hne]; decide
  have hrem1 : rem (steps sg ctx) = ip ++ (fp ++ (ep ++ r)) := by
    apply rem_steps
    rw [hrem]; simp only [List.append_assoc]
  have hsel : (if peekch ctx = 45 then (readch ctx).2 else ctx) = steps sg ctx := by
    rcases hsg with h | h
    · subst h
      simp only [steps_nil] at hrem1
      have hp : peekch ctx = ip.headD 0 := by
        rw [peekch_rem, hrem1, headD_append, if_neg hiphead.2]
      have : peekch ctx ≠ 45 := by
        intro h; rw [hp] at h; rw [h] at hiphead; simp [isdigit] at hiphead
      rw [if_neg this]; rfl
    · subst h
      have hrem' : rem ctx = 45 :: (ip ++ (fp ++ (ep ++ r))) := by
        rw [hrem]; simp
      rw [if_pos (peekch_cons hrem'), readch_cons hrem' (by decide)]; rfl
  unfold number
  simp only [hsel]
  have hfin : steps (sg ++ (ip ++ (fp ++ ep))) ctx = steps (fp ++ ep) (steps ip (steps sg ctx)) := by
    rw [steps_append, steps_append]
  rw [hfin]
  rcases hip with h | ⟨h1, h2, h3⟩
  · subst h
    have hp : peekch (steps sg ctx) = 48 := peekch_cons hrem1
    simp only [hp, if_true]
    rw [readch_cons hrem1 (by decide)]
    have hrem2 : rem (step 48 (steps sg ctx)) = fp ++ (ep ++ r) := rem_step hrem1
    have hp2 : peekch (step 48 (steps sg ctx)) = (fp ++ (ep ++ r)).headD 0 := by
      rw [peekch_rem, hrem2]
    simp only [hp2, hnext, Bool.false_eq_true, if_false]
    exact number_frac_complete _ err scan hrem2 hfp hep hr
  · have hp : peekch (steps sg ctx) = ip.headD 0 := by
      rw [peekch_rem, hrem1, headD_append, if_neg h1]
    simp only [hp, h3, if_false]
    rw [digits_eq hrem1 h2 hnext]
    have hl : ip.length ≠ 0 := by
      intro h0; exact h1 (List.length_eq_zero.mp h0)
    simp only [hl, if_false]
    exact number_frac_complete _ err scan (rem_steps hrem1) hfp hep hr

theorem sign_phase {ctx : JSON_PARSE_CTX} {sg r : List Nat} (hrem : rem ctx = sg ++ r)
    (hsg : sg = [] ∨ sg = [45]) (hr : r.headD 0 ≠ 45) :
    (if peekch ctx = 45 then (readch ctx).2 else ctx) = steps sg ctx := by
  rcases hsg with h | h
  · subst h
    simp only [List.nil_append] at hrem
    have hp : peekch ctx = r.headD 0 := by rw [peekch_rem, hrem]
    rw [if_neg (by rw [hp]; exact hr)]; rfl
  · subst h
    have hrem' : rem ctx = 45 :: r := by rw [hrem]; rfl
    rw [if_pos (peekch_cons hrem'), readch_cons hrem' (by decide)]; rfl

/-- The sign and integer phases of `number` on a text of the grammar. -/
theorem number_int {ctx : JSON_PARSE_CTX} (err : List Nat) (scan : Bool)
    {sg ip r : List Nat} (hrem : rem ctx = sg ++ (ip ++ r)) (hsg : sg = [] ∨ sg = [45])
    (hip : IntPart ip) (hr : isdigit (r.headD 0) = false) :
    number ctx err scan = number_frac (mem ctx) (steps (sg ++ ip) ctx) err scan := by
  have hiphead : isdigit (ip.headD 0) = true ∧ ip ≠ [] := by
    rcases hip with h | ⟨h1, h2, _⟩
    · subst h; exact ⟨by decide, by simp⟩
    · exact ⟨headD_digits h1 h2, h1⟩
  have hrem1 : rem (steps sg ctx) = ip ++ r := rem_steps hrem
  have hsel := sign_phase hrem hsg (by
    rw [headD_append, if_neg hiphead.2]
    intro h; rw [h] at hiphead; simp [isdigit] at hiphead)
  unfold number
  simp only [hsel]
  rw [steps_append]
  rcases hip with h | ⟨h1, h2, h3⟩
  · subst h
    replace hrem1 : rem (steps sg ctx) = 48 :: r := hrem1
    have hp : peekch (steps sg ctx) = 48 := peekch_cons hrem1
    simp only [hp, if_true]
    rw [readch_cons hrem1 (by decide)]
    have hrem2 : rem (step 48 (steps sg ctx)) = r := rem_step hrem1
    have hp2 : peekch (step 48 (steps sg ctx)) = r.headD 0 := by
      rw [peekch_rem, hrem2]
    simp only [hp2, hr, Bool.false_eq_true, if_false]
    rfl
  · have hp : peekch (steps sg ctx) = ip.headD 0 := by
      rw [peekch_rem, hrem1, headD_append, if_neg h1]
    simp only [hp, h3, if_false]
    rw [digits_eq hrem1 h2 hr]
    have hl : ip.length ≠ 0 := by
      intro h0; exact h1 (List.length_eq_zero.mp h0)
    simp only [hl, if_false]
    rfl

/-- The fraction phase of `number` on a fraction of the grammar. -/
theorem number_frac_skip (s : List Nat) {ctx : JSON_PARSE_CTX} (err : List Nat) (scan : Bool)
    {fp r : List Nat} (hrem : rem ctx = fp ++ r) (hfp : FracPart fp)
    (hr : isdigit (r.headD 0) = false) (hr2 : fp = [] → r.headD 0 ≠ 46) :
    number_frac s ctx err scan = number_exp s (steps fp ctx) err scan := by
  unfold number_frac
  rcases hfp with h | ⟨ds, hne, hds, h⟩
  · subst h
    simp only [List.nil_append] at hrem
    have hp : peekch ctx = r.headD 0 := by rw [peekch_rem, hrem]
    simp only [hp, hr2 rfl, if_false, steps_nil]
  · subst h
    replace hrem : rem ctx = 46 :: (ds ++ r) := by rw [hrem]; simp
    have hp : peekch ctx = 46 := peekch_cons hrem
    simp only [hp, if_true]
    rw [readch_cons hrem (by decide)]
    have hrem1 : rem (step 46 ctx) = ds ++ r := rem_step hrem
    rw [digits_eq hrem1 hds hr]
    have hl : ds.length ≠ 0 := by
      intro h0; exact hne (List.length_eq_zero.mp h0)
    simp only [hl, if_false]
    rfl

/-- A decimal point that is not followed by a digit makes the fraction phase fail. -/
theorem number_frac_fail (s : List Nat) {ctx : JSON_PARSE_CTX} (err : List Nat) (scan : Bool)
    {r : List Nat} (hrem : rem ctx = 46 :: r) (hr : isdigit (r.headD 0) = false) :
    (number_frac s ctx err scan).1 = Ptr.NULL := by
  unfold number_frac
  have hp : peekch ctx = 46 := peekch_cons hrem
  simp only [hp, if_true]
  rw [readch_cons hrem (by decide)]
  have hrem1 : rem (step 46 ctx) = [] ++ r := rem_step hrem
  rw [digits_eq hrem1 (by simp) hr]
  simp

/-- An exponent marker that is not followed by a digit, after its optional sign, makes
the exponent phase fail. -/
theorem number_exp_fail (s : List Nat) {ctx : JSON_PARSE_CTX} (err : List Nat) (scan : Bool)
    {e : Nat} {sgn r : List Nat} (hrem : rem ctx = e :: (sgn ++ r)) (he : e = 101 ∨ e = 69)
    (hsgn : (sgn = [] ∧ r.headD 0 ≠ 43 ∧ r.headD 0 ≠ 45) ∨ sgn = [43] ∨ sgn = [45])
    (hr : isdigit (r.headD 0) = false) :
    (number_exp s ctx err scan).1 = Ptr.NULL := by
  unfold number_exp
  have hp : peekch ctx = e := peekch_cons hrem
  have he0 : e ≠ 0 := by omega
  simp only [hp, he, if_true]
  rw [readch_cons hrem he0]
  have hrem1 : rem (step e ctx) = sgn ++ r := rem_step hrem
  have hsel : (if peekch (step e ctx) = 43 ∨ peekch (step e ctx) = 45
      then (readch (step e ctx)).2 else step e ctx) = steps sgn (step e ctx) := by
    rcases hsgn with ⟨h, h43, h45⟩ | h | h
    · subst h
      simp only [List.nil_append] at hrem1
      have hp1 : peekch (step e ctx) = r.headD 0 := by rw [peekch_rem, hrem1]
      rw [if_neg (by rw [hp1]; exact not_or.mpr ⟨h43, h45⟩)]; rfl
    · subst h
      rw [if_pos (Or.inl (peekch_cons hrem1)), readch_cons hrem1 (by decide)]; rfl
    · subst h
      rw [if_pos (Or.inr (peekch_cons hrem1)), readch_cons hrem1 (by decide)]; rfl
  simp only [hsel]
  have hrem2 : rem (steps sgn (step e ctx)) = [] ++ r := rem_steps hrem1
  rw [digits_eq hrem2 (by simp) hr]
  simp

/-- A zero followed by another digit is rejected as a leading zero. -/
theorem number_leading_zero {ctx : JSON_PARSE_CTX} (err : List Nat) (scan : Bool)
    {sg : List Nat} {d : Nat} {r : List Nat} (hrem : rem ctx = sg ++ 48 :: d :: r)
    (hsg : sg = [] ∨ sg = [45]) (hd : isdigit d = true) :
    number ctx err scan = (Ptr.NULL, steps (sg ++ [48]) ctx,
      diag (steps (sg ++ [48]) ctx).line (steps (sg ++ [48]) ctx).col
        (bytes "Numbers may not have leading zeros")) := by
  have hrem1 : rem (steps sg ctx) = 48 :: d :: r := rem_steps hrem
  have hsel := sign_phase hrem hsg (by simp)
  unfold number
  simp only [hsel]
  rw [steps_append]
  have hp : peekch (steps sg ctx) = 48 := peekch_cons hrem1
  simp only [hp, if_true]
  rw [readch_cons hrem1 (by decide)]
  have hp2 : peekch (step 48 (steps sg ctx)) = d := peekch_cons (rem_step hrem1)
  simp only [hp2, hd, if_true]
  rfl

theorem takeWhile_isdigit_all (l : List Nat) : ∀ b ∈ l.takeWhile isdigit, isdigit b = true :=
  fun _ hb => List.mem_takeWhile_imp hb

theorem rem_digits (ctx : JSON_PARSE_CTX) :
    rem ctx = (rem ctx).takeWhile isdigit ++ rem (steps ((rem ctx).takeWhile isdigit) ctx) := by
  have h := (List.takeWhile_append_dropWhile isdigit (rem ctx)).symm
  rw [rem_steps h]
  exact h

theorem number_finish_eq {s : List Nat} {c : JSON_PARSE_CTX} {err : List Nat} {scan : Bool}
    {p : Ptr} {ctx' : JSON_PARSE_CTX} {err' : List Nat}
    (h : number_finish s c err scan = (p, ctx', err')) : ctx' = c ∧ err' = err := by
  have hc := (number_finish_ctx s c err scan).2
  rw [h] at hc
  exact ⟨(Prod.mk.inj hc).1, (Prod.mk.inj hc).2⟩

/-- What the exponent phase does when it succeeds: it consumes an exponent of the
grammar, stops in front of a byte that cannot continue it, and ends in `number_finish`. -/
theorem number_exp_sound (s : List Nat) {ctx : JSON_PARSE_CTX} {err : List Nat} {scan : Bool}
    {p : Ptr} {ctx' : JSON_PARSE_CTX} {err' : List Nat}
    (h : number_exp s ctx err scan = (p, ctx', err')) (hp : p ≠ Ptr.NULL) :
    ∃ ep, ExpPart ep ∧ ctx' = steps ep ctx ∧ rem ctx = ep ++ rem ctx' ∧
      (ep ≠ [] → isdigit ((rem ctx').headD 0) = false) ∧
      (ep = [] → (rem ctx').headD 0 ≠ 101 ∧ (rem ctx').headD 0 ≠ 69) ∧
      (p, ctx', err') = number_finish s ctx' err scan := by
  unfold number_exp at h
  by_cases he : peekch ctx = 101 ∨ peekch ctx = 69
  · simp only [he, if_true] at h
    obtain ⟨r1, hrem⟩ := @rem_of_peekch ctx _ rfl (by omega)
    rw [readch_cons hrem (by omega)] at h
    simp only [] at h
    obtain ⟨sg, hsg, hsel, hrem1⟩ : ∃ sg, (sg = [] ∨ sg = [43] ∨ sg = [45]) ∧
        (if peekch (step (peekch ctx) ctx) = 43 ∨ peekch (step (peekch ctx) ctx) = 45
          then (readch (step (peekch ctx) ctx)).2 else step (peekch ctx) ctx) =
          steps sg (step (peekch ctx) ctx) ∧
        rem (step (peekch ctx) ctx) = sg ++ rem (steps sg (step (peekch ctx) ctx)) := by
      by_cases hs : peekch (step (peekch ctx) ctx) = 43 ∨ peekch (step (peekch ctx) ctx) = 45
      · obtain ⟨r2, hrem2⟩ := @rem_of_peekch (step (peekch ctx) ctx) _ rfl (by omega)
        refine ⟨[peekch (step (peekch ctx) ctx)], ?_, ?_, ?_⟩
        · rcases hs with h | h <;> rw [h] <;> simp
        · rw [if_pos hs, readch_cons hrem2 (by omega)]; rfl
        · rw [steps_cons, steps_nil, rem_step hrem2, hrem2]; rfl
      · exact ⟨[], Or.inl rfl, by rw [if_neg hs]; rfl, rfl⟩
    rw [hsel, digits_takeWhile] at h
    simp only [] at h
    by_cases hn : ((rem (steps sg (step (peekch ctx) ctx))).takeWhile isdigit).length = 0
    · rw [if_pos hn] at h
      exact absurd (congrArg Prod.fst h).symm hp
    · rw [if_neg hn] at h
      have hc' : ctx' = steps ((rem (steps sg (step (peekch ctx) ctx))).takeWhile isdigit)
          (steps sg (step (peekch ctx) ctx)) := (number_finish_eq h).1
      have hrem' : rem ctx' = (rem (steps sg (step (peekch ctx) ctx))).dropWhile isdigit := by
        rw [hc']
        exact rem_steps (List.takeWhile_append_dropWhile isdigit _).symm
      refine ⟨peekch ctx :: (sg ++ (rem (steps sg (step (peekch ctx) ctx))).takeWhile isdigit),
        Or.inr ⟨_, sg, _, he, hsg, ?_, takeWhile_isdigit_all _, rfl⟩, ?_, ?_, ?_, ?_, ?_⟩
      · intro h0; rw [h0] at hn; exact hn rfl
      · rw [hc', show peekch ctx :: (sg ++ (rem (steps sg (step (peekch ctx) ctx))).takeWhile isdigit)
          = [peekch ctx] ++ (sg ++ (rem (steps sg (step (peekch ctx) ctx))).takeWhile isdigit) by rfl,
          steps_append, steps_append]
        rfl
      · rw [hc', hrem, ← rem_step hrem, List.cons_append, List.append_assoc, ← rem_digits, ← hrem1]
      · intro _
        rw [hrem']
        exact headD_dropWhile_isdigit _
      · intro h0; simp at h0
      · rw [← h, hc']
  · simp only [he, if_false] at h
    have hc := (number_finish_eq h).1
    refine ⟨[], Or.inl rfl, hc, by rw [hc]; rfl, fun h0 => absurd rfl h0, ?_, ?_⟩
    · intro _
      rw [hc, ← peekch_rem]
      exact not_or.mp he
    · rw [← h, hc]

/-- What the fraction and exponent phases do when they succeed. -/
theorem number_frac_sound (s : List Nat) {ctx : JSON_PARSE_CTX} {err : List Nat} {scan : Bool}
    {p : Ptr} {ctx' : JSON_PARSE_CTX} {err' : List Nat}
    (h : number_frac s ctx err scan = (p, ctx', err')) (hp : p ≠ Ptr.NULL) :
    ∃ fp ep, FracPart fp ∧ ExpPart ep ∧ ctx' = steps (fp ++ ep) ctx ∧
      rem ctx = fp ++ (ep ++ rem ctx') ∧
      (fp ++ ep ≠ [] → isdigit ((rem ctx').headD 0) = false) ∧
      (ep = [] → (rem ctx').headD 0 ≠ 101 ∧ (rem ctx').headD 0 ≠ 69) ∧
      (fp = [] → ep = [] → (rem ctx').headD 0 ≠ 46) ∧
      (p, ctx', err') = number_finish s ctx' err scan := by
  unfold number_frac at h
  by_cases hd : peekch ctx = 46
  · simp only [hd, if_true] at h
    obtain ⟨r1, hrem⟩ := rem_of_peekch hd (by decide)
    rw [readch_cons hrem (by decide), digits_takeWhile] at h
    simp only [] at h
    by_cases hn : ((rem (step 46 ctx)).takeWhile isdigit).length = 0
    · rw [if_pos hn] at h
      exact absurd (congrArg Prod.fst h).symm hp
    · rw [if_neg hn] at h
      obtain ⟨ep, hep, hc, hr, hs1, hs2, hfin⟩ := number_exp_sound s h hp
      have hmid : rem (steps ((rem (step 46 ctx)).takeWhile isdigit) (step 46 ctx)) =
          (rem (step 46 ctx)).dropWhile isdigit :=
        rem_steps (List.takeWhile_append_dropWhile isdigit _).symm
      refine ⟨46 :: (rem (step 46 ctx)).takeWhile isdigit, ep,
        Or.inr ⟨_, ?_, takeWhile_isdigit_all _, rfl⟩, hep, ?_, ?_, ?_, hs2, ?_, hfin⟩
      · intro h0; rw [h0] at hn; exact hn rfl
      · rw [hc, show (46 :: (rem (step 46 ctx)).takeWhile isdigit) ++ ep =
          [46] ++ ((rem (step 46 ctx)).takeWhile isdigit ++ ep) by rfl, steps_append,
          steps_append]
        rfl
      · rw [← hr, List.cons_append, ← rem_digits, rem_step hrem, hrem]
      · intro _
        by_cases hep0 : ep = []
        · subst hep0
          rw [List.nil_append] at hr
          rw [← hr, hmid]
          exact headD_dropWhile_isdigit _
        · exact hs1 hep0
      · intro h0; simp at h0
  · simp only [hd, if_false] at h
    obtain ⟨ep, hep, hc, hr, hs1, hs2, hfin⟩ := number_exp_sound s h hp
    refine ⟨[], ep, Or.inl rfl, hep, hc, hr, ?_, hs2, ?_, hfin⟩
    · intro h0
      exact hs1 (by simpa using h0)
    · intro _ hep0
      subst hep0
      rw [List.nil_append] at hr
      rw [← hr, ← peekch_rem]
      exact hd

/-- What the number rule does when it succeeds, from any cursor and in either mode: the
bytes it consumed form a text of the grammar, the next byte cannot continue that text,
and the result is that of `number_finish`. -/
theorem number_sharp {ctx : JSON_PARSE_CTX} {err : List Nat} {scan : Bool}
    {p : Ptr} {ctx' : JSON_PARSE_CTX} {err' : List Nat}
    (h : number ctx err scan = (p, ctx', err')) (hp : p ≠ Ptr.NULL) :
    ∃ sg ip fp ep, (sg = [] ∨ sg = [45]) ∧ IntPart ip ∧ FracPart fp ∧ ExpPart ep ∧
      ctx' = steps (sg ++ (ip ++ (fp ++ ep))) ctx ∧
      rem ctx = sg ++ (ip ++ (fp ++ (ep ++ rem ctx'))) ∧
      isdigit ((rem ctx').headD 0) = false ∧
      (ep = [] → (rem ctx').headD 0 ≠ 101 ∧ (rem ctx').headD 0 ≠ 69) ∧
      (fp = [] → ep = [] → (rem ctx').headD 0 ≠ 46) ∧
      (p, ctx', err') = number_finish (mem ctx) ctx' err scan := by
  unfold number at h
  obtain ⟨sg, hsg, hsel, hrem0⟩ : ∃ sg, (sg = [] ∨ sg = [45]) ∧
      (if peekch ctx = 45 then (readch ctx).2 else ctx) = steps sg ctx ∧
      rem ctx = sg ++ rem (steps sg ctx) := by
    by_cases hs : peekch ctx = 45
    · obtain ⟨r, hrem⟩ := rem_of_peekch hs (by decide)
      exact ⟨[45], Or.inr rfl, by rw [if_pos hs, readch_cons hrem (by decide)]; rfl,
        by rw [steps_cons, steps_nil, rem_step hrem, hrem]; rfl⟩
    · exact ⟨[], Or.inl rfl, by rw [if_neg hs]; rfl, rfl⟩
  simp only [hsel] at h
  by_cases hz : peekch (steps sg ctx) = 48
  · simp only [hz, if_true] at h
    obtain ⟨r, hrem⟩ := rem_of_peekch hz (by decide)
    rw [readch_cons hrem (by decide)] at h
    simp only [] at h
    by_cases hd : isdigit (peekch (step 48 (steps sg ctx))) = true
    · rw [if_pos hd] at h
      exact absurd (congrArg Prod.fst h).symm hp
    · rw [if_neg hd] at h
      obtain ⟨fp, ep, hfp, hep, hc, hr, hs1, hs2, hs3, hfin⟩ := number_frac_sound _ h hp
      refine ⟨sg, [48], fp, ep, hsg, Or.inl rfl, hfp, hep, ?_, ?_, ?_, hs2, hs3, hfin⟩
      · simp [hc, steps_append]
      · have h2 := rem_step hrem
        rw [hr] at h2
        rw [hrem0, hrem, ← h2]
        simp
      · by_cases h0 : fp ++ ep = []
        · have hr' : rem (step 48 (steps sg ctx)) = rem ctx' := by
            rw [hr, ← List.append_assoc, h0, List.nil_append]
          rw [← hr', ← peekch_rem]
          simpa using hd
        · exact hs1 h0
  · simp only [hz, if_false] at h
    rw [digits_takeWhile] at h
    simp only [] at h
    by_cases hn : ((rem (steps sg ctx)).takeWhile isdigit).length = 0
    · rw [if_pos hn] at h
      exact absurd (congrArg Prod.fst h).symm hp
    · rw [if_neg hn] at h
      obtain ⟨fp, ep, hfp, hep, hc, hr, hs1, hs2, hs3, hfin⟩ := number_frac_sound _ h hp
      have hne : (rem (steps sg ctx)).takeWhile isdigit ≠ [] := by
        intro h0; rw [h0] at hn; exact hn rfl
      have hhd : ((rem (steps sg ctx)).takeWhile isdigit).headD 0 ≠ 48 := by
        intro h48
        apply hz
        rw [peekch_rem]
        have := rem_digits (steps sg ctx)
        rw [this, headD_append, if_neg hne, h48]
      have hmid : rem (steps ((rem (steps sg ctx)).takeWhile isdigit) (steps sg ctx)) =
          (rem (steps sg ctx)).dropWhile isdigit :=
        rem_steps (List.takeWhile_append_dropWhile isdigit _).symm
      refine ⟨sg, _, fp, ep, hsg, Or.inr ⟨hne, takeWhile_isdigit_all _, hhd⟩, hfp, hep, ?_, ?_,
        ?_, hs2, hs3, hfin⟩
      · simp [hc, steps_append]
      · have h2 := rem_digits (steps sg ctx)
        rw [hr] at h2
        rw [hrem0]
        conv_lhs => rw [h2]
      · by_cases h0 : fp ++ ep = []
        · have hr' : rem (steps ((rem (steps sg ctx)).takeWhile isdigit) (steps sg ctx)) =
              rem ctx' := by
            rw [hr, ← List.append_assoc, h0, List.nil_append]
          rw [← hr', hmid]
          exact headD_dropWhile_isdigit _
        · exact hs1 h0

/-- Whenever the number rule succeeds, from any cursor and in either mode, the bytes
it consumed form a text of the grammar. -/
theorem number_sound {ctx : JSON_PARSE_CTX} {err : List Nat} {scan : Bool}
    {p : Ptr} {ctx' : JSON_PARSE_CTX} {err' : List Nat}
    (h : number ctx err scan = (p, ctx', err')) (hp : p ≠ Ptr.NULL) :
    ∃ N, NumberText N ∧ ctx' = steps N ctx ∧ rem ctx = N ++ rem ctx' := by
  obtain ⟨sg, ip, fp, ep, hsg, hip, hfp, hep, hc, hr, -⟩ := number_sharp h hp
  exact ⟨_, ⟨sg, ip, fp, ep, hsg, hip, hfp, hep, rfl⟩, hc, by rw [hr]; simp⟩

/-- The exponent phase accepts an exponent of the grammar that is followed by a byte
which cannot continue it. -/
theorem number_exp_gen (s : List Nat) {ctx : JSON_PARSE_CTX} (err : List Nat) (scan : Bool)
    {ep r : List Nat} (hrem : rem ctx = ep ++ r) (hep : ExpPart ep)
    (hr1 : ep ≠ [] → isdigit (r.headD 0) = false)
    (hr2 : ep = [] → r.headD 0 ≠ 101 ∧ r.headD 0 ≠ 69) :
    number_exp s ctx err scan = number_finish s (steps ep ctx) err scan := by
  by_cases h0 : ep = []
  · subst h0
    unfold number_exp
    simp only [List.nil_append] at hrem
    have hp : peekch ctx = r.headD 0 := by rw [peekch_rem, hrem]
    simp only [hp, (hr2 rfl).1, (hr2 rfl).2, or_self, if_false, steps_nil]
  · have hd := hr1 h0
    rcases hep with h | ⟨e, sg, ds, he, hsg, hne, hds, h⟩
    · exact absurd h h0
    · subst h
      unfold number_exp
      replace hrem : rem ctx = e :: (sg ++ (ds ++ r)) := by rw [hrem]; simp
      have hp : peekch ctx = e := peekch_cons hrem
      have he0 : e ≠ 0 := by omega
      simp only [hp, he, if_true]
      rw [readch_cons hrem he0]
      have hrem1 : rem (step e ctx) = sg ++ (ds ++ r) := rem_step hrem
      have hdd := headD_digits hne hds
      have hsel : (if peekch (step e ctx) = 43 ∨ peekch (step e ctx) = 45
          then (readch (step e ctx)).2 else step e ctx) = steps sg (step e ctx) := by
        rcases hsg with h | h | h
        · subst h
          simp only [List.nil_append] at hrem1
          have hp1 : peekch (step e ctx) = (ds ++ r).headD 0 := by rw [peekch_rem, hrem1]
          rw [headD_append, if_neg hne] at hp1
          have h43 : ¬ (peekch (step e ctx) = 43 ∨ peekch (step e ctx) = 45) := by
            rw [hp1]
            rintro (h | h) <;> rw [h] at hdd <;> simp [isdigit] at hdd
          rw [if_neg h43]; rfl
        · subst h
          rw [if_pos (Or.inl (peekch_cons hrem1)), readch_cons hrem1 (by decide)]; rfl
        · subst h
          rw [if_pos (Or.inr (peekch_cons hrem1)), readch_cons hrem1 (by decide)]; rfl
      simp only [hsel]
      rw [digits_eq (rem_steps hrem1) hds hd]
      have hl : ds.length ≠ 0 := by
        intro h0; exact hne (List.length_eq_zero.mp h0)
      simp only [hl, if_false]
      rw [show e :: (sg ++ ds) = [e] ++ (sg ++ ds) by rfl, steps_append, steps_append]
      rfl

/-- The number rule accepts a text of the grammar, given by its parts, that is followed
by a byte which cannot continue it, and consumes exactly that text. -/
theorem number_gen {ctx : JSON_PARSE_CTX} (err : List Nat) (scan : Bool)
    {sg ip fp ep r : List Nat} (hrem : rem ctx = sg ++ (ip ++ (fp ++ (ep ++ r))))
    (hsg : sg = [] ∨ sg = [45]) (hip : IntPart ip) (hfp : FracPart fp) (hep : ExpPart ep)
    (hr1 : isdigit (r.headD 0) = false)
    (hr2 : ep = [] → r.headD 0 ≠ 101 ∧ r.headD 0 ≠ 69)
    (hr3 : fp = [] → ep = [] → r.headD 0 ≠ 46) :
    number ctx err scan =
      number_finish (mem ctx) (steps (sg ++ (ip ++ (fp ++ ep))) ctx) err scan := by
  have hE : isdigit ((ep ++ r).headD 0) = false ∧ (fp = [] → (ep ++ r).headD 0 ≠ 46) := by
    rw [headD_append]
    by_cases hne : ep = []
    · rw [if_pos hne]; exact ⟨hr1, fun h => hr3 h hne⟩
    · rw [if_neg hne]
      rcases hep.head_e hne with h | h <;> rw [h] <;> exact ⟨by decide, fun _ => by decide⟩
  have hF : isdigit ((fp ++ (ep ++ r)).headD 0) = false := by
    rw [headD_append]
    by_cases hne : fp = []
    · rw [if_pos hne]; exact hE.1
    · rw [if_neg hne, hfp.head_dot hne]; decide
  rw [number_int err scan hrem hsg hip hF]
  have hrem1 : rem (steps (sg ++ ip) ctx) = fp ++ (ep ++ r) :=
    rem_steps (by rw [hrem]; simp)
  rw [number_frac_skip _ err scan hrem1 hfp hE.1 hE.2,
    number_exp_gen _ err scan (rem_steps hrem1) hep (fun _ => hr1) hr2]
  simp [steps_append]

/-! ## The number grammar and leading zeros (C3, C4) -/

theorem NumberText.head_start {N : List Nat} (h : NumberText N) :
    N.headD 0 = 45 ∨ isdigit (N.headD 0) = true := by
  obtain ⟨sg, ip, fp, ep, hsg, hip, -, -, hN⟩ := h
  have hiphead : isdigit (ip.headD 0) = true ∧ ip ≠ [] := by
    rcases hip with h | ⟨h1, h2, _⟩
    · subst h; exact ⟨by decide, by simp⟩
    · exact ⟨headD_digits h1 h2, h1⟩
  subst hN
  rcases hsg with h | h
  · subst h
    right
    rw [List.nil_append, headD_append, if_neg hiphead.2]
    exact hiphead.1
  · subst h; left; rfl

/-- A buffer that holds exactly a text of the number grammar: the value rule succeeds
with a Number and leaves the cursor at the end of the buffer. -/
theorem value_number_text (f : Nat) {N : List Nat} (hN : NumberText N) :
    value (f + 1) false (ctx_init N N.length) [] =
      some (Ptr.node (JSON_VALUE.number (strtod N)), steps N (ctx_init N N.length), []) := by
  have hrem : rem (ctx_init N N.length) = N ++ [] := by rw [rem_ctx_init]; simp
  have hhd : isspace (N.headD 0) = false := by
    rcases hN.head_start with h | h
    · rw [h]; decide
    · revert h; generalize N.headD 0 = c; intro h
      simp only [isdigit, Bool.and_eq_true, decide_eq_true_eq] at h
      simp only [isspace, Bool.or_eq_false_iff, beq_eq_false_iff_ne, Bool.and_eq_false_iff,
        decide_eq_false_iff_not]
      omega
  have hsp : space (ctx_init N N.length) = ctx_init N N.length :=
    space_id (by rw [peekch_rem, rem_ctx_init]; exact hhd)
  have hpk : peekch (ctx_init N N.length) = N.headD 0 := by rw [peekch_rem, rem_ctx_init]
  rw [value_of_number (by rw [hsp, hpk]; exact hN.head_start), hsp,
    number_complete [] false hrem hN (by simp [numstop, isdigit])]
  have hend : rem (steps N (ctx_init N N.length)) = [] := rem_steps hrem
  simp only [number_finish, Bool.false_eq_true, if_false, mem_ctx_init]
  rw [space_id (by rw [peekch_nil hend]; decide)]

/-- C3: the number rule recognises exactly the grammar
`-?(0|[1-9][0-9]*)(\.[0-9]+)?([eE][+-]?[0-9]+)?`. Every text of the grammar, given as the
whole buffer, parses to a Number with the cursor at the end of the buffer; whenever
the rule succeeds, from any cursor and in either mode, the bytes it consumed form a
text of the grammar; a `.` that no digit follows, and an exponent marker that no digit
follows after its optional sign, make the rule fail. -/
theorem number_rule_grammar :
    (∀ N : List Nat, NumberText N → ∀ f : Nat,
        json_parse (f + 1) N N.length = some (Ptr.node (JSON_VALUE.number (strtod N)), [])
        ∧ ∃ c, value (f + 1) false (ctx_init N N.length) [] =
            some (Ptr.node (JSON_VALUE.number (strtod N)), c, []) ∧ c.i = N.length)
    ∧ (∀ (ctx : JSON_PARSE_CTX) (err : List Nat) (scan : Bool) (p : Ptr)
        (ctx' : JSON_PARSE_CTX) (err' : List Nat),
        number ctx err scan = (p, ctx', err') → p ≠ Ptr.NULL →
        ∃ N, NumberText N ∧ ctx' = steps N ctx ∧ rem ctx = N ++ rem ctx')
    ∧ (∀ (ctx : JSON_PARSE_CTX) (err : List Nat) (scan : Bool) (sg ip r : List Nat),
        rem ctx = sg ++ (ip ++ 46 :: r) → (sg = [] ∨ sg = [45]) → IntPart ip →
        isdigit (r.headD 0) = false → (number ctx err scan).1 = Ptr.NULL)
    ∧ (∀ (ctx : JSON_PARSE_CTX) (err : List Nat) (scan : Bool) (sg ip fp : List Nat) (e : Nat)
        (sgn r : List Nat),
        rem ctx = sg ++ (ip ++ (fp ++ e :: (sgn ++ r))) → (sg = [] ∨ sg = [45]) → IntPart ip →
        FracPart fp → (e = 101 ∨ e = 69) →
        ((sgn = [] ∧ r.headD 0 ≠ 43 ∧ r.headD 0 ≠ 45) ∨ sgn = [43] ∨ sgn = [45]) →
        isdigit (r.headD 0) = false → (number ctx err scan).1 = Ptr.NULL) := by
  refine ⟨?_, ?_, ?_, ?_⟩
  · intro N hN f
    have hv := value_number_text f hN
    have hend : rem (steps N (ctx_init N N.length)) = [] :=
      rem_steps (by rw [rem_ctx_init]; simp)
    exact ⟨json_parse_of_node hv (peekch_nil hend), _, hv, by simp [ctx_init]⟩
  · intro ctx err scan p ctx' err' h hp
    exact number_sound h hp
  · intro ctx err scan sg ip r hrem hsg hip hr
    rw [number_int err scan hrem hsg hip (by simp [isdigit])]
    exact number_frac_fail _ err scan (rem_steps (by rw [hrem]; simp)) hr
  · intro ctx err scan sg ip fp e sgn r hrem hsg hip hfp he hsgn hr
    have hfe : isdigit ((fp ++ e :: (sgn ++ r)).headD 0) = false := by
      rw [headD_append]
      by_cases hne : fp = []
      · rw [if_pos hne]; rcases he with h | h <;> rw [h] <;> simp [isdigit]
      · rw [if_neg hne, hfp.head_dot hne]; decide
    rw [number_int err scan hrem hsg hip hfe]
    have hrem1 : rem (steps (sg ++ ip) ctx) = fp ++ e :: (sgn ++ r) :=
      rem_steps (by rw [hrem]; simp)
    rw [number_frac_skip _ err scan hrem1 hfp
      (by rcases he with h | h <;> rw [h] <;> simp [isdigit])
      (by intro _; rcases he with h | h <;> rw [h] <;> simp)]
    exact number_exp_fail _ err scan (rem_steps hrem1) he hsgn hr

/-- Witness for `number_rule_grammar`: the text `-12.5e+3` belongs to the grammar and
parses to a Number. -/
theorem number_rule_grammar_witness :
    NumberText (bytes "-12.5e+3") ∧
      json_parse 1 (bytes "-12.5e+3") (bytes "-12.5e+3").length =
        some (Ptr.node (JSON_VALUE.number (strtod (bytes "-12.5e+3"))), []) :=
  have h : NumberText (bytes "-12.5e+3") :=
    ⟨[45], [49, 50], [46, 53], [101, 43, 51], Or.inr rfl,
      Or.inr ⟨by decide, by decide, by decide⟩,
      Or.inr ⟨[53], by decide, by decide, rfl⟩,
      Or.inr ⟨101, [43], [51], Or.inl rfl, Or.inr (Or.inl rfl), by decide, by decide, rfl⟩,
      by decide⟩
  ⟨h, (number_rule_grammar.1 (bytes "-12.5e+3") h 0).1⟩

theorem infix_diag_of_infix (l k : Nat) {m msg : List Nat} (h : m <:+: msg) :
    m <:+: diag l k msg :=
  h.trans (suffix_diag l k msg).isInfix

/-- C4: an input whose first token is an optional `-`, a `0` and another decimal digit
is rejected with the "leading zeros" diagnostic, whatever follows; the inputs `0`,
`0.5` and `0e1` parse to Numbers. -/
theorem leading_zero_rejected (ws : List Nat) (hws : ∀ b ∈ ws, isspace b = true)
    (sg : List Nat) (hsg : sg = [] ∨ sg = [45]) (d : Nat) (hd : isdigit d = true)
    (rest : List Nat) (f : Nat) :
    (∃ l k, json_parse (f + 1) (ws ++ (sg ++ 48 :: d :: rest))
          (ws ++ (sg ++ 48 :: d :: rest)).length =
          some (Ptr.NULL, diag l k (bytes "Numbers may not have leading zeros"))
        ∧ bytes "leading zeros" <:+: diag l k (bytes "Numbers may not have leading zeros"))
      ∧ json_parse (f + 1) (bytes "0") 1 =
          some (Ptr.node (JSON_VALUE.number (bytes "0")), [])
      ∧ json_parse (f + 1) (bytes "0.5") 3 =
          some (Ptr.node (JSON_VALUE.number (bytes "0.5")), [])
      ∧ json_parse (f + 1) (bytes "0e1") 3 =
          some (Ptr.node (JSON_VALUE.number (bytes "0e1")), []) := by
  refine ⟨?_, rfl, rfl, rfl⟩
  have hrem0 := rem_ctx_init (ws ++ (sg ++ 48 :: d :: rest))
  have hhd : (sg ++ 48 :: d :: rest).headD 0 = 45 ∨ (sg ++ 48 :: d :: rest).headD 0 = 48 := by
    rcases hsg with h | h <;> subst h <;> simp
  have hsp := space_eq hrem0 hws (by rcases hhd with h | h <;> rw [h] <;> decide)
  have hrem := rem_steps hrem0
  have hpk : peekch (steps ws (ctx_init (ws ++ (sg ++ 48 :: d :: rest))
      (ws ++ (sg ++ 48 :: d :: rest)).length)) = (sg ++ 48 :: d :: rest).headD 0 := by
    rw [peekch_rem, hrem]
  have hv := @value_of_number f false (ctx_init (ws ++ (sg ++ 48 :: d :: rest))
      (ws ++ (sg ++ 48 :: d :: rest)).length) [] (by
    rw [hsp, hpk]
    rcases hhd with h | h <;> rw [h] <;> simp [isdigit])
  rw [hsp, number_leading_zero [] false hrem hsg hd] at hv
  exact ⟨_, _, json_parse_of_null hv,
    infix_diag_of_infix _ _ ⟨bytes "Numbers may not have ", [], by decide⟩⟩

/-- Witness for `leading_zero_rejected`: the input `01` of the spec. -/
theorem leading_zero_rejected_witness :
    (∃ l k, json_parse 1 ([] ++ ([] ++ 48 :: 49 :: []))
          ([] ++ ([] ++ 48 :: 49 :: [])).length =
          some (Ptr.NULL, diag l k (bytes "Numbers may not have leading zeros"))
        ∧ bytes "leading zeros" <:+: diag l k (bytes "Numbers may not have leading zeros"))
      ∧ json_parse 1 (bytes "0") 1 =
          some (Ptr.node (JSON_VALUE.number (bytes "0")), [])
      ∧ json_parse 1 (bytes "0.5") 3 =
          some (Ptr.node (JSON_VALUE.number (bytes "0.5")), [])
      ∧ json_parse 1 (bytes "0e1") 3 =
          some (Ptr.node (JSON_VALUE.number (bytes "0e1")), []) :=
  leading_zero_rejected [] (by simp) [] (Or.inl rfl) 49 (by decide) [] 0

/-! ## The shape of accepted strings -/

theorem readch_fst (ctx : JSON_PARSE_CTX) : (readch ctx).1 = peekch ctx := by
  unfold readch
  by_cases h : peekch ctx = 0
  · simp [h]
  · by_cases h10 : peekch ctx = 10 <;> simp [h, h10]

theorem hex_decode_loop_inv {k : Nat} {ctx : JSON_PARSE_CTX} {err : List Nat} {res ch : Nat}
    {c' : JSON_PARSE_CTX} {e' : List Nat}
    (h : hex_decode_loop (k + 1) ctx err res = (some ch, c', e')) :
    ∃ x r, rem ctx = x :: r ∧ isxdigit x = true ∧
      hex_decode_loop k (step x ctx) err (res * 16 + hexval x) = (some ch, c', e') := by
  have hx : isxdigit (peekch ctx) = true := by
    rw [hex_decode_loop, readch_fst] at h
    simp only [isxdigit, isdigit, Bool.or_eq_true, Bool.and_eq_true, decide_eq_true_eq]
    by_cases h1 : 48 ≤ peekch ctx ∧ peekch ctx ≤ 57
    · exact Or.inl (Or.inl h1)
    · by_cases h2 : 65 ≤ peekch ctx ∧ peekch ctx ≤ 70
      · exact Or.inl (Or.inr h2)
      · by_cases h3 : 97 ≤ peekch ctx ∧ peekch ctx ≤ 102
        · exact Or.inr h3
        · rw [if_neg h1, if_neg h2, if_neg h3] at h
          exact absurd (congrArg Prod.fst h) (by simp)
  have h0 : peekch ctx ≠ 0 := by rcases isxdigit_cases hx with h1 | h1 | h1 <;> omega
  obtain ⟨r, hrem⟩ := @rem_of_peekch ctx _ rfl h0
  refine ⟨_, r, hrem, hx, ?_⟩
  rw [← hex_decode_loop_digit k err res hrem hx]
  exact h

/-- When `hex_decode` succeeds it has read four hexadecimal digits. -/
theorem hex_decode_sound {ctx : JSON_PARSE_CTX} {err : List Nat} {ch : Nat}
    {c' : JSON_PARSE_CTX} {e' : List Nat} (h : hex_decode ctx err = (some ch, c', e')) :
    ∃ h1 h2 h3 h4 r, rem ctx = h1 :: h2 :: h3 :: h4 :: r ∧ isxdigit h1 = true ∧
      isxdigit h2 = true ∧ isxdigit h3 = true ∧ isxdigit h4 = true ∧
      ch = hex4 h1 h2 h3 h4 ∧ c' = steps [h1, h2, h3, h4] ctx := by
  unfold hex_decode at h
  obtain ⟨h1, r1, hr1, x1, h⟩ := hex_decode_loop_inv h
  obtain ⟨h2, r2, hr2, x2, h⟩ := hex_decode_loop_inv h
  obtain ⟨h3, r3, hr3, x3, h⟩ := hex_decode_loop_inv h
  obtain ⟨h4, r4, hr4, x4, h⟩ := hex_decode_loop_inv h
  have e2 : r1 = h2 :: r2 := by rw [← rem_step hr1]; exact hr2
  have e3 : r2 = h3 :: r3 := by
    rw [← @rem_steps ctx [h1, h2] r2 (by rw [hr1, e2]; rfl)]; exact hr3
  have e4 : r3 = h4 :: r4 := by
    rw [← @rem_steps ctx [h1, h2, h3] r3 (by rw [hr1, e2, e3]; rfl)]; exact hr4
  simp only [hex_decode_loop, Prod.mk.injEq, Option.some.injEq] at h
  refine ⟨h1, h2, h3, h4, r4, ?_, x1, x2, x3, x4, ?_, ?_⟩
  · rw [hr1, e2, e3, e4]
  · rw [← h.1]; simp [hex4]
  · rw [← h.2.1]; rfl

theorem json_str_size_loop_sound (co : JSON_PARSE_CTX) (scan : Bool) (fuel : Nat) :
    ∀ (ctx : JSON_PARSE_CTX) (err : List Nat) (res n : Nat) (co' : JSON_PARSE_CTX)
      (e' : List Nat), json_str_size_loop co scan fuel ctx err res = (some n, co', e') →
      ∃ items r, (∀ it ∈ items, it.valid) ∧ rem ctx = render items ++ 34 :: r := by
  induction fuel with
  | zero =>
    intro ctx err res n co' e' h
    rw [json_str_size_loop, readch_fst] at h
    by_cases h10 : peekch ctx = 10
    · rw [if_pos h10] at h; exact absurd (congrArg Prod.fst h) (by simp)
    · rw [if_neg h10] at h
      by_cases h32 : peekch ctx < 32
      · rw [if_pos h32] at h; exact absurd (congrArg Prod.fst h) (by simp)
      · rw [if_neg h32] at h
        by_cases h34 : peekch ctx = 34
        · obtain ⟨r, hrem⟩ := rem_of_peekch h34 (by decide)
          exact ⟨[], r, by simp, by simpa [render] using hrem⟩
        · rw [if_neg h34] at h; exact absurd (congrArg Prod.fst h) (by simp)
  | succ f ih =>
    intro ctx err res n co' e' h
    rw [json_str_size_loop, readch_fst] at h
    simp only [] at h
    by_cases h10 : peekch ctx = 10
    · rw [if_pos h10] at h; exact absurd (congrArg Prod.fst h) (by simp)
    rw [if_neg h10] at h
    by_cases h32 : peekch ctx < 32
    · rw [if_pos h32] at h; exact absurd (congrArg Prod.fst h) (by simp)
    rw [if_neg h32] at h
    obtain ⟨r0, hrem⟩ := @rem_of_peekch ctx _ rfl (by omega)
    by_cases h34 : peekch ctx = 34
    · exact ⟨[], r0, by simp, by rw [hrem, h34]; simp [render]⟩
    rw [if_neg h34, readch_cons hrem (by omega)] at h
    simp only [] at h
    by_cases h92 : peekch ctx = 92
    · rw [if_pos h92, readch_fst] at h
      by_cases h1 : peekch (step (peekch ctx) ctx) < 32
      · rw [if_pos h1] at h; exact absurd (congrArg Prod.fst h) (by simp)
      rw [if_neg h1] at h
      obtain ⟨r1, hrem1⟩ := @rem_of_peekch (step (peekch ctx) ctx) _ rfl (by omega)
      rw [readch_cons hrem1 (by omega)] at h
      simp only [] at h
      have hrem' : rem ctx = 92 :: peekch (step (peekch ctx) ctx) :: r1 := by
        have := rem_step hrem
        rw [hrem1] at this
        rw [hrem, ← this, h92]
      by_cases hu : peekch (step (peekch ctx) ctx) = 117
      · rw [if_pos hu] at h
        cases hh : hex_decode (step (peekch (step (peekch ctx) ctx)) (step (peekch ctx) ctx)) err
          with
        | mk o rest =>
          obtain ⟨c2, e2⟩ := rest
          cases o with
          | none => rw [hh] at h; exact absurd (congrArg Prod.fst h) (by simp)
          | some ch =>
            rw [hh] at h
            simp only [] at h
            obtain ⟨a1, a2, a3, a4, r4, hr4, x1, x2, x3, x4, hch, hc2⟩ := hex_decode_sound hh
            by_cases hz : ch = 0
            · rw [if_pos hz] at h; exact absurd (congrArg Prod.fst h) (by simp)
            rw [if_neg hz] at h
            have hrec : ∃ k, json_str_size_loop co scan f c2 e2 (res + k) = (some n, co', e') := by
              by_cases ha : ch < 0x80
              · rw [if_pos ha] at h; exact ⟨_, h⟩
              · rw [if_neg ha] at h
                by_cases hb : ch < 0x800
                · rw [if_pos hb] at h; exact ⟨_, h⟩
                · rw [if_neg hb] at h; exact ⟨_, h⟩
            obtain ⟨k, hrec⟩ := hrec
            obtain ⟨items, r, hv, hr⟩ := ih _ _ _ _ _ _ hrec
            have hr41 := rem_step hrem1
            rw [hr4] at hr41
            have hrc2 : rem c2 = r4 := by
              rw [hc2]; exact @rem_steps _ [a1, a2, a3, a4] _ hr4
            refine ⟨Item.uni a1 a2 a3 a4 :: items, r, ?_, ?_⟩
            · intro it hit
              rcases List.mem_cons.mp hit with h' | h'
              · subst h'; exact ⟨x1, x2, x3, x4, by rw [← hch]; exact hz⟩
              · exact hv it h'
            · rw [render_cons, hrem', hu, ← hr41, ← hrc2, hr]; rfl
      · rw [if_neg hu] at h
        by_cases hs : peekch (step (peekch ctx) ctx) = 34 ∨ peekch (step (peekch ctx) ctx) = 92 ∨
            peekch (step (peekch ctx) ctx) = 47 ∨ peekch (step (peekch ctx) ctx) = 98 ∨
            peekch (step (peekch ctx) ctx) = 102 ∨ peekch (step (peekch ctx) ctx) = 110 ∨
            peekch (step (peekch ctx) ctx) = 114 ∨ peekch (step (peekch ctx) ctx) = 116
        · rw [if_pos hs] at h
          obtain ⟨items, r, hv, hr⟩ := ih _ _ _ _ _ _ h
          refine ⟨Item.esc (peekch (step (peekch ctx) ctx)) :: items, r, ?_, ?_⟩
          · intro it hit
            rcases List.mem_cons.mp hit with h' | h'
            · subst h'; simpa [Item.valid, simple_escapes] using hs
            · exact hv it h'
          · rw [render_cons, hrem', ← rem_step hrem1, hr]; rfl
        · rw [if_neg hs] at h; exact absurd (congrArg Prod.fst h) (by simp)
    · rw [if_neg h92] at h
      obtain ⟨items, r, hv, hr⟩ := ih _ _ _ _ _ _ h
      refine ⟨Item.plain (peekch ctx) :: items, r, ?_, ?_⟩
      · intro it hit
        rcases List.mem_cons.mp hit with h' | h'
        · subst h'; exact ⟨by omega, h34, h92⟩
        · exact hv it h'
      · rw [render_cons, hrem, ← rem_step hrem, hr]; rfl

/-- When the size scan succeeds, the cursor stood at a well-formed string literal; the
count is the number of decoded bytes, the caller's context has moved past the closing
quote exactly in scan mode, and `error_str` is unchanged. -/
theorem json_str_size_sound {ctx : JSON_PARSE_CTX} {err : List Nat} {scan : Bool} {n : Nat}
    {c' : JSON_PARSE_CTX} {e' : List Nat} (h : json_str_size ctx err scan = (some n, c', e')) :
    ∃ items r, (∀ it ∈ items, it.valid) ∧ rem ctx = 34 :: (render items ++ 34 :: r) ∧
      n = (decode items).length ∧
      c' = (if scan then steps (34 :: (render items ++ [34])) ctx else ctx) ∧ e' = err := by
  have h' := h
  unfold json_str_size at h'
  rw [readch_fst] at h'
  by_cases h34 : peekch ctx = 34
  · obtain ⟨r0, hrem⟩ := rem_of_peekch h34 (by decide)
    rw [readch_cons hrem (by decide)] at h'
    simp only [h34, ne_eq, not_true_eq_false, if_false] at h'
    obtain ⟨items, r, hv, hr⟩ := json_str_size_loop_sound _ _ _ _ _ _ _ _ _ h'
    have hrem2 : rem ctx = 34 :: (render items ++ 34 :: r) := by
      rw [hrem, ← rem_step hrem, hr]
    have := json_str_size_literal err scan hv hrem2
    rw [h] at this
    simp only [Prod.mk.injEq, Option.some.injEq] at this
    exact ⟨items, r, hv, hrem2, this.1, this.2.1, this.2.2⟩
  · simp only [ne_eq, h34, not_false_eq_true, if_true] at h'
    exact absurd (congrArg Prod.fst h') (by simp)

/-! ## `strtod` does not look past a separator -/

theorem takeWhile_append_stop (p : Nat → Bool) (w : List Nat) {d : Nat} (t : List Nat)
    (hd : p d = false) : (w ++ d :: t).takeWhile p = w.takeWhile p := by
  induction w with
  | nil => simp [List.takeWhile_cons, hd]
  | cons a w ih =>
    simp only [List.cons_append, List.takeWhile_cons]
    split
    · rw [ih]
    · rfl

theorem dropWhile_append_stop (p : Nat → Bool) (w : List Nat) {d : Nat} (t : List Nat)
    (hd : p d = false) : (w ++ d :: t).dropWhile p = w.dropWhile p ++ d :: t := by
  induction w with
  | nil => simp [List.dropWhile_cons, hd]
  | cons a w ih =>
    simp only [List.cons_append, List.dropWhile_cons]
    split
    · rw [ih]
    · rfl

theorem hardstop_facts {d : Nat} (h : hardstop d = true) :
    isspace d = false ∧ isxdigit d = false ∧ isdigit d = false ∧ d ≠ 43 ∧ d ≠ 45 ∧ d ≠ 46 ∧
      d ≠ 120 ∧ d ≠ 88 ∧ d ≠ 112 ∧ d ≠ 80 ∧ d ≠ 101 ∧ d ≠ 69 ∧ d ≠ 48 := by
  simp only [hardstop, Bool.not_eq_true', Bool.or_eq_false_iff, beq_eq_false_iff_ne] at h
  obtain ⟨⟨⟨⟨⟨⟨⟨⟨h1, h2⟩, h3⟩, h4⟩, h5⟩, h6⟩, h7⟩, h8⟩, h9⟩ := h
  have hx := h2
  simp only [isxdigit, isdigit, Bool.or_eq_false_iff, Bool.and_eq_false_iff,
    decide_eq_false_iff_not] at hx
  refine ⟨h1, h2, ?_, h3, h4, h5, h6, h7, h8, h9, ?_, ?_, ?_⟩
  · simp only [isdigit, Bool.and_eq_false_iff, decide_eq_false_iff_not]; omega
  · omega
  · omega
  · omega

theorem strtod_exp_stop (w : List Nat) {d : Nat} (t : List Nat) (h : hardstop d = true) :
    strtod_exp (w ++ d :: t) = strtod_exp w := by
  obtain ⟨-, -, hdg, h43, h45, -, -, -, -, -, h101, h69, -⟩ := hardstop_facts h
  cases w with
  | nil => simp [strtod_exp, h101, h69]
  | cons c w1 =>
    cases w1 with
    | nil => simp [strtod_exp, h43, h45, hdg, List.takeWhile_cons]
    | cons a w2 =>
      simp only [strtod_exp, List.cons_append]
      by_cases hs : a = 43 ∨ a = 45
      · simp only [hs, if_true, List.length_singleton, List.drop_succ_cons, List.drop_zero,
          takeWhile_append_stop isdigit w2 t hdg]
      · simp only [hs, if_false, List.length_nil, List.drop_zero]
        rw [show a :: (w2 ++ d :: t) = (a :: w2) ++ d :: t by rfl,
          takeWhile_append_stop isdigit (a :: w2) t hdg]

theorem strtod_pexp_stop (w : List Nat) {d : Nat} (t : List Nat) (h : hardstop d = true) :
    strtod_pexp (w ++ d :: t) = strtod_pexp w := by
  obtain ⟨-, -, hdg, h43, h45, -, -, -, h112, h80, -, -, -⟩ := hardstop_facts h
  cases w with
  | nil => simp [strtod_pexp, h112, h80]
  | cons c w1 =>
    cases w1 with
    | nil => simp [strtod_pexp, h43, h45, hdg, List.takeWhile_cons]
    | cons a w2 =>
      simp only [strtod_pexp, List.cons_append]
      by_cases hs : a = 43 ∨ a = 45
      · simp only [hs, if_true, List.length_singleton, List.drop_succ_cons, List.drop_zero,
          takeWhile_append_stop isdigit w2 t hdg]
      · simp only [hs, if_false, List.length_nil, List.drop_zero]
        rw [show a :: (w2 ++ d :: t) = (a :: w2) ++ d :: t by rfl,
          takeWhile_append_stop isdigit (a :: w2) t hdg]

theorem takeWhile_dropWhile_length (p : Nat → Bool) (w : List Nat) :
    (w.takeWhile p).length + (w.dropWhile p).length = w.length := by
  rw [← List.length_append, List.takeWhile_append_dropWhile]

theorem strtod_dec_stop (w : List Nat) {d : Nat} (t : List Nat) (h : hardstop d = true) :
    strtod_dec (w ++ d :: t) = strtod_dec w := by
  obtain ⟨-, -, hdg, -, -, h46, -, -, -, -, -, -, -⟩ := hardstop_facts h
  have hlen := takeWhile_dropWhile_length isdigit w
  unfold strtod_dec
  simp only [takeWhile_append_stop isdigit w t hdg, dropWhile_append_stop isdigit w t hdg]
  cases hdw : w.dropWhile isdigit with
  | nil =>
    rw [hdw] at hlen
    simp only [List.nil_append, h46, if_false, List.length_nil, Nat.le_add_left, and_true,
      List.append_nil]
    by_cases hip : w.takeWhile isdigit = []
    · simp [hip]
    · simp only [hip, if_false]
      rw [List.drop_append_of_le_length (by simp at hlen; omega), strtod_exp_stop _ _ h]
  | cons c r =>
    rw [hdw] at hlen
    simp only [List.cons_append]
    by_cases hc : c = 46
    · simp only [hc, if_true, takeWhile_append_stop isdigit r t hdg]
      have hl2 := takeWhile_dropWhile_length isdigit r
      split
      · rfl
      · rw [List.drop_append_of_le_length (by simp at hlen ⊢; omega), strtod_exp_stop _ _ h]
    · simp only [hc, if_false]
      split
      · rfl
      · rw [List.drop_append_of_le_length (by simp at hlen ⊢; omega), strtod_exp_stop _ _ h]

theorem strtod_hex_stop (w : List Nat) {d : Nat} (t : List Nat) (h : hardstop d = true) :
    strtod_hex (w ++ d :: t) = strtod_hex w := by
  obtain ⟨-, hxd, -, -, -, h46, h120, h88, -, -, -, -, h48⟩ := hardstop_facts h
  cases w with
  | nil =>
    cases t with
    | nil => simp [strtod_hex]
    | cons x t => simp [strtod_hex, h48]
  | cons z w1 =>
    cases w1 with
    | nil => simp [strtod_hex, h120, h88]
    | cons x r =>
      simp only [strtod_hex, List.cons_append]
      by_cases hzx : z = 48 ∧ (x = 120 ∨ x = 88)
      · simp only [if_pos hzx]
        have hlen := takeWhile_dropWhile_length isxdigit r
        simp only [takeWhile_append_stop isxdigit r t hxd,
          dropWhile_append_stop isxdigit r t hxd]
        cases hdw : r.dropWhile isxdigit with
        | nil =>
          rw [hdw] at hlen
          simp only [List.nil_append, h46, if_false, List.length_nil, Nat.le_add_left, and_true,
            List.append_nil]
          by_cases hip : r.takeWhile isxdigit = []
          · simp [hip]
          · simp only [hip, if_false]
            rw [List.drop_append_of_le_length (by simp at hlen; omega), strtod_pexp_stop _ _ h]
        | cons c r2 =>
          rw [hdw] at hlen
          simp only [List.cons_append]
          by_cases hc : c = 46
          · simp only [hc, if_true, takeWhile_append_stop isxdigit r2 t hxd]
            have hl2 := takeWhile_dropWhile_length isxdigit r2
            split
            · rfl
            · rw [List.drop_append_of_le_length (by simp at hlen ⊢; omega),
                strtod_pexp_stop _ _ h]
          · simp only [hc, if_false]
            split
            · rfl
            · rw [List.drop_append_of_le_length (by simp at hlen ⊢; omega),
                strtod_pexp_stop _ _ h]
      · simp only [if_neg hzx]

/-- `strtod` converts the same text whether the text ends or is followed by a
separator: it does not look past the separator. -/
theorem strtod_stop (w : List Nat) {d : Nat} (t : List Nat) (h : hardstop d = true) :
    strtod (w ++ d :: t) = strtod w := by
  obtain ⟨hsp, -, -, h43, h45, -, -, -, -, -, -, -, -⟩ := hardstop_facts h
  unfold strtod
  simp only [dropWhile_append_stop isspace w t hsp]
  cases hdw : w.dropWhile isspace with
  | nil =>
    simp only [List.nil_append, h43, h45, or_self, if_false, List.length_nil, List.drop_zero]
    have e1 := strtod_hex_stop [] t h
    have e2 := strtod_dec_stop [] t h
    simp only [List.nil_append] at e1 e2
    rw [e1, e2]
  | cons c r =>
    simp only [List.cons_append]
    by_cases hs : c = 43 ∨ c = 45
    · simp only [hs, if_true, List.length_singleton, List.drop_succ_cons, List.drop_zero,
        strtod_hex_stop r t h, strtod_dec_stop r t h]
    · simp only [hs, if_false, List.length_nil, List.drop_zero]
      rw [show c :: (r ++ d :: t) = (c :: r) ++ d :: t by rfl, strtod_hex_stop _ t h,
        strtod_dec_stop _ t h]

/-! ## Frames: running a rule on an embedded text -/

theorem headD_dropWhile_isspace (l : List Nat) :
    isspace ((l.dropWhile isspace).headD 0) = false := by
  induction l with
  | nil => rfl
  | cons a l ih =>
    rw [List.dropWhile_cons]
    split
    · exact ih
    · rename_i h
      simpa using h

/-- `space` consumes exactly the longest run of whitespace under the cursor. -/
theorem space_takeWhile (ctx : JSON_PARSE_CTX) :
    space ctx = steps ((rem ctx).takeWhile isspace) ctx :=
  space_eq (List.takeWhile_append_dropWhile isspace (rem ctx)).symm
    (fun _ hb => List.mem_takeWhile_imp hb) (headD_dropWhile_isspace _)

theorem rem_space (ctx : JSON_PARSE_CTX) : rem (space ctx) = (rem ctx).dropWhile isspace := by
  rw [space_takeWhile]
  exact rem_steps (List.takeWhile_append_dropWhile isspace (rem ctx)).symm

theorem peekch_space (ctx : JSON_PARSE_CTX) : isspace (peekch (space ctx)) = false := by
  rw [peekch_rem, rem_space]
  exact headD_dropWhile_isspace _

theorem space_space (ctx : JSON_PARSE_CTX) : space (space ctx) = space ctx :=
  space_id (peekch_space ctx)

theorem Frame.after_steps {d : Nat} {post post' : List Nat} {c1 c2 : JSON_PARSE_CTX}
    (h : Frame d post post' c1 c2) {bs r : List Nat} (hr : rem c1 = bs ++ r) :
    Frame d post post' (steps bs c1) (steps bs c2) := by
  have e1 : rem (steps bs c1) = r := rem_steps hr
  refine ⟨?_, ?_, ?_, ?_⟩
  · rw [e1]; exact mem_steps (by rw [h.mem1, hr])
  · intro b hb
    rw [e1] at hb
    exact h.nz b (by rw [hr]; exact List.mem_append_right _ hb)
  · rw [e1]; exact rem_steps (by rw [h.rem2, hr, List.append_assoc])
  · rw [e1]; exact mem_steps (by rw [h.mem2, hr, List.append_assoc])

theorem Frame.after_step {d : Nat} {post post' : List Nat} {c1 c2 : JSON_PARSE_CTX}
    (h : Frame d post post' c1 c2) {c : Nat} {r : List Nat} (hr : rem c1 = c :: r) :
    Frame d post post' (step c c1) (step c c2) :=
  @Frame.after_steps d post post' c1 c2 h [c] r hr

theorem Frame.rem2_cons {d : Nat} {post post' : List Nat} {c1 c2 : JSON_PARSE_CTX}
    (h : Frame d post post' c1 c2) {c : Nat} {r : List Nat} (hr : rem c1 = c :: r) :
    rem c2 = c :: (r ++ d :: post) := by
  rw [h.rem2, hr]; rfl

theorem Frame.ne_zero {d : Nat} {post post' : List Nat} {c1 c2 : JSON_PARSE_CTX}
    (h : Frame d post post' c1 c2) {c : Nat} {r : List Nat} (hr : rem c1 = c :: r) : c ≠ 0 :=
  h.nz c (by rw [hr]; exact List.mem_cons_self _ _)

/-- Under a frame the byte read by `readch` is the same on both sides, unless the text
taken on its own is exhausted. -/
theorem Frame.on_readch {d : Nat} {post post' : List Nat} {c1 c2 : JSON_PARSE_CTX}
    (h : Frame d post post' c1 c2) :
    (rem c1 = [] ∧ readch c1 = (0, c1)) ∨
      ∃ c r, rem c1 = c :: r ∧ c ≠ 0 ∧ readch c1 = (c, step c c1) ∧
        readch c2 = (c, step c c2) ∧ Frame d post post' (step c c1) (step c c2) := by
  cases hr : rem c1 with
  | nil => exact Or.inl ⟨rfl, readch_nil hr⟩
  | cons c r =>
    exact Or.inr ⟨c, r, rfl, h.ne_zero hr, readch_cons hr (h.ne_zero hr),
      readch_cons (h.rem2_cons hr) (h.ne_zero hr), h.after_step hr⟩

/-- Under a frame the byte seen by `peekch` is the same on both sides, unless the text
taken on its own is exhausted, where one side sees 0 and the other the separator. -/
theorem Frame.on_peekch {d : Nat} {post post' : List Nat} {c1 c2 : JSON_PARSE_CTX}
    (h : Frame d post post' c1 c2) :
    (rem c1 = [] ∧ peekch c1 = 0 ∧ peekch c2 = d) ∨
      (peekch c1 ≠ 0 ∧ peekch c2 = peekch c1) := by
  cases hr : rem c1 with
  | nil => exact Or.inl ⟨rfl, peekch_nil hr, peekch_cons (by rw [h.rem2, hr]; rfl)⟩
  | cons c r =>
    right
    rw [peekch_cons hr, peekch_cons (h.rem2_cons hr)]
    exact ⟨h.ne_zero hr, rfl⟩

theorem Frame.after_space {d : Nat} {post post' : List Nat} {c1 c2 : JSON_PARSE_CTX}
    (h : Frame d post post' c1 c2) (hd : hardstop d = true) :
    Frame d post post' (space c1) (space c2) := by
  have hsp := (hardstop_facts hd).1
  rw [space_takeWhile c1, space_takeWhile c2, h.rem2, takeWhile_append_stop isspace _ _ hsp]
  exact h.after_steps (List.takeWhile_append_dropWhile isspace (rem c1)).symm

/-! ## The leaf rules on embedded text -/

theorem readch_n_steps (lit : List Nat) (hnz : ∀ b ∈ lit, b ≠ 0) {ctx : JSON_PARSE_CTX}
    {r : List Nat} (hrem : rem ctx = lit ++ r) : readch_n lit.length ctx = steps lit ctx := by
  induction lit generalizing ctx with
  | nil => rfl
  | cons b lit ih =>
    have hb : b ≠ 0 := hnz b (List.mem_cons_self _ _)
    rw [List.length_cons, readch_n, readch_cons hrem hb, steps_cons]
    exact ih (fun x hx => hnz x (List.mem_cons_of_mem _ hx)) (rem_step hrem)

theorem rem_eq_take_mem (ctx : JSON_PARSE_CTX) :
    rem ctx = (mem ctx).take (ctx.size - ctx.i) := by
  unfold rem mem
  rw [List.drop_take]

theorem mem_of_rem {ctx : JSON_PARSE_CTX} {lit r : List Nat} (h : rem ctx = lit ++ r) :
    ∃ m, mem ctx = lit ++ m := by
  obtain ⟨t, ht⟩ := rem_prefix_mem ctx
  exact ⟨r ++ t, by rw [← ht, h, List.append_assoc]⟩

theorem rem_of_mem {ctx : JSON_PARSE_CTX} {lit m : List Nat} (h : mem ctx = lit ++ m)
    (hs : ctx.i + lit.length ≤ ctx.size) : ∃ r, rem ctx = lit ++ r := by
  refine ⟨m.take (ctx.size - ctx.i - lit.length), ?_⟩
  rw [rem_eq_take_mem, h, List.take_append_eq_append_take,
    List.take_of_length_le (by omega)]

/-- The word rule on a buffer that continues with one of the three literals. -/
theorem word_complete {ctx : JSON_PARSE_CTX} (err : List Nat) (scan : Bool) {r : List Nat} :
    (rem ctx = bytes "null" ++ r →
        word ctx err scan = (if scan then Ptr.json_ok else Ptr.node JSON_VALUE.null,
          steps (bytes "null") ctx, err))
    ∧ (rem ctx = bytes "true" ++ r →
        word ctx err scan = (if scan then Ptr.json_ok else Ptr.node (JSON_VALUE.boolean true),
          steps (bytes "true") ctx, err))
    ∧ (rem ctx = bytes "false" ++ r →
        word ctx err scan = (if scan then Ptr.json_ok else Ptr.node (JSON_VALUE.boolean false),
          steps (bytes "false") ctx, err)) := by
  refine ⟨?_, ?_, ?_⟩ <;> intro hrem
  all_goals
    obtain ⟨m, hm⟩ := mem_of_rem hrem
    have hl := rem_length ctx
    rw [hrem, List.length_append] at hl
    have hrn := readch_n_steps _ (by decide) hrem
    unfold mem at hm
    unfold word
    simp only [hm]
  · have h4 : ctx.i + 4 ≤ ctx.size := by
      have : (bytes "null").length = 4 := by decide
      omega
    have e1 : ((bytes "null" ++ m).getD 0 0 = 110) := rfl
    have e2 : strncmp_eq (bytes "null" ++ m) (bytes "null") = true := by
      simp [strncmp_eq]
    simp only [e1, h4, e2, and_self, if_true]
    rw [show (4 : Nat) = (bytes "null").length by decide, hrn]
    cases scan <;> rfl
  · have h4 : ctx.i + 4 ≤ ctx.size := by
      have : (bytes "true").length = 4 := by decide
      omega
    have e1 : ((bytes "true" ++ m).getD 0 0 = 116) := rfl
    have e2 : strncmp_eq (bytes "true" ++ m) (bytes "true") = true := by
      simp [strncmp_eq]
    simp only [e1, h4, e2, and_self, if_true, show (116 : Nat) ≠ 110 by decide, false_and,
      if_false]
    rw [show (4 : Nat) = (bytes "true").length by decide, hrn]
    cases scan <;> rfl
  · have h5 : ctx.i + 5 ≤ ctx.size := by
      have : (bytes "false").length = 5 := by decide
      omega
    have e1 : ((bytes "false" ++ m).getD 0 0 = 102) := rfl
    have e2 : strncmp_eq (bytes "false" ++ m) (bytes "false") = true := by
      simp [strncmp_eq]
    simp only [e1, h5, e2, and_self, if_true, show (102 : Nat) ≠ 110 by decide,
      show (102 : Nat) ≠ 116 by decide, false_and, if_false]
    rw [show (5 : Nat) = (bytes "false").length by decide, hrn]
    cases scan <;> rfl

theorem strncmp_eq_prefix {m lit : List Nat} (h : strncmp_eq m lit = true) :
    ∃ t, m = lit ++ t := by
  unfold strncmp_eq at h
  have h' : m.take lit.length = lit := by simpa using h
  refine ⟨m.drop lit.length, ?_⟩
  have := (List.take_append_drop lit.length m).symm
  rw [h'] at this
  exact this

/-- When the word rule succeeds the buffer continued with one of the three literals. -/
theorem word_sound {ctx : JSON_PARSE_CTX} {err : List Nat} {scan : Bool} {p : Ptr}
    {c' : JSON_PARSE_CTX} {e' : List Nat} (h : word ctx err scan = (p, c', e'))
    (hp : p ≠ Ptr.NULL) :
    ∃ lit r, rem ctx = lit ++ r ∧
      (lit = bytes "null" ∨ lit = bytes "true" ∨ lit = bytes "false") := by
  unfold word at h
  by_cases h1 : (ctx.s.drop ctx.i).getD 0 0 = 110 ∧ ctx.i + 4 ≤ ctx.size ∧
      strncmp_eq (ctx.s.drop ctx.i) (bytes "null") = true
  · obtain ⟨t, ht⟩ := strncmp_eq_prefix h1.2.2
    obtain ⟨r, hr⟩ := @rem_of_mem ctx (bytes "null") t ht h1.2.1
    exact ⟨_, r, hr, Or.inl rfl⟩
  · simp only [h1, if_false] at h
    by_cases h2 : (ctx.s.drop ctx.i).getD 0 0 = 116 ∧ ctx.i + 4 ≤ ctx.size ∧
        strncmp_eq (ctx.s.drop ctx.i) (bytes "true") = true
    · obtain ⟨t, ht⟩ := strncmp_eq_prefix h2.2.2
      obtain ⟨r, hr⟩ := @rem_of_mem ctx (bytes "true") t ht h2.2.1
      exact ⟨_, r, hr, Or.inr (Or.inl rfl)⟩
    · simp only [h2, if_false] at h
      by_cases h3 : (ctx.s.drop ctx.i).getD 0 0 = 102 ∧ ctx.i + 5 ≤ ctx.size ∧
          strncmp_eq (ctx.s.drop ctx.i) (bytes "false") = true
      · obtain ⟨t, ht⟩ := strncmp_eq_prefix h3.2.2
        obtain ⟨r, hr⟩ := @rem_of_mem ctx (bytes "false") t ht h3.2.1
        exact ⟨_, r, hr, Or.inr (Or.inr rfl)⟩
      · simp only [h3, if_false] at h
        exact absurd (congrArg Prod.fst h).symm hp

/-! ## Unfolding the element loops -/

theorem array_pass1_done {vF : ValueFn} {start : JSON_PARSE_CTX} (f : Nat)
    {ctx : JSON_PARSE_CTX} (err : List Nat) (count : Nat) (h : peekch ctx = 93) :
    array_pass1 vF start (f + 1) ctx err count = some (some count, (readch ctx).2, err) := by
  rw [array_pass1]
  simp only [h, if_true]

theorem array_pass1_step {vF : ValueFn} {start : JSON_PARSE_CTX} (f : Nat)
    {ctx : JSON_PARSE_CTX} {err : List Nat} {count : Nat} (h93 : peekch ctx ≠ 93)
    (h0 : peekch ctx ≠ 0) (hc : count ≠ 0 → peekch ctx = 44) {p : Ptr} {c2 : JSON_PARSE_CTX}
    {e2 : List Nat}
    (hv : vF true (if count ≠ 0 then (readch ctx).2 else ctx) err = some (p, c2, e2))
    (hp : p ≠ Ptr.NULL) :
    array_pass1 vF start (f + 1) ctx err count = array_pass1 vF start f c2 e2 (count + 1) := by
  rw [array_pass1]
  have hcc : ¬ (count ≠ 0 ∧ peekch ctx ≠ 44) := fun h => h.2 (hc h.1)
  cases p with
  | NULL => exact absurd rfl hp
  | json_ok => simp only [h93, h0, hcc, if_false, hv]
  | node v => simp only [h93, h0, hcc, if_false, hv]

theorem array_pass1_inv {vF : ValueFn} {start : JSON_PARSE_CTX} {f : Nat}
    {ctx : JSON_PARSE_CTX} {err : List Nat} {count n : Nat} {c' : JSON_PARSE_CTX}
    {e' : List Nat}
    (h : array_pass1 vF start (f + 1) ctx err count = some (some n, c', e')) :
    (peekch ctx = 93 ∧ n = count ∧ c' = (readch ctx).2 ∧ e' = err) ∨
      (peekch ctx ≠ 93 ∧ peekch ctx ≠ 0 ∧ (count ≠ 0 → peekch ctx = 44) ∧
        ∃ p c2 e2, vF true (if count ≠ 0 then (readch ctx).2 else ctx) err = some (p, c2, e2) ∧
          p ≠ Ptr.NULL ∧ array_pass1 vF start f c2 e2 (count + 1) = some (some n, c', e')) := by
  rw [array_pass1] at h
  by_cases h93 : peekch ctx = 93
  · left
    simp only [h93, if_true, Option.some.injEq, Prod.mk.injEq] at h
    exact ⟨h93, h.1.symm, h.2.1.symm, h.2.2.symm⟩
  · right
    simp only [h93, if_false] at h
    by_cases h0 : peekch ctx = 0
    · simp [h0] at h
    · simp only [h0, if_false] at h
      by_cases hcc : count ≠ 0 ∧ peekch ctx ≠ 44
      · rw [if_pos hcc] at h; simp at h
      · rw [if_neg hcc] at h
        refine ⟨h93, h0, fun hc => by_contra fun h44 => hcc ⟨hc, h44⟩, ?_⟩
        cases hv : vF true (if count ≠ 0 then (readch ctx).2 else ctx) err with
        | none => rw [hv] at h; simp at h
        | some o =>
          obtain ⟨p, c2, e2⟩ := o
          rw [hv] at h
          cases p with
          | NULL => simp at h
          | json_ok => exact ⟨_, _, _, rfl, by simp, h⟩
          | node v => exact ⟨_, _, _, rfl, by simp, h⟩

theorem array_pass2_done {vF : ValueFn} {start : JSON_PARSE_CTX} (f : Nat)
    {ctx : JSON_PARSE_CTX} (err : List Nat) (i : Nat) (data : List JSON_VALUE)
    (h : peekch ctx = 93) :
    array_pass2 vF start (f + 1) ctx err i data = some (some data, (readch ctx).2, err) := by
  rw [array_pass2]
  simp only [h, if_true]

theorem array_pass2_step {vF : ValueFn} {start : JSON_PARSE_CTX} (f : Nat)
    {ctx : JSON_PARSE_CTX} {err : List Nat} {i : Nat} (data : List JSON_VALUE)
    (h93 : peekch ctx ≠ 93)
    (h0 : peekch ctx ≠ 0) (hc : i ≠ 0 → peekch ctx = 44) {p : Ptr} {c2 : JSON_PARSE_CTX}
    {e2 : List Nat}
    (hv : vF false (if i ≠ 0 then (readch ctx).2 else ctx) err = some (p, c2, e2))
    (hp : p ≠ Ptr.NULL) :
    array_pass2 vF start (f + 1) ctx err i data =
      array_pass2 vF start f c2 e2 (i + 1) (data ++ [p.deref]) := by
  rw [array_pass2]
  have hcc : ¬ (i ≠ 0 ∧ peekch ctx ≠ 44) := fun h => h.2 (hc h.1)
  cases p with
  | NULL => exact absurd rfl hp
  | json_ok => simp only [h93, h0, hcc, if_false, hv]
  | node v => simp only [h93, h0, hcc, if_false, hv]

theorem array_pass2_inv {vF : ValueFn} {start : JSON_PARSE_CTX} {f : Nat}
    {ctx : JSON_PARSE_CTX} {err : List Nat} {i : Nat} {data out : List JSON_VALUE}
    {c' : JSON_PARSE_CTX} {e' : List Nat}
    (h : array_pass2 vF start (f + 1) ctx err i data = some (some out, c', e')) :
    (peekch ctx = 93 ∧ out = data ∧ c' = (readch ctx).2 ∧ e' = err) ∨
      (peekch ctx ≠ 93 ∧ peekch ctx ≠ 0 ∧ (i ≠ 0 → peekch ctx = 44) ∧
        ∃ p c2 e2, vF false (if i ≠ 0 then (readch ctx).2 else ctx) err = some (p, c2, e2) ∧
          p ≠ Ptr.NULL ∧
          array_pass2 vF start f c2 e2 (i + 1) (data ++ [p.deref]) = some (some out, c', e')) := by
  rw [array_pass2] at h
  by_cases h93 : peekch ctx = 93
  · left
    simp only [h93, if_true, Option.some.injEq, Prod.mk.injEq] at h
    exact ⟨h93, h.1.symm, h.2.1.symm, h.2.2.symm⟩
  · right
    simp only [h93, if_false] at h
    by_cases h0 : peekch ctx = 0
    · simp [h0] at h
    · simp only [h0, if_false] at h
      by_cases hcc : i ≠ 0 ∧ peekch ctx ≠ 44
      · rw [if_pos hcc] at h; simp at h
      · rw [if_neg hcc] at h
        refine ⟨h93, h0, fun hc => by_contra fun h44 => hcc ⟨hc, h44⟩, ?_⟩
        cases hv : vF false (if i ≠ 0 then (readch ctx).2 else ctx) err with
        | none => rw [hv] at h; simp at h
        | some o =>
          obtain ⟨p, c2, e2⟩ := o
          rw [hv] at h
          cases p with
          | NULL => simp at h
          | json_ok => exact ⟨_, _, _, rfl, by simp, h⟩
          | node v => exact ⟨_, _, _, rfl, by simp, h⟩

/-- The array rule succeeds exactly when the bracket is read, the sizing pass is left
through `break` and, outside scan mode, the building pass is left through `break`. -/
theorem array_inv {vF : ValueFn} {fuel : Nat} {ctx : JSON_PARSE_CTX} {err : List Nat}
    {scan : Bool} {p : Ptr} {c' : JSON_PARSE_CTX} {e' : List Nat}
    (h : array vF fuel ctx err scan = some (p, c', e')) (hp : p ≠ Ptr.NULL) :
    (readch ctx).1 = 91 ∧ ∃ count c1 e1,
      array_pass1 vF ctx fuel (space (readch ctx).2) err 0 = some (some count, c1, e1) ∧
      (scan = true → p = Ptr.json_ok ∧ c' = c1 ∧ e' = e1) ∧
      (scan = false → ∃ data,
        array_pass2 vF ctx fuel (space (readch ctx).2) e1 0 [] = some (some data, c', e') ∧
        p = Ptr.node (JSON_VALUE.array count data)) := by
  unfold array at h
  by_cases h91 : (readch ctx).1 = 91
  · simp only [h91, ne_eq, not_true_eq_false, if_false] at h
    refine ⟨h91, ?_⟩
    cases h1 : array_pass1 vF ctx fuel (space (readch ctx).2) err 0 with
    | none => rw [h1] at h; simp at h
    | some o =>
      obtain ⟨oc, c1, e1⟩ := o
      rw [h1] at h
      cases oc with
      | none =>
        simp only [Option.some.injEq, Prod.mk.injEq] at h
        exact absurd h.1.symm hp
      | some count =>
        refine ⟨count, c1, e1, rfl, ?_, ?_⟩
        · intro hs
          subst hs
          simp only [if_true, Option.some.injEq, Prod.mk.injEq] at h
          exact ⟨h.1.symm, h.2.1.symm, h.2.2.symm⟩
        · intro hs
          subst hs
          simp only [Bool.false_eq_true, if_false] at h
          cases h2 : array_pass2 vF ctx fuel (space (readch ctx).2) e1 0 [] with
          | none => rw [h2] at h; simp at h
          | some o2 =>
            obtain ⟨od, c2, e2⟩ := o2
            rw [h2] at h
            cases od with
            | none =>
              simp only [Option.some.injEq, Prod.mk.injEq] at h
              exact absurd h.1.symm hp
            | some data =>
              simp only [Option.some.injEq, Prod.mk.injEq] at h
              obtain ⟨hp1, hc, he⟩ := h
              subst hc; subst he
              exact ⟨data, rfl, hp1.symm⟩
  · simp only [ne_eq, h91, not_false_eq_true, if_true, Option.some.injEq, Prod.mk.injEq] at h
    exact absurd h.1.symm hp

theorem array_of_scan {vF : ValueFn} {fuel : Nat} {ctx : JSON_PARSE_CTX} {err : List Nat}
    (h91 : (readch ctx).1 = 91) {count : Nat} {c1 : JSON_PARSE_CTX} {e1 : List Nat}
    (h1 : array_pass1 vF ctx fuel (space (readch ctx).2) err 0 = some (some count, c1, e1)) :
    array vF fuel ctx err true = some (Ptr.json_ok, c1, e1) := by
  unfold array
  simp only [h91, ne_eq, not_true_eq_false, if_false, h1, if_true]

theorem array_of_mat {vF : ValueFn} {fuel : Nat} {ctx : JSON_PARSE_CTX} {err : List Nat}
    (h91 : (readch ctx).1 = 91) {count : Nat} {c1 : JSON_PARSE_CTX} {e1 : List Nat}
    (h1 : array_pass1 vF ctx fuel (space (readch ctx).2) err 0 = some (some count, c1, e1))
    {data : List JSON_VALUE} {c2 : JSON_PARSE_CTX} {e2 : List Nat}
    (h2 : array_pass2 vF ctx fuel (space (readch ctx).2) e1 0 [] = some (some data, c2, e2)) :
    array vF fuel ctx err false =
      some (Ptr.node (JSON_VALUE.array count data), c2, e2) := by
  unfold array
  simp only [h91, ne_eq, not_true_eq_false, if_false, h1, Bool.false_eq_true, h2]

theorem object_loop_done {vF : ValueFn} {scan : Bool} (f : Nat) (first : Bool)
    {ctx0 : JSON_PARSE_CTX} (err : List Nat) (kv : MNCL_KV) (h : peekch (space ctx0) = 125) :
    object_loop vF scan (f + 1) first ctx0 err kv =
      some (some kv, (readch (space ctx0)).2, err) := by
  rw [object_loop]
  simp only [h, if_true]

/-- One round of the object loop over a well-formed key, a colon and a value. -/
theorem object_loop_step {vF : ValueFn} {scan : Bool} (f : Nat) {first : Bool}
    {ctx0 : JSON_PARSE_CTX} {err : List Nat} (kv : MNCL_KV)
    (h125 : peekch (space ctx0) ≠ 125) (hc : first = false → peekch (space ctx0) = 44)
    {items : List Item} {r : List Nat} (hv : ∀ it ∈ items, it.valid)
    (hrem : rem (if first then space ctx0 else space (readch (space ctx0)).2) =
      34 :: (render items ++ 34 :: r))
    (h58 : (readch (space (steps (34 :: (render items ++ [34]))
      (if first then space ctx0 else space (readch (space ctx0)).2)))).1 = 58)
    {p : Ptr} {c6 : JSON_PARSE_CTX} {e6 : List Nat}
    (hvF : vF scan (readch (space (steps (34 :: (render items ++ [34]))
      (if first then space ctx0 else space (readch (space ctx0)).2)))).2 err = some (p, c6, e6))
    (hp : p ≠ Ptr.NULL) :
    object_loop vF scan (f + 1) first ctx0 err kv =
      object_loop vF scan f false c6 e6
        (if scan then kv else mncl_kv_insert kv (cstr (decode items ++ [0])) p.deref) := by
  rw [object_loop]
  have hcc : ¬ (first = false ∧ peekch (space ctx0) ≠ 44) := fun h => h.2 (hc h.1)
  simp only [h125, hcc, if_false]
  rw [json_str_size_literal err scan hv hrem]
  cases scan with
  | true =>
    simp only [if_true]
    simp only [h58, ne_eq, not_true_eq_false, if_false, hvF]
  | false =>
    simp only [Bool.false_eq_true, if_false]
    rw [json_strcpy_literal err hv hrem]
    simp only [h58, ne_eq, not_true_eq_false, if_false, hvF]

theorem object_loop_inv {vF : ValueFn} {scan : Bool} {f : Nat} {first : Bool}
    {ctx0 : JSON_PARSE_CTX} {err : List Nat} {kv kv' : MNCL_KV} {c' : JSON_PARSE_CTX}
    {e' : List Nat}
    (h : object_loop vF scan (f + 1) first ctx0 err kv = some (some kv', c', e')) :
    (peekch (space ctx0) = 125 ∧ kv' = kv ∧ c' = (readch (space ctx0)).2 ∧ e' = err) ∨
      (peekch (space ctx0) ≠ 125 ∧ (first = false → peekch (space ctx0) = 44) ∧
        ∃ items r p c6 e6, (∀ it ∈ items, it.valid) ∧
          rem (if first then space ctx0 else space (readch (space ctx0)).2) =
            34 :: (render items ++ 34 :: r) ∧
          (readch (space (steps (34 :: (render items ++ [34]))
            (if first then space ctx0 else space (readch (space ctx0)).2)))).1 = 58 ∧
          vF scan (readch (space (steps (34 :: (render items ++ [34]))
            (if first then space ctx0 else space (readch (space ctx0)).2)))).2 err =
              some (p, c6, e6) ∧
          p ≠ Ptr.NULL ∧
          object_loop vF scan f false c6 e6
            (if scan then kv else mncl_kv_insert kv (cstr (decode items ++ [0])) p.deref) =
              some (some kv', c', e')) := by
  rw [object_loop] at h
  by_cases h125 : peekch (space ctx0) = 125
  · left
    simp only [h125, if_true, Option.some.injEq, Prod.mk.injEq] at h
    exact ⟨h125, h.1.symm, h.2.1.symm, h.2.2.symm⟩
  · right
    simp only [h125, if_false] at h
    by_cases hcc : first = false ∧ peekch (space ctx0) ≠ 44
    · rw [if_pos hcc] at h; simp at h
    · rw [if_neg hcc] at h
      refine ⟨h125, fun hc => by_contra fun h44 => hcc ⟨hc, h44⟩, ?_⟩
      cases hs : json_str_size (if first then space ctx0 else space (readch (space ctx0)).2)
        err scan with
      | mk o rest =>
        obtain ⟨c2, e2⟩ := rest
        cases o with
        | none => rw [hs] at h; simp at h
        | some n =>
          obtain ⟨items, r, hv, hrem, -, hc2, he2⟩ := json_str_size_sound hs
          rw [hs] at h
          simp only [] at h
          subst he2
          have key : ∀ (c3 : JSON_PARSE_CTX) (curkey : List Nat),
              c3 = steps (34 :: (render items ++ [34]))
                (if first then space ctx0 else space (readch (space ctx0)).2) →
              (if (readch (space c3)).1 ≠ 58 then
                some (none, (readch (space c3)).2,
                  diag (readch (space c3)).2.line (readch (space c3)).2.col
                    (bytes "Expected " ++ [39, 58, 39]))
              else
                match vF scan (readch (space c3)).2 e2 with
                | none => none
                | some (Ptr.NULL, ctx6, err6) => some (none, ctx6, err6)
                | some (p, ctx6, err6) =>
                  object_loop vF scan f false ctx6 err6
                    (if scan then kv else mncl_kv_insert kv (cstr curkey) p.deref)) =
                some (some kv', c', e') →
              ∃ p c6 e6, (readch (space c3)).1 = 58 ∧
                vF scan (readch (space c3)).2 e2 = some (p, c6, e6) ∧ p ≠ Ptr.NULL ∧
                object_loop vF scan f false c6 e6
                  (if scan then kv else mncl_kv_insert kv (cstr curkey) p.deref) =
                    some (some kv', c', e') := by
            intro c3 curkey _ hh
            by_cases h58 : (readch (space c3)).1 = 58
            · simp only [h58, ne_eq, not_true_eq_false, if_false] at hh
              cases hvf : vF scan (readch (space c3)).2 e2 with
              | none => rw [hvf] at hh; simp at hh
              | some o =>
                obtain ⟨p, c6, e6⟩ := o
                rw [hvf] at hh
                cases p with
                | NULL => simp at hh
                | json_ok => exact ⟨_, _, _, h58, rfl, by simp, hh⟩
                | node v => exact ⟨_, _, _, h58, rfl, by simp, hh⟩
            · simp only [ne_eq, h58, not_false_eq_true, if_true] at hh
              simp at hh
          cases scan with
          | true =>
            simp only [if_true] at h hc2
            subst hc2
            obtain ⟨p, c6, e6, h58, hvf, hp, hrec⟩ := key _ [] rfl h
            exact ⟨items, r, p, c6, e6, hv, hrem, h58, hvf, hp, hrec⟩
          | false =>
            simp only [Bool.false_eq_true, if_false] at h hc2
            subst hc2
            rw [json_strcpy_literal e2 hv hrem] at h
            simp only [] at h
            obtain ⟨p, c6, e6, h58, hvf, hp, hrec⟩ := key _ _ rfl h
            exact ⟨items, r, p, c6, e6, hv, hrem, h58, hvf, hp, hrec⟩

theorem object_inv {vF : ValueFn} {fuel : Nat} {ctx : JSON_PARSE_CTX} {err : List Nat}
    {scan : Bool} {p : Ptr} {c' : JSON_PARSE_CTX} {e' : List Nat}
    (h : object vF fuel ctx err scan = some (p, c', e')) (hp : p ≠ Ptr.NULL) :
    (readch ctx).1 = 123 ∧ ∃ kv,
      object_loop vF scan fuel true (readch ctx).2 err mncl_alloc_kv = some (some kv, c', e') ∧
      p = (if scan then Ptr.json_ok else Ptr.node (JSON_VALUE.object kv)) := by
  unfold object at h
  by_cases h123 : (readch ctx).1 = 123
  · simp only [h123, ne_eq, not_true_eq_false, if_false] at h
    refine ⟨h123, ?_⟩
    cases h1 : object_loop vF scan fuel true (readch ctx).2 err mncl_alloc_kv with
    | none => rw [h1] at h; simp at h
    | some o =>
      obtain ⟨ok, c1, e1⟩ := o
      rw [h1] at h
      cases ok with
      | none =>
        simp only [Option.some.injEq, Prod.mk.injEq] at h
        exact absurd h.1.symm hp
      | some kv =>
        simp only [Option.some.injEq, Prod.mk.injEq] at h
        obtain ⟨hp1, hc, he⟩ := h
        subst hc; subst he
        exact ⟨kv, rfl, hp1.symm⟩
  · simp only [ne_eq, h123, not_false_eq_true, if_true, Option.some.injEq, Prod.mk.injEq] at h
    exact absurd h.1.symm hp

theorem object_of {vF : ValueFn} {fuel : Nat} {ctx : JSON_PARSE_CTX} {err : List Nat}
    {scan : Bool} (h123 : (readch ctx).1 = 123) {kv : MNCL_KV} {c1 : JSON_PARSE_CTX}
    {e1 : List Nat}
    (h1 : object_loop vF scan fuel true (readch ctx).2 err mncl_alloc_kv =
      some (some kv, c1, e1)) :
    object vF fuel ctx err scan =
      some (if scan then Ptr.json_ok else Ptr.node (JSON_VALUE.object kv), c1, e1) := by
  unfold object
  simp only [h123, ne_eq, not_true_eq_false, if_false, h1]

/-! ## Unfolding the value rule -/

theorem value_step_inv {vF : ValueFn} {fuel : Nat} {scan : Bool} {ctx0 : JSON_PARSE_CTX}
    {err : List Nat} {p : Ptr} {c' : JSON_PARSE_CTX} {e' : List Nat}
    (h : value_step vF fuel scan ctx0 err = some (p, c', e')) :
    ∃ c1, c' = space c1 ∧
      ((peekch (space ctx0) = 123 ∧ object vF fuel (space ctx0) err scan = some (p, c1, e')) ∨
       (peekch (space ctx0) = 91 ∧ array vF fuel (space ctx0) err scan = some (p, c1, e')) ∨
       ((peekch (space ctx0) = 45 ∨ isdigit (peekch (space ctx0)) = true) ∧
          number (space ctx0) err scan = (p, c1, e')) ∨
       (peekch (space ctx0) = 34 ∧ string (space ctx0) err scan = some (p, c1, e')) ∨
       (peekch (space ctx0) ≠ 123 ∧ peekch (space ctx0) ≠ 91 ∧ peekch (space ctx0) ≠ 45 ∧
          peekch (space ctx0) ≠ 34 ∧ isdigit (peekch (space ctx0)) = false ∧
          word (space ctx0) err scan = (p, c1, e'))) := by
  unfold value_step at h
  simp only [] at h
  have fin : ∀ (o : Option Outcome),
      (match o with
        | none => none
        | some (p, ctx1, err1) => some (p, space ctx1, err1)) = some (p, c', e') →
      ∃ c1, c' = space c1 ∧ o = some (p, c1, e') := by
    intro o ho
    cases o with
    | none => simp at ho
    | some x =>
      obtain ⟨p1, c1, e1⟩ := x
      simp only [Option.some.injEq, Prod.mk.injEq] at ho
      exact ⟨c1, ho.2.1.symm, by rw [ho.1, ho.2.2]⟩
  obtain ⟨c1, hc1, ho⟩ := fin _ h
  refine ⟨c1, hc1, ?_⟩
  by_cases h123 : peekch (space ctx0) = 123
  · rw [if_pos h123] at ho; exact Or.inl ⟨h123, ho⟩
  rw [if_neg h123] at ho
  by_cases h91 : peekch (space ctx0) = 91
  · rw [if_pos h91] at ho; exact Or.inr (Or.inl ⟨h91, ho⟩)
  rw [if_neg h91] at ho
  by_cases h45 : peekch (space ctx0) = 45
  · rw [if_pos h45] at ho
    exact Or.inr (Or.inr (Or.inl ⟨Or.inl h45, Option.some.inj ho⟩))
  rw [if_neg h45] at ho
  by_cases h34 : peekch (space ctx0) = 34
  · rw [if_pos h34] at ho; exact Or.inr (Or.inr (Or.inr (Or.inl ⟨h34, ho⟩)))
  rw [if_neg h34] at ho
  by_cases hd : isdigit (peekch (space ctx0)) = true
  · rw [if_pos hd] at ho
    exact Or.inr (Or.inr (Or.inl ⟨Or.inr hd, Option.some.inj ho⟩))
  rw [if_neg hd] at ho
  exact Or.inr (Or.inr (Or.inr (Or.inr ⟨h123, h91, h45, h34, by simpa using hd,
    Option.some.inj ho⟩)))

theorem value_step_object {vF : ValueFn} {fuel : Nat} {scan : Bool} {ctx0 : JSON_PARSE_CTX}
    {err : List Nat} (hp : peekch (space ctx0) = 123) {p : Ptr} {c1 : JSON_PARSE_CTX}
    {e1 : List Nat} (h : object vF fuel (space ctx0) err scan = some (p, c1, e1)) :
    value_step vF fuel scan ctx0 err = some (p, space c1, e1) := by
  unfold value_step
  simp only [hp, h, if_true]

theorem value_step_array {vF : ValueFn} {fuel : Nat} {scan : Bool} {ctx0 : JSON_PARSE_CTX}
    {err : List Nat} (hp : peekch (space ctx0) = 91) {p : Ptr} {c1 : JSON_PARSE_CTX}
    {e1 : List Nat} (h : array vF fuel (space ctx0) err scan = some (p, c1, e1)) :
    value_step vF fuel scan ctx0 err = some (p, space c1, e1) := by
  unfold value_step
  simp only [hp, h, show (91 : Nat) ≠ 123 by decide, if_false, if_true]

theorem value_step_string {vF : ValueFn} {fuel : Nat} {scan : Bool} {ctx0 : JSON_PARSE_CTX}
    {err : List Nat} (hp : peekch (space ctx0) = 34) {p : Ptr} {c1 : JSON_PARSE_CTX}
    {e1 : List Nat} (h : string (space ctx0) err scan = some (p, c1, e1)) :
    value_step vF fuel scan ctx0 err = some (p, space c1, e1) := by
  unfold value_step
  simp only [hp, h, show (34 : Nat) ≠ 123 by decide, show (34 : Nat) ≠ 91 by decide,
    show (34 : Nat) ≠ 45 by decide, if_false, if_true]

theorem value_step_number {vF : ValueFn} {fuel : Nat} {scan : Bool} {ctx0 : JSON_PARSE_CTX}
    {err : List Nat}
    (hp : peekch (space ctx0) = 45 ∨ isdigit (peekch (space ctx0)) = true) {p : Ptr}
    {c1 : JSON_PARSE_CTX} {e1 : List Nat} (h : number (space ctx0) err scan = (p, c1, e1)) :
    value_step vF fuel scan ctx0 err = some (p, space c1, e1) := by
  have := @value_of_number 0 scan ctx0 err hp
  rw [value_succ, h] at this
  unfold value_step at this ⊢
  have h123 : peekch (space ctx0) ≠ 123 := by
    rcases hp with h | h
    · omega
    · intro h'; rw [h'] at h; simp [isdigit] at h
  have h91 : peekch (space ctx0) ≠ 91 := by
    rcases hp with h | h
    · omega
    · intro h'; rw [h'] at h; simp [isdigit] at h
  have h34 : peekch (space ctx0) ≠ 34 := by
    rcases hp with h | h
    · omega
    · intro h'; rw [h'] at h; simp [isdigit] at h
  simp only [h123, h91, h34, if_false] at this ⊢
  rcases hp with h' | h'
  · simp only [h', if_true, h]
  · simp only [h', if_true, ite_self, h]

theorem value_step_word {vF : ValueFn} {fuel : Nat} {scan : Bool} {ctx0 : JSON_PARSE_CTX}
    {err : List Nat} (h123 : peekch (space ctx0) ≠ 123) (h91 : peekch (space ctx0) ≠ 91)
    (h45 : peekch (space ctx0) ≠ 45) (h34 : peekch (space ctx0) ≠ 34)
    (hd : isdigit (peekch (space ctx0)) = false) {p : Ptr}
    {c1 : JSON_PARSE_CTX} {e1 : List Nat} (h : word (space ctx0) err scan = (p, c1, e1)) :
    value_step vF fuel scan ctx0 err = some (p, space c1, e1) := by
  unfold value_step
  simp only [h123, h91, h45, h34, hd, if_false, Bool.false_eq_true, h]

/-- When the string rule succeeds, the cursor stood at a well-formed string literal. -/
theorem string_inv {ctx : JSON_PARSE_CTX} {err : List Nat} {scan : Bool} {p : Ptr}
    {c' : JSON_PARSE_CTX} {e' : List Nat} (h : string ctx err scan = some (p, c', e'))
    (hp : p ≠ Ptr.NULL) :
    ∃ items r, (∀ it ∈ items, it.valid) ∧ rem ctx = 34 :: (render items ++ 34 :: r) := by
  cases hs : json_str_size ctx err scan with
  | mk o rest =>
    obtain ⟨c2, e2⟩ := rest
    cases o with
    | none =>
      rw [string_of_size_fail hs] at h
      simp only [Option.some.injEq, Prod.mk.injEq] at h
      exact absurd h.1.symm hp
    | some n =>
      obtain ⟨items, r, hv, hrem, -⟩ := json_str_size_sound hs
      exact ⟨items, r, hv, hrem⟩

/-! ## Success leaves `error_str` unchanged -/

theorem number_errKeep {ctx : JSON_PARSE_CTX} {err : List Nat} {scan : Bool} {p : Ptr}
    {c' : JSON_PARSE_CTX} {e' : List Nat} (h : number ctx err scan = (p, c', e'))
    (hp : p ≠ Ptr.NULL) : e' = err := by
  obtain ⟨sg, ip, fp, ep, -, -, -, -, -, -, -, -, -, hfin⟩ := number_sharp h hp
  exact (number_finish_eq hfin.symm).2

/-- The result of a successful word rule. -/
theorem word_result {ctx : JSON_PARSE_CTX} {err : List Nat} {scan : Bool} {p : Ptr}
    {c' : JSON_PARSE_CTX} {e' : List Nat} (h : word ctx err scan = (p, c', e'))
    (hp : p ≠ Ptr.NULL) :
    ∃ lit r v, rem ctx = lit ++ r ∧ (∀ b ∈ lit, b ≠ 0) ∧
      p = (if scan then Ptr.json_ok else Ptr.node v) ∧ c' = steps lit ctx ∧ e' = err ∧
      ∀ (c2 : JSON_PARSE_CTX) (r2 : List Nat), rem c2 = lit ++ r2 →
        word c2 err scan = (p, steps lit c2, err) := by
  obtain ⟨lit, r, hrem, hl⟩ := word_sound h hp
  rcases hl with hl | hl | hl <;> subst hl
  · have h1 := (@word_complete ctx err scan r).1 hrem
    rw [h] at h1
    simp only [Prod.mk.injEq] at h1
    refine ⟨_, r, JSON_VALUE.null, hrem, by decide, h1.1, h1.2.1, h1.2.2, ?_⟩
    intro c2 r2 h2
    rw [(@word_complete c2 err scan r2).1 h2, h1.1]
  · have h1 := (@word_complete ctx err scan r).2.1 hrem
    rw [h] at h1
    simp only [Prod.mk.injEq] at h1
    refine ⟨_, r, JSON_VALUE.boolean true, hrem, by decide, h1.1, h1.2.1, h1.2.2, ?_⟩
    intro c2 r2 h2
    rw [(@word_complete c2 err scan r2).2.1 h2, h1.1]
  · have h1 := (@word_complete ctx err scan r).2.2 hrem
    rw [h] at h1
    simp only [Prod.mk.injEq] at h1
    refine ⟨_, r, JSON_VALUE.boolean false, hrem, by decide, h1.1, h1.2.1, h1.2.2, ?_⟩
    intro c2 r2 h2
    rw [(@word_complete c2 err scan r2).2.2 h2, h1.1]

/-- The result of a successful string rule. -/
theorem string_result {ctx : JSON_PARSE_CTX} {err : List Nat} {scan : Bool} {p : Ptr}
    {c' : JSON_PARSE_CTX} {e' : List Nat} (h : string ctx err scan = some (p, c', e'))
    (hp : p ≠ Ptr.NULL) :
    ∃ items r, (∀ it ∈ items, it.valid) ∧ rem ctx = 34 :: (render items ++ 34 :: r) ∧
      p = (if scan then Ptr.json_ok else Ptr.node (JSON_VALUE.string (decode items ++ [0]))) ∧
      c' = steps (34 :: (render items ++ [34])) ctx ∧ e' = err := by
  obtain ⟨items, r, hv, hrem⟩ := string_inv h hp
  have h1 := string_literal err scan hv hrem
  rw [h] at h1
  simp only [Option.some.injEq, Prod.mk.injEq] at h1
  exact ⟨items, r, hv, hrem, h1.1, h1.2.1, h1.2.2⟩

theorem array_pass1_errKeep {vF : ValueFn} (hv : ErrKeep vF) (start : JSON_PARSE_CTX)
    (f : Nat) : ∀ (ctx : JSON_PARSE_CTX) (err : List Nat) (count n : Nat)
      (c' : JSON_PARSE_CTX) (e' : List Nat),
      array_pass1 vF start f ctx err count = some (some n, c', e') → e' = err := by
  induction f with
  | zero => intro ctx err count n c' e' h; simp [array_pass1] at h
  | succ f ih =>
    intro ctx err count n c' e' h
    rcases array_pass1_inv h with ⟨-, -, -, he⟩ | ⟨-, -, -, p, c2, e2, hvf, hp, hrec⟩
    · exact he
    · rw [ih _ _ _ _ _ _ hrec]
      exact hv _ _ _ _ _ _ hvf hp

theorem array_pass2_errKeep {vF : ValueFn} (hv : ErrKeep vF) (start : JSON_PARSE_CTX)
    (f : Nat) : ∀ (ctx : JSON_PARSE_CTX) (err : List Nat) (i : Nat) (data out : List JSON_VALUE)
      (c' : JSON_PARSE_CTX) (e' : List Nat),
      array_pass2 vF start f ctx err i data = some (some out, c', e') → e' = err := by
  induction f with
  | zero => intro ctx err i data out c' e' h; simp [array_pass2] at h
  | succ f ih =>
    intro ctx err i data out c' e' h
    rcases array_pass2_inv h with ⟨-, -, -, he⟩ | ⟨-, -, -, p, c2, e2, hvf, hp, hrec⟩
    · exact he
    · rw [ih _ _ _ _ _ _ _ hrec]
      exact hv _ _ _ _ _ _ hvf hp

theorem array_errKeep {vF : ValueFn} (hv : ErrKeep vF) {fuel : Nat} {ctx : JSON_PARSE_CTX}
    {err : List Nat} {scan : Bool} {p : Ptr} {c' : JSON_PARSE_CTX} {e' : List Nat}
    (h : array vF fuel ctx err scan = some (p, c', e')) (hp : p ≠ Ptr.NULL) : e' = err := by
  obtain ⟨-, count, c1, e1, h1, hs, hm⟩ := array_inv h hp
  have he1 := array_pass1_errKeep hv _ _ _ _ _ _ _ _ h1
  cases scan with
  | true => rw [(hs rfl).2.2, he1]
  | false =>
    obtain ⟨data, h2, -⟩ := hm rfl
    rw [array_pass2_errKeep hv _ _ _ _ _ _ _ _ _ h2, he1]

theorem object_loop_errKeep {vF : ValueFn} (hv : ErrKeep vF) (scan : Bool)
    (f : Nat) : ∀ (first : Bool) (ctx : JSON_PARSE_CTX) (err : List Nat) (kv kv' : MNCL_KV)
      (c' : JSON_PARSE_CTX) (e' : List Nat),
      object_loop vF scan f first ctx err kv = some (some kv', c', e') → e' = err := by
  induction f with
  | zero => intro first ctx err kv kv' c' e' h; simp [object_loop] at h
  | succ f ih =>
    intro first ctx err kv kv' c' e' h
    rcases object_loop_inv h with ⟨-, -, -, he⟩ |
      ⟨-, -, items, r, p, c6, e6, -, -, -, hvf, hp, hrec⟩
    · exact he
    · rw [ih _ _ _ _ _ _ _ hrec]
      exact hv _ _ _ _ _ _ hvf hp

theorem object_errKeep {vF : ValueFn} (hv : ErrKeep vF) {fuel : Nat} {ctx : JSON_PARSE_CTX}
    {err : List Nat} {scan : Bool} {p : Ptr} {c' : JSON_PARSE_CTX} {e' : List Nat}
    (h : object vF fuel ctx err scan = some (p, c', e')) (hp : p ≠ Ptr.NULL) : e' = err := by
  obtain ⟨-, kv, h1, -⟩ := object_inv h hp
  exact object_loop_errKeep hv _ _ _ _ _ _ _ _ _ h1

theorem value_step_errKeep {vF : ValueFn} (hv : ErrKeep vF) (fuel : Nat) :
    ErrKeep (value_step vF fuel) := by
  intro scan ctx err p c' e' h hp
  obtain ⟨c1, -, ho | ha | hn | hs | hw⟩ := value_step_inv h
  · exact object_errKeep hv ho.2 hp
  · exact array_errKeep hv ha.2 hp
  · exact number_errKeep hn.2 hp
  · exact (string_result hs.2 hp).choose_spec.choose_spec.2.2.2.2
  · obtain ⟨lit, r, v, -, -, -, -, he, -⟩ := word_result hw.2.2.2.2.2 hp
    exact he

/-- A successful `value` call leaves `error_str` unchanged, in both modes. -/
theorem value_errKeep (f : Nat) : ErrKeep (value f) := by
  induction f with
  | zero => intro scan ctx err p c' e' h; simp [value] at h
  | succ f ih => exact value_step_errKeep ih f

/-! ## The scan pass follows the materialize pass -/

/-- A successful number rule behaves alike in both modes. -/
theorem number_mode {ctx : JSON_PARSE_CTX} {err : List Nat} {scan : Bool} {p : Ptr}
    {c' : JSON_PARSE_CTX} {e' : List Nat} (h : number ctx err scan = (p, c', e'))
    (hp : p ≠ Ptr.NULL) (scan2 : Bool) (err2 : List Nat) :
    number ctx err2 scan2 = number_finish (mem ctx) c' err2 scan2 := by
  obtain ⟨sg, ip, fp, ep, hsg, hip, hfp, hep, hc, hr, hs1, hs2, hs3, -⟩ := number_sharp h hp
  rw [number_gen err2 scan2 hr hsg hip hfp hep hs1 hs2 hs3, hc]

theorem number_scanOfMat {ctx : JSON_PARSE_CTX} {err : List Nat} {p : Ptr}
    {c' : JSON_PARSE_CTX} {e' : List Nat} (h : number ctx err false = (p, c', e'))
    (hp : p ≠ Ptr.NULL) : number ctx err true = (Ptr.json_ok, c', e') := by
  rw [number_mode h hp true err, number_errKeep h hp]
  rfl

theorem word_scanOfMat {ctx : JSON_PARSE_CTX} {err : List Nat} {p : Ptr}
    {c' : JSON_PARSE_CTX} {e' : List Nat} (h : word ctx err false = (p, c', e'))
    (hp : p ≠ Ptr.NULL) : word ctx err true = (Ptr.json_ok, c', e') := by
  obtain ⟨lit, r, hrem, hl⟩ := word_sound h hp
  rcases hl with hl | hl | hl <;> subst hl
  · have h1 := (@word_complete ctx err false r).1 hrem
    rw [h] at h1
    simp only [Prod.mk.injEq] at h1
    rw [(@word_complete ctx err true r).1 hrem, h1.2.1, h1.2.2]; rfl
  · have h1 := (@word_complete ctx err false r).2.1 hrem
    rw [h] at h1
    simp only [Prod.mk.injEq] at h1
    rw [(@word_complete ctx err true r).2.1 hrem, h1.2.1, h1.2.2]; rfl
  · have h1 := (@word_complete ctx err false r).2.2 hrem
    rw [h] at h1
    simp only [Prod.mk.injEq] at h1
    rw [(@word_complete ctx err true r).2.2 hrem, h1.2.1, h1.2.2]; rfl

theorem string_scanOfMat {ctx : JSON_PARSE_CTX} {err : List Nat} {p : Ptr}
    {c' : JSON_PARSE_CTX} {e' : List Nat} (h : string ctx err false = some (p, c', e'))
    (hp : p ≠ Ptr.NULL) : string ctx err true = some (Ptr.json_ok, c', e') := by
  obtain ⟨items, r, hv, hrem, -, hc, he⟩ := string_result h hp
  rw [string_literal err true hv hrem, hc, he]
  rfl

/-- The two passes of `array` run in lockstep: started from the same state they end at
the same cursor, and the building pass fills as many slots as the sizing pass counts. -/
theorem array_passes_agree {vF : ValueFn} (hs : ScanOfMat vF) (start : JSON_PARSE_CTX)
    (f : Nat) : ∀ (ctx : JSON_PARSE_CTX) (err : List Nat) (n cnt : Nat)
      (data out : List JSON_VALUE) (c1 c2 : JSON_PARSE_CTX) (e1 e2 : List Nat),
      array_pass1 vF start f ctx err n = some (some cnt, c1, e1) →
      array_pass2 vF start f ctx err n data = some (some out, c2, e2) →
      c1 = c2 ∧ e1 = e2 ∧ cnt + data.length = n + out.length := by
  induction f with
  | zero => intro ctx err n cnt data out c1 c2 e1 e2 h; simp [array_pass1] at h
  | succ f ih =>
    intro ctx err n cnt data out c1 c2 e1 e2 h1 h2
    rcases array_pass1_inv h1 with ⟨a93, an, ac, ae⟩ | ⟨a93, -, -, p1, d1, x1, hv1, hp1, hrec1⟩
    · rcases array_pass2_inv h2 with ⟨-, bo, bc, be⟩ | ⟨b93, -⟩
      · subst an; subst bo
        exact ⟨by rw [ac, bc], by rw [ae, be], rfl⟩
      · exact absurd a93 b93
    · rcases array_pass2_inv h2 with ⟨b93, -⟩ | ⟨-, -, -, p2, d2, x2, hv2, hp2, hrec2⟩
      · exact absurd b93 a93
      · have hv2' := hs _ _ _ _ _ hv2 hp2
        rw [hv1] at hv2'
        simp only [Option.some.injEq, Prod.mk.injEq] at hv2'
        obtain ⟨-, hd, hx⟩ := hv2'
        subst hd; subst hx
        have := ih _ _ _ _ _ _ _ _ _ _ hrec1 hrec2
        refine ⟨this.1, this.2.1, ?_⟩
        have h3 := this.2.2
        simp only [List.length_append, List.length_singleton] at h3
        omega

theorem array_scanOfMat {vF : ValueFn} (hk : ErrKeep vF) (hs : ScanOfMat vF) {fuel : Nat}
    {ctx : JSON_PARSE_CTX} {err : List Nat} {p : Ptr} {c' : JSON_PARSE_CTX} {e' : List Nat}
    (h : array vF fuel ctx err false = some (p, c', e')) (hp : p ≠ Ptr.NULL) :
    array vF fuel ctx err true = some (Ptr.json_ok, c', e') := by
  obtain ⟨h91, count, c1, e1, h1, -, hm⟩ := array_inv h hp
  obtain ⟨data, h2, -⟩ := hm rfl
  have he1 := array_pass1_errKeep hk _ _ _ _ _ _ _ _ h1
  subst he1
  obtain ⟨hc, he, -⟩ := array_passes_agree hs _ _ _ _ _ _ _ _ _ _ _ _ h1 h2
  rw [array_of_scan h91 h1, hc, he]

theorem object_loop_scanOfMat {vF : ValueFn} (hs : ScanOfMat vF) (f : Nat) :
    ∀ (first : Bool) (ctx : JSON_PARSE_CTX) (err : List Nat) (kv kv' kv0 : MNCL_KV)
      (c' : JSON_PARSE_CTX) (e' : List Nat),
      object_loop vF false f first ctx err kv = some (some kv', c', e') →
      object_loop vF true f first ctx err kv0 = some (some kv0, c', e') := by
  induction f with
  | zero => intro first ctx err kv kv' kv0 c' e' h; simp [object_loop] at h
  | succ f ih =>
    intro first ctx err kv kv' kv0 c' e' h
    rcases object_loop_inv h with ⟨h125, -, hc, he⟩ |
      ⟨h125, hcm, items, r, p, c6, e6, hv, hrem, h58, hvf, hp, hrec⟩
    · rw [object_loop_done f first err kv0 h125, hc, he]
    · rw [object_loop_step f kv0 h125 hcm hv hrem h58 (hs _ _ _ _ _ hvf hp) (by simp)]
      exact ih _ _ _ _ _ _ _ _ hrec

theorem object_scanOfMat {vF : ValueFn} (hs : ScanOfMat vF) {fuel : Nat}
    {ctx : JSON_PARSE_CTX} {err : List Nat} {p : Ptr} {c' : JSON_PARSE_CTX} {e' : List Nat}
    (h : object vF fuel ctx err false = some (p, c', e')) (hp : p ≠ Ptr.NULL) :
    object vF fuel ctx err true = some (Ptr.json_ok, c', e') := by
  obtain ⟨h123, kv, h1, -⟩ := object_inv h hp
  rw [object_of h123 (object_loop_scanOfMat hs _ _ _ _ _ _ mncl_alloc_kv _ _ h1)]
  rfl

theorem value_step_scanOfMat {vF : ValueFn} (hk : ErrKeep vF) (hs : ScanOfMat vF)
    (fuel : Nat) : ScanOfMat (value_step vF fuel) := by
  intro ctx err p c' e' h hp
  obtain ⟨c1, hc, ho | ha | hn | hst | hw⟩ := value_step_inv h
  · rw [hc]; exact value_step_object ho.1 (object_scanOfMat hs ho.2 hp)
  · rw [hc]; exact value_step_array ha.1 (array_scanOfMat hk hs ha.2 hp)
  · rw [hc]; exact value_step_number hn.1 (number_scanOfMat hn.2 hp)
  · rw [hc]; exact value_step_string hst.1 (string_scanOfMat hst.2 hp)
  · rw [hc]
    exact value_step_word hw.1 hw.2.1 hw.2.2.1 hw.2.2.2.1 hw.2.2.2.2.1
      (word_scanOfMat hw.2.2.2.2.2 hp)

/-- Where `value` succeeds in materialize mode, it succeeds in scan mode from the same
state, and both end in the same state. -/
theorem value_scanOfMat (f : Nat) : ScanOfMat (value f) := by
  induction f with
  | zero => intro ctx err p c' e' h; simp [value] at h
  | succ f ih => exact value_step_scanOfMat (value_errKeep f) ih f

/-! ## Rules on embedded text -/

theorem Frame.readch_eq {d : Nat} {post post' : List Nat} {c1 c2 : JSON_PARSE_CTX}
    (h : Frame d post post' c1 c2) (h0 : (readch c1).1 ≠ 0) :
    (readch c2).1 = (readch c1).1 ∧ Frame d post post' (readch c1).2 (readch c2).2 := by
  rcases h.on_readch with ⟨-, hz⟩ | ⟨c, r, -, -, e1, e2, hF⟩
  · rw [hz] at h0; exact absurd rfl h0
  · rw [e1, e2]; exact ⟨rfl, hF⟩

theorem Frame.peek_eq {d : Nat} {post post' : List Nat} {c1 c2 : JSON_PARSE_CTX}
    (h : Frame d post post' c1 c2) (h0 : peekch c1 ≠ 0) : peekch c2 = peekch c1 := by
  rcases h.on_peekch with ⟨-, hz, -⟩ | ⟨-, he⟩
  · exact absurd hz h0
  · exact he

theorem Frame.peek_readch {d : Nat} {post post' : List Nat} {c1 c2 : JSON_PARSE_CTX}
    (h : Frame d post post' c1 c2) (h0 : peekch c1 ≠ 0) :
    Frame d post post' (readch c1).2 (readch c2).2 :=
  (h.readch_eq (by rw [readch_fst]; exact h0)).2

theorem number_finish_def (s : List Nat) (c : JSON_PARSE_CTX) (err : List Nat) (scan : Bool) :
    number_finish s c err scan =
      (if scan then Ptr.json_ok else Ptr.node (JSON_VALUE.number (strtod s)), c, err) := by
  unfold number_finish
  cases scan <;> rfl

theorem number_framed {d : Nat} {post post' : List Nat} {c1 c2 : JSON_PARSE_CTX}
    (hd : hardstop d = true) (hF : Frame d post post' c1 c2) {err : List Nat} {scan : Bool}
    {p : Ptr} {c1' : JSON_PARSE_CTX} {e' : List Nat}
    (h : number c1 err scan = (p, c1', e')) (hp : p ≠ Ptr.NULL) :
    ∃ c2', number c2 err scan = (p, c2', e') ∧ Frame d post post' c1' c2' := by
  obtain ⟨sg, ip, fp, ep, hsg, hip, hfp, hep, hc, hr, hs1, hs2, hs3, hfin⟩ := number_sharp h hp
  obtain ⟨-, -, hdg, -, -, h46, -, -, -, -, h101, h69, -⟩ := hardstop_facts hd
  have hr2 : rem c2 = sg ++ (ip ++ (fp ++ (ep ++ (rem c1' ++ d :: post)))) := by
    rw [hF.rem2, hr]; simp
  have hhd : (rem c1' ++ d :: post).headD 0 =
      if rem c1' = [] then d else (rem c1').headD 0 := by
    rw [headD_append]; rfl
  have t1 : isdigit ((rem c1' ++ d :: post).headD 0) = false := by
    rw [hhd]; split
    · exact hdg
    · exact hs1
  have t2 : ep = [] → (rem c1' ++ d :: post).headD 0 ≠ 101 ∧
      (rem c1' ++ d :: post).headD 0 ≠ 69 := by
    intro he; rw [hhd]; split
    · exact ⟨h101, h69⟩
    · exact hs2 he
  have t3 : fp = [] → ep = [] → (rem c1' ++ d :: post).headD 0 ≠ 46 := by
    intro hf he; rw [hhd]; split
    · exact h46
    · exact hs3 hf he
  have hN : rem c1 = (sg ++ (ip ++ (fp ++ ep))) ++ rem c1' := by rw [hr]; simp
  rw [number_finish_def] at hfin
  simp only [Prod.mk.injEq] at hfin
  refine ⟨steps (sg ++ (ip ++ (fp ++ ep))) c2, ?_, ?_⟩
  · rw [number_gen err scan hr2 hsg hip hfp hep t1 t2 t3, number_finish_def, hF.mem2,
      strtod_stop _ _ hd, ← hF.mem1, ← hfin.1, hfin.2.2]
  · rw [hc]; exact hF.after_steps hN

theorem word_framed {d : Nat} {post post' : List Nat} {c1 c2 : JSON_PARSE_CTX}
    (hF : Frame d post post' c1 c2) {err : List Nat} {scan : Bool}
    {p : Ptr} {c1' : JSON_PARSE_CTX} {e' : List Nat}
    (h : word c1 err scan = (p, c1', e')) (hp : p ≠ Ptr.NULL) :
    ∃ c2', word c2 err scan = (p, c2', e') ∧ Frame d post post' c1' c2' := by
  obtain ⟨lit, r, v, hrem, -, -, hc, he, hall⟩ := word_result h hp
  refine ⟨steps lit c2, ?_, ?_⟩
  · rw [hall c2 (r ++ d :: post) (by rw [hF.rem2, hrem, List.append_assoc]), he]
  · rw [hc]; exact hF.after_steps hrem

theorem string_framed {d : Nat} {post post' : List Nat} {c1 c2 : JSON_PARSE_CTX}
    (hF : Frame d post post' c1 c2) {err : List Nat} {scan : Bool}
    {p : Ptr} {c1' : JSON_PARSE_CTX} {e' : List Nat}
    (h : string c1 err scan = some (p, c1', e')) (hp : p ≠ Ptr.NULL) :
    ∃ c2', string c2 err scan = some (p, c2', e') ∧ Frame d post post' c1' c2' := by
  obtain ⟨items, r, hv, hrem, hpe, hc, he⟩ := string_result h hp
  have hrem2 : rem c2 = 34 :: (render items ++ 34 :: (r ++ d :: post)) := by
    rw [hF.rem2, hrem]; simp
  refine ⟨steps (34 :: (render items ++ [34])) c2, ?_, ?_⟩
  · rw [string_literal err scan hv hrem2, hpe, he]
  · rw [hc]
    exact @Frame.after_steps d post post' c1 c2 hF (34 :: (render items ++ [34])) r
      (by rw [hrem]; simp)

theorem array_pass1_framed {vF : ValueFn} (hv : Framed vF) {d : Nat} {post post' : List Nat}
    (hd : hardstop d = true) (s1 s2 : JSON_PARSE_CTX) (f : Nat) :
    ∀ (c1 c2 : JSON_PARSE_CTX) (err : List Nat) (n cnt : Nat) (c1' : JSON_PARSE_CTX)
      (e' : List Nat), Frame d post post' c1 c2 →
      array_pass1 vF s1 f c1 err n = some (some cnt, c1', e') →
      ∃ c2', array_pass1 vF s2 f c2 err n = some (some cnt, c2', e') ∧
        Frame d post post' c1' c2' := by
  induction f with
  | zero => intro c1 c2 err n cnt c1' e' _ h; simp [array_pass1] at h
  | succ f ih =>
    intro c1 c2 err n cnt c1' e' hF h
    rcases array_pass1_inv h with ⟨a93, an, ac, ae⟩ | ⟨a93, a0, a44, p, d1, x1, hvf, hp, hrec⟩
    · have hpk : peekch c1 ≠ 0 := by rw [a93]; decide
      refine ⟨(readch c2).2, ?_, ?_⟩
      · rw [array_pass1_done f err n (by rw [hF.peek_eq hpk]; exact a93), an, ae]
      · rw [ac]; exact hF.peek_readch hpk
    · have hpe := hF.peek_eq a0
      have hF1 : Frame d post post' (if n ≠ 0 then (readch c1).2 else c1)
          (if n ≠ 0 then (readch c2).2 else c2) := by
        by_cases hn : n ≠ 0
        · rw [if_pos hn, if_pos hn]; exact hF.peek_readch a0
        · rw [if_neg hn, if_neg hn]; exact hF
      obtain ⟨d2, hvf2, hF2⟩ := hv _ _ _ _ _ _ _ _ _ _ hd hF1 hvf hp
      obtain ⟨c2', hrec2, hF3⟩ := ih _ _ _ _ _ _ _ hF2 hrec
      refine ⟨c2', ?_, hF3⟩
      rw [array_pass1_step f (by rw [hpe]; exact a93) (by rw [hpe]; exact a0)
        (by rw [hpe]; exact a44) hvf2 hp]
      exact hrec2

theorem array_pass2_framed {vF : ValueFn} (hv : Framed vF) {d : Nat} {post post' : List Nat}
    (hd : hardstop d = true) (s1 s2 : JSON_PARSE_CTX) (f : Nat) :
    ∀ (c1 c2 : JSON_PARSE_CTX) (err : List Nat) (n : Nat) (data out : List JSON_VALUE)
      (c1' : JSON_PARSE_CTX) (e' : List Nat), Frame d post post' c1 c2 →
      array_pass2 vF s1 f c1 err n data = some (some out, c1', e') →
      ∃ c2', array_pass2 vF s2 f c2 err n data = some (some out, c2', e') ∧
        Frame d post post' c1' c2' := by
  induction f with
  | zero => intro c1 c2 err n data out c1' e' _ h; simp [array_pass2] at h
  | succ f ih =>
    intro c1 c2 err n data out c1' e' hF h
    rcases array_pass2_inv h with ⟨a93, an, ac, ae⟩ | ⟨a93, a0, a44, p, d1, x1, hvf, hp, hrec⟩
    · have hpk : peekch c1 ≠ 0 := by rw [a93]; decide
      refine ⟨(readch c2).2, ?_, ?_⟩
      · rw [array_pass2_done f err n data (by rw [hF.peek_eq hpk]; exact a93), an, ae]
      · rw [ac]; exact hF.peek_readch hpk
    · have hpe := hF.peek_eq a0
      have hF1 : Frame d post post' (if n ≠ 0 then (readch c1).2 else c1)
          (if n ≠ 0 then (readch c2).2 else c2) := by
        by_cases hn : n ≠ 0
        · rw [if_pos hn, if_pos hn]; exact hF.peek_readch a0
        · rw [if_neg hn, if_neg hn]; exact hF
      obtain ⟨d2, hvf2, hF2⟩ := hv _ _ _ _ _ _ _ _ _ _ hd hF1 hvf hp
      obtain ⟨c2', hrec2, hF3⟩ := ih _ _ _ _ _ _ _ _ hF2 hrec
      refine ⟨c2', ?_, hF3⟩
      rw [array_pass2_step f data (by rw [hpe]; exact a93) (by rw [hpe]; exact a0)
        (by rw [hpe]; exact a44) hvf2 hp]
      exact hrec2

theorem array_framed {vF : ValueFn} (hv : Framed vF) {d : Nat} {post post' : List Nat}
    (hd : hardstop d = true) {fuel : Nat} {c1 c2 : JSON_PARSE_CTX}
    (hF : Frame d post post' c1 c2) {err : List Nat} {scan : Bool}
    {p : Ptr} {c1' : JSON_PARSE_CTX} {e' : List Nat}
    (h : array vF fuel c1 err scan = some (p, c1', e')) (hp : p ≠ Ptr.NULL) :
    ∃ c2', array vF fuel c2 err scan = some (p, c2', e') ∧ Frame d post post' c1' c2' := by
  obtain ⟨h91, count, d1, x1, h1, hs, hm⟩ := array_inv h hp
  obtain ⟨hr2, hFr⟩ := hF.readch_eq (by rw [h91]; decide)
  have hFs := hFr.after_space hd
  obtain ⟨d2, h12, hF1⟩ := array_pass1_framed hv hd c1 c2 _ _ _ _ _ _ _ _ hFs h1
  cases scan with
  | true =>
    obtain ⟨hp1, hc, he⟩ := hs rfl
    refine ⟨d2, ?_, by rw [hc]; exact hF1⟩
    rw [array_of_scan (by rw [hr2, h91]) h12, hp1, he]
  | false =>
    obtain ⟨data, h2, hp2⟩ := hm rfl
    obtain ⟨c2', h22, hF2⟩ := array_pass2_framed hv hd c1 c2 _ _ _ _ _ _ _ _ _ hFs h2
    refine ⟨c2', ?_, hF2⟩
    rw [array_of_mat (by rw [hr2, h91]) h12 h22, hp2]

theorem object_loop_framed {vF : ValueFn} (hv : Framed vF) {d : Nat} {post post' : List Nat}
    (hd : hardstop d = true) (scan : Bool) (f : Nat) :
    ∀ (first : Bool) (c1 c2 : JSON_PARSE_CTX) (err : List Nat) (kv kv' : MNCL_KV)
      (c1' : JSON_PARSE_CTX) (e' : List Nat), Frame d post post' c1 c2 →
      object_loop vF scan f first c1 err kv = some (some kv', c1', e') →
      ∃ c2', object_loop vF scan f first c2 err kv = some (some kv', c2', e') ∧
        Frame d post post' c1' c2' := by
  induction f with
  | zero => intro first c1 c2 err kv kv' c1' e' _ h; simp [object_loop] at h
  | succ f ih =>
    intro first c1 c2 err kv kv' c1' e' hF h
    have hFs := hF.after_space hd
    rcases object_loop_inv h with ⟨a125, akv, ac, ae⟩ |
      ⟨a125, a44, items, r, p, c6, e6, hvi, hrem, h58, hvf, hp, hrec⟩
    · have hpk : peekch (space c1) ≠ 0 := by rw [a125]; decide
      refine ⟨(readch (space c2)).2, ?_, ?_⟩
      · rw [object_loop_done f first err kv (by rw [hFs.peek_eq hpk]; exact a125), akv, ae]
      · rw [ac]; exact hFs.peek_readch hpk
    · have hpk : peekch (space c1) ≠ 0 := by
        cases first with
        | true =>
          simp only [if_true] at hrem
          rw [peekch_cons hrem]; decide
        | false => rw [a44 rfl]; decide
      have hpe := hFs.peek_eq hpk
      have hF1 : Frame d post post'
          (if first then space c1 else space (readch (space c1)).2)
          (if first then space c2 else space (readch (space c2)).2) := by
        cases first with
        | true => exact hFs
        | false => exact (hFs.peek_readch hpk).after_space hd
      have hrem2 : rem (if first then space c2 else space (readch (space c2)).2) =
          34 :: (render items ++ 34 :: (r ++ d :: post)) := by
        rw [hF1.rem2, hrem]; simp
      have hF3 := (@Frame.after_steps d post post' _ _ hF1 (34 :: (render items ++ [34])) r
        (by rw [hrem]; simp)).after_space hd
      obtain ⟨h58', hF5⟩ := hF3.readch_eq (by rw [h58]; decide)
      obtain ⟨d6, hvf2, hF6⟩ := hv _ _ _ _ _ _ _ _ _ _ hd hF5 hvf hp
      obtain ⟨c2', hrec2, hF7⟩ := ih _ _ _ _ _ _ _ _ hF6 hrec
      refine ⟨c2', ?_, hF7⟩
      rw [object_loop_step f kv (by rw [hpe]; exact a125) (by rw [hpe]; exact a44) hvi hrem2
        (by rw [h58', h58]) hvf2 hp]
      exact hrec2

theorem object_framed {vF : ValueFn} (hv : Framed vF) {d : Nat} {post post' : List Nat}
    (hd : hardstop d = true) {fuel : Nat} {c1 c2 : JSON_PARSE_CTX}
    (hF : Frame d post post' c1 c2) {err : List Nat} {scan : Bool}
    {p : Ptr} {c1' : JSON_PARSE_CTX} {e' : List Nat}
    (h : object vF fuel c1 err scan = some (p, c1', e')) (hp : p ≠ Ptr.NULL) :
    ∃ c2', object vF fuel c2 err scan = some (p, c2', e') ∧ Frame d post post' c1' c2' := by
  obtain ⟨h123, kv, h1, hpe⟩ := object_inv h hp
  obtain ⟨hr2, hFr⟩ := hF.readch_eq (by rw [h123]; decide)
  obtain ⟨c2', h2, hF2⟩ := object_loop_framed hv hd scan fuel _ _ _ _ _ _ _ _ hFr h1
  refine ⟨c2', ?_, hF2⟩
  rw [object_of (by rw [hr2, h123]) h2, hpe]

theorem value_step_framed {vF : ValueFn} (hv : Framed vF) (fuel : Nat) :
    Framed (value_step vF fuel) := by
  intro d post post' scan c1 c2 err p c1' e' hd hF h hp
  have hFs := hF.after_space hd
  obtain ⟨x1, hc, ho | ha | hn | hst | hw⟩ := value_step_inv h
  · obtain ⟨x2, h2, hF2⟩ := object_framed hv hd hFs ho.2 hp
    have hpk : peekch (space c1) ≠ 0 := by rw [ho.1]; decide
    exact ⟨space x2, value_step_object (by rw [hFs.peek_eq hpk]; exact ho.1) h2,
      by rw [hc]; exact hF2.after_space hd⟩
  · obtain ⟨x2, h2, hF2⟩ := array_framed hv hd hFs ha.2 hp
    have hpk : peekch (space c1) ≠ 0 := by rw [ha.1]; decide
    exact ⟨space x2, value_step_array (by rw [hFs.peek_eq hpk]; exact ha.1) h2,
      by rw [hc]; exact hF2.after_space hd⟩
  · obtain ⟨x2, h2, hF2⟩ := number_framed hd hFs hn.2 hp
    have hpk : peekch (space c1) ≠ 0 := by
      rcases hn.1 with h' | h'
      · rw [h']; decide
      · exact isdigit_ne_zero h'
    exact ⟨space x2, value_step_number (by rw [hFs.peek_eq hpk]; exact hn.1) h2,
      by rw [hc]; exact hF2.after_space hd⟩
  · obtain ⟨x2, h2, hF2⟩ := string_framed hFs hst.2 hp
    have hpk : peekch (space c1) ≠ 0 := by rw [hst.1]; decide
    exact ⟨space x2, value_step_string (by rw [hFs.peek_eq hpk]; exact hst.1) h2,
      by rw [hc]; exact hF2.after_space hd⟩
  · obtain ⟨x2, h2, hF2⟩ := word_framed hFs hw.2.2.2.2.2 hp
    have hpk : peekch (space c1) ≠ 0 := by
      obtain ⟨lit, r, hrem, hl⟩ := word_sound hw.2.2.2.2.2 hp
      rw [peekch_rem, hrem]
      rcases hl with hl | hl | hl <;> subst hl <;> simp [bytes]
    have hpe := hFs.peek_eq hpk
    exact ⟨space x2, value_step_word (by rw [hpe]; exact hw.1) (by rw [hpe]; exact hw.2.1)
      (by rw [hpe]; exact hw.2.2.1) (by rw [hpe]; exact hw.2.2.2.1)
      (by rw [hpe]; exact hw.2.2.2.2.1) h2, by rw [hc]; exact hF2.after_space hd⟩

/-- A successful `value` call on a text taken on its own succeeds with the same result
on the text embedded in front of a separator, and stops in front of the separator. -/
theorem value_framed (f : Nat) : Framed (value f) := by
  induction f with
  | zero => intro d post post' scan c1 c2 err p c1' e' _ _ h; simp [value] at h
  | succ f ih => exact value_step_framed ih f

/-! ## More fuel changes nothing -/

theorem array_pass1_below {vF vG : ValueFn} (hb : Below vF vG) (start : JSON_PARSE_CTX)
    (f : Nat) : ∀ (ctx : JSON_PARSE_CTX) (err : List Nat) (n : Nat)
      (o : Option Nat × JSON_PARSE_CTX × List Nat),
      array_pass1 vF start f ctx err n = some o →
      array_pass1 vG start (f + 1) ctx err n = some o := by
  induction f with
  | zero => intro ctx err n o h; simp [array_pass1] at h
  | succ f ih =>
    intro ctx err n o h
    rw [array_pass1] at h ⊢
    simp only [] at h ⊢
    by_cases h93 : peekch ctx = 93
    · simpa only [h93, if_true] using h
    simp only [h93, if_false] at h ⊢
    by_cases h0 : peekch ctx = 0
    · simpa only [h0, if_true] using h
    simp only [h0, if_false] at h ⊢
    by_cases hc : n ≠ 0 ∧ peekch ctx ≠ 44
    · simpa only [if_pos hc] using h
    rw [if_neg hc] at h ⊢
    cases hv : vF true (if n ≠ 0 then (readch ctx).2 else ctx) err with
    | none => rw [hv] at h; simp at h
    | some x =>
      rw [hb _ _ _ _ hv]
      rw [hv] at h
      obtain ⟨p, c2, e2⟩ := x
      cases p with
      | NULL => exact h
      | json_ok => exact ih _ _ _ _ h
      | node v => exact ih _ _ _ _ h

theorem array_pass2_below {vF vG : ValueFn} (hb : Below vF vG) (start : JSON_PARSE_CTX)
    (f : Nat) : ∀ (ctx : JSON_PARSE_CTX) (err : List Nat) (n : Nat) (data : List JSON_VALUE)
      (o : Option (List JSON_VALUE) × JSON_PARSE_CTX × List Nat),
      array_pass2 vF start f ctx err n data = some o →
      array_pass2 vG start (f + 1) ctx err n data = some o := by
  induction f with
  | zero => intro ctx err n data o h; simp [array_pass2] at h
  | succ f ih =>
    intro ctx err n data o h
    rw [array_pass2] at h ⊢
    simp only [] at h ⊢
    by_cases h93 : peekch ctx = 93
    · simpa only [h93, if_true] using h
    simp only [h93, if_false] at h ⊢
    by_cases h0 : peekch ctx = 0
    · simpa only [h0, if_true] using h
    simp only [h0, if_false] at h ⊢
    by_cases hc : n ≠ 0 ∧ peekch ctx ≠ 44
    · simpa only [if_pos hc] using h
    rw [if_neg hc] at h ⊢
    cases hv : vF false (if n ≠ 0 then (readch ctx).2 else ctx) err with
    | none => rw [hv] at h; simp at h
    | some x =>
      rw [hb _ _ _ _ hv]
      rw [hv] at h
      obtain ⟨p, c2, e2⟩ := x
      cases p with
      | NULL => exact h
      | json_ok => exact ih _ _ _ _ _ h
      | node v => exact ih _ _ _ _ _ h

theorem array_below {vF vG : ValueFn} (hb : Below vF vG) (f : Nat) (ctx : JSON_PARSE_CTX)
    (err : List Nat) (scan : Bool) (o : Outcome) (h : array vF f ctx err scan = some o) :
    array vG (f + 1) ctx err scan = some o := by
  unfold array at h ⊢
  simp only [] at h ⊢
  by_cases h91 : (readch ctx).1 ≠ 91
  · simpa only [if_pos h91] using h
  rw [if_neg h91] at h ⊢
  cases h1 : array_pass1 vF ctx f (space (readch ctx).2) err 0 with
  | none => rw [h1] at h; simp at h
  | some x =>
    rw [array_pass1_below hb _ _ _ _ _ _ h1]
    rw [h1] at h
    obtain ⟨oc, c1, e1⟩ := x
    cases oc with
    | none => exact h
    | some count =>
      simp only [] at h ⊢
      cases scan with
      | true => exact h
      | false =>
        simp only [Bool.false_eq_true, if_false] at h ⊢
        cases h2 : array_pass2 vF ctx f (space (readch ctx).2) e1 0 [] with
        | none => rw [h2] at h; simp at h
        | some y =>
          rw [array_pass2_below hb _ _ _ _ _ _ _ h2]
          rw [h2] at h
          exact h

theorem object_loop_below {vF vG : ValueFn} (hb : Below vF vG) (scan : Bool)
    (f : Nat) : ∀ (first : Bool) (ctx : JSON_PARSE_CTX) (err : List Nat) (kv : MNCL_KV)
      (o : Option MNCL_KV × JSON_PARSE_CTX × List Nat),
      object_loop vF scan f first ctx err kv = some o →
      object_loop vG scan (f + 1) first ctx err kv = some o := by
  induction f with
  | zero => intro first ctx err kv o h; simp [object_loop] at h
  | succ f ih =>
    intro first ctx err kv o h
    rw [object_loop] at h ⊢
    simp only [] at h ⊢
    by_cases h125 : peekch (space ctx) = 125
    · simpa only [h125, if_true] using h
    simp only [h125, if_false] at h ⊢
    by_cases hc : first = false ∧ peekch (space ctx) ≠ 44
    · simpa only [if_pos hc] using h
    rw [if_neg hc] at h ⊢
    cases hs : json_str_size (if first then space ctx else space (readch (space ctx)).2)
      err scan with
    | mk os rest =>
      obtain ⟨c2, e2⟩ := rest
      rw [hs] at h
      cases os with
      | none => exact h
      | some n =>
        simp only [] at h ⊢
        have key : ∀ (cp : Option (List Nat × JSON_PARSE_CTX × List Nat)),
            (match cp with
              | none => none
              | some (curkey, ctx3, err3) =>
                if (readch (space ctx3)).1 ≠ 58 then
                  some (none, (readch (space ctx3)).2,
                    diag (readch (space ctx3)).2.line (readch (space ctx3)).2.col
                      (bytes "Expected " ++ [39, 58, 39]))
                else
                  match vF scan (readch (space ctx3)).2 err3 with
                  | none => none
                  | some (Ptr.NULL, ctx6, err6) => some (none, ctx6, err6)
                  | some (p, ctx6, err6) =>
                    object_loop vF scan f false ctx6 err6
                      (if scan then kv else mncl_kv_insert kv (cstr curkey) p.deref)) = some o →
            (match cp with
              | none => none
              | some (curkey, ctx3, err3) =>
                if (readch (space ctx3)).1 ≠ 58 then
                  some (none, (readch (space ctx3)).2,
                    diag (readch (space ctx3)).2.line (readch (space ctx3)).2.col
                      (bytes "Expected " ++ [39, 58, 39]))
                else
                  match vG scan (readch (space ctx3)).2 err3 with
                  | none => none
                  | some (Ptr.NULL, ctx6, err6) => some (none, ctx6, err6)
                  | some (p, ctx6, err6) =>
                    object_loop vG scan (f + 1) false ctx6 err6
                      (if scan then kv else mncl_kv_insert kv (cstr curkey) p.deref)) = some o := by
          intro cp hcp
          cases cp with
          | none => simp at hcp
          | some t =>
            obtain ⟨curkey, ctx3, err3⟩ := t
            simp only [] at hcp ⊢
            by_cases h58 : (readch (space ctx3)).1 ≠ 58
            · simpa only [if_pos h58] using hcp
            rw [if_neg h58] at hcp ⊢
            cases hv : vF scan (readch (space ctx3)).2 err3 with
            | none => rw [hv] at hcp; simp at hcp
            | some x =>
              rw [hb _ _ _ _ hv]
              rw [hv] at hcp
              obtain ⟨p, c6, e6⟩ := x
              cases p with
              | NULL => exact hcp
              | json_ok => exact ih _ _ _ _ _ hcp
              | node v => exact ih _ _ _ _ _ hcp
        exact key _ h

theorem object_below {vF vG : ValueFn} (hb : Below vF vG) (f : Nat) (ctx : JSON_PARSE_CTX)
    (err : List Nat) (scan : Bool) (o : Outcome) (h : object vF f ctx err scan = some o) :
    object vG (f + 1) ctx err scan = some o := by
  unfold object at h ⊢
  simp only [] at h ⊢
  by_cases h123 : (readch ctx).1 ≠ 123
  · simpa only [if_pos h123] using h
  rw [if_neg h123] at h ⊢
  cases h1 : object_loop vF scan f true (readch ctx).2 err mncl_alloc_kv with
  | none => rw [h1] at h; simp at h
  | some x =>
    rw [object_loop_below hb _ _ _ _ _ _ _ h1]
    rw [h1] at h
    exact h

theorem value_step_below {vF vG : ValueFn} (hb : Below vF vG) (f : Nat) :
    Below (value_step vF f) (value_step vG (f + 1)) := by
  intro scan ctx err o h
  unfold value_step at h ⊢
  simp only [] at h ⊢
  have key : ∀ (r1 r2 : Option Outcome), (∀ x, r1 = some x → r2 = some x) →
      (match r1 with
        | none => none
        | some (p, ctx1, err1) => some (p, space ctx1, err1)) = some o →
      (match r2 with
        | none => none
        | some (p, ctx1, err1) => some (p, space ctx1, err1)) = some o := by
    intro r1 r2 h12 h1
    cases r1 with
    | none => simp at h1
    | some x => rw [h12 x rfl]; exact h1
  refine key _ _ ?_ h
  intro x hx
  by_cases h123 : peekch (space ctx) = 123
  · rw [if_pos h123] at hx ⊢; exact object_below hb _ _ _ _ _ hx
  rw [if_neg h123] at hx ⊢
  by_cases h91 : peekch (space ctx) = 91
  · rw [if_pos h91] at hx ⊢; exact array_below hb _ _ _ _ _ hx
  rw [if_neg h91] at hx ⊢
  exact hx

/-- A result obtained with some fuel is obtained with every larger fuel. -/
theorem value_below_succ (f : Nat) : Below (value f) (value (f + 1)) := by
  induction f with
  | zero => intro scan ctx err o h; simp [value] at h
  | succ f ih => exact value_step_below ih f

theorem value_mono {f g : Nat} (hfg : f ≤ g) : Below (value f) (value g) := by
  induction hfg with
  | refl => intro scan ctx err o h; exact h
  | step _ ih => intro scan ctx err o h; exact value_below_succ _ _ _ _ _ (ih _ _ _ _ h)

/-! ## Lookup on values that are not objects -/

/-- C12: `json_lookup` yields not-found (`NULL`) for the null handle and for every value
whose tag is Null, Boolean, Number, String or Array, whatever the key; the parse of
`null` is a Null value, on which the lookup of any key is not-found. -/
theorem json_lookup_non_object (key : List Nat) :
    json_lookup Ptr.NULL key = Ptr.NULL
      ∧ json_lookup (Ptr.node JSON_VALUE.null) key = Ptr.NULL
      ∧ (∀ b, json_lookup (Ptr.node (JSON_VALUE.boolean b)) key = Ptr.NULL)
      ∧ (∀ x, json_lookup (Ptr.node (JSON_VALUE.number x)) key = Ptr.NULL)
      ∧ (∀ s, json_lookup (Ptr.node (JSON_VALUE.string s)) key = Ptr.NULL)
      ∧ (∀ n data, json_lookup (Ptr.node (JSON_VALUE.array n data)) key = Ptr.NULL)
      ∧ (∀ f, ∃ v, json_parse (f + 1) (bytes "null") 4 = some (Ptr.node v, [])
          ∧ v = JSON_VALUE.null ∧ json_lookup (Ptr.node v) key = Ptr.NULL) := by
  refine ⟨rfl, rfl, fun _ => rfl, fun _ => rfl, fun _ => rfl, fun _ _ => rfl, ?_⟩
  intro f
  refine ⟨JSON_VALUE.null, ?_, rfl, rfl⟩
  have hw := (@word_complete (ctx_init (bytes "null") 4) [] false []).1 (by rfl)
  have hv : value (f + 1) false (ctx_init (bytes "null") 4) [] =
      some (Ptr.node JSON_VALUE.null, space (steps (bytes "null") (ctx_init (bytes "null") 4)),
        []) := by
    have := @value_of_word f false (ctx_init (bytes "null") 4) []
      (by rw [space_id (by rfl)]; decide) (by rw [space_id (by rfl)]; decide)
      (by rw [space_id (by rfl)]; decide) (by rw [space_id (by rfl)]; decide)
      (by rw [space_id (by rfl)]; rfl)
    rw [this, space_id (by rfl), hw]
    rfl
  exact json_parse_of_node hv (by rfl)

/-! ## The value a number receives -/

/-- C13: the buffer holds the single byte `1` and the memory behind it holds `2`: the
number rule consumes `1`, and the stored Number is the conversion of `12`, not of the
consumed text `1`. -/
theorem number_reads_past_buffer :
    json_parse 1 [49, 50] 1 = some (Ptr.node (JSON_VALUE.number [49, 50]), [])
      ∧ number (ctx_init [49, 50] 1) [] false =
          (Ptr.node (JSON_VALUE.number [49, 50]), steps [49] (ctx_init [49, 50] 1), [])
      ∧ rem (ctx_init [49, 50] 1) = [49]
      ∧ strtod [49] = [49]
      ∧ number (ctx_init (bytes "0x1F") 4) [] false =
          (Ptr.node (JSON_VALUE.number (bytes "0x1F")), steps [48] (ctx_init (bytes "0x1F") 4),
            []) := by
  refine ⟨by rfl, by rfl, by rfl, by rfl, by rfl⟩

/-! ## The decoded bytes of a string -/

theorem esc_byte_ne_zero {x : Nat} (hx : x ∈ simple_escapes) : esc_byte x ≠ 0 := by
  simp only [simple_escapes, List.mem_cons, List.mem_singleton, List.not_mem_nil,
    or_false] at hx
  rcases hx with h | h | h | h | h | h | h | h <;> subst h <;> decide

theorem utf8_encode_ne_zero {cp : Nat} (h0 : cp ≠ 0) : ∀ b ∈ utf8_encode cp, b ≠ 0 := by
  intro b hb
  unfold utf8_encode at hb
  split_ifs at hb <;> simp at hb <;> omega

theorem Item.decode_item_ne_zero {it : Item} (hv : it.valid) : ∀ b ∈ it.decode, b ≠ 0 := by
  intro b hb
  cases it with
  | plain c =>
    simp only [Item.decode, List.mem_singleton] at hb
    have := hv.1
    omega
  | esc x =>
    simp only [Item.decode, List.mem_singleton] at hb
    rw [hb]
    exact esc_byte_ne_zero hv
  | uni h1 h2 h3 h4 =>
    obtain ⟨x1, x2, x3, x4, hne⟩ := hv
    simp only [Item.decode] at hb
    rw [utf8_store_eq (hex4_lt x1 x2 x3 x4)] at hb
    exact utf8_encode_ne_zero hne b hb

theorem decode_ne_zero {items : List Item} (hv : ∀ it ∈ items, it.valid) :
    ∀ b ∈ decode items, b ≠ 0 := by
  induction items with
  | nil => intro b hb; simp [decode] at hb
  | cons it items ih =>
    intro b hb
    rw [decode_cons, List.mem_append] at hb
    rcases hb with hb | hb
    · exact Item.decode_item_ne_zero (hv it (List.mem_cons_self _ _)) b hb
    · exact ih (fun j hj => hv j (List.mem_cons_of_mem _ hj)) b hb

theorem cstr_append_zero {l : List Nat} (h : ∀ b ∈ l, b ≠ 0) (t : List Nat) :
    cstr (l ++ 0 :: t) = l := by
  induction l with
  | nil => simp [cstr]
  | cons a l ih =>
    have ha : a ≠ 0 := h a (List.mem_cons_self _ _)
    have := ih (fun b hb => h b (List.mem_cons_of_mem _ hb))
    simp only [cstr] at this ⊢
    simp [List.takeWhile_cons, ha, this]

/-- C16: from every cursor at which `json_str_size` returns a count `n` (in either
mode), `json_strcpy` returns 1, the bytes it stores are `n` decoded bytes at the offsets
`0..n-1` and one zero byte at offset `n`, nothing more, and it leaves the cursor just
past the closing quote, where `json_str_size` leaves it in scan mode. -/
theorem json_strcpy_after_size (ctx : JSON_PARSE_CTX) (err : List Nat) (scan : Bool) (n : Nat)
    (c' : JSON_PARSE_CTX) (e' : List Nat)
    (h : json_str_size ctx err scan = (some n, c', e')) :
    ∃ written c2, json_strcpy ctx err = some (1, written, c2, err)
      ∧ written.length = n + 1
      ∧ written.drop n = [0]
      ∧ json_str_size ctx err true = (some n, c2, err)
      ∧ ∃ items r, rem ctx = 34 :: (render items ++ 34 :: r)
          ∧ c2 = steps (34 :: (render items ++ [34])) ctx ∧ rem c2 = r
          ∧ written = decode items ++ [0] := by
  obtain ⟨items, r, hv, hrem, hn, -, -⟩ := json_str_size_sound h
  refine ⟨decode items ++ [0], steps (34 :: (render items ++ [34])) ctx,
    json_strcpy_literal err hv hrem, by simp [hn], by simp [hn], ?_, items, r, hrem, rfl, ?_, rfl⟩
  · rw [json_str_size_literal err true hv hrem, hn]
    rfl
  · apply rem_steps
    rw [hrem]
    simp

theorem json_strcpy_after_size_witness :
    ∃ written c2, json_strcpy (ctx_init (bytes "\"ab\"") 4) [] = some (1, written, c2, [])
      ∧ written.length = 2 + 1
      ∧ written.drop 2 = [0]
      ∧ json_str_size (ctx_init (bytes "\"ab\"") 4) [] true = (some 2, c2, [])
      ∧ ∃ items r, rem (ctx_init (bytes "\"ab\"") 4) = 34 :: (render items ++ 34 :: r)
          ∧ c2 = steps (34 :: (render items ++ [34])) (ctx_init (bytes "\"ab\"") 4) ∧ rem c2 = r
          ∧ written = decode items ++ [0] :=
  json_strcpy_after_size (ctx_init (bytes "\"ab\"") 4) [] false 2 (ctx_init (bytes "\"ab\"") 4) []
    (by rfl)

/-- C20: where the size scan of a string succeeds with result `n`, the string rule in
materialize mode stores a block whose first `n` bytes are all non-zero and whose byte
`n` is zero, so the C string in the block (the payload of the String value, and the key
an object inserts) has length `n`. -/
theorem decoded_string_has_no_nul (ctx : JSON_PARSE_CTX) (err : List Nat) (scan : Bool)
    (n : Nat) (c' : JSON_PARSE_CTX) (e' : List Nat)
    (h : json_str_size ctx err scan = (some n, c', e')) :
    ∃ written c2, json_strcpy ctx err = some (1, written, c2, err)
      ∧ string ctx err false = some (Ptr.node (JSON_VALUE.string written), c2, err)
      ∧ (∀ b ∈ written.take n, b ≠ 0)
      ∧ written.drop n = [0]
      ∧ cstr written = written.take n
      ∧ (cstr written).length = n := by
  obtain ⟨items, r, hv, hrem, hn, -, -⟩ := json_str_size_sound h
  have hz := decode_ne_zero hv
  have hc : cstr (decode items ++ [0]) = decode items := cstr_append_zero hz []
  refine ⟨decode items ++ [0], steps (34 :: (render items ++ [34])) ctx,
    json_strcpy_literal err hv hrem, ?_, ?_, by simp [hn], ?_, ?_⟩
  · rw [string_literal err false hv hrem]
    rfl
  · intro b hb
    rw [hn, List.take_left] at hb
    exact hz b hb
  · rw [hc, hn, List.take_left]
  · rw [hc, hn]

theorem decoded_string_has_no_nul_witness :
    ∃ written c2, json_strcpy (ctx_init (bytes "\"a\\n\"") 5) [] = some (1, written, c2, [])
      ∧ string (ctx_init (bytes "\"a\\n\"") 5) [] false =
          some (Ptr.node (JSON_VALUE.string written), c2, [])
      ∧ (∀ b ∈ written.take 2, b ≠ 0)
      ∧ written.drop 2 = [0]
      ∧ cstr written = written.take 2
      ∧ (cstr written).length = 2 :=
  decoded_string_has_no_nul (ctx_init (bytes "\"a\\n\"") 5) [] true 2
    (steps (bytes "\"a\\n\"") (ctx_init (bytes "\"a\\n\"") 5)) [] (by rfl)

/-! ## The materialize pass follows the scan pass -/

theorem number_matOfScan {ctx : JSON_PARSE_CTX} {err : List Nat} {p : Ptr}
    {c' : JSON_PARSE_CTX} {e' : List Nat} (h : number ctx err true = (p, c', e'))
    (hp : p ≠ Ptr.NULL) : ∃ v, number ctx err false = (Ptr.node v, c', e') := by
  refine ⟨JSON_VALUE.number (strtod (mem ctx)), ?_⟩
  rw [number_mode h hp false err, number_errKeep h hp]
  rfl

theorem word_matOfScan {ctx : JSON_PARSE_CTX} {err : List Nat} {p : Ptr}
    {c' : JSON_PARSE_CTX} {e' : List Nat} (h : word ctx err true = (p, c', e'))
    (hp : p ≠ Ptr.NULL) : ∃ v, word ctx err false = (Ptr.node v, c', e') := by
  obtain ⟨lit, r, hrem, hl⟩ := word_sound h hp
  rcases hl with hl | hl | hl <;> subst hl
  · have h1 := (@word_complete ctx err true r).1 hrem
    rw [h] at h1
    simp only [Prod.mk.injEq] at h1
    exact ⟨_, by rw [(@word_complete ctx err false r).1 hrem, h1.2.1, h1.2.2]; rfl⟩
  · have h1 := (@word_complete ctx err true r).2.1 hrem
    rw [h] at h1
    simp only [Prod.mk.injEq] at h1
    exact ⟨_, by rw [(@word_complete ctx err false r).2.1 hrem, h1.2.1, h1.2.2]; rfl⟩
  · have h1 := (@word_complete ctx err true r).2.2 hrem
    rw [h] at h1
    simp only [Prod.mk.injEq] at h1
    exact ⟨_, by rw [(@word_complete ctx err false r).2.2 hrem, h1.2.1, h1.2.2]; rfl⟩

theorem string_matOfScan {ctx : JSON_PARSE_CTX} {err : List Nat} {p : Ptr}
    {c' : JSON_PARSE_CTX} {e' : List Nat} (h : string ctx err true = some (p, c', e'))
    (hp : p ≠ Ptr.NULL) : ∃ v, string ctx err false = some (Ptr.node v, c', e') := by
  obtain ⟨items, r, hv, hrem, -, hc, he⟩ := string_result h hp
  exact ⟨_, by rw [string_literal err false hv hrem, hc, he]; rfl⟩

/-- Where the sizing pass of `array` leaves through `]` with a count, the building pass
started from the same state leaves through `]` at the same cursor, having filled one
slot per counted element. -/
theorem array_pass2_of_pass1 {vF : ValueFn} (hm : MatOfScan vF) (start : JSON_PARSE_CTX)
    (f : Nat) : ∀ (ctx : JSON_PARSE_CTX) (err : List Nat) (n cnt : Nat)
      (data : List JSON_VALUE) (c1 : JSON_PARSE_CTX) (e1 : List Nat),
      array_pass1 vF start f ctx err n = some (some cnt, c1, e1) →
      ∃ out, array_pass2 vF start f ctx err n data = some (some out, c1, e1) ∧
        out.length + n = data.length + cnt ∧ n ≤ cnt := by
  induction f with
  | zero => intro ctx err n cnt data c1 e1 h; simp [array_pass1] at h
  | succ f ih =>
    intro ctx err n cnt data c1 e1 h1
    rcases array_pass1_inv h1 with ⟨a93, an, ac, ae⟩ | ⟨a93, a0, ac, p1, d1, x1, hv1, hp1, hrec1⟩
    · refine ⟨data, ?_, by omega, by omega⟩
      rw [array_pass2_done f err n data a93, ac, ae]
    · obtain ⟨v, hv2⟩ := hm _ _ _ _ _ hv1 hp1
      obtain ⟨out, ho, hl, hle⟩ := ih d1 x1 (n + 1) cnt (data ++ [(Ptr.node v).deref]) c1 e1 hrec1
      refine ⟨out, ?_, ?_, by omega⟩
      · rw [array_pass2_step f data a93 a0 ac hv2 (by simp)]
        exact ho
      · simp only [List.length_append, List.length_singleton] at hl
        omega

theorem array_matOfScan {vF : ValueFn} (hk : ErrKeep vF) (hm : MatOfScan vF) {fuel : Nat}
    {ctx : JSON_PARSE_CTX} {err : List Nat} {p : Ptr} {c' : JSON_PARSE_CTX} {e' : List Nat}
    (h : array vF fuel ctx err true = some (p, c', e')) (hp : p ≠ Ptr.NULL) :
    ∃ v, array vF fuel ctx err false = some (Ptr.node v, c', e') := by
  obtain ⟨h91, count, c1, e1, h1, hs, -⟩ := array_inv h hp
  obtain ⟨-, hc, he⟩ := hs rfl
  subst hc; subst he
  have he1 := array_pass1_errKeep hk _ _ _ _ _ _ _ _ h1
  obtain ⟨out, h2, -, -⟩ := array_pass2_of_pass1 hm ctx fuel _ _ _ _ [] _ _ h1
  refine ⟨JSON_VALUE.array count out, ?_⟩
  apply array_of_mat h91 h1
  subst he1
  exact h2

theorem object_loop_matOfScan {vF : ValueFn} (hm : MatOfScan vF) (f : Nat) :
    ∀ (first : Bool) (ctx : JSON_PARSE_CTX) (err : List Nat) (kv0 kv0' kv : MNCL_KV)
      (c' : JSON_PARSE_CTX) (e' : List Nat),
      object_loop vF true f first ctx err kv0 = some (some kv0', c', e') →
      ∃ kv', object_loop vF false f first ctx err kv = some (some kv', c', e') := by
  induction f with
  | zero => intro first ctx err kv0 kv0' kv c' e' h; simp [object_loop] at h
  | succ f ih =>
    intro first ctx err kv0 kv0' kv c' e' h
    rcases object_loop_inv h with ⟨h125, -, hc, he⟩ |
      ⟨h125, hcm, items, r, p, c6, e6, hv, hrem, h58, hvf, hp, hrec⟩
    · exact ⟨kv, by rw [object_loop_done f first err kv h125, hc, he]⟩
    · obtain ⟨v, hv2⟩ := hm _ _ _ _ _ hvf hp
      obtain ⟨kv', hk⟩ := ih _ _ _ _ _
        (mncl_kv_insert kv (cstr (decode items ++ [0])) (Ptr.node v).deref) _ _ hrec
      refine ⟨kv', ?_⟩
      rw [object_loop_step f kv h125 hcm hv hrem h58 hv2 (by simp)]
      exact hk

theorem object_matOfScan {vF : ValueFn} (hm : MatOfScan vF) {fuel : Nat}
    {ctx : JSON_PARSE_CTX} {err : List Nat} {p : Ptr} {c' : JSON_PARSE_CTX} {e' : List Nat}
    (h : object vF fuel ctx err true = some (p, c', e')) (hp : p ≠ Ptr.NULL) :
    ∃ v, object vF fuel ctx err false = some (Ptr.node v, c', e') := by
  obtain ⟨h123, kv, h1, -⟩ := object_inv h hp
  obtain ⟨kv', hk⟩ := object_loop_matOfScan hm _ _ _ _ _ _ mncl_alloc_kv _ _ h1
  exact ⟨JSON_VALUE.object kv', by rw [object_of h123 hk]; rfl⟩

theorem value_step_matOfScan {vF : ValueFn} (hk : ErrKeep vF) (hm : MatOfScan vF)
    (fuel : Nat) : MatOfScan (value_step vF fuel) := by
  intro ctx err p c' e' h hp
  obtain ⟨c1, hc, ho | ha | hn | hst | hw⟩ := value_step_inv h
  · obtain ⟨v, hv⟩ := object_matOfScan hm ho.2 hp
    exact ⟨v, by rw [hc]; exact value_step_object ho.1 hv⟩
  · obtain ⟨v, hv⟩ := array_matOfScan hk hm ha.2 hp
    exact ⟨v, by rw [hc]; exact value_step_array ha.1 hv⟩
  · obtain ⟨v, hv⟩ := number_matOfScan hn.2 hp
    exact ⟨v, by rw [hc]; exact value_step_number hn.1 hv⟩
  · obtain ⟨v, hv⟩ := string_matOfScan hst.2 hp
    exact ⟨v, by rw [hc]; exact value_step_string hst.1 hv⟩
  · obtain ⟨v, hv⟩ := word_matOfScan hw.2.2.2.2.2 hp
    exact ⟨v, by rw [hc]; exact value_step_word hw.1 hw.2.1 hw.2.2.1 hw.2.2.2.1 hw.2.2.2.2.1 hv⟩

/-- A successful scan call of `value` is matched by the materialize call. -/
theorem value_matOfScan (f : Nat) : MatOfScan (value f) := by
  induction f with
  | zero => intro ctx err p c' e' h; simp [value] at h
  | succ f ih => exact value_step_matOfScan (value_errKeep f) ih f

/-! ## Both modes consume the same input -/

/-- C15: for each rule (word, number, string, array, object, value) and every state, the
rule run with `scan = 1` succeeds and ends at the cursor `c'` with `error_str` = `e'` if
and only if the rule run with `scan = 0` from the same state succeeds and ends at the
same cursor (offset, line and column) with the same `error_str`. -/
theorem scan_iff_materialize (f g : Nat) (ctx : JSON_PARSE_CTX) (err : List Nat)
    (c' : JSON_PARSE_CTX) (e' : List Nat) :
    ((∃ p, word ctx err true = (p, c', e') ∧ p ≠ Ptr.NULL) ↔
        (∃ p, word ctx err false = (p, c', e') ∧ p ≠ Ptr.NULL))
      ∧ ((∃ p, number ctx err true = (p, c', e') ∧ p ≠ Ptr.NULL) ↔
        (∃ p, number ctx err false = (p, c', e') ∧ p ≠ Ptr.NULL))
      ∧ ((∃ p, string ctx err true = some (p, c', e') ∧ p ≠ Ptr.NULL) ↔
        (∃ p, string ctx err false = some (p, c', e') ∧ p ≠ Ptr.NULL))
      ∧ ((∃ p, array (value f) g ctx err true = some (p, c', e') ∧ p ≠ Ptr.NULL) ↔
        (∃ p, array (value f) g ctx err false = some (p, c', e') ∧ p ≠ Ptr.NULL))
      ∧ ((∃ p, object (value f) g ctx err true = some (p, c', e') ∧ p ≠ Ptr.NULL) ↔
        (∃ p, object (value f) g ctx err false = some (p, c', e') ∧ p ≠ Ptr.NULL))
      ∧ ((∃ p, value f true ctx err = some (p, c', e') ∧ p ≠ Ptr.NULL) ↔
        (∃ p, value f false ctx err = some (p, c', e') ∧ p ≠ Ptr.NULL)) := by
  have hk := value_errKeep f
  have hs := value_scanOfMat f
  have hm := value_matOfScan f
  refine ⟨⟨?_, ?_⟩, ⟨?_, ?_⟩, ⟨?_, ?_⟩, ⟨?_, ?_⟩, ⟨?_, ?_⟩, ⟨?_, ?_⟩⟩
  · rintro ⟨p, h, hp⟩
    obtain ⟨v, hv⟩ := word_matOfScan h hp
    exact ⟨_, hv, by simp⟩
  · rintro ⟨p, h, hp⟩
    exact ⟨_, word_scanOfMat h hp, by simp⟩
  · rintro ⟨p, h, hp⟩
    obtain ⟨v, hv⟩ := number_matOfScan h hp
    exact ⟨_, hv, by simp⟩
  · rintro ⟨p, h, hp⟩
    exact ⟨_, number_scanOfMat h hp, by simp⟩
  · rintro ⟨p, h, hp⟩
    obtain ⟨v, hv⟩ := string_matOfScan h hp
    exact ⟨_, hv, by simp⟩
  · rintro ⟨p, h, hp⟩
    exact ⟨_, string_scanOfMat h hp, by simp⟩
  · rintro ⟨p, h, hp⟩
    obtain ⟨v, hv⟩ := array_matOfScan hk hm h hp
    exact ⟨_, hv, by simp⟩
  · rintro ⟨p, h, hp⟩
    exact ⟨_, array_scanOfMat hk hs h hp, by simp⟩
  · rintro ⟨p, h, hp⟩
    obtain ⟨v, hv⟩ := object_matOfScan hm h hp
    exact ⟨_, hv, by simp⟩
  · rintro ⟨p, h, hp⟩
    exact ⟨_, object_scanOfMat hs h hp, by simp⟩
  · rintro ⟨p, h, hp⟩
    obtain ⟨v, hv⟩ := hm _ _ _ _ _ h hp
    exact ⟨_, hv, by simp⟩
  · rintro ⟨p, h, hp⟩
    exact ⟨_, hs _ _ _ _ _ h hp, by simp⟩

/-- C17: whenever the sizing pass of the array rule leaves with count `n`, the building
pass run from the rewound cursor leaves through `]` as well (it takes none of its error
returns), has stored a value into each of the slots `0..n-1` and into no other slot,
and ends at the cursor where the sizing pass ended, with `error_str` untouched. -/
theorem array_pass2_follows_pass1 (f g : Nat) (start ctx : JSON_PARSE_CTX) (err : List Nat)
    (n : Nat) (c1 : JSON_PARSE_CTX) (e1 : List Nat)
    (h : array_pass1 (value f) start g ctx err 0 = some (some n, c1, e1)) :
    ∃ data, array_pass2 (value f) start g ctx e1 0 [] = some (some data, c1, e1)
      ∧ data.length = n ∧ e1 = err := by
  have he1 := array_pass1_errKeep (value_errKeep f) _ _ _ _ _ _ _ _ h
  obtain ⟨out, h2, hl, -⟩ := array_pass2_of_pass1 (value_matOfScan f) start g _ _ _ _ [] _ _ h
  subst he1
  exact ⟨out, h2, by simpa using hl, rfl⟩

theorem array_pass2_follows_pass1_witness :
    ∃ data, array_pass2 (value 1) (ctx_init (bytes "[1,true]") 8) 3
          (steps [91] (ctx_init (bytes "[1,true]") 8)) [] 0 [] =
          some (some data, steps (bytes "[1,true]") (ctx_init (bytes "[1,true]") 8), [])
      ∧ data.length = 2 ∧ [] = ([] : List Nat) :=
  array_pass2_follows_pass1 1 3 (ctx_init (bytes "[1,true]") 8)
    (steps [91] (ctx_init (bytes "[1,true]") 8)) [] 2
    (steps (bytes "[1,true]") (ctx_init (bytes "[1,true]") 8)) [] (by rfl)

/-! ## Every failure leaves a diagnostic -/

theorem diag_ne_nil (l k : Nat) (msg : List Nat) : diag l k msg ≠ [] := by
  simp [diag]

theorem rem_readch_le (ctx : JSON_PARSE_CTX) :
    (rem (readch ctx).2).length ≤ (rem ctx).length := by
  by_cases h : peekch ctx = 0
  · rw [readch_zero h]
  · obtain ⟨r, hr⟩ := rem_of_peekch rfl h
    rw [readch_cons hr h, rem_step hr, hr]
    simp

theorem rem_readch_lt (ctx : JSON_PARSE_CTX) (h : (readch ctx).1 ≠ 0) :
    (rem (readch ctx).2).length + 1 = (rem ctx).length := by
  rw [readch_fst] at h
  obtain ⟨r, hr⟩ := rem_of_peekch rfl h
  rw [readch_cons hr h, rem_step hr, hr]
  simp

theorem hex_decode_loop_fail (k : Nat) : ∀ (ctx : JSON_PARSE_CTX) (err : List Nat) (res : Nat)
    (c' : JSON_PARSE_CTX) (e' : List Nat),
    hex_decode_loop k ctx err res = (none, c', e') → e' ≠ [] := by
  induction k with
  | zero => intro ctx err res c' e' h; simp [hex_decode_loop] at h
  | succ k ih =>
    intro ctx err res c' e' h
    rw [hex_decode_loop] at h
    split_ifs at h
    · exact ih _ _ _ _ _ h
    · exact ih _ _ _ _ _ h
    · exact ih _ _ _ _ _ h
    · cases h; exact diag_ne_nil _ _ _

theorem hex_decode_rem_le {ctx : JSON_PARSE_CTX} {err : List Nat} {ch : Nat}
    {c' : JSON_PARSE_CTX} {e' : List Nat} (h : hex_decode ctx err = (some ch, c', e')) :
    (rem c').length ≤ (rem ctx).length := by
  obtain ⟨h1, h2, h3, h4, r, hrem, -, -, -, -, -, hc⟩ := hex_decode_sound h
  have : rem c' = r := by rw [hc]; exact rem_steps (by rw [hrem]; rfl)
  rw [this, hrem]
  simp
  omega

theorem json_str_size_loop_fail (co : JSON_PARSE_CTX) (scan : Bool) (fuel : Nat) :
    ∀ (ctx : JSON_PARSE_CTX) (err : List Nat) (res : Nat) (c' : JSON_PARSE_CTX)
      (e' : List Nat), (rem ctx).length ≤ fuel →
      json_str_size_loop co scan fuel ctx err res = (none, c', e') → e' ≠ [] := by
  induction fuel with
  | zero =>
    intro ctx err res c' e' hl h
    have hnil : rem ctx = [] := List.length_eq_zero.mp (Nat.le_zero.mp hl)
    rw [json_str_size_loop, readch_nil hnil] at h
    simp only [] at h
    rw [if_neg (by decide), if_pos (by decide)] at h
    cases h
    exact diag_ne_nil _ _ _
  | succ f ih =>
    intro ctx err res c' e' hl h
    rw [json_str_size_loop] at h
    simp only [] at h
    by_cases h10 : (readch ctx).1 = 10
    · rw [if_pos h10] at h; cases h; exact diag_ne_nil _ _ _
    rw [if_neg h10] at h
    by_cases h32 : (readch ctx).1 < 32
    · rw [if_pos h32] at h; cases h; exact diag_ne_nil _ _ _
    rw [if_neg h32] at h
    by_cases h34 : (readch ctx).1 = 34
    · rw [if_pos h34] at h; cases h
    rw [if_neg h34] at h
    have hne : (readch ctx).1 ≠ 0 := by omega
    have hl1 := rem_readch_lt ctx hne
    have hl2 := rem_readch_le (readch ctx).2
    by_cases h92 : (readch ctx).1 = 92
    · rw [if_pos h92] at h
      by_cases hc1 : (readch (readch ctx).2).1 < 32
      · rw [if_pos hc1] at h; cases h; exact diag_ne_nil _ _ _
      rw [if_neg hc1] at h
      by_cases h117 : (readch (readch ctx).2).1 = 117
      · rw [if_pos h117] at h
        cases hh : hex_decode (readch (readch ctx).2).2 err with
        | mk o rest =>
          obtain ⟨c2, e1⟩ := rest
          rw [hh] at h
          cases o with
          | none =>
            simp only [] at h
            cases h
            exact hex_decode_loop_fail _ _ _ _ _ _ hh
          | some ch =>
            simp only [] at h
            have hl3 := hex_decode_rem_le hh
            split_ifs at h
            · cases h; exact diag_ne_nil _ _ _
            · exact ih _ _ _ _ _ (by omega) h
            · exact ih _ _ _ _ _ (by omega) h
            · exact ih _ _ _ _ _ (by omega) h
      rw [if_neg h117] at h
      split_ifs at h
      · exact ih _ _ _ _ _ (by omega) h
      · cases h; exact diag_ne_nil _ _ _
    · rw [if_neg h92] at h
      exact ih _ _ _ _ _ (by omega) h

theorem json_str_size_fail_err {ctx : JSON_PARSE_CTX} {err : List Nat} {scan : Bool}
    {c' : JSON_PARSE_CTX} {e' : List Nat} (h : json_str_size ctx err scan = (none, c', e')) :
    e' ≠ [] := by
  unfold json_str_size at h
  simp only [] at h
  split_ifs at h
  · cases h; exact diag_ne_nil _ _ _
  · exact json_str_size_loop_fail _ _ _ _ _ _ _ _ (rem_length _) h

theorem string_fail_err {ctx : JSON_PARSE_CTX} {err : List Nat} {scan : Bool}
    {c' : JSON_PARSE_CTX} {e' : List Nat} (h : string ctx err scan = some (Ptr.NULL, c', e')) :
    e' ≠ [] := by
  cases hs : json_str_size ctx err scan with
  | mk o rest =>
    obtain ⟨c1, e1⟩ := rest
    cases o with
    | none =>
      rw [string_of_size_fail hs] at h
      cases h
      exact json_str_size_fail_err hs
    | some n =>
      obtain ⟨items, r, hv, hrem, -, -, -⟩ := json_str_size_sound hs
      rw [string_literal err scan hv hrem] at h
      cases scan <;> simp at h

theorem number_exp_fail_err {s : List Nat} {ctx : JSON_PARSE_CTX} {err : List Nat} {scan : Bool}
    {c' : JSON_PARSE_CTX} {e' : List Nat} (h : number_exp s ctx err scan = (Ptr.NULL, c', e')) :
    e' ≠ [] := by
  unfold number_exp at h
  simp only [number_finish_def] at h
  repeat' split at h
  all_goals first | (cases h; done) | (cases h; exact diag_ne_nil _ _ _)

theorem number_frac_fail_err {s : List Nat} {ctx : JSON_PARSE_CTX} {err : List Nat}
    {scan : Bool} {c' : JSON_PARSE_CTX} {e' : List Nat}
    (h : number_frac s ctx err scan = (Ptr.NULL, c', e')) : e' ≠ [] := by
  unfold number_frac at h
  simp only [] at h
  repeat' split at h
  all_goals first | exact number_exp_fail_err h | (cases h; exact diag_ne_nil _ _ _)

theorem number_fail_err {ctx : JSON_PARSE_CTX} {err : List Nat} {scan : Bool}
    {c' : JSON_PARSE_CTX} {e' : List Nat} (h : number ctx err scan = (Ptr.NULL, c', e')) :
    e' ≠ [] := by
  unfold number at h
  simp only [] at h
  repeat' split at h
  all_goals first | exact number_frac_fail_err h | (cases h; exact diag_ne_nil _ _ _)

theorem word_fail_err {ctx : JSON_PARSE_CTX} {err : List Nat} {scan : Bool}
    {c' : JSON_PARSE_CTX} {e' : List Nat} (h : word ctx err scan = (Ptr.NULL, c', e')) :
    e' ≠ [] := by
  unfold word at h
  simp only [] at h
  repeat' split at h
  all_goals first | (cases h; done) | (cases h; exact diag_ne_nil _ _ _)

theorem array_pass1_errSet {vF : ValueFn} (hE : ErrSet vF) (start : JSON_PARSE_CTX)
    (f : Nat) : ∀ (ctx : JSON_PARSE_CTX) (err : List Nat) (n : Nat)
      (c' : JSON_PARSE_CTX) (e' : List Nat),
      array_pass1 vF start f ctx err n = some (none, c', e') → e' ≠ [] := by
  induction f with
  | zero => intro ctx err n c' e' h; simp [array_pass1] at h
  | succ f ih =>
    intro ctx err n c' e' h
    rw [array_pass1] at h
    simp only [] at h
    by_cases h93 : peekch ctx = 93
    · rw [if_pos h93] at h; cases h
    rw [if_neg h93] at h
    by_cases h0 : peekch ctx = 0
    · rw [if_pos h0] at h; cases h; exact diag_ne_nil _ _ _
    rw [if_neg h0] at h
    by_cases hc : n ≠ 0 ∧ peekch ctx ≠ 44
    · rw [if_pos hc] at h; cases h; exact diag_ne_nil _ _ _
    rw [if_neg hc] at h
    cases hv : vF true (if n ≠ 0 then (readch ctx).2 else ctx) err with
    | none => rw [hv] at h; simp at h
    | some x =>
      rw [hv] at h
      obtain ⟨p, c2, e2⟩ := x
      cases p with
      | NULL => simp only [] at h; cases h; exact hE _ _ _ _ _ hv
      | json_ok => exact ih _ _ _ _ _ h
      | node v => exact ih _ _ _ _ _ h

theorem array_pass2_errSet {vF : ValueFn} (hE : ErrSet vF) (start : JSON_PARSE_CTX)
    (f : Nat) : ∀ (ctx : JSON_PARSE_CTX) (err : List Nat) (n : Nat) (data : List JSON_VALUE)
      (c' : JSON_PARSE_CTX) (e' : List Nat),
      array_pass2 vF start f ctx err n data = some (none, c', e') → e' ≠ [] := by
  induction f with
  | zero => intro ctx err n data c' e' h; simp [array_pass2] at h
  | succ f ih =>
    intro ctx err n data c' e' h
    rw [array_pass2] at h
    simp only [] at h
    by_cases h93 : peekch ctx = 93
    · rw [if_pos h93] at h; cases h
    rw [if_neg h93] at h
    by_cases h0 : peekch ctx = 0
    · rw [if_pos h0] at h; cases h; exact diag_ne_nil _ _ _
    rw [if_neg h0] at h
    by_cases hc : n ≠ 0 ∧ peekch ctx ≠ 44
    · rw [if_pos hc] at h; cases h; exact diag_ne_nil _ _ _
    rw [if_neg hc] at h
    cases hv : vF false (if n ≠ 0 then (readch ctx).2 else ctx) err with
    | none => rw [hv] at h; simp at h
    | some x =>
      rw [hv] at h
      obtain ⟨p, c2, e2⟩ := x
      cases p with
      | NULL => simp only [] at h; cases h; exact hE _ _ _ _ _ hv
      | json_ok => exact ih _ _ _ _ _ _ h
      | node v => exact ih _ _ _ _ _ _ h

theorem array_errSet {vF : ValueFn} (hE : ErrSet vF) {fuel : Nat} {ctx : JSON_PARSE_CTX}
    {err : List Nat} {scan : Bool} {c' : JSON_PARSE_CTX} {e' : List Nat}
    (h : array vF fuel ctx err scan = some (Ptr.NULL, c', e')) : e' ≠ [] := by
  unfold array at h
  simp only [] at h
  by_cases h91 : (readch ctx).1 ≠ 91
  · rw [if_pos h91] at h; cases h; exact diag_ne_nil _ _ _
  rw [if_neg h91] at h
  cases h1 : array_pass1 vF ctx fuel (space (readch ctx).2) err 0 with
  | none => rw [h1] at h; simp at h
  | some x =>
    rw [h1] at h
    obtain ⟨oc, c1, e1⟩ := x
    cases oc with
    | none => simp only [] at h; cases h; exact array_pass1_errSet hE _ _ _ _ _ _ _ h1
    | some count =>
      simp only [] at h
      cases scan with
      | true => simp at h
      | false =>
        simp only [Bool.false_eq_true, if_false] at h
        cases h2 : array_pass2 vF ctx fuel (space (readch ctx).2) e1 0 [] with
        | none => rw [h2] at h; simp at h
        | some y =>
          rw [h2] at h
          obtain ⟨od, c2, e2⟩ := y
          cases od with
          | none => simp only [] at h; cases h; exact array_pass2_errSet hE _ _ _ _ _ _ _ _ h2
          | some data => simp at h

theorem object_loop_errSet {vF : ValueFn} (hE : ErrSet vF) (scan : Bool)
    (f : Nat) : ∀ (first : Bool) (ctx : JSON_PARSE_CTX) (err : List Nat) (kv : MNCL_KV)
      (c' : JSON_PARSE_CTX) (e' : List Nat),
      object_loop vF scan f first ctx err kv = some (none, c', e') → e' ≠ [] := by
  induction f with
  | zero => intro first ctx err kv c' e' h; simp [object_loop] at h
  | succ f ih =>
    intro first ctx err kv c' e' h
    rw [object_loop] at h
    simp only [] at h
    by_cases h125 : peekch (space ctx) = 125
    · rw [if_pos h125] at h; cases h
    rw [if_neg h125] at h
    by_cases hc : first = false ∧ peekch (space ctx) ≠ 44
    · rw [if_pos hc] at h; cases h; exact diag_ne_nil _ _ _
    rw [if_neg hc] at h
    cases hs : json_str_size (if first then space ctx else space (readch (space ctx)).2)
      err scan with
    | mk os rest =>
      obtain ⟨c2, e2⟩ := rest
      rw [hs] at h
      cases os with
      | none => simp only [] at h; cases h; exact json_str_size_fail_err hs
      | some n =>
        simp only [] at h
        have key : ∀ (cp : Option (List Nat × JSON_PARSE_CTX × List Nat)),
            (match cp with
              | none => none
              | some (curkey, ctx3, err3) =>
                if (readch (space ctx3)).1 ≠ 58 then
                  some (none, (readch (space ctx3)).2,
                    diag (readch (space ctx3)).2.line (readch (space ctx3)).2.col
                      (bytes "Expected " ++ [39, 58, 39]))
                else
                  match vF scan (readch (space ctx3)).2 err3 with
                  | none => none
                  | some (Ptr.NULL, ctx6, err6) => some (none, ctx6, err6)
                  | some (p, ctx6, err6) =>
                    object_loop vF scan f false ctx6 err6
                      (if scan then kv else mncl_kv_insert kv (cstr curkey) p.deref)) =
              some (none, c', e') → e' ≠ [] := by
          intro cp hcp
          cases cp with
          | none => simp at hcp
          | some t =>
            obtain ⟨curkey, ctx3, err3⟩ := t
            simp only [] at hcp
            by_cases h58 : (readch (space ctx3)).1 ≠ 58
            · rw [if_pos h58] at hcp; cases hcp; exact diag_ne_nil _ _ _
            rw [if_neg h58] at hcp
            cases hv : vF scan (readch (space ctx3)).2 err3 with
            | none => rw [hv] at hcp; simp at hcp
            | some x =>
              rw [hv] at hcp
              obtain ⟨p, c6, e6⟩ := x
              cases p with
              | NULL => simp only [] at hcp; cases hcp; exact hE _ _ _ _ _ hv
              | json_ok => exact ih _ _ _ _ _ _ hcp
              | node v => exact ih _ _ _ _ _ _ hcp
        exact key _ h

theorem object_errSet {vF : ValueFn} (hE : ErrSet vF) {fuel : Nat} {ctx : JSON_PARSE_CTX}
    {err : List Nat} {scan : Bool} {c' : JSON_PARSE_CTX} {e' : List Nat}
    (h : object vF fuel ctx err scan = some (Ptr.NULL, c', e')) : e' ≠ [] := by
  unfold object at h
  simp only [] at h
  by_cases h123 : (readch ctx).1 ≠ 123
  · rw [if_pos h123] at h; cases h; exact diag_ne_nil _ _ _
  rw [if_neg h123] at h
  cases h1 : object_loop vF scan fuel true (readch ctx).2 err mncl_alloc_kv with
  | none => rw [h1] at h; simp at h
  | some x =>
    rw [h1] at h
    obtain ⟨ok, c1, e1⟩ := x
    cases ok with
    | none => simp only [] at h; cases h; exact object_loop_errSet hE _ _ _ _ _ _ _ _ h1
    | some kv => cases scan <;> simp at h

theorem value_step_errSet {vF : ValueFn} (hE : ErrSet vF) (fuel : Nat) :
    ErrSet (value_step vF fuel) := by
  intro scan ctx err c' e' h
  obtain ⟨c1, -, ho | ha | hn | hs | hw⟩ := value_step_inv h
  · exact object_errSet hE ho.2
  · exact array_errSet hE ha.2
  · exact number_fail_err hn.2
  · exact string_fail_err hs.2
  · exact word_fail_err hw.2.2.2.2.2

/-- A failing `value` call has written a diagnostic. -/
theorem value_errSet (f : Nat) : ErrSet (value f) := by
  induction f with
  | zero => intro scan ctx err c' e' h; simp [value] at h
  | succ f ih => exact value_step_errSet ih f

/-- C19: whenever `json_parse` returns, `error_str` is empty exactly when the returned
pointer is not `NULL`: the entry point starts from the empty string, a successful parse
never writes it, and every failure has written a diagnostic. -/
theorem error_string_empty_iff_success (f : Nat) (data : List Nat) (size : Nat) (p : Ptr)
    (e : List Nat) (h : json_parse f data size = some (p, e)) : e = [] ↔ p ≠ Ptr.NULL := by
  unfold json_parse at h
  cases hv : value f false { s := data, size := size, i := 0, line := 0, col := 0 } [] with
  | none => rw [hv] at h; simp at h
  | some x =>
    rw [hv] at h
    obtain ⟨q, c, err⟩ := x
    have hnull : q = Ptr.NULL → (e = [] ↔ p ≠ Ptr.NULL) := by
      intro hq
      subst hq
      simp only [] at h
      cases h
      have := value_errSet f _ _ _ _ _ hv
      simp [this]
    have hok : q ≠ Ptr.NULL → (e = [] ↔ p ≠ Ptr.NULL) := by
      intro hq
      have hk := value_errKeep f _ _ _ _ _ _ hv hq
      subst hk
      by_cases hpk : peekch c ≠ 0
      · cases q with
        | NULL => exact absurd rfl hq
        | json_ok =>
          simp only [] at h
          rw [if_pos hpk] at h
          cases h
          simp [diag_ne_nil]
        | node v =>
          simp only [] at h
          rw [if_pos hpk] at h
          cases h
          simp [diag_ne_nil]
      · cases q with
        | NULL => exact absurd rfl hq
        | json_ok =>
          simp only [] at h
          rw [if_neg hpk] at h
          cases h
          simp
        | node v =>
          simp only [] at h
          rw [if_neg hpk] at h
          cases h
          simp
    by_cases hq : q = Ptr.NULL
    · exact hnull hq
    · exact hok hq

theorem error_string_empty_iff_success_witness :
    (diag 0 1 (bytes "Extra garbage after value") = [] ↔ Ptr.NULL ≠ Ptr.NULL)
      ∧ (([] : List Nat) = [] ↔ Ptr.node (JSON_VALUE.number [49]) ≠ Ptr.NULL) :=
  ⟨error_string_empty_iff_success 1 [49, 120] 2 Ptr.NULL
      (diag 0 1 (bytes "Extra garbage after value")) (by rfl),
    error_string_empty_iff_success 1 [49] 1 (Ptr.node (JSON_VALUE.number [49])) [] (by rfl)⟩

/-! ## Termination -/

theorem rem_space_le (ctx : JSON_PARSE_CTX) : (rem (space ctx)).length ≤ (rem ctx).length := by
  rw [rem_space]
  exact (List.dropWhile_suffix _).length_le

theorem rem_steps_length {ctx : JSON_PARSE_CTX} {bs r : List Nat} (h : rem ctx = bs ++ r) :
    (rem (steps bs ctx)).length + bs.length = (rem ctx).length := by
  rw [rem_steps h, h]
  simp
  omega

theorem NumberText.ne_nil {N : List Nat} (h : NumberText N) : N ≠ [] := by
  obtain ⟨sg, ip, fp, ep, -, hip, -, -, hN⟩ := h
  have hne : ip ≠ [] := by
    rcases hip with h1 | h1
    · rw [h1]; simp
    · exact h1.1
  intro h0
  rw [h0] at hN
  have hl := congrArg List.length hN
  simp only [List.length_nil, List.length_append] at hl
  exact hne (List.length_eq_zero.mp (by omega))

theorem number_progress {ctx : JSON_PARSE_CTX} {err : List Nat} {scan : Bool} {p : Ptr}
    {c' : JSON_PARSE_CTX} {e' : List Nat} (h : number ctx err scan = (p, c', e'))
    (hp : p ≠ Ptr.NULL) : (rem c').length < (rem ctx).length := by
  obtain ⟨N, hN, -, hr⟩ := number_sound h hp
  have := List.length_pos.mpr hN.ne_nil
  rw [hr, List.length_append]
  omega

theorem word_progress {ctx : JSON_PARSE_CTX} {err : List Nat} {scan : Bool} {p : Ptr}
    {c' : JSON_PARSE_CTX} {e' : List Nat} (h : word ctx err scan = (p, c', e'))
    (hp : p ≠ Ptr.NULL) : (rem c').length < (rem ctx).length := by
  obtain ⟨lit, r, hrem, hl⟩ := word_sound h hp
  have hc : c' = steps lit ctx := by
    rcases hl with hl | hl | hl <;> subst hl
    · have h1 := (@word_complete ctx err scan r).1 hrem
      rw [h] at h1
      cases h1; rfl
    · have h1 := (@word_complete ctx err scan r).2.1 hrem
      rw [h] at h1
      cases h1; rfl
    · have h1 := (@word_complete ctx err scan r).2.2 hrem
      rw [h] at h1
      cases h1; rfl
  have hlen : 0 < lit.length := by
    rcases hl with hl | hl | hl <;> subst hl <;> decide
  have := rem_steps_length hrem
  rw [hc]
  omega

theorem string_progress {ctx : JSON_PARSE_CTX} {err : List Nat} {scan : Bool} {p : Ptr}
    {c' : JSON_PARSE_CTX} {e' : List Nat} (h : string ctx err scan = some (p, c', e'))
    (hp : p ≠ Ptr.NULL) : (rem c').length < (rem ctx).length := by
  obtain ⟨items, r, -, hrem, -, hc, -⟩ := string_result h hp
  have := @rem_steps_length ctx (34 :: (render items ++ [34])) r (by rw [hrem]; simp)
  rw [hc]
  simp only [List.length_cons] at this
  omega

theorem string_total (ctx : JSON_PARSE_CTX) (err : List Nat) (scan : Bool) :
    ∃ p c e, string ctx err scan = some (p, c, e) := by
  cases hs : json_str_size ctx err scan with
  | mk o rest =>
    obtain ⟨c1, e1⟩ := rest
    cases o with
    | none => exact ⟨_, _, _, string_of_size_fail hs⟩
    | some n =>
      obtain ⟨items, r, hv, hrem, -, -, -⟩ := json_str_size_sound hs
      exact ⟨_, _, _, string_literal err scan hv hrem⟩

theorem array_pass1_total {vF : ValueFn} {m : Nat} (hP : Progress m vF)
    (start : JSON_PARSE_CTX) (g : Nat) : ∀ (ctx : JSON_PARSE_CTX) (err : List Nat) (n : Nat),
      (rem ctx).length < g → (rem ctx).length < m →
      ∃ r c e, array_pass1 vF start g ctx err n = some (r, c, e) ∧
        (r ≠ none → (rem c).length ≤ (rem ctx).length) := by
  induction g with
  | zero => intro ctx err n hg; omega
  | succ g ih =>
    intro ctx err n hg hm
    rw [array_pass1]
    simp only []
    by_cases h93 : peekch ctx = 93
    · rw [if_pos h93]
      exact ⟨_, _, _, rfl, fun _ => rem_readch_le ctx⟩
    rw [if_neg h93]
    by_cases h0 : peekch ctx = 0
    · rw [if_pos h0]
      exact ⟨_, _, _, rfl, fun hh => absurd rfl hh⟩
    rw [if_neg h0]
    by_cases hc : n ≠ 0 ∧ peekch ctx ≠ 44
    · rw [if_pos hc]
      exact ⟨_, _, _, rfl, fun hh => absurd rfl hh⟩
    rw [if_neg hc]
    have hl1 : (rem (if n ≠ 0 then (readch ctx).2 else ctx)).length ≤ (rem ctx).length := by
      split_ifs
      · exact rem_readch_le ctx
      · exact le_refl _
    obtain ⟨p, c2, e2, hv, hprog⟩ := hP true (if n ≠ 0 then (readch ctx).2 else ctx) err
      (by omega)
    rw [hv]
    cases p with
    | NULL => exact ⟨_, _, _, rfl, fun hh => absurd rfl hh⟩
    | json_ok =>
      have hlt := hprog (by simp)
      obtain ⟨r, c, e, hr, hle⟩ := ih c2 e2 (n + 1) (by omega) (by omega)
      exact ⟨r, c, e, hr, fun hh => by have := hle hh; omega⟩
    | node v =>
      have hlt := hprog (by simp)
      obtain ⟨r, c, e, hr, hle⟩ := ih c2 e2 (n + 1) (by omega) (by omega)
      exact ⟨r, c, e, hr, fun hh => by have := hle hh; omega⟩

theorem array_pass2_total {vF : ValueFn} {m : Nat} (hP : Progress m vF)
    (start : JSON_PARSE_CTX) (g : Nat) : ∀ (ctx : JSON_PARSE_CTX) (err : List Nat) (n : Nat)
      (data : List JSON_VALUE), (rem ctx).length < g → (rem ctx).length < m →
      ∃ r c e, array_pass2 vF start g ctx err n data = some (r, c, e) ∧
        (r ≠ none → (rem c).length ≤ (rem ctx).length) := by
  induction g with
  | zero => intro ctx err n data hg; omega
  | succ g ih =>
    intro ctx err n data hg hm
    rw [array_pass2]
    simp only []
    by_cases h93 : peekch ctx = 93
    · rw [if_pos h93]
      exact ⟨_, _, _, rfl, fun _ => rem_readch_le ctx⟩
    rw [if_neg h93]
    by_cases h0 : peekch ctx = 0
    · rw [if_pos h0]
      exact ⟨_, _, _, rfl, fun hh => absurd rfl hh⟩
    rw [if_neg h0]
    by_cases hc : n ≠ 0 ∧ peekch ctx ≠ 44
    · rw [if_pos hc]
      exact ⟨_, _, _, rfl, fun hh => absurd rfl hh⟩
    rw [if_neg hc]
    have hl1 : (rem (if n ≠ 0 then (readch ctx).2 else ctx)).length ≤ (rem ctx).length := by
      split_ifs
      · exact rem_readch_le ctx
      · exact le_refl _
    obtain ⟨p, c2, e2, hv, hprog⟩ := hP false (if n ≠ 0 then (readch ctx).2 else ctx) err
      (by omega)
    rw [hv]
    cases p with
    | NULL => exact ⟨_, _, _, rfl, fun hh => absurd rfl hh⟩
    | json_ok =>
      have hlt := hprog (by simp)
      obtain ⟨r, c, e, hr, hle⟩ := ih c2 e2 (n + 1) (data ++ [Ptr.json_ok.deref])
        (by omega) (by omega)
      exact ⟨r, c, e, hr, fun hh => by have := hle hh; omega⟩
    | node v =>
      have hlt := hprog (by simp)
      obtain ⟨r, c, e, hr, hle⟩ := ih c2 e2 (n + 1) (data ++ [(Ptr.node v).deref])
        (by omega) (by omega)
      exact ⟨r, c, e, hr, fun hh => by have := hle hh; omega⟩

theorem array_total {vF : ValueFn} {m : Nat} (hP : Progress m vF) {g : Nat}
    {ctx : JSON_PARSE_CTX} (err : List Nat) (scan : Bool) (hg : (rem ctx).length ≤ g)
    (hm : (rem ctx).length ≤ m) :
    ∃ p c e, array vF g ctx err scan = some (p, c, e) ∧
      (p ≠ Ptr.NULL → (rem c).length < (rem ctx).length) := by
  unfold array
  simp only []
  by_cases h91 : (readch ctx).1 ≠ 91
  · rw [if_pos h91]
    exact ⟨_, _, _, rfl, fun hh => absurd rfl hh⟩
  rw [if_neg h91]
  have h91' : (readch ctx).1 = 91 := not_not.mp h91
  have hl0 := rem_readch_lt ctx (by rw [h91']; decide)
  have hl1 := rem_space_le (readch ctx).2
  obtain ⟨r, c1, e1, h1, hle1⟩ := array_pass1_total hP ctx g (space (readch ctx).2) err 0
    (by omega) (by omega)
  rw [h1]
  cases r with
  | none => exact ⟨_, _, _, rfl, fun hh => absurd rfl hh⟩
  | some count =>
    simp only []
    have hle1' := hle1 (by simp)
    cases scan with
    | true => exact ⟨_, _, _, rfl, fun _ => by omega⟩
    | false =>
      simp only [Bool.false_eq_true, if_false]
      obtain ⟨r2, c2, e2, h2, hle2⟩ := array_pass2_total hP ctx g (space (readch ctx).2) e1 0 []
        (by omega) (by omega)
      rw [h2]
      cases r2 with
      | none => exact ⟨_, _, _, rfl, fun hh => absurd rfl hh⟩
      | some data =>
        have hle2' := hle2 (by simp)
        exact ⟨_, _, _, rfl, fun _ => by omega⟩

theorem object_loop_total {vF : ValueFn} {m : Nat} (hP : Progress m vF) (scan : Bool)
    (g : Nat) : ∀ (first : Bool) (ctx : JSON_PARSE_CTX) (err : List Nat) (kv : MNCL_KV),
      (rem ctx).length < g → (rem ctx).length < m →
      ∃ r c e, object_loop vF scan g first ctx err kv = some (r, c, e) ∧
        (r ≠ none → (rem c).length ≤ (rem ctx).length) := by
  induction g with
  | zero => intro first ctx err kv hg; omega
  | succ g ih =>
    intro first ctx err kv hg hm
    have hs0 := rem_space_le ctx
    rw [object_loop]
    simp only []
    by_cases h125 : peekch (space ctx) = 125
    · rw [if_pos h125]
      exact ⟨_, _, _, rfl, fun _ => by have := rem_readch_le (space ctx); omega⟩
    rw [if_neg h125]
    by_cases hc : first = false ∧ peekch (space ctx) ≠ 44
    · rw [if_pos hc]
      exact ⟨_, _, _, rfl, fun hh => absurd rfl hh⟩
    rw [if_neg hc]
    have hl1 : (rem (if first then space ctx else space (readch (space ctx)).2)).length ≤
        (rem ctx).length := by
      cases first with
      | true => simpa using hs0
      | false =>
        have h1 := rem_readch_le (space ctx)
        have h2 := rem_space_le (readch (space ctx)).2
        simp only [Bool.false_eq_true, if_false]
        omega
    have key : ∀ (curkey : List Nat) (ctx3 : JSON_PARSE_CTX) (err3 : List Nat),
        (rem ctx3).length < (rem ctx).length →
        ∃ r c e,
          (if (readch (space ctx3)).1 ≠ 58 then
            some (none, (readch (space ctx3)).2,
              diag (readch (space ctx3)).2.line (readch (space ctx3)).2.col
                (bytes "Expected " ++ [39, 58, 39]))
          else
            match vF scan (readch (space ctx3)).2 err3 with
            | none => none
            | some (Ptr.NULL, ctx6, err6) => some (none, ctx6, err6)
            | some (p, ctx6, err6) =>
              object_loop vF scan g false ctx6 err6
                (if scan then kv else mncl_kv_insert kv (cstr curkey) p.deref)) =
            some (r, c, e) ∧ (r ≠ none → (rem c).length ≤ (rem ctx).length) := by
      intro curkey ctx3 err3 hl3
      by_cases h58 : (readch (space ctx3)).1 ≠ 58
      · rw [if_pos h58]
        exact ⟨_, _, _, rfl, fun hh => absurd rfl hh⟩
      rw [if_neg h58]
      have h4 := rem_space_le ctx3
      have h5 := rem_readch_le (space ctx3)
      obtain ⟨p, c6, e6, hv, hprog⟩ := hP scan (readch (space ctx3)).2 err3 (by omega)
      rw [hv]
      cases p with
      | NULL => exact ⟨_, _, _, rfl, fun hh => absurd rfl hh⟩
      | json_ok =>
        have hlt := hprog (by simp)
        obtain ⟨r, c, e, hr, hle⟩ := ih false c6 e6
          (if scan then kv else mncl_kv_insert kv (cstr curkey) Ptr.json_ok.deref)
          (by omega) (by omega)
        exact ⟨r, c, e, hr, fun hh => by have := hle hh; omega⟩
      | node v =>
        have hlt := hprog (by simp)
        obtain ⟨r, c, e, hr, hle⟩ := ih false c6 e6
          (if scan then kv else mncl_kv_insert kv (cstr curkey) (Ptr.node v).deref)
          (by omega) (by omega)
        exact ⟨r, c, e, hr, fun hh => by have := hle hh; omega⟩
    cases hs : json_str_size (if first then space ctx else space (readch (space ctx)).2)
      err scan with
    | mk os rest =>
      obtain ⟨c2, e2⟩ := rest
      cases os with
      | none => exact ⟨_, _, _, rfl, fun hh => absurd rfl hh⟩
      | some n =>
        simp only []
        obtain ⟨items, r, hv, hrem, -, hc2, he2⟩ := json_str_size_sound hs
        have hlen := @rem_steps_length _ (34 :: (render items ++ [34])) r
          (show rem (if first then space ctx else space (readch (space ctx)).2) =
            (34 :: (render items ++ [34])) ++ r by rw [hrem]; simp)
        simp only [List.length_cons] at hlen
        cases scan with
        | true =>
          simp only [if_true] at hc2 ⊢
          subst hc2
          exact key [] _ _ (by omega)
        | false =>
          simp only [Bool.false_eq_true, if_false] at hc2 ⊢
          subst hc2
          rw [json_strcpy_literal e2 hv hrem]
          simp only []
          exact key _ _ _ (by omega)

theorem object_total {vF : ValueFn} {m : Nat} (hP : Progress m vF) {g : Nat}
    {ctx : JSON_PARSE_CTX} (err : List Nat) (scan : Bool) (hg : (rem ctx).length ≤ g)
    (hm : (rem ctx).length ≤ m) :
    ∃ p c e, object vF g ctx err scan = some (p, c, e) ∧
      (p ≠ Ptr.NULL → (rem c).length < (rem ctx).length) := by
  unfold object
  simp only []
  by_cases h123 : (readch ctx).1 ≠ 123
  · rw [if_pos h123]
    exact ⟨_, _, _, rfl, fun hh => absurd rfl hh⟩
  rw [if_neg h123]
  have h123' : (readch ctx).1 = 123 := not_not.mp h123
  have hl0 := rem_readch_lt ctx (by rw [h123']; decide)
  obtain ⟨r, c1, e1, h1, hle1⟩ := object_loop_total hP scan g true (readch ctx).2 err
    mncl_alloc_kv (by omega) (by omega)
  rw [h1]
  cases r with
  | none => exact ⟨_, _, _, rfl, fun hh => absurd rfl hh⟩
  | some kv =>
    have hle1' := hle1 (by simp)
    exact ⟨_, _, _, rfl, fun _ => by omega⟩

theorem value_step_progress {vF : ValueFn} {m : Nat} (hP : Progress m vF) :
    Progress (m + 1) (value_step vF m) := by
  intro scan ctx err hl
  have hs0 := rem_space_le ctx
  have fin : ∀ (p : Ptr) (c1 : JSON_PARSE_CTX) (e1 : List Nat),
      value_step vF m scan ctx err = some (p, space c1, e1) →
      (p ≠ Ptr.NULL → (rem c1).length < (rem (space ctx)).length) →
      ∃ p c e, value_step vF m scan ctx err = some (p, c, e) ∧
        (p ≠ Ptr.NULL → (rem c).length < (rem ctx).length) := by
    intro p c1 e1 h hlt
    refine ⟨p, space c1, e1, h, fun hp => ?_⟩
    have := hlt hp
    have := rem_space_le c1
    omega
  by_cases h123 : peekch (space ctx) = 123
  · obtain ⟨p, c, e, h, hlt⟩ := @object_total vF m hP m (space ctx) err scan (by omega)
      (by omega)
    exact fin p c e (value_step_object h123 h) hlt
  by_cases h91 : peekch (space ctx) = 91
  · obtain ⟨p, c, e, h, hlt⟩ := @array_total vF m hP m (space ctx) err scan (by omega)
      (by omega)
    exact fin p c e (value_step_array h91 h) hlt
  by_cases h45 : peekch (space ctx) = 45
  · cases hn : number (space ctx) err scan with
    | mk p rest =>
      obtain ⟨c, e⟩ := rest
      exact fin p c e (value_step_number (Or.inl h45) hn) (number_progress hn)
  by_cases h34 : peekch (space ctx) = 34
  · obtain ⟨p, c, e, h⟩ := string_total (space ctx) err scan
    exact fin p c e (value_step_string h34 h) (string_progress h)
  by_cases hd : isdigit (peekch (space ctx)) = true
  · cases hn : number (space ctx) err scan with
    | mk p rest =>
      obtain ⟨c, e⟩ := rest
      exact fin p c e (value_step_number (Or.inr hd) hn) (number_progress hn)
  · cases hw : word (space ctx) err scan with
    | mk p rest =>
      obtain ⟨c, e⟩ := rest
      exact fin p c e (value_step_word h123 h91 h45 h34 (by simpa using hd) hw)
        (word_progress hw)

/-- With fuel `f`, `value` returns on every state with fewer than `f` bytes left. -/
theorem value_progress (f : Nat) : Progress f (value f) := by
  induction f with
  | zero => intro scan ctx err hl; omega
  | succ f ih => exact value_step_progress ih

/-- The loop of `json_str_size` ends before its fuel does: fuel beyond the number of
bytes left changes nothing. -/
theorem json_str_size_loop_fuel (co : JSON_PARSE_CTX) (scan : Bool) (fuel : Nat) :
    ∀ (k : Nat) (ctx : JSON_PARSE_CTX) (err : List Nat) (res : Nat),
      (rem ctx).length ≤ fuel →
      json_str_size_loop co scan (fuel + k) ctx err res =
        json_str_size_loop co scan fuel ctx err res := by
  induction fuel with
  | zero =>
    intro k ctx err res hl
    have hnil : rem ctx = [] := List.length_eq_zero.mp (Nat.le_zero.mp hl)
    cases k with
    | zero => rfl
    | succ k =>
      rw [show 0 + (k + 1) = k + 1 by omega]
      conv_lhs => rw [json_str_size_loop]
      conv_rhs => rw [json_str_size_loop]
      simp only [readch_nil hnil]
      rw [if_neg (by decide), if_pos (by decide), if_neg (by decide), if_pos (by decide)]
  | succ f ih =>
    intro k ctx err res hl
    rw [show f + 1 + k = (f + k) + 1 by omega]
    conv_lhs => rw [json_str_size_loop]
    conv_rhs => rw [json_str_size_loop]
    simp only []
    by_cases h10 : (readch ctx).1 = 10
    · simp only [if_pos h10]
    simp only [if_neg h10]
    by_cases h32 : (readch ctx).1 < 32
    · simp only [if_pos h32]
    simp only [if_neg h32]
    by_cases h34 : (readch ctx).1 = 34
    · simp only [if_pos h34]
    simp only [if_neg h34]
    have hne : (readch ctx).1 ≠ 0 := by omega
    have hl1 := rem_readch_lt ctx hne
    have hl2 := rem_readch_le (readch ctx).2
    by_cases h92 : (readch ctx).1 = 92
    · simp only [if_pos h92]
      by_cases hc1 : (readch (readch ctx).2).1 < 32
      · simp only [if_pos hc1]
      simp only [if_neg hc1]
      by_cases h117 : (readch (readch ctx).2).1 = 117
      · simp only [if_pos h117]
        cases hh : hex_decode (readch (readch ctx).2).2 err with
        | mk o rest =>
          obtain ⟨c2, e1⟩ := rest
          cases o with
          | none => rfl
          | some ch =>
            simp only []
            have hl3 := hex_decode_rem_le hh
            by_cases hz : ch = 0
            · simp only [if_pos hz]
            simp only [if_neg hz]
            by_cases h80 : ch < 0x80
            · simp only [if_pos h80]
              exact ih k _ _ _ (by omega)
            simp only [if_neg h80]
            by_cases h800 : ch < 0x800
            · simp only [if_pos h800]
              exact ih k _ _ _ (by omega)
            simp only [if_neg h800]
            exact ih k _ _ _ (by omega)
      simp only [if_neg h117]
      by_cases hesc : (readch (readch ctx).2).1 = 34 ∨ (readch (readch ctx).2).1 = 92 ∨
          (readch (readch ctx).2).1 = 47 ∨ (readch (readch ctx).2).1 = 98 ∨
          (readch (readch ctx).2).1 = 102 ∨ (readch (readch ctx).2).1 = 110 ∨
          (readch (readch ctx).2).1 = 114 ∨ (readch (readch ctx).2).1 = 116
      · simp only [if_pos hesc]
        exact ih k _ _ _ (by omega)
      · simp only [if_neg hesc]
    · simp only [if_neg h92]
      exact ih k _ _ _ (by omega)

theorem rem_ctx_init_length (data : List Nat) (size : Nat) :
    (rem (ctx_init data size)).length = min size data.length := by
  simp [rem, ctx_init]

/-- Termination in the model, where a read behind the memory yields 0, `strtod` stops
at the end of the memory and the nesting is bounded by the fuel rather than by the
machine stack: `json_parse` returns on every buffer, with a value or with failure. A
fuel above the number of bytes of the buffer always suffices, so neither the nesting
nor the element loops run on without consuming input. At the end of the input and at a
NUL byte `readch` returns 0 and leaves the cursor where it is, the loops of `space`
and of the digit runs stop in front of the first byte that is not theirs, and the loop
of the string size scan returns before the bytes left are used up. What the source
does where `word` and `strtod` read behind the buffer is not covered by the model. -/
theorem json_parse_terminates (data : List Nat) (size k : Nat) :
    (∃ p e, json_parse (min size data.length + 1 + k) data size = some (p, e))
      ∧ (∀ ctx, peekch ctx = 0 → readch ctx = (0, ctx))
      ∧ (∀ ctx, isspace (peekch (space ctx)) = false)
      ∧ (∀ ctx, isdigit (peekch (digits ctx).1) = false)
      ∧ (∀ co scan ctx err res,
          json_str_size_loop co scan (ctx.size - ctx.i + k) ctx err res =
            json_str_size_loop co scan (ctx.size - ctx.i) ctx err res) := by
  refine ⟨?_, fun ctx h => readch_zero h, peekch_space, ?_,
    fun co scan ctx err res => json_str_size_loop_fuel co scan _ k ctx err res (rem_length ctx)⟩
  · obtain ⟨p, c, e, hv, -⟩ := value_progress (min size data.length + 1 + k) false
      (ctx_init data size) [] (by rw [rem_ctx_init_length]; omega)
    unfold json_parse
    change ∃ p e, (match value (min size data.length + 1 + k) false (ctx_init data size) [] with
      | none => none
      | some (Ptr.NULL, _, err) => some (Ptr.NULL, err)
      | some (result, ctx, err) =>
        if peekch ctx ≠ 0 then
          some (Ptr.NULL, diag ctx.line ctx.col (bytes "Extra garbage after value"))
        else some (result, err)) = some (p, e)
    rw [hv]
    cases p with
    | NULL => exact ⟨_, _, rfl⟩
    | json_ok =>
      simp only []
      split_ifs
      · exact ⟨_, _, rfl⟩
      · exact ⟨_, _, rfl⟩
    | node v =>
      simp only []
      split_ifs
      · exact ⟨_, _, rfl⟩
      · exact ⟨_, _, rfl⟩
  · intro ctx
    rw [digits_takeWhile]
    simp only []
    rw [peekch_rem, rem_steps (List.takeWhile_append_dropWhile isdigit (rem ctx)).symm]
    exact headD_dropWhile_isdigit _

/-! ## Array literals -/

theorem value_space (f : Nat) (scan : Bool) (ctx : JSON_PARSE_CTX) (err : List Nat) :
    value f scan (space ctx) err = value f scan ctx err := by
  cases f with
  | zero => rfl
  | succ f =>
    rw [value_succ, value_succ]
    unfold value_step
    simp only [space_space]

theorem json_parse_inv {f : Nat} {data : List Nat} {size : Nat} {v : JSON_VALUE} {e : List Nat}
    (h : json_parse f data size = some (Ptr.node v, e)) :
    ∃ c, value f false (ctx_init data size) [] = some (Ptr.node v, c, e) ∧ peekch c = 0 := by
  unfold json_parse at h
  cases hv : value f false { s := data, size := size, i := 0, line := 0, col := 0 } [] with
  | none => rw [hv] at h; simp at h
  | some x =>
    rw [hv] at h
    obtain ⟨q, c, err⟩ := x
    cases q with
    | NULL => simp at h
    | json_ok =>
      simp only [] at h
      split_ifs at h <;> simp at h
    | node w =>
      simp only [] at h
      split_ifs at h with hpk
      · simp at h
      · simp only [Option.some.injEq, Prod.mk.injEq, Ptr.node.injEq] at h
        obtain ⟨h1, h2⟩ := h
        subst h1; subst h2
        exact ⟨c, hv, not_not.mp hpk⟩

/-- A successful `value` call starts, after white space, at a byte that begins a value. -/
theorem value_start {f : Nat} {scan : Bool} {ctx : JSON_PARSE_CTX} {err : List Nat} {p : Ptr}
    {c : JSON_PARSE_CTX} {e : List Nat} (h : value f scan ctx err = some (p, c, e))
    (hp : p ≠ Ptr.NULL) :
    peekch (space ctx) ≠ 0 ∧ peekch (space ctx) ≠ 93 ∧ peekch (space ctx) ≠ 44 ∧
      peekch (space ctx) ≠ 125 ∧ peekch (space ctx) ≠ 58 := by
  cases f with
  | zero => simp [value] at h
  | succ f =>
    rw [value_succ] at h
    obtain ⟨c1, -, ho | ha | hn | hs | hw⟩ := value_step_inv h
    · rw [ho.1]; decide
    · rw [ha.1]; decide
    · rcases hn.1 with h45 | hd
      · rw [h45]; decide
      · simp only [isdigit, Bool.and_eq_true, decide_eq_true_eq] at hd
        refine ⟨?_, ?_, ?_, ?_, ?_⟩ <;> omega
    · rw [hs.1]; decide
    · obtain ⟨lit, r, hrem, hl⟩ := word_sound hw.2.2.2.2.2 hp
      rcases hl with hl | hl | hl <;> subst hl
      · rw [peekch_cons (show rem (space ctx) = 110 :: ([117, 108, 108] ++ r) from hrem)]
        decide
      · rw [peekch_cons (show rem (space ctx) = 116 :: ([114, 117, 101] ++ r) from hrem)]
        decide
      · rw [peekch_cons (show rem (space ctx) = 102 :: ([97, 108, 115, 101] ++ r) from hrem)]
        decide

/-- A text that `json_parse` accepts on its own is read to the same value, in both
modes, where it stands in front of a separator inside a larger buffer. -/
theorem value_embedded {f : Nat} {v : List Nat} {r : JSON_VALUE} (hnz : ∀ b ∈ v, b ≠ 0)
    (hp : json_parse f v v.length = some (Ptr.node r, [])) {g : Nat} (hg : f ≤ g)
    {d : Nat} (hd : hardstop d = true) {post : List Nat} {c : JSON_PARSE_CTX}
    (hrem : rem c = v ++ d :: post) (hmem : mem c = v ++ d :: post) :
    ∃ c', value g false c [] = some (Ptr.node r, c', []) ∧
      value g true c [] = some (Ptr.json_ok, c', []) ∧ rem c' = d :: post ∧
      mem c' = d :: post := by
  obtain ⟨c1', hv, hpk⟩ := json_parse_inv hp
  have hF : Frame d post post (ctx_init v v.length) c :=
    ⟨by rw [mem_ctx_init, rem_ctx_init], by rw [rem_ctx_init]; exact hnz,
      by rw [rem_ctx_init]; exact hrem, by rw [rem_ctx_init]; exact hmem⟩
  obtain ⟨c2', hv2, hF2⟩ := value_framed f d post post false _ c [] _ c1' [] hd hF hv (by simp)
  have hnil : rem c1' = [] := by
    cases hr : rem c1' with
    | nil => rfl
    | cons b t =>
      exfalso
      have h1 := peekch_cons hr
      rw [hpk] at h1
      exact hF2.nz b (by rw [hr]; simp) h1.symm
  refine ⟨c2', value_mono hg _ _ _ _ hv2,
    value_mono hg _ _ _ _ (value_scanOfMat f _ _ _ _ _ hv2 (by simp)), ?_, ?_⟩
  · rw [hF2.rem2, hnil]; rfl
  · rw [hF2.mem2, hnil]; rfl

theorem sep_tail_form (close : Nat) (hc : hardstop close = true) (vs : List (List Nat)) :
    ∃ d post, sep_tail close vs = d :: post ∧ hardstop d = true := by
  cases vs with
  | nil => exact ⟨close, [], rfl, hc⟩
  | cons v vs => exact ⟨44, _, rfl, by decide⟩

theorem intercalate_sep_tail (close : Nat) (v : List Nat) (vs : List (List Nat)) :
    List.intercalate [44] (v :: vs) ++ [close] = v ++ sep_tail close vs := by
  induction vs generalizing v with
  | nil => simp [List.intercalate, sep_tail]
  | cons w vs ih =>
    have := ih w
    simp only [List.intercalate, List.intersperse, List.flatten, List.append_assoc,
      List.singleton_append, sep_tail] at this ⊢
    rw [List.cons_append, this]

theorem array_pass1_elems {f F : Nat} (hfF : f ≤ F) (start : JSON_PARSE_CTX) :
    ∀ (vs : List (List Nat)) (rs : List JSON_VALUE),
      List.Forall₂ (fun v r => (∀ b ∈ v, b ≠ 0) ∧
        json_parse f v v.length = some (Ptr.node r, [])) vs rs →
      ∀ (g n : Nat) (ctx : JSON_PARSE_CTX), vs.length < g → n ≠ 0 →
        rem ctx = sep_tail 93 vs → mem ctx = sep_tail 93 vs →
        ∃ c', array_pass1 (value F) start g ctx [] n = some (some (n + vs.length), c', []) ∧
          rem c' = [] := by
  intro vs rs hall
  induction hall with
  | nil =>
    intro g n ctx hg hn hrem hmem
    obtain ⟨g', rfl⟩ : ∃ g', g = g' + 1 := ⟨g - 1, by omega⟩
    have hpk : peekch ctx = 93 := peekch_cons hrem
    refine ⟨(readch ctx).2, by rw [array_pass1_done g' [] n hpk]; rfl, ?_⟩
    rw [readch_cons hrem (by decide)]
    exact rem_step hrem
  | @cons v r vs rs hvr _ ih =>
    intro g n ctx hg hn hrem hmem
    obtain ⟨g', rfl⟩ : ∃ g', g = g' + 1 := ⟨g - 1, by omega⟩
    have hrem' : rem ctx = 44 :: (v ++ sep_tail 93 vs) := hrem
    have hmem' : mem ctx = 44 :: (v ++ sep_tail 93 vs) := hmem
    have hpk : peekch ctx = 44 := peekch_cons hrem'
    obtain ⟨d, post, hst, hd⟩ := sep_tail_form 93 (by decide) vs
    have hr1 : rem (step 44 ctx) = v ++ d :: post := by rw [rem_step hrem', hst]
    have hm1 : mem (step 44 ctx) = v ++ d :: post := by rw [mem_step hmem', hst]
    obtain ⟨c', -, hvs, hrc, hmc⟩ := value_embedded hvr.1 hvr.2 hfF hd hr1 hm1
    have hstep := @array_pass1_step (value F) start g' ctx [] n (by rw [hpk]; decide)
      (by rw [hpk]; decide) (fun _ => hpk) Ptr.json_ok c' []
      (by rw [if_pos hn, readch_cons hrem' (by decide)]; exact hvs) (by simp)
    obtain ⟨c'', hrun, hfin⟩ := ih g' (n + 1) c' (by simpa using hg) (by omega)
      (by rw [hrc, hst]) (by rw [hmc, hst])
    refine ⟨c'', ?_, hfin⟩
    rw [hstep, hrun]
    simp only [List.length_cons]
    congr 3
    omega

theorem array_pass2_elems {f F : Nat} (hfF : f ≤ F) (start : JSON_PARSE_CTX) :
    ∀ (vs : List (List Nat)) (rs : List JSON_VALUE),
      List.Forall₂ (fun v r => (∀ b ∈ v, b ≠ 0) ∧
        json_parse f v v.length = some (Ptr.node r, [])) vs rs →
      ∀ (g n : Nat) (data : List JSON_VALUE) (ctx : JSON_PARSE_CTX), vs.length < g → n ≠ 0 →
        rem ctx = sep_tail 93 vs → mem ctx = sep_tail 93 vs →
        ∃ c', array_pass2 (value F) start g ctx [] n data = some (some (data ++ rs), c', []) ∧
          rem c' = [] := by
  intro vs rs hall
  induction hall with
  | nil =>
    intro g n data ctx hg hn hrem hmem
    obtain ⟨g', rfl⟩ : ∃ g', g = g' + 1 := ⟨g - 1, by omega⟩
    have hpk : peekch ctx = 93 := peekch_cons hrem
    refine ⟨(readch ctx).2, by rw [array_pass2_done g' [] n data hpk]; simp, ?_⟩
    rw [readch_cons hrem (by decide)]
    exact rem_step hrem
  | @cons v r vs rs hvr _ ih =>
    intro g n data ctx hg hn hrem hmem
    obtain ⟨g', rfl⟩ : ∃ g', g = g' + 1 := ⟨g - 1, by omega⟩
    have hrem' : rem ctx = 44 :: (v ++ sep_tail 93 vs) := hrem
    have hmem' : mem ctx = 44 :: (v ++ sep_tail 93 vs) := hmem
    have hpk : peekch ctx = 44 := peekch_cons hrem'
    obtain ⟨d, post, hst, hd⟩ := sep_tail_form 93 (by decide) vs
    have hr1 : rem (step 44 ctx) = v ++ d :: post := by rw [rem_step hrem', hst]
    have hm1 : mem (step 44 ctx) = v ++ d :: post := by rw [mem_step hmem', hst]
    obtain ⟨c', hvm, -, hrc, hmc⟩ := value_embedded hvr.1 hvr.2 hfF hd hr1 hm1
    have hstep := @array_pass2_step (value F) start g' ctx [] n data (by rw [hpk]; decide)
      (by rw [hpk]; decide) (fun _ => hpk) (Ptr.node r) c' []
      (by rw [if_pos hn, readch_cons hrem' (by decide)]; exact hvm) (by simp)
    obtain ⟨c'', hrun, hfin⟩ := ih g' (n + 1) (data ++ [(Ptr.node r).deref]) c'
      (by simpa using hg) (by omega) (by rw [hrc, hst]) (by rw [hmc, hst])
    refine ⟨c'', ?_, hfin⟩
    rw [hstep, hrun]
    simp [Ptr.deref]

/-- The array rule on the text `[v1,...,vn]`, `n ≥ 1`, each `vi` accepted on its own. -/
theorem array_of_elems {f F : Nat} (hfF : f ≤ F) (v : List Nat) (r : JSON_VALUE)
    (vs : List (List Nat)) (rs : List JSON_VALUE)
    (hv : (∀ b ∈ v, b ≠ 0) ∧ json_parse f v v.length = some (Ptr.node r, []))
    (hall : List.Forall₂ (fun v r => (∀ b ∈ v, b ≠ 0) ∧
      json_parse f v v.length = some (Ptr.node r, [])) vs rs)
    (hF : vs.length + 1 < F) {ctx : JSON_PARSE_CTX}
    (hrem : rem ctx = 91 :: (v ++ sep_tail 93 vs)) (hmem : mem ctx = 91 :: (v ++ sep_tail 93 vs)) :
    ∃ c', array (value F) F ctx [] false =
        some (Ptr.node (JSON_VALUE.array (vs.length + 1) (r :: rs)), c', []) ∧ rem c' = [] := by
  obtain ⟨g', rfl⟩ : ∃ g', F = g' + 1 := ⟨F - 1, by omega⟩
  have hrd : readch ctx = (91, step 91 ctx) := readch_cons hrem (by decide)
  obtain ⟨d, post, hst, hd⟩ := sep_tail_form 93 (by decide) vs
  have hr1 : rem (step 91 ctx) = v ++ d :: post := by rw [rem_step hrem, hst]
  have hm1 : mem (step 91 ctx) = v ++ d :: post := by rw [mem_step hmem, hst]
  obtain ⟨c', hvm, hvs, hrc, hmc⟩ := value_embedded hv.1 hv.2 hfF hd hr1 hm1
  obtain ⟨s0, -, -, -, -⟩ := value_start hvm (by simp)
  obtain ⟨-, s93, -, -, -⟩ := value_start hvm (by simp)
  have hstep1 := @array_pass1_step (value (g' + 1)) ctx g' (space (step 91 ctx)) [] 0 s93 s0
    (fun h => absurd rfl h) Ptr.json_ok c' []
    (by rw [if_neg (by simp), value_space]; exact hvs) (by simp)
  have hstep2 := @array_pass2_step (value (g' + 1)) ctx g' (space (step 91 ctx)) [] 0 [] s93 s0
    (fun h => absurd rfl h) (Ptr.node r) c' []
    (by rw [if_neg (by simp), value_space]; exact hvm) (by simp)
  obtain ⟨c1, hrun1, -⟩ := array_pass1_elems hfF ctx vs rs hall g' 1 c' (by omega) (by simp)
    (by rw [hrc, hst]) (by rw [hmc, hst])
  obtain ⟨c2, hrun2, hfin⟩ := array_pass2_elems hfF ctx vs rs hall g' 1 [(Ptr.node r).deref] c'
    (by omega) (by simp) (by rw [hrc, hst]) (by rw [hmc, hst])
  refine ⟨c2, ?_, hfin⟩
  have h91 : (readch ctx).1 = 91 := by rw [hrd]
  have hp1 : array_pass1 (value (g' + 1)) ctx (g' + 1) (space (readch ctx).2) [] 0 =
      some (some (vs.length + 1), c1, []) := by
    rw [hrd, hstep1, hrun1]
    congr 3
    omega
  have hp2 : array_pass2 (value (g' + 1)) ctx (g' + 1) (space (readch ctx).2) [] 0 [] =
      some (some (r :: rs), c2, []) := by
    rw [hrd, hstep2]
    simpa [Ptr.deref] using hrun2
  exact array_of_mat h91 hp1 hp2

/-- The array rule on the text of an empty array. -/
theorem array_of_empty (vF : ValueFn) (F : Nat) (ws : List Nat)
    (hws : ∀ b ∈ ws, isspace b = true)
    {ctx : JSON_PARSE_CTX} (hrem : rem ctx = 91 :: (ws ++ [93])) :
    ∃ c', array vF (F + 1) ctx [] false =
        some (Ptr.node (JSON_VALUE.array 0 []), c', []) ∧ rem c' = [] := by
  have hrd : readch ctx = (91, step 91 ctx) := readch_cons hrem (by decide)
  have hr1 : rem (step 91 ctx) = ws ++ [93] := rem_step hrem
  have hsp : space (step 91 ctx) = steps ws (step 91 ctx) := space_eq hr1 hws (by decide)
  have hr2 : rem (space (step 91 ctx)) = [93] := by rw [hsp]; exact rem_steps hr1
  have hpk : peekch (space (step 91 ctx)) = 93 := peekch_cons hr2
  have h91 : (readch ctx).1 = 91 := by rw [hrd]
  refine ⟨(readch (space (step 91 ctx))).2, ?_, ?_⟩
  · apply array_of_mat h91
    · rw [hrd]; exact array_pass1_done F [] 0 hpk
    · rw [hrd]; exact array_pass2_done F [] 0 [] hpk
  · rw [readch_cons hr2 (by decide)]
    exact rem_step hr2

theorem json_parse_of_array (F : Nat) (tail : List Nat) (v : JSON_VALUE)
    (h : ∀ ctx : JSON_PARSE_CTX, rem ctx = 91 :: tail → mem ctx = 91 :: tail →
      ∃ c, array (value F) F ctx [] false = some (Ptr.node v, c, []) ∧ rem c = []) :
    json_parse (F + 1) (91 :: tail) (91 :: tail).length = some (Ptr.node v, []) := by
  generalize hdata : 91 :: tail = data at h ⊢
  have hrem : rem (ctx_init data data.length) = 91 :: tail := by rw [rem_ctx_init, hdata]
  have hmem : mem (ctx_init data data.length) = 91 :: tail := by rw [mem_ctx_init, hdata]
  obtain ⟨c, ha, hc⟩ := h _ (by rw [hrem, hdata]) (by rw [hmem, hdata])
  have hpk : peekch (ctx_init data data.length) = 91 := peekch_cons hrem
  have hsp : space (ctx_init data data.length) = ctx_init data data.length :=
    space_id (by rw [hpk]; decide)
  have hv : value (F + 1) false (ctx_init data data.length) [] = some (Ptr.node v, space c, []) := by
    rw [value_succ]
    exact value_step_array (by rw [hsp, hpk]) (by rw [hsp]; exact ha)
  apply json_parse_of_node hv
  apply peekch_nil
  rw [rem_space, hc]
  rfl

/-- C1: for every array literal `[v1,...,vn]`, `n ≥ 0`, whose element texts `vi` (with
the white space around them) contain no NUL byte and are each parsed by `json_parse` to
a value `ri`, `json_parse` returns an Array whose element count is `n` and whose
elements are `r1, ..., rn` in order; the text `[`, white space, `]` gives the empty
Array. -/
theorem array_literal_elements (f : Nat) (vs : List (List Nat)) (rs : List JSON_VALUE)
    (hall : List.Forall₂ (fun v r => (∀ b ∈ v, b ≠ 0) ∧
      json_parse f v v.length = some (Ptr.node r, [])) vs rs) (k : Nat) :
    json_parse (f + vs.length + 3 + k) (91 :: (List.intercalate [44] vs ++ [93]))
        (91 :: (List.intercalate [44] vs ++ [93])).length =
        some (Ptr.node (JSON_VALUE.array vs.length rs), [])
      ∧ rs.length = vs.length
      ∧ ∀ ws : List Nat, (∀ b ∈ ws, isspace b = true) →
        json_parse (k + 2) (91 :: (ws ++ [93])) (91 :: (ws ++ [93])).length =
          some (Ptr.node (JSON_VALUE.array 0 []), []) := by
  refine ⟨?_, hall.length_eq.symm, ?_⟩
  · cases hall with
    | nil =>
      have hfu : f + ([] : List (List Nat)).length + 3 + k = (f + 1 + k + 1) + 1 := by
        simp only [List.length_nil]; omega
      have htext : List.intercalate [44] ([] : List (List Nat)) ++ [93] = [] ++ [93] := rfl
      rw [hfu, htext]
      apply json_parse_of_array
      intro ctx hrem hmem
      exact array_of_empty (value (f + 1 + k + 1)) (f + 1 + k) [] (by simp) hrem
    | @cons v r vs rs hv hrest =>
      have hfu : f + (v :: vs).length + 3 + k = (f + vs.length + 3 + k) + 1 := by
        simp only [List.length_cons]; omega
      rw [hfu, intercalate_sep_tail]
      apply json_parse_of_array
      intro ctx hrem hmem
      exact @array_of_elems f (f + vs.length + 3 + k) (by omega) v r vs rs hv hrest (by omega)
        ctx hrem hmem
  · intro ws hws
    apply json_parse_of_array
    intro ctx hrem hmem
    exact array_of_empty (value (k + 1)) k ws hws hrem

theorem array_literal_elements_witness :
    json_parse (1 + [[49], bytes " true "].length + 3 + 0)
        (91 :: (List.intercalate [44] [[49], bytes " true "] ++ [93]))
        (91 :: (List.intercalate [44] [[49], bytes " true "] ++ [93])).length =
        some (Ptr.node (JSON_VALUE.array [[49], bytes " true "].length
          [JSON_VALUE.number [49], JSON_VALUE.boolean true]), [])
      ∧ [JSON_VALUE.number [49], JSON_VALUE.boolean true].length =
          [[49], bytes " true "].length
      ∧ ∀ ws : List Nat, (∀ b ∈ ws, isspace b = true) →
        json_parse (0 + 2) (91 :: (ws ++ [93])) (91 :: (ws ++ [93])).length =
          some (Ptr.node (JSON_VALUE.array 0 []), []) :=
  array_literal_elements 1 [[49], bytes " true "]
    [JSON_VALUE.number [49], JSON_VALUE.boolean true]
    (List.Forall₂.cons ⟨by decide, by rfl⟩
      (List.Forall₂.cons ⟨by decide, by rfl⟩ List.Forall₂.nil)) 0

/-! ## Object literals -/

theorem mncl_kv_find_none (kv : MNCL_KV) (key : List Nat) (h : key ∉ kv.map Prod.fst) :
    mncl_kv_find kv key = none := by
  induction kv with
  | nil => rfl
  | cons e kv ih =>
    obtain ⟨k0, v0⟩ := e
    simp only [List.map_cons, List.mem_cons, not_or] at h
    simp only [mncl_kv_find, ih h.2]
    rw [if_neg (fun hk => h.1 hk.symm)]

theorem mncl_kv_find_mem (kv : MNCL_KV) (hnd : (kv.map Prod.fst).Nodup) (key : List Nat)
    (v : JSON_VALUE) (h : (key, v) ∈ kv) : mncl_kv_find kv key = some v := by
  induction kv with
  | nil => simp at h
  | cons e kv ih =>
    obtain ⟨k0, v0⟩ := e
    simp only [List.map_cons, List.nodup_cons] at hnd
    simp only [List.mem_cons, Prod.mk.injEq] at h
    rcases h with ⟨hk, hv⟩ | h
    · subst hk; subst hv
      simp [mncl_kv_find, mncl_kv_find_none kv key hnd.1]
    · simp only [mncl_kv_find, ih hnd.2 h]

/-- From the opening quote of a member's key on: the key is scanned, the colon is read,
and the value is read as on its own, up to the separator behind the member. -/
theorem member_body {f F : Nat} (hfF : f ≤ F) {m : Member} (hm : m.ok f) {d : Nat}
    (hd : hardstop d = true) {post : List Nat} {c1 : JSON_PARSE_CTX}
    (hrem : rem c1 = 34 :: (render m.key ++ 34 :: (m.mid ++ 58 :: (m.text ++ d :: post))))
    (hmem : mem c1 = 34 :: (render m.key ++ 34 :: (m.mid ++ 58 :: (m.text ++ d :: post)))) :
    (readch (space (steps (34 :: (render m.key ++ [34])) c1))).1 = 58 ∧
      ∃ c6, value F false (readch (space (steps (34 :: (render m.key ++ [34])) c1))).2 [] =
          some (Ptr.node m.val, c6, []) ∧ rem c6 = d :: post ∧ mem c6 = d :: post := by
  obtain ⟨-, hmid, -, hnz, hp⟩ := hm
  have hr2 : rem (steps (34 :: (render m.key ++ [34])) c1) =
      m.mid ++ 58 :: (m.text ++ d :: post) := rem_steps (by rw [hrem]; simp)
  have hm2 : mem (steps (34 :: (render m.key ++ [34])) c1) =
      m.mid ++ 58 :: (m.text ++ d :: post) := mem_steps (by rw [hmem]; simp)
  have hsp : space (steps (34 :: (render m.key ++ [34])) c1) =
      steps m.mid (steps (34 :: (render m.key ++ [34])) c1) := space_eq hr2 hmid (by rfl)
  have hr3 : rem (space (steps (34 :: (render m.key ++ [34])) c1)) =
      58 :: (m.text ++ d :: post) := by rw [hsp]; exact rem_steps hr2
  have hm3 : mem (space (steps (34 :: (render m.key ++ [34])) c1)) =
      58 :: (m.text ++ d :: post) := by rw [hsp]; exact mem_steps hm2
  have hrd := readch_cons hr3 (by decide)
  rw [hrd]
  refine ⟨rfl, ?_⟩
  obtain ⟨c', hv, -, hrc, hmc⟩ := value_embedded hnz hp hfF hd (rem_step hr3) (mem_step hm3)
  exact ⟨c', hv, hrc, hmc⟩

theorem object_loop_members {f F : Nat} (hfF : f ≤ F) :
    ∀ (ms : List Member), (∀ m ∈ ms, m.ok f) →
      ∀ (g : Nat) (kv : MNCL_KV) (ctx : JSON_PARSE_CTX), ms.length < g →
        rem ctx = sep_tail 125 (ms.map Member.render) →
        mem ctx = sep_tail 125 (ms.map Member.render) →
        ∃ c', object_loop (value F) false g false ctx [] kv =
            some (some (kv ++ ms.map (fun m => (m.name, m.val))), c', []) ∧ rem c' = [] := by
  intro ms
  induction ms with
  | nil =>
    intro _ g kv ctx hg hrem hmem
    obtain ⟨g', rfl⟩ : ∃ g', g = g' + 1 := ⟨g - 1, by omega⟩
    have hrem' : rem ctx = [125] := hrem
    have hsp : space ctx = ctx := space_id (by rw [peekch_cons hrem']; decide)
    have hpk : peekch (space ctx) = 125 := by rw [hsp]; exact peekch_cons hrem'
    refine ⟨(readch (space ctx)).2, by rw [object_loop_done g' false [] kv hpk]; simp, ?_⟩
    rw [hsp, readch_cons hrem' (by decide)]
    exact rem_step hrem'
  | cons m ms ih =>
    intro hok g kv ctx hg hrem hmem
    obtain ⟨g', rfl⟩ : ∃ g', g = g' + 1 := ⟨g - 1, by omega⟩
    have hm := hok m (List.mem_cons_self _ _)
    obtain ⟨d, post, hst, hd⟩ := sep_tail_form 125 (by decide) (ms.map Member.render)
    have hrem' : rem ctx = 44 :: (m.pre ++ 34 :: (render m.key ++ 34 ::
        (m.mid ++ 58 :: (m.text ++ d :: post)))) := by
      rw [hrem, ← hst]; simp [sep_tail, Member.render]
    have hmem' : mem ctx = 44 :: (m.pre ++ 34 :: (render m.key ++ 34 ::
        (m.mid ++ 58 :: (m.text ++ d :: post)))) := by
      rw [hmem, ← hst]; simp [sep_tail, Member.render]
    have hsp : space ctx = ctx := space_id (by rw [peekch_cons hrem']; decide)
    have hpk : peekch (space ctx) = 44 := by rw [hsp]; exact peekch_cons hrem'
    have hrd : readch (space ctx) = (44, step 44 ctx) := by
      rw [hsp]; exact readch_cons hrem' (by decide)
    have hsp2 : space (step 44 ctx) = steps m.pre (step 44 ctx) :=
      space_eq (rem_step hrem') hm.1 (by rfl)
    have hr1 : rem (space (step 44 ctx)) = 34 :: (render m.key ++ 34 ::
        (m.mid ++ 58 :: (m.text ++ d :: post))) := by
      rw [hsp2]; exact rem_steps (rem_step hrem')
    have hm1 : mem (space (step 44 ctx)) = 34 :: (render m.key ++ 34 ::
        (m.mid ++ 58 :: (m.text ++ d :: post))) := by
      rw [hsp2]; exact mem_steps (mem_step hmem')
    obtain ⟨h58, c6, hv, hrc, hmc⟩ := member_body hfF hm hd hr1 hm1
    have hctx1 : (if false = true then space ctx else space (readch (space ctx)).2) =
        space (step 44 ctx) := by rw [hrd]; rfl
    have hstep := @object_loop_step (value F) false g' false ctx [] kv (by rw [hpk]; decide)
      (fun _ => hpk) m.key _ hm.2.2.1 (by rw [hctx1]; exact hr1) (by rw [hctx1]; exact h58)
      (Ptr.node m.val) c6 [] (by rw [hctx1]; exact hv) (by simp)
    obtain ⟨c', hrun, hfin⟩ := ih (fun x hx => hok x (List.mem_cons_of_mem _ hx)) g'
      (mncl_kv_insert kv (cstr (decode m.key ++ [0])) (Ptr.node m.val).deref) c6
      (by simpa using hg) (by rw [hrc, hst]) (by rw [hmc, hst])
    refine ⟨c', ?_, hfin⟩
    rw [hstep]
    simp only [Bool.false_eq_true, if_false]
    rw [hrun, cstr_append_zero (decode_ne_zero hm.2.2.1)]
    simp [mncl_kv_insert, Ptr.deref, Member.name]

theorem object_of_members {f F : Nat} (hfF : f ≤ F) (ms : List Member)
    (hok : ∀ m ∈ ms, m.ok f) (hF : ms.length + 1 < F) {ctx : JSON_PARSE_CTX}
    (hrem : rem ctx = 123 :: (List.intercalate [44] (ms.map Member.render) ++ [125]))
    (hmem : mem ctx = 123 :: (List.intercalate [44] (ms.map Member.render) ++ [125])) :
    ∃ c', object (value F) F ctx [] false =
        some (Ptr.node (JSON_VALUE.object (ms.map (fun m => (m.name, m.val)))), c', []) ∧
      rem c' = [] := by
  obtain ⟨g', rfl⟩ : ∃ g', F = g' + 1 := ⟨F - 1, by omega⟩
  have hrd : readch ctx = (123, step 123 ctx) := readch_cons hrem (by decide)
  have h123 : (readch ctx).1 = 123 := by rw [hrd]
  cases ms with
  | nil =>
    have hr1 : rem (step 123 ctx) = [125] := rem_step hrem
    have hsp : space (step 123 ctx) = step 123 ctx := space_id (by rw [peekch_cons hr1]; decide)
    have hpk : peekch (space (step 123 ctx)) = 125 := by rw [hsp]; exact peekch_cons hr1
    refine ⟨(readch (space (step 123 ctx))).2, ?_, ?_⟩
    · have := @object_of (value (g' + 1)) (g' + 1) ctx [] false h123 mncl_alloc_kv
        (readch (space (step 123 ctx))).2 []
        (by rw [hrd]; exact object_loop_done g' true [] mncl_alloc_kv hpk)
      rw [this]
      rfl
    · rw [hsp, readch_cons hr1 (by decide)]
      exact rem_step hr1
  | cons m ms =>
    have hm := hok m (List.mem_cons_self _ _)
    obtain ⟨d, post, hst, hd⟩ := sep_tail_form 125 (by decide) (ms.map Member.render)
    have htext : List.intercalate [44] ((m :: ms).map Member.render) ++ [125] =
        m.pre ++ 34 :: (render m.key ++ 34 :: (m.mid ++ 58 :: (m.text ++ d :: post))) := by
      rw [List.map_cons, intercalate_sep_tail, hst]
      simp [Member.render]
    rw [htext] at hrem hmem
    have hsp : space (step 123 ctx) = steps m.pre (step 123 ctx) :=
      space_eq (rem_step hrem) hm.1 (by rfl)
    have hr1 : rem (space (step 123 ctx)) = 34 :: (render m.key ++ 34 ::
        (m.mid ++ 58 :: (m.text ++ d :: post))) := by
      rw [hsp]; exact rem_steps (rem_step hrem)
    have hm1 : mem (space (step 123 ctx)) = 34 :: (render m.key ++ 34 ::
        (m.mid ++ 58 :: (m.text ++ d :: post))) := by
      rw [hsp]; exact mem_steps (mem_step hmem)
    obtain ⟨h58, c6, hv, hrc, hmc⟩ := member_body hfF hm hd hr1 hm1
    have hpk : peekch (space (step 123 ctx)) = 34 := peekch_cons hr1
    have hctx1 : (if true = true then space (step 123 ctx)
        else space (readch (space (step 123 ctx))).2) = space (step 123 ctx) := rfl
    have hstep := @object_loop_step (value (g' + 1)) false g' true (step 123 ctx) []
      mncl_alloc_kv (by rw [hpk]; decide) (fun h => absurd h (by decide)) m.key _ hm.2.2.1
      (by rw [hctx1]; exact hr1) (by rw [hctx1]; exact h58)
      (Ptr.node m.val) c6 [] (by rw [hctx1]; exact hv) (by simp)
    obtain ⟨c', hrun, hfin⟩ := object_loop_members hfF ms
      (fun x hx => hok x (List.mem_cons_of_mem _ hx)) g'
      (mncl_kv_insert mncl_alloc_kv (cstr (decode m.key ++ [0])) (Ptr.node m.val).deref) c6
      (by simp only [List.length_cons] at hF; omega) (by rw [hrc, hst]) (by rw [hmc, hst])
    refine ⟨c', ?_, hfin⟩
    have hloop : object_loop (value (g' + 1)) false (g' + 1) true (readch ctx).2 []
        mncl_alloc_kv = some (some ((m :: ms).map (fun m => (m.name, m.val))), c', []) := by
      rw [hrd, hstep]
      simp only [Bool.false_eq_true, if_false]
      rw [hrun, cstr_append_zero (decode_ne_zero hm.2.2.1)]
      simp [mncl_kv_insert, mncl_alloc_kv, Ptr.deref, Member.name]
    rw [object_of h123 hloop]
    rfl

theorem json_parse_of_object (F : Nat) (tail : List Nat) (v : JSON_VALUE)
    (h : ∀ ctx : JSON_PARSE_CTX, rem ctx = 123 :: tail → mem ctx = 123 :: tail →
      ∃ c, object (value F) F ctx [] false = some (Ptr.node v, c, []) ∧ rem c = []) :
    json_parse (F + 1) (123 :: tail) (123 :: tail).length = some (Ptr.node v, []) := by
  generalize hdata : 123 :: tail = data at h ⊢
  have hrem : rem (ctx_init data data.length) = 123 :: tail := by rw [rem_ctx_init, hdata]
  have hmem : mem (ctx_init data data.length) = 123 :: tail := by rw [mem_ctx_init, hdata]
  obtain ⟨c, ha, hc⟩ := h _ (by rw [hrem, hdata]) (by rw [hmem, hdata])
  have hpk : peekch (ctx_init data data.length) = 123 := peekch_cons hrem
  have hsp : space (ctx_init data data.length) = ctx_init data data.length :=
    space_id (by rw [hpk]; decide)
  have hv : value (F + 1) false (ctx_init data data.length) [] = some (Ptr.node v, space c, []) := by
    rw [value_succ]
    exact value_step_object (by rw [hsp, hpk]) (by rw [hsp]; exact ha)
  apply json_parse_of_node hv
  apply peekch_nil
  rw [rem_space, hc]
  rfl

/-- C11: for every object literal `{k1: v1, ..., kn: vn}` with well-formed key literals,
value texts without NUL byte that `json_parse` maps to `r1..rn`, and pairwise distinct
decoded keys, `json_parse` returns an Object on which `json_lookup` with the decoded
key `ki` returns `ri`, and with any key that is none of the `ki` returns not-found
(`NULL`); the mapping is the collaborator that returns on find what was inserted. -/
theorem object_literal_lookup (f : Nat) (ms : List Member) (hok : ∀ m ∈ ms, m.ok f)
    (hnd : (ms.map Member.name).Nodup) (k : Nat) :
    ∃ kv, json_parse (f + ms.length + 3 + k)
          (123 :: (List.intercalate [44] (ms.map Member.render) ++ [125]))
          (123 :: (List.intercalate [44] (ms.map Member.render) ++ [125])).length =
          some (Ptr.node (JSON_VALUE.object kv), [])
      ∧ (∀ m ∈ ms, json_lookup (Ptr.node (JSON_VALUE.object kv)) (m.name ++ [0]) =
          Ptr.node m.val)
      ∧ (∀ key, cstr key ∉ ms.map Member.name →
          json_lookup (Ptr.node (JSON_VALUE.object kv)) key = Ptr.NULL) := by
  refine ⟨ms.map (fun m => (m.name, m.val)), ?_, ?_, ?_⟩
  · have hfu : f + ms.length + 3 + k = (f + ms.length + 2 + k) + 1 := by omega
    rw [hfu]
    apply json_parse_of_object
    intro ctx hrem hmem
    exact @object_of_members f (f + ms.length + 2 + k) (by omega) ms hok (by omega) ctx
      hrem hmem
  · intro m hm
    have hkeys : (ms.map (fun m => (m.name, m.val))).map Prod.fst = ms.map Member.name := by
      simp [List.map_map, Function.comp_def]
    have hz : ∀ b ∈ m.name, b ≠ 0 := decode_ne_zero (hok m hm).2.2.1
    have hfind := mncl_kv_find_mem (ms.map (fun m => (m.name, m.val))) (by rw [hkeys]; exact hnd)
      m.name m.val (List.mem_map.mpr ⟨m, hm, rfl⟩)
    simp only [json_lookup, Ptr.deref, cstr_append_zero hz, hfind]
  · intro key hkey
    have hkeys : (ms.map (fun m => (m.name, m.val))).map Prod.fst = ms.map Member.name := by
      simp [List.map_map, Function.comp_def]
    have hfind := mncl_kv_find_none (ms.map (fun m => (m.name, m.val))) (cstr key)
      (by rw [hkeys]; exact hkey)
    simp only [json_lookup, Ptr.deref, hfind]

theorem object_literal_lookup_witness :
    ∃ kv, json_parse (5 + [(⟨[], [Item.plain 120], [], bytes " [1, 2, 3]",
            JSON_VALUE.array 3 [JSON_VALUE.number [49], JSON_VALUE.number [50],
              JSON_VALUE.number [51]]⟩ : Member),
          ⟨[32], [Item.plain 121], [], bytes " true", JSON_VALUE.boolean true⟩].length + 3 + 0)
          (123 :: (List.intercalate [44] ([(⟨[], [Item.plain 120], [], bytes " [1, 2, 3]",
            JSON_VALUE.array 3 [JSON_VALUE.number [49], JSON_VALUE.number [50],
              JSON_VALUE.number [51]]⟩ : Member),
          ⟨[32], [Item.plain 121], [], bytes " true", JSON_VALUE.boolean true⟩].map
            Member.render) ++ [125]))
          (123 :: (List.intercalate [44] ([(⟨[], [Item.plain 120], [], bytes " [1, 2, 3]",
            JSON_VALUE.array 3 [JSON_VALUE.number [49], JSON_VALUE.number [50],
              JSON_VALUE.number [51]]⟩ : Member),
          ⟨[32], [Item.plain 121], [], bytes " true", JSON_VALUE.boolean true⟩].map
            Member.render) ++ [125])).length =
          some (Ptr.node (JSON_VALUE.object kv), [])
      ∧ (∀ m ∈ [(⟨[], [Item.plain 120], [], bytes " [1, 2, 3]",
            JSON_VALUE.array 3 [JSON_VALUE.number [49], JSON_VALUE.number [50],
              JSON_VALUE.number [51]]⟩ : Member),
          ⟨[32], [Item.plain 121], [], bytes " true", JSON_VALUE.boolean true⟩],
          json_lookup (Ptr.node (JSON_VALUE.object kv)) (m.name ++ [0]) = Ptr.node m.val)
      ∧ (∀ key, cstr key ∉ [(⟨[], [Item.plain 120], [], bytes " [1, 2, 3]",
            JSON_VALUE.array 3 [JSON_VALUE.number [49], JSON_VALUE.number [50],
              JSON_VALUE.number [51]]⟩ : Member),
          ⟨[32], [Item.plain 121], [], bytes " true", JSON_VALUE.boolean true⟩].map
            Member.name →
          json_lookup (Ptr.node (JSON_VALUE.object kv)) key = Ptr.NULL) :=
  object_literal_lookup 5 [⟨[], [Item.plain 120], [], bytes " [1, 2, 3]",
      JSON_VALUE.array 3 [JSON_VALUE.number [49], JSON_VALUE.number [50],
        JSON_VALUE.number [51]]⟩,
    ⟨[32], [Item.plain 121], [], bytes " true", JSON_VALUE.boolean true⟩]
    (by
      intro m hm
      simp only [List.mem_cons, List.mem_singleton, List.not_mem_nil, or_false] at hm
      rcases hm with rfl | rfl
      · exact ⟨by decide, by decide, by decide, by decide, by rfl⟩
      · exact ⟨by decide, by decide, by decide, by decide, by rfl⟩)
    (by decide) 0

/-! ## "Expected value" -/

theorem word_fail_eq {ctx : JSON_PARSE_CTX} (err : List Nat) (scan : Bool)
    (h1 : ¬ (bytes "null" <+: rem ctx)) (h2 : ¬ (bytes "true" <+: rem ctx))
    (h3 : ¬ (bytes "false" <+: rem ctx)) :
    word ctx err scan = (Ptr.NULL, ctx, diag ctx.line ctx.col (bytes "Expected value")) := by
  have key : (word ctx err scan).1 = Ptr.NULL := by
    by_contra hne
    obtain ⟨lit, r, hrem, hl⟩ := @word_sound ctx err scan _ _ _ rfl hne
    rcases hl with hl | hl | hl <;> subst hl
    · exact h1 ⟨r, hrem.symm⟩
    · exact h2 ⟨r, hrem.symm⟩
    · exact h3 ⟨r, hrem.symm⟩
  unfold word at key ⊢
  simp only [] at key ⊢
  split_ifs at key ⊢
  rfl

/-- At a position where no value starts, `value` fails with "Expected value". -/
theorem value_no_start (f : Nat) (scan : Bool) {ctx : JSON_PARSE_CTX} (err : List Nat)
    {ws t : List Nat} (hrem : rem ctx = ws ++ t) (hws : ∀ b ∈ ws, isspace b = true)
    (ht : NoValueStart t) :
    value (f + 1) scan ctx err = some (Ptr.NULL, steps ws ctx,
      diag (steps ws ctx).line (steps ws ctx).col (bytes "Expected value")) := by
  obtain ⟨hsp, h123, h91, h34, h45, hd, hn, htr, hfa⟩ := ht
  have hs : space ctx = steps ws ctx := space_eq hrem hws hsp
  have hr : rem (space ctx) = t := by rw [hs]; exact rem_steps hrem
  have hpk : peekch (space ctx) = t.headD 0 := by rw [peekch_rem, hr]
  have hw := @word_fail_eq (space ctx) err scan (by rw [hr]; exact hn) (by rw [hr]; exact htr)
    (by rw [hr]; exact hfa)
  rw [value_of_word (by rw [hpk]; exact h123) (by rw [hpk]; exact h91)
    (by rw [hpk]; exact h45) (by rw [hpk]; exact h34) (by rw [hpk]; exact hd), hw]
  simp only []
  rw [space_space, hs]

theorem array_pass1_fail_at {vF : ValueFn} {start : JSON_PARSE_CTX} (f : Nat)
    {ctx : JSON_PARSE_CTX} {err : List Nat} {count : Nat} (h93 : peekch ctx ≠ 93)
    (h0 : peekch ctx ≠ 0) (hc : count ≠ 0 → peekch ctx = 44) {c2 : JSON_PARSE_CTX}
    {e2 : List Nat}
    (hv : vF true (if count ≠ 0 then (readch ctx).2 else ctx) err = some (Ptr.NULL, c2, e2)) :
    array_pass1 vF start (f + 1) ctx err count = some (none, c2, e2) := by
  rw [array_pass1]
  have hcc : ¬ (count ≠ 0 ∧ peekch ctx ≠ 44) := fun h => h.2 (hc h.1)
  simp only [h93, h0, hcc, if_false, hv]

theorem array_of_pass1_fail {vF : ValueFn} {fuel : Nat} {ctx : JSON_PARSE_CTX}
    {err : List Nat} (scan : Bool) (h91 : (readch ctx).1 = 91) {c1 : JSON_PARSE_CTX}
    {e1 : List Nat}
    (h1 : array_pass1 vF ctx fuel (space (readch ctx).2) err 0 = some (none, c1, e1)) :
    array vF fuel ctx err scan = some (Ptr.NULL, c1, e1) := by
  unfold array
  simp only [h91, ne_eq, not_true_eq_false, if_false, h1]

theorem object_loop_fail_at {vF : ValueFn} {scan : Bool} (f : Nat) {first : Bool}
    {ctx0 : JSON_PARSE_CTX} {err : List Nat} (kv : MNCL_KV)
    (h125 : peekch (space ctx0) ≠ 125) (hc : first = false → peekch (space ctx0) = 44)
    {items : List Item} {r : List Nat} (hv : ∀ it ∈ items, it.valid)
    (hrem : rem (if first then space ctx0 else space (readch (space ctx0)).2) =
      34 :: (render items ++ 34 :: r))
    (h58 : (readch (space (steps (34 :: (render items ++ [34]))
      (if first then space ctx0 else space (readch (space ctx0)).2)))).1 = 58)
    {c6 : JSON_PARSE_CTX} {e6 : List Nat}
    (hvF : vF scan (readch (space (steps (34 :: (render items ++ [34]))
      (if first then space ctx0 else space (readch (space ctx0)).2)))).2 err =
        some (Ptr.NULL, c6, e6)) :
    object_loop vF scan (f + 1) first ctx0 err kv = some (none, c6, e6) := by
  rw [object_loop]
  have hcc : ¬ (first = false ∧ peekch (space ctx0) ≠ 44) := fun h => h.2 (hc h.1)
  simp only [h125, hcc, if_false]
  rw [json_str_size_literal err scan hv hrem]
  cases scan with
  | true =>
    simp only [if_true]
    simp only [h58, ne_eq, not_true_eq_false, if_false, hvF]
  | false =>
    simp only [Bool.false_eq_true, if_false]
    rw [json_strcpy_literal err hv hrem]
    simp only [h58, ne_eq, not_true_eq_false, if_false, hvF]

theorem object_of_loop_fail {vF : ValueFn} {fuel : Nat} {ctx : JSON_PARSE_CTX}
    {err : List Nat} {scan : Bool} (h123 : (readch ctx).1 = 123) {c1 : JSON_PARSE_CTX}
    {e1 : List Nat}
    (h1 : object_loop vF scan fuel true (readch ctx).2 err mncl_alloc_kv = some (none, c1, e1)) :
    object vF fuel ctx err scan = some (Ptr.NULL, c1, e1) := by
  unfold object
  simp only [h123, ne_eq, not_true_eq_false, if_false, h1]

/-- From the opening quote of a key on: the key is scanned and the colon is read. -/
theorem member_key {key : List Item} {mid tail : List Nat}
    (hmid : ∀ b ∈ mid, isspace b = true) {c1 : JSON_PARSE_CTX}
    (hrem : rem c1 = 34 :: (render key ++ 34 :: (mid ++ 58 :: tail)))
    (hmem : mem c1 = 34 :: (render key ++ 34 :: (mid ++ 58 :: tail))) :
    (readch (space (steps (34 :: (render key ++ [34])) c1))).1 = 58 ∧
      rem (readch (space (steps (34 :: (render key ++ [34])) c1))).2 = tail ∧
      mem (readch (space (steps (34 :: (render key ++ [34])) c1))).2 = tail := by
  have hr2 : rem (steps (34 :: (render key ++ [34])) c1) = mid ++ 58 :: tail :=
    rem_steps (by rw [hrem]; simp)
  have hm2 : mem (steps (34 :: (render key ++ [34])) c1) = mid ++ 58 :: tail :=
    mem_steps (by rw [hmem]; simp)
  have hsp : space (steps (34 :: (render key ++ [34])) c1) =
      steps mid (steps (34 :: (render key ++ [34])) c1) := space_eq hr2 hmid (by rfl)
  have hr3 : rem (space (steps (34 :: (render key ++ [34])) c1)) = 58 :: tail := by
    rw [hsp]; exact rem_steps hr2
  have hm3 : mem (space (steps (34 :: (render key ++ [34])) c1)) = 58 :: tail := by
    rw [hsp]; exact mem_steps hm2
  rw [readch_cons hr3 (by decide)]
  exact ⟨rfl, rem_step hr3, mem_step hm3⟩

/-- The sizing pass of `array`, at the comma behind an element: it runs through the
elements in front of the position and returns the failure of `value` there. -/
theorem array_pass1_through {f F : Nat} (hfF : f ≤ F) (start : JSON_PARSE_CTX)
    (tail : List Nat)
    (hin : ∀ c : JSON_PARSE_CTX, rem c = tail → mem c = tail →
      ∃ c' l k, value F true c [] = some (Ptr.NULL, c', diag l k (bytes "Expected value"))) :
    ∀ (done : List (List Nat)), Layer.ok f (Layer.arr done) →
      ∀ (g n : Nat) (ctx : JSON_PARSE_CTX), done.length < g → n ≠ 0 →
        rem ctx = 44 :: ((done.map (fun v => v ++ [44])).flatten ++ tail) →
        mem ctx = 44 :: ((done.map (fun v => v ++ [44])).flatten ++ tail) →
        ∃ c' l k, array_pass1 (value F) start g ctx [] n =
          some (none, c', diag l k (bytes "Expected value")) := by
  intro done
  induction done with
  | nil =>
    intro _ g n ctx hg hn hrem hmem
    obtain ⟨g', rfl⟩ : ∃ g', g = g' + 1 := ⟨g - 1, by omega⟩
    have hrem' : rem ctx = 44 :: tail := by simpa using hrem
    have hmem' : mem ctx = 44 :: tail := by simpa using hmem
    have hpk : peekch ctx = 44 := peekch_cons hrem'
    obtain ⟨c', l, k, hv⟩ := hin (step 44 ctx) (rem_step hrem') (mem_step hmem')
    exact ⟨c', l, k, array_pass1_fail_at g' (by rw [hpk]; decide) (by rw [hpk]; decide)
      (fun _ => hpk) (by rw [if_pos hn, readch_cons hrem' (by decide)]; exact hv)⟩
  | cons v done ih =>
    intro hok g n ctx hg hn hrem hmem
    obtain ⟨g', rfl⟩ : ∃ g', g = g' + 1 := ⟨g - 1, by omega⟩
    have hrem' : rem ctx =
        44 :: (v ++ 44 :: ((done.map (fun v => v ++ [44])).flatten ++ tail)) := by
      rw [hrem]; simp
    have hmem' : mem ctx =
        44 :: (v ++ 44 :: ((done.map (fun v => v ++ [44])).flatten ++ tail)) := by
      rw [hmem]; simp
    have hpk : peekch ctx = 44 := peekch_cons hrem'
    obtain ⟨hnz, r, hp⟩ := hok v (List.mem_cons_self _ _)
    obtain ⟨c', -, hvs, hrc, hmc⟩ := value_embedded hnz hp hfF (by decide : hardstop 44 = true)
      (rem_step hrem') (mem_step hmem')
    have hstep := @array_pass1_step (value F) start g' ctx [] n (by rw [hpk]; decide)
      (by rw [hpk]; decide) (fun _ => hpk) Ptr.json_ok c' []
      (by rw [if_pos hn, readch_cons hrem' (by decide)]; exact hvs) (by simp)
    obtain ⟨c'', l, k, hrun⟩ := ih (fun x hx => hok x (List.mem_cons_of_mem _ hx)) g' (n + 1) c'
      (by simpa using hg) (by omega) hrc hmc
    exact ⟨c'', l, k, by rw [hstep, hrun]⟩

/-- The array rule on an array layer followed by a position at which `value` fails. -/
theorem array_layer_fail {f F : Nat} (hfF : f ≤ F) (done : List (List Nat))
    (hok : Layer.ok f (Layer.arr done)) (hF : done.length + 1 < F) (tail : List Nat)
    (hfirst : done = [] → (tail.dropWhile isspace).headD 0 ≠ 93 ∧
      (tail.dropWhile isspace).headD 0 ≠ 0)
    (hin : ∀ c : JSON_PARSE_CTX, rem c = tail → mem c = tail →
      ∃ c' l k, value F true c [] = some (Ptr.NULL, c', diag l k (bytes "Expected value")))
    (scan : Bool) {ctx : JSON_PARSE_CTX}
    (hrem : rem ctx = (Layer.arr done).render ++ tail)
    (hmem : mem ctx = (Layer.arr done).render ++ tail) :
    ∃ c' l k, array (value F) F ctx [] scan =
      some (Ptr.NULL, c', diag l k (bytes "Expected value")) := by
  obtain ⟨g', rfl⟩ : ∃ g', F = g' + 1 := ⟨F - 1, by omega⟩
  have hrem' : rem ctx = 91 :: ((done.map (fun v => v ++ [44])).flatten ++ tail) := by
    rw [hrem]; simp [Layer.render]
  have hmem' : mem ctx = 91 :: ((done.map (fun v => v ++ [44])).flatten ++ tail) := by
    rw [hmem]; simp [Layer.render]
  have hrd : readch ctx = (91, step 91 ctx) := readch_cons hrem' (by decide)
  have h91 : (readch ctx).1 = 91 := by rw [hrd]
  cases done with
  | nil =>
    have hr1 : rem (step 91 ctx) = tail := by rw [rem_step hrem']; simp
    have hm1 : mem (step 91 ctx) = tail := by rw [mem_step hmem']; simp
    obtain ⟨c', l, k, hv⟩ := hin (step 91 ctx) hr1 hm1
    have hpk : peekch (space (step 91 ctx)) = (tail.dropWhile isspace).headD 0 := by
      rw [peekch_rem, rem_space, hr1]
    obtain ⟨s93, s0⟩ := hfirst rfl
    refine ⟨c', l, k, array_of_pass1_fail scan h91 ?_⟩
    rw [hrd]
    exact array_pass1_fail_at g' (by rw [hpk]; exact s93) (by rw [hpk]; exact s0)
      (fun h => absurd rfl h) (by rw [if_neg (by simp), value_space]; exact hv)
  | cons v done =>
    have hrem1 : rem (step 91 ctx) =
        v ++ 44 :: ((done.map (fun v => v ++ [44])).flatten ++ tail) := by
      rw [rem_step hrem']; simp
    have hmem1 : mem (step 91 ctx) =
        v ++ 44 :: ((done.map (fun v => v ++ [44])).flatten ++ tail) := by
      rw [mem_step hmem']; simp
    obtain ⟨hnz, r, hp⟩ := hok v (List.mem_cons_self _ _)
    obtain ⟨c', hvm, hvs, hrc, hmc⟩ := value_embedded hnz hp hfF (by decide : hardstop 44 = true)
      hrem1 hmem1
    obtain ⟨s0, s93, -, -, -⟩ := value_start hvm (by simp)
    have hstep := @array_pass1_step (value (g' + 1)) ctx g' (space (step 91 ctx)) [] 0 s93 s0
      (fun h => absurd rfl h) Ptr.json_ok c' []
      (by rw [if_neg (by simp), value_space]; exact hvs) (by simp)
    obtain ⟨c'', l, k, hrun⟩ := array_pass1_through hfF ctx tail hin done
      (fun x hx => hok x (List.mem_cons_of_mem _ hx)) g' 1 c'
      (by simp only [List.length_cons] at hF; omega) (by simp) hrc hmc
    refine ⟨c'', l, k, array_of_pass1_fail scan h91 ?_⟩
    rw [hrd, hstep, hrun]

/-- A member in front of the position is read in either mode. -/
theorem member_body_mode {f F : Nat} (hfF : f ≤ F) {m : Member} (hm : m.ok f) (scan : Bool)
    {d : Nat} (hd : hardstop d = true) {post : List Nat} {c1 : JSON_PARSE_CTX}
    (hrem : rem c1 = 34 :: (render m.key ++ 34 :: (m.mid ++ 58 :: (m.text ++ d :: post))))
    (hmem : mem c1 = 34 :: (render m.key ++ 34 :: (m.mid ++ 58 :: (m.text ++ d :: post)))) :
    (readch (space (steps (34 :: (render m.key ++ [34])) c1))).1 = 58 ∧
      ∃ p c6, value F scan (readch (space (steps (34 :: (render m.key ++ [34])) c1))).2 [] =
          some (p, c6, []) ∧ p ≠ Ptr.NULL ∧ rem c6 = d :: post ∧ mem c6 = d :: post := by
  obtain ⟨h58, hr, hmm⟩ := member_key hm.2.1 hrem hmem
  obtain ⟨c', hvm, hvs, hrc, hmc⟩ := value_embedded hm.2.2.2.1 hm.2.2.2.2 hfF hd hr hmm
  refine ⟨h58, ?_⟩
  cases scan with
  | true => exact ⟨_, c', hvs, by simp, hrc, hmc⟩
  | false => exact ⟨_, c', hvm, by simp, hrc, hmc⟩

/-- The loop of `object`, at the comma behind a member: it runs through the members in
front of the position and returns the failure of `value` there. -/
theorem object_loop_through {f F : Nat} (hfF : f ≤ F) (scan : Bool)
    (pre : List Nat) (key : List Item) (mid tail : List Nat)
    (hpre : ∀ b ∈ pre, isspace b = true) (hmid : ∀ b ∈ mid, isspace b = true)
    (hkey : ∀ it ∈ key, it.valid)
    (hin : ∀ c : JSON_PARSE_CTX, rem c = tail → mem c = tail →
      ∃ c' l k, value F scan c [] = some (Ptr.NULL, c', diag l k (bytes "Expected value"))) :
    ∀ (done : List Member), (∀ m ∈ done, m.ok f) →
      ∀ (g : Nat) (kv : MNCL_KV) (ctx : JSON_PARSE_CTX), done.length < g →
        rem ctx = 44 :: ((done.map (fun m => m.render ++ [44])).flatten ++
          (pre ++ 34 :: (render key ++ 34 :: (mid ++ 58 :: tail)))) →
        mem ctx = 44 :: ((done.map (fun m => m.render ++ [44])).flatten ++
          (pre ++ 34 :: (render key ++ 34 :: (mid ++ 58 :: tail)))) →
        ∃ c' l k, object_loop (value F) scan g false ctx [] kv =
          some (none, c', diag l k (bytes "Expected value")) := by
  intro done
  induction done with
  | nil =>
    intro _ g kv ctx hg hrem hmem
    obtain ⟨g', rfl⟩ : ∃ g', g = g' + 1 := ⟨g - 1, by omega⟩
    have hrem' : rem ctx = 44 :: (pre ++ 34 :: (render key ++ 34 :: (mid ++ 58 :: tail))) := by
      simpa using hrem
    have hmem' : mem ctx = 44 :: (pre ++ 34 :: (render key ++ 34 :: (mid ++ 58 :: tail))) := by
      simpa using hmem
    have hsp : space ctx = ctx := space_id (by rw [peekch_cons hrem']; decide)
    have hpk : peekch (space ctx) = 44 := by rw [hsp]; exact peekch_cons hrem'
    have hrd : readch (space ctx) = (44, step 44 ctx) := by
      rw [hsp]; exact readch_cons hrem' (by decide)
    have hsp2 : space (step 44 ctx) = steps pre (step 44 ctx) :=
      space_eq (rem_step hrem') hpre (by rfl)
    have hr1 : rem (space (step 44 ctx)) = 34 :: (render key ++ 34 :: (mid ++ 58 :: tail)) := by
      rw [hsp2]; exact rem_steps (rem_step hrem')
    have hm1 : mem (space (step 44 ctx)) = 34 :: (render key ++ 34 :: (mid ++ 58 :: tail)) := by
      rw [hsp2]; exact mem_steps (mem_step hmem')
    obtain ⟨h58, hr5, hm5⟩ := member_key hmid hr1 hm1
    obtain ⟨c', l, k, hv⟩ := hin _ hr5 hm5
    have hctx1 : (if false = true then space ctx else space (readch (space ctx)).2) =
        space (step 44 ctx) := by rw [hrd]; rfl
    exact ⟨c', l, k, @object_loop_fail_at (value F) scan g' false ctx [] kv
      (by rw [hpk]; decide) (fun _ => hpk) key _ hkey (by rw [hctx1]; exact hr1)
      (by rw [hctx1]; exact h58) c' _ (by rw [hctx1]; exact hv)⟩
  | cons m done ih =>
    intro hok g kv ctx hg hrem hmem
    obtain ⟨g', rfl⟩ : ∃ g', g = g' + 1 := ⟨g - 1, by omega⟩
    have hm := hok m (List.mem_cons_self _ _)
    have hrem' : rem ctx = 44 :: (m.pre ++ 34 :: (render m.key ++ 34 :: (m.mid ++ 58 ::
        (m.text ++ 44 :: ((done.map (fun m => m.render ++ [44])).flatten ++
          (pre ++ 34 :: (render key ++ 34 :: (mid ++ 58 :: tail)))))))) := by
      rw [hrem]; simp [Member.render]
    have hmem' : mem ctx = 44 :: (m.pre ++ 34 :: (render m.key ++ 34 :: (m.mid ++ 58 ::
        (m.text ++ 44 :: ((done.map (fun m => m.render ++ [44])).flatten ++
          (pre ++ 34 :: (render key ++ 34 :: (mid ++ 58 :: tail)))))))) := by
      rw [hmem]; simp [Member.render]
    have hsp : space ctx = ctx := space_id (by rw [peekch_cons hrem']; decide)
    have hpk : peekch (space ctx) = 44 := by rw [hsp]; exact peekch_cons hrem'
    have hrd : readch (space ctx) = (44, step 44 ctx) := by
      rw [hsp]; exact readch_cons hrem' (by decide)
    have hsp2 : space (step 44 ctx) = steps m.pre (step 44 ctx) :=
      space_eq (rem_step hrem') hm.1 (by rfl)
    have hr1 := rem_steps (rem_step hrem')
    have hm1 := mem_steps (@mem_step ctx 44 _ _ hmem')
    rw [← hsp2] at hr1 hm1
    obtain ⟨h58, p, c6, hv, hp, hrc, hmc⟩ := member_body_mode hfF hm scan
      (by decide : hardstop 44 = true) hr1 hm1
    have hctx1 : (if false = true then space ctx else space (readch (space ctx)).2) =
        space (step 44 ctx) := by rw [hrd]; rfl
    have hstep := @object_loop_step (value F) scan g' false ctx [] kv (by rw [hpk]; decide)
      (fun _ => hpk) m.key _ hm.2.2.1 (by rw [hctx1]; exact hr1) (by rw [hctx1]; exact h58)
      p c6 [] (by rw [hctx1]; exact hv) hp
    obtain ⟨c', l, k, hrun⟩ := ih (fun x hx => hok x (List.mem_cons_of_mem _ hx)) g'
      (if scan then kv else mncl_kv_insert kv (cstr (decode m.key ++ [0])) p.deref) c6
      (by simpa using hg) hrc hmc
    exact ⟨c', l, k, by rw [hstep, hrun]⟩

/-- The object rule on an object layer followed by a position at which `value` fails. -/
theorem object_layer_fail {f F : Nat} (hfF : f ≤ F) (done : List Member) (pre : List Nat)
    (key : List Item) (mid : List Nat) (hok : Layer.ok f (Layer.obj done pre key mid))
    (hF : done.length + 1 < F) (tail : List Nat) (scan : Bool)
    (hin : ∀ c : JSON_PARSE_CTX, rem c = tail → mem c = tail →
      ∃ c' l k, value F scan c [] = some (Ptr.NULL, c', diag l k (bytes "Expected value")))
    {ctx : JSON_PARSE_CTX}
    (hrem : rem ctx = (Layer.obj done pre key mid).render ++ tail)
    (hmem : mem ctx = (Layer.obj done pre key mid).render ++ tail) :
    ∃ c' l k, object (value F) F ctx [] scan =
      some (Ptr.NULL, c', diag l k (bytes "Expected value")) := by
  obtain ⟨g', rfl⟩ : ∃ g', F = g' + 1 := ⟨F - 1, by omega⟩
  obtain ⟨hdone, hpre, hmid, hkey⟩ := hok
  have hrem' : rem ctx = 123 :: ((done.map (fun m => m.render ++ [44])).flatten ++
      (pre ++ 34 :: (render key ++ 34 :: (mid ++ 58 :: tail)))) := by
    rw [hrem]; simp [Layer.render]
  have hmem' : mem ctx = 123 :: ((done.map (fun m => m.render ++ [44])).flatten ++
      (pre ++ 34 :: (render key ++ 34 :: (mid ++ 58 :: tail)))) := by
    rw [hmem]; simp [Layer.render]
  have hrd : readch ctx = (123, step 123 ctx) := readch_cons hrem' (by decide)
  have h123 : (readch ctx).1 = 123 := by rw [hrd]
  cases done with
  | nil =>
    have hr0 : rem (step 123 ctx) = pre ++ 34 :: (render key ++ 34 :: (mid ++ 58 :: tail)) := by
      rw [rem_step hrem']; simp
    have hm0 : mem (step 123 ctx) = pre ++ 34 :: (render key ++ 34 :: (mid ++ 58 :: tail)) := by
      rw [mem_step hmem']; simp
    have hsp : space (step 123 ctx) = steps pre (step 123 ctx) := space_eq hr0 hpre (by rfl)
    have hr1 : rem (space (step 123 ctx)) = 34 :: (render key ++ 34 :: (mid ++ 58 :: tail)) := by
      rw [hsp]; exact rem_steps hr0
    have hm1 : mem (space (step 123 ctx)) = 34 :: (render key ++ 34 :: (mid ++ 58 :: tail)) := by
      rw [hsp]; exact mem_steps hm0
    obtain ⟨h58, hr5, hm5⟩ := member_key hmid hr1 hm1
    obtain ⟨c', l, k, hv⟩ := hin _ hr5 hm5
    have hpk : peekch (space (step 123 ctx)) = 34 := peekch_cons hr1
    have hctx1 : (if true = true then space (step 123 ctx)
        else space (readch (space (step 123 ctx))).2) = space (step 123 ctx) := rfl
    refine ⟨c', l, k, object_of_loop_fail h123 ?_⟩
    rw [hrd]
    exact @object_loop_fail_at (value (g' + 1)) scan g' true (step 123 ctx) [] mncl_alloc_kv
      (by rw [hpk]; decide) (fun h => absurd h (by decide)) key _ hkey
      (by rw [hctx1]; exact hr1) (by rw [hctx1]; exact h58) c' _ (by rw [hctx1]; exact hv)
  | cons m done =>
    have hm := hdone m (List.mem_cons_self _ _)
    have hr0 : rem (step 123 ctx) = m.pre ++ 34 :: (render m.key ++ 34 :: (m.mid ++ 58 ::
        (m.text ++ 44 :: ((done.map (fun m => m.render ++ [44])).flatten ++
          (pre ++ 34 :: (render key ++ 34 :: (mid ++ 58 :: tail))))))) := by
      rw [rem_step hrem']; simp [Member.render]
    have hm0 : mem (step 123 ctx) = m.pre ++ 34 :: (render m.key ++ 34 :: (m.mid ++ 58 ::
        (m.text ++ 44 :: ((done.map (fun m => m.render ++ [44])).flatten ++
          (pre ++ 34 :: (render key ++ 34 :: (mid ++ 58 :: tail))))))) := by
      rw [mem_step hmem']; simp [Member.render]
    have hsp : space (step 123 ctx) = steps m.pre (step 123 ctx) := space_eq hr0 hm.1 (by rfl)
    have hr1 := rem_steps hr0
    have hm1 := mem_steps hm0
    rw [← hsp] at hr1 hm1
    obtain ⟨h58, p, c6, hv, hp, hrc, hmc⟩ := member_body_mode hfF hm scan
      (by decide : hardstop 44 = true) hr1 hm1
    have hpk : peekch (space (step 123 ctx)) = 34 := peekch_cons hr1
    have hctx1 : (if true = true then space (step 123 ctx)
        else space (readch (space (step 123 ctx))).2) = space (step 123 ctx) := rfl
    have hstep := @object_loop_step (value (g' + 1)) scan g' true (step 123 ctx) []
      mncl_alloc_kv (by rw [hpk]; decide) (fun h => absurd h (by decide)) m.key _ hm.2.2.1
      (by rw [hctx1]; exact hr1) (by rw [hctx1]; exact h58) p c6 []
      (by rw [hctx1]; exact hv) hp
    obtain ⟨c', l, k, hrun⟩ := object_loop_through hfF scan pre key mid tail hpre hmid hkey hin
      done (fun x hx => hdone x (List.mem_cons_of_mem _ hx)) g'
      (if scan then mncl_alloc_kv
        else mncl_kv_insert mncl_alloc_kv (cstr (decode m.key ++ [0])) p.deref) c6
      (by simp only [List.length_cons] at hF; omega) hrc hmc
    refine ⟨c', l, k, object_of_loop_fail h123 ?_⟩
    rw [hrd, hstep, hrun]

theorem dropWhile_isspace_append {ws t : List Nat} (hws : ∀ b ∈ ws, isspace b = true)
    (ht : isspace (t.headD 0) = false) : (ws ++ t).dropWhile isspace = t := by
  induction ws with
  | nil =>
    cases t with
    | nil => rfl
    | cons a t =>
      have ha : isspace a = false := ht
      simp [List.dropWhile_cons, ha]
  | cons a ws ih =>
    have ha := hws a (List.mem_cons_self _ _)
    simp only [List.cons_append, List.dropWhile_cons, ha, if_true]
    exact ih (fun b hb => hws b (List.mem_cons_of_mem _ hb))

theorem Layer.render_head (L : Layer) (rest : List Nat) :
    ((L.render ++ rest).dropWhile isspace).headD 0 ≠ 93 ∧
      ((L.render ++ rest).dropWhile isspace).headD 0 ≠ 0 := by
  cases L with
  | arr done => simp [Layer.render, List.dropWhile_cons, isspace]
  | obj done pre key mid => simp [Layer.render, List.dropWhile_cons, isspace]

/-- Whatever composites enclose it, a position at which a value is required and none
starts makes `value`, called on the outermost composite, fail with "Expected value". -/
theorem layers_fail (f : Nat) (ws t : List Nat) (hws : ∀ b ∈ ws, isspace b = true)
    (ht : NoValueStart t) :
    ∀ layers : List Layer, (∀ L ∈ layers, L.ok f) →
      (layers.getLast? = some (Layer.arr []) → t.headD 0 ≠ 93 ∧ t.headD 0 ≠ 0) →
      ∀ F, f + (layers.map Layer.weight).sum + 1 ≤ F → ∀ (scan : Bool) (c : JSON_PARSE_CTX),
        rem c = (layers.map Layer.render).flatten ++ (ws ++ t) →
        mem c = (layers.map Layer.render).flatten ++ (ws ++ t) →
        ∃ c' l k, value F scan c [] =
          some (Ptr.NULL, c', diag l k (bytes "Expected value")) := by
  intro layers
  induction layers with
  | nil =>
    intro _ _ F hF scan c hrem _
    obtain ⟨F', rfl⟩ : ∃ F', F = F' + 1 := ⟨F - 1, by omega⟩
    exact ⟨_, _, _, value_no_start F' scan [] (by simpa using hrem) hws ht⟩
  | cons L layers ih =>
    intro hok hfirst F hF scan c hrem hmem
    obtain ⟨F', rfl⟩ : ∃ F', F = F' + 1 := ⟨F - 1, by omega⟩
    have hrem' : rem c = L.render ++ ((layers.map Layer.render).flatten ++ (ws ++ t)) := by
      rw [hrem]; simp
    have hmem' : mem c = L.render ++ ((layers.map Layer.render).flatten ++ (ws ++ t)) := by
      rw [hmem]; simp
    have hfirst' : layers.getLast? = some (Layer.arr []) → t.headD 0 ≠ 93 ∧ t.headD 0 ≠ 0 := by
      intro h
      apply hfirst
      cases layers with
      | nil => simp at h
      | cons L' rest => simpa [List.getLast?_cons_cons] using h
    have hsum : (List.map Layer.weight (L :: layers)).sum =
        L.weight + (layers.map Layer.weight).sum := by simp
    rw [hsum] at hF
    have hLw : ∀ done, Layer.weight (Layer.arr done) = done.length + 2 := fun _ => rfl
    have hin : ∀ (scan' : Bool) (c : JSON_PARSE_CTX),
        rem c = (layers.map Layer.render).flatten ++ (ws ++ t) →
        mem c = (layers.map Layer.render).flatten ++ (ws ++ t) →
        ∃ c' l k, value F' scan' c [] =
          some (Ptr.NULL, c', diag l k (bytes "Expected value")) := by
      intro scan' c hr hm
      refine ih (fun x hx => hok x (List.mem_cons_of_mem _ hx)) hfirst' F' ?_ scan' c hr hm
      cases L <;> simp only [Layer.weight] at hF <;> omega
    have hL := hok L (List.mem_cons_self _ _)
    cases L with
    | arr done =>
      simp only [Layer.weight] at hF
      have hhead : rem c = 91 :: ((done.map (fun v => v ++ [44])).flatten ++
          ((layers.map Layer.render).flatten ++ (ws ++ t))) := by
        rw [hrem']; simp [Layer.render]
      have hpk : peekch c = 91 := peekch_cons hhead
      have hsp : space c = c := space_id (by rw [hpk]; decide)
      have hfst : done = [] →
          (((layers.map Layer.render).flatten ++ (ws ++ t)).dropWhile isspace).headD 0 ≠ 93 ∧
          (((layers.map Layer.render).flatten ++ (ws ++ t)).dropWhile isspace).headD 0 ≠ 0 := by
        intro hd
        cases layers with
        | nil =>
          have := hfirst (by rw [hd]; rfl)
          simp only [List.map_nil, List.flatten_nil, List.nil_append]
          rw [dropWhile_isspace_append hws ht.1]
          exact this
        | cons L' rest =>
          simp only [List.map_cons, List.flatten_cons, List.append_assoc]
          exact Layer.render_head L' _
      obtain ⟨c', l, k, ha⟩ := @array_layer_fail f F' (by omega) done hL (by omega) _ hfst
        (hin true) scan c hrem' hmem'
      refine ⟨space c', l, k, ?_⟩
      rw [value_succ]
      exact value_step_array (by rw [hsp, hpk]) (by rw [hsp]; exact ha)
    | obj done pre key mid =>
      simp only [Layer.weight] at hF
      have hhead : rem c = 123 :: ((done.map (fun m => m.render ++ [44])).flatten ++
          (pre ++ 34 :: (render key ++ 34 :: (mid ++ 58 ::
            ((layers.map Layer.render).flatten ++ (ws ++ t)))))) := by
        rw [hrem']; simp [Layer.render]
      have hpk : peekch c = 123 := peekch_cons hhead
      have hsp : space c = c := space_id (by rw [hpk]; decide)
      obtain ⟨c', l, k, ho⟩ := @object_layer_fail f F' (by omega) done pre key mid hL (by omega)
        _ scan (hin scan) c hrem' hmem'
      refine ⟨space c', l, k, ?_⟩
      rw [value_succ]
      exact value_step_object (by rw [hsp, hpk]) (by rw [hsp]; exact ho)

/-- C9: at every position at which a value is required (the start of the input, an
element of an array, the value of an object member, at any nesting depth, with
well-formed elements and members in front) where, after white space, no value starts
(the next byte is none of `{`, `[`, `"`, `-`, no digit, and the input there does not
begin with `null`, `true` or `false`), `json_parse` fails and `error_str` ends with
"Expected value". In front of the first element of an array the byte must not be `]`
(the empty array) or 0 (reported as an unterminated array). -/
theorem expected_value_reported (f : Nat) (layers : List Layer) (hok : ∀ L ∈ layers, L.ok f)
    (ws t : List Nat) (hws : ∀ b ∈ ws, isspace b = true) (ht : NoValueStart t)
    (hfirst : layers.getLast? = some (Layer.arr []) → t.headD 0 ≠ 93 ∧ t.headD 0 ≠ 0)
    (k : Nat) :
    ∃ l c, json_parse (f + (layers.map Layer.weight).sum + 1 + k)
          ((layers.map Layer.render).flatten ++ (ws ++ t))
          ((layers.map Layer.render).flatten ++ (ws ++ t)).length =
          some (Ptr.NULL, diag l c (bytes "Expected value"))
      ∧ bytes "Expected value" <:+: diag l c (bytes "Expected value") := by
  obtain ⟨c', l, c, hv⟩ := layers_fail f ws t hws ht layers hok hfirst
    (f + (layers.map Layer.weight).sum + 1 + k) (by omega) false
    (ctx_init ((layers.map Layer.render).flatten ++ (ws ++ t))
      ((layers.map Layer.render).flatten ++ (ws ++ t)).length)
    (rem_ctx_init _) (mem_ctx_init _ _)
  exact ⟨l, c, json_parse_of_null hv, (suffix_diag l c _).isInfix⟩

theorem expected_value_reported_witness :
    (∃ l c, json_parse (1 + ([Layer.arr [[49], [32, 50]]].map Layer.weight).sum + 1 + 0)
          (([Layer.arr [[49], [32, 50]]].map Layer.render).flatten ++ ([] ++ [93]))
          (([Layer.arr [[49], [32, 50]]].map Layer.render).flatten ++ ([] ++ [93])).length =
          some (Ptr.NULL, diag l c (bytes "Expected value"))
      ∧ bytes "Expected value" <:+: diag l c (bytes "Expected value"))
    ∧ (∃ l c, json_parse (1 + ([Layer.obj [] [] [Item.plain 97] []].map Layer.weight).sum + 1 + 0)
          (([Layer.obj [] [] [Item.plain 97] []].map Layer.render).flatten ++ ([32] ++ [125]))
          (([Layer.obj [] [] [Item.plain 97] []].map Layer.render).flatten ++
            ([32] ++ [125])).length =
          some (Ptr.NULL, diag l c (bytes "Expected value"))
      ∧ bytes "Expected value" <:+: diag l c (bytes "Expected value")) :=
  ⟨expected_value_reported 1 [Layer.arr [[49], [32, 50]]]
      (by
        intro L hL
        simp only [List.mem_singleton] at hL
        subst hL
        intro v hv
        simp only [List.mem_cons, List.mem_singleton, List.not_mem_nil, or_false] at hv
        rcases hv with rfl | rfl
        · exact ⟨by decide, _, rfl⟩
        · exact ⟨by decide, _, rfl⟩)
      [] [93] (by simp) (by unfold NoValueStart; decide) (by simp) 0,
    expected_value_reported 1 [Layer.obj [] [] [Item.plain 97] []]
      (by
        intro L hL
        simp only [List.mem_singleton] at hL
        subst hL
        exact ⟨by simp, by simp, by simp, by decide⟩)
      [32] [125] (by decide) (by unfold NoValueStart; decide) (by simp) 0⟩

/-! ## White space behind the input -/

theorem isspace_facts {d : Nat} (h : isspace d = true) :
    True ∧ isxdigit d = false ∧ isdigit d = false ∧ d ≠ 43 ∧ d ≠ 45 ∧ d ≠ 46 ∧
      d ≠ 120 ∧ d ≠ 88 ∧ d ≠ 112 ∧ d ≠ 80 ∧ d ≠ 101 ∧ d ≠ 69 ∧ d ≠ 48 := by
  simp only [isspace, Bool.or_eq_true, beq_iff_eq, Bool.and_eq_true, decide_eq_true_eq] at h
  simp only [isxdigit, isdigit, Bool.or_eq_false_iff, Bool.and_eq_false_iff,
    decide_eq_false_iff_not]
  refine ⟨trivial, ⟨⟨?_, ?_⟩, ?_⟩, ?_, ?_, ?_, ?_, ?_, ?_, ?_, ?_, ?_, ?_, ?_⟩ <;> omega

theorem strtod_exp_ws (w : List Nat) {d : Nat} (t : List Nat) (h : isspace d = true) :
    strtod_exp (w ++ d :: t) = strtod_exp w := by
  obtain ⟨-, -, hdg, h43, h45, -, -, -, -, -, h101, h69, -⟩ := isspace_facts h
  cases w with
  | nil => simp [strtod_exp, h101, h69]
  | cons c w1 =>
    cases w1 with
    | nil => simp [strtod_exp, h43, h45, hdg, List.takeWhile_cons]
    | cons a w2 =>
      simp only [strtod_exp, List.cons_append]
      by_cases hs : a = 43 ∨ a = 45
      · simp only [hs, if_true, List.length_singleton, List.drop_succ_cons, List.drop_zero,
          takeWhile_append_stop isdigit w2 t hdg]
      · simp only [hs, if_false, List.length_nil, List.drop_zero]
        rw [show a :: (w2 ++ d :: t) = (a :: w2) ++ d :: t by rfl,
          takeWhile_append_stop isdigit (a :: w2) t hdg]

theorem strtod_pexp_ws (w : List Nat) {d : Nat} (t : List Nat) (h : isspace d = true) :
    strtod_pexp (w ++ d :: t) = strtod_pexp w := by
  obtain ⟨-, -, hdg, h43, h45, -, -, -, h112, h80, -, -, -⟩ := isspace_facts h
  cases w with
  | nil => simp [strtod_pexp, h112, h80]
  | cons c w1 =>
    cases w1 with
    | nil => simp [strtod_pexp, h43, h45, hdg, List.takeWhile_cons]
    | cons a w2 =>
      simp only [strtod_pexp, List.cons_append]
      by_cases hs : a = 43 ∨ a = 45
      · simp only [hs, if_true, List.length_singleton, List.drop_succ_cons, List.drop_zero,
          takeWhile_append_stop isdigit w2 t hdg]
      · simp only [hs, if_false, List.length_nil, List.drop_zero]
        rw [show a :: (w2 ++ d :: t) = (a :: w2) ++ d :: t by rfl,
          takeWhile_append_stop isdigit (a :: w2) t hdg]

theorem strtod_dec_ws (w : List Nat) {d : Nat} (t : List Nat) (h : isspace d = true) :
    strtod_dec (w ++ d :: t) = strtod_dec w := by
  obtain ⟨-, -, hdg, -, -, h46, -, -, -, -, -, -, -⟩ := isspace_facts h
  have hlen := takeWhile_dropWhile_length isdigit w
  unfold strtod_dec
  simp only [takeWhile_append_stop isdigit w t hdg, dropWhile_append_stop isdigit w t hdg]
  cases hdw : w.dropWhile isdigit with
  | nil =>
    rw [hdw] at hlen
    simp only [List.nil_append, h46, if_false, List.length_nil, Nat.le_add_left, and_true,
      List.append_nil]
    by_cases hip : w.takeWhile isdigit = []
    · simp [hip]
    · simp only [hip, if_false]
      rw [List.drop_append_of_le_length (by simp at hlen; omega), strtod_exp_ws _ _ h]
  | cons c r =>
    rw [hdw] at hlen
    simp only [List.cons_append]
    by_cases hc : c = 46
    · simp only [hc, if_true, takeWhile_append_stop isdigit r t hdg]
      have hl2 := takeWhile_dropWhile_length isdigit r
      split
      · rfl
      · rw [List.drop_append_of_le_length (by simp at hlen ⊢; omega), strtod_exp_ws _ _ h]
    · simp only [hc, if_false]
      split
      · rfl
      · rw [List.drop_append_of_le_length (by simp at hlen ⊢; omega), strtod_exp_ws _ _ h]

theorem strtod_hex_ws (w : List Nat) {d : Nat} (t : List Nat) (h : isspace d = true) :
    strtod_hex (w ++ d :: t) = strtod_hex w := by
  obtain ⟨-, hxd, -, -, -, h46, h120, h88, -, -, -, -, h48⟩ := isspace_facts h
  cases w with
  | nil =>
    cases t with
    | nil => simp [strtod_hex]
    | cons x t => simp [strtod_hex, h48]
  | cons z w1 =>
    cases w1 with
    | nil => simp [strtod_hex, h120, h88]
    | cons x r =>
      simp only [strtod_hex, List.cons_append]
      by_cases hzx : z = 48 ∧ (x = 120 ∨ x = 88)
      · simp only [if_pos hzx]
        have hlen := takeWhile_dropWhile_length isxdigit r
        simp only [takeWhile_append_stop isxdigit r t hxd,
          dropWhile_append_stop isxdigit r t hxd]
        cases hdw : r.dropWhile isxdigit with
        | nil =>
          rw [hdw] at hlen
          simp only [List.nil_append, h46, if_false, List.length_nil, Nat.le_add_left, and_true,
            List.append_nil]
          by_cases hip : r.takeWhile isxdigit = []
          · simp [hip]
          · simp only [hip, if_false]
            rw [List.drop_append_of_le_length (by simp at hlen; omega), strtod_pexp_ws _ _ h]
        | cons c r2 =>
          rw [hdw] at hlen
          simp only [List.cons_append]
          by_cases hc : c = 46
          · simp only [hc, if_true, takeWhile_append_stop isxdigit r2 t hxd]
            have hl2 := takeWhile_dropWhile_length isxdigit r2
            split
            · rfl
            · rw [List.drop_append_of_le_length (by simp at hlen ⊢; omega),
                strtod_pexp_ws _ _ h]
          · simp only [hc, if_false]
            split
            · rfl
            · rw [List.drop_append_of_le_length (by simp at hlen ⊢; omega),
                strtod_pexp_ws _ _ h]
      · simp only [if_neg hzx]

theorem dropWhile_append_of_ne_nil (p : Nat → Bool) (a w : List Nat)
    (h : a.dropWhile p ≠ []) : (a ++ w).dropWhile p = a.dropWhile p ++ w := by
  induction a with
  | nil => simp at h
  | cons x a ih =>
    by_cases hx : p x = true
    · simp only [List.cons_append, List.dropWhile_cons, hx, if_true] at h ⊢
      exact ih h
    · simp [List.dropWhile_cons, hx]

theorem dropWhile_append_all (p : Nat → Bool) (a w : List Nat)
    (h : a.dropWhile p = []) (hw : ∀ b ∈ w, p b = true) : (a ++ w).dropWhile p = [] := by
  rw [List.dropWhile_eq_nil_iff] at h ⊢
  intro x hx
  rcases List.mem_append.mp hx with h1 | h1
  · exact h x h1
  · exact hw x h1

/-- White space behind the text does not change what `strtod` converts. -/
theorem strtod_ws (m w : List Nat) (hw : ∀ b ∈ w, isspace b = true) :
    strtod (m ++ w) = strtod m := by
  cases w with
  | nil => simp
  | cons d t =>
    have h : isspace d = true := hw d (List.mem_cons_self _ _)
    obtain ⟨-, -, -, h43, h45, -, -, -, -, -, -, -, -⟩ := isspace_facts h
    unfold strtod
    cases hdw : m.dropWhile isspace with
    | nil =>
      rw [dropWhile_append_all isspace m (d :: t) hdw hw]
    | cons c r =>
      rw [dropWhile_append_of_ne_nil isspace m (d :: t) (by rw [hdw]; simp), hdw]
      simp only [List.cons_append]
      by_cases hs : c = 43 ∨ c = 45
      · simp only [hs, if_true, List.length_singleton, List.drop_succ_cons, List.drop_zero,
          strtod_hex_ws r t h, strtod_dec_ws r t h]
      · simp only [hs, if_false, List.length_nil, List.drop_zero]
        rw [show c :: (r ++ d :: t) = (c :: r) ++ d :: t by rfl, strtod_hex_ws _ t h,
          strtod_dec_ws _ t h]

theorem closed_step {c : JSON_PARSE_CTX} (h : mem c = rem c) {x : Nat} {r : List Nat}
    (hr : rem c = x :: r) : mem (step x c) = rem (step x c) := by
  rw [rem_step hr, @mem_step c x x r (by rw [h, hr])]

theorem closed_steps {c : JSON_PARSE_CTX} (h : mem c = rem c) {bs r : List Nat}
    (hr : rem c = bs ++ r) : mem (steps bs c) = rem (steps bs c) := by
  rw [rem_steps hr, mem_steps (by rw [h, hr])]

theorem closed_space {c : JSON_PARSE_CTX} (h : mem c = rem c) :
    mem (space c) = rem (space c) := by
  rw [space_takeWhile]
  exact closed_steps h (List.takeWhile_append_dropWhile isspace (rem c)).symm

theorem closed_readch {c : JSON_PARSE_CTX} (h : mem c = rem c) :
    mem (readch c).2 = rem (readch c).2 := by
  by_cases h0 : peekch c = 0
  · rw [readch_zero h0]; exact h
  · obtain ⟨r, hr⟩ := @rem_of_peekch c _ rfl h0
    rw [readch_cons hr h0]
    exact closed_step h hr

theorem padded_space {c1 c2 : JSON_PARSE_CTX} (h : Padded c1 c2) :
    PaddedS (space c1) (space c2) := by
  obtain ⟨h1, h2, w, hw, hr⟩ := h
  refine ⟨⟨closed_space h1, closed_space h2, ?_⟩, ?_⟩
  · rw [rem_space, rem_space, hr]
    by_cases hd : (rem c1).dropWhile isspace = []
    · exact ⟨[], by simp, by rw [dropWhile_append_all isspace _ w hd hw, hd]; rfl⟩
    · exact ⟨w, hw, dropWhile_append_of_ne_nil isspace _ w hd⟩
  · intro hnil
    rw [rem_space] at hnil ⊢
    rw [hr, dropWhile_append_all isspace _ w hnil hw]

theorem paddedS_peek {c1 c2 : JSON_PARSE_CTX} (h : PaddedS c1 c2) : peekch c2 = peekch c1 := by
  obtain ⟨⟨-, -, w, -, hr⟩, hs⟩ := h
  rw [peekch_rem, peekch_rem]
  cases h1 : rem c1 with
  | nil => rw [hs h1]
  | cons x r => rw [hr, h1]; rfl

theorem paddedS_readch {c1 c2 : JSON_PARSE_CTX} (h : PaddedS c1 c2) :
    (readch c2).1 = (readch c1).1 ∧ Padded (readch c1).2 (readch c2).2 := by
  have hpk := paddedS_peek h
  obtain ⟨⟨h1, h2, w, hw, hr⟩, hs⟩ := h
  refine ⟨by rw [readch_fst, readch_fst, hpk], ?_⟩
  by_cases h0 : peekch c1 = 0
  · rw [readch_zero h0, readch_zero (by rw [hpk]; exact h0)]
    exact ⟨h1, h2, w, hw, hr⟩
  · obtain ⟨r, hr1⟩ := @rem_of_peekch c1 _ rfl h0
    have hr2 : rem c2 = peekch c1 :: (r ++ w) := by rw [hr, hr1]; rfl
    rw [readch_cons hr1 h0, readch_cons hr2 h0]
    exact ⟨closed_step h1 hr1, closed_step h2 hr2, w, hw, by rw [rem_step hr1, rem_step hr2]⟩

theorem padded_steps {c1 c2 : JSON_PARSE_CTX} (h : Padded c1 c2) {bs r : List Nat}
    (hr1 : rem c1 = bs ++ r) : Padded (steps bs c1) (steps bs c2) := by
  obtain ⟨h1, h2, w, hw, hr⟩ := h
  have hr2 : rem c2 = bs ++ (r ++ w) := by rw [hr, hr1]; simp
  exact ⟨closed_steps h1 hr1, closed_steps h2 hr2, w, hw, by rw [rem_steps hr1, rem_steps hr2]⟩

theorem padded_rem {c1 c2 : JSON_PARSE_CTX} (h : Padded c1 c2) {bs r : List Nat}
    (hr1 : rem c1 = bs ++ r) : ∃ r2, rem c2 = bs ++ r2 ∧
      (r.headD 0 ≠ 0 → r2.headD 0 = r.headD 0) ∧
      (r = [] → isspace (r2.headD 0) = true ∨ r2.headD 0 = 0) := by
  obtain ⟨-, -, w, hw, hr⟩ := h
  refine ⟨r ++ w, by rw [hr, hr1]; simp, ?_, ?_⟩
  · intro h0
    cases r with
    | nil => exact absurd rfl h0
    | cons x r => rfl
  · intro hnil
    subst hnil
    cases w with
    | nil => exact Or.inr rfl
    | cons x w => exact Or.inl (hw x (List.mem_cons_self _ _))

/-- A token that ends in a byte that is no white space and that begins a text padded
with white space lies within the text. -/
theorem token_prefix {l0 : List Nat} {x : Nat} (hx : isspace x = false) {a w r2 : List Nat}
    (hw : ∀ b ∈ w, isspace b = true) (h : l0 ++ [x] ++ r2 = a ++ w) :
    ∃ r1, a = l0 ++ [x] ++ r1 ∧ r2 = r1 ++ w := by
  rcases List.append_eq_append_iff.mp h with ⟨a', ha, hb⟩ | ⟨c', ha, hb⟩
  · -- a = (l0 ++ [x]) ++ a'
    exact ⟨a', ha, hb⟩
  · -- l0 ++ [x] = a ++ c'
    cases hc : c'.reverse with
    | nil =>
      have : c' = [] := by simpa using hc
      subst this
      refine ⟨[], by simpa using ha.symm, by simpa using hb.symm⟩
    | cons y ys =>
      exfalso
      have hc' : c' = ys.reverse ++ [y] := by
        have := congrArg List.reverse hc
        simpa using this
      rw [hc', ← List.append_assoc] at ha
      have hxy : x = y := by
        have := congrArg List.getLast? ha
        simpa using this
      have hyw : y ∈ w := by
        rw [hb, hc']
        simp
      rw [← hxy] at hyw
      rw [hw x hyw] at hx
      exact absurd hx (by simp)

theorem headD_pad {r w : List Nat} (hw : ∀ b ∈ w, isspace b = true) {P : Nat → Prop}
    (hs : ∀ b, isspace b = true → P b) (h : P (r.headD 0)) : P ((r ++ w).headD 0) := by
  cases r with
  | nil =>
    cases w with
    | nil => exact h
    | cons x w => exact hs x (hw x (List.mem_cons_self _ _))
  | cons x r => exact h

theorem headD_unpad {r w : List Nat} {P : Nat → Prop} (h0 : P 0)
    (h : P ((r ++ w).headD 0)) : P (r.headD 0) := by
  cases r with
  | nil => exact h0
  | cons x r => exact h

theorem isdigit_not_space {x : Nat} (h : isdigit x = true) : isspace x = false := by
  simp only [isdigit, Bool.and_eq_true, decide_eq_true_eq] at h
  simp only [isspace, Bool.or_eq_false_iff, beq_eq_false_iff_ne, Bool.and_eq_false_iff,
    decide_eq_false_iff_not]
  omega

theorem digits_last {ds : List Nat} (hne : ds ≠ []) (hds : ∀ b ∈ ds, isdigit b = true) :
    ∃ d0 x, ds = d0 ++ [x] ∧ isdigit x = true :=
  ⟨ds.dropLast, ds.getLast hne, (List.dropLast_append_getLast hne).symm,
    hds _ (List.getLast_mem hne)⟩

/-- A number text ends in a digit. -/
theorem number_parts_last {sg ip fp ep : List Nat} (hip : IntPart ip) (hfp : FracPart fp)
    (hep : ExpPart ep) :
    ∃ l0 x, sg ++ (ip ++ (fp ++ ep)) = l0 ++ [x] ∧ isspace x = false := by
  rcases hep with hep | ⟨e, sgn, ds, -, -, hne, hds, hep⟩
  · subst hep
    rcases hfp with hfp | ⟨ds, hne, hds, hfp⟩
    · subst hfp
      rcases hip with hip | ⟨hne, hds, -⟩
      · subst hip
        exact ⟨sg, 48, by simp, by decide⟩
      · obtain ⟨d0, x, hd, hx⟩ := digits_last hne hds
        exact ⟨sg ++ d0, x, by rw [hd]; simp, isdigit_not_space hx⟩
    · obtain ⟨d0, x, hd, hx⟩ := digits_last hne hds
      exact ⟨sg ++ (ip ++ 46 :: d0), x, by rw [hfp, hd]; simp, isdigit_not_space hx⟩
  · obtain ⟨d0, x, hd, hx⟩ := digits_last hne hds
    exact ⟨sg ++ (ip ++ (fp ++ e :: (sgn ++ d0))), x, by rw [hep, hd]; simp,
      isdigit_not_space hx⟩

theorem number_padded {c1 c2 : JSON_PARSE_CTX} (h : Padded c1 c2) (scan : Bool)
    (err1 err2 : List Nat) {p : Ptr} {c1' : JSON_PARSE_CTX} {e1 : List Nat}
    (hn1 : number c1 err1 scan = (p, c1', e1)) :
    ∃ c2' e2, number c2 err2 scan = (p, c2', e2) ∧ (p ≠ Ptr.NULL → Padded c1' c2') := by
  obtain ⟨hm1, hm2, w, hw, hr⟩ := h
  have hsd : ∀ b, isspace b = true → isdigit b = false := fun b hb => (isspace_facts hb).2.2.1
  by_cases hp : p = Ptr.NULL
  · subst hp
    cases hn2 : number c2 err2 scan with
    | mk p2 rest =>
      obtain ⟨c2', e2⟩ := rest
      have h2 : p2 = Ptr.NULL := by
        by_contra hne
        obtain ⟨sg, ip, fp, ep, hsg, hip, hfp, hep, -, hrem2, s1, s2, s3, -⟩ :=
          number_sharp hn2 hne
        obtain ⟨l0, x, hN, hx⟩ := @number_parts_last sg ip fp ep hip hfp hep
        have heq : l0 ++ [x] ++ rem c2' = rem c1 ++ w := by
          rw [← hN, ← hr, hrem2]; simp
        obtain ⟨r1, ha, hb⟩ := token_prefix hx hw heq
        rw [hb] at s1 s2 s3
        have hrem1 : rem c1 = sg ++ (ip ++ (fp ++ (ep ++ r1))) := by
          rw [ha, ← hN]; simp
        have := number_gen err1 scan hrem1 hsg hip hfp hep
          (@headD_unpad r1 w (fun c => isdigit c = false) (by decide) s1)
          (fun he => @headD_unpad r1 w (fun c => c ≠ 101 ∧ c ≠ 69) (by decide) (s2 he))
          (fun hf he => @headD_unpad r1 w (fun c => c ≠ 46) (by decide) (s3 hf he))
        rw [this, number_finish_def] at hn1
        cases scan <;> simp at hn1
      subst h2
      exact ⟨c2', e2, rfl, fun hh => absurd rfl hh⟩
  · obtain ⟨sg, ip, fp, ep, hsg, hip, hfp, hep, hc1, hrem1, s1, s2, s3, hfin⟩ :=
      number_sharp hn1 hp
    have hrem2 : rem c2 = sg ++ (ip ++ (fp ++ (ep ++ (rem c1' ++ w)))) := by
      rw [hr, hrem1]; simp
    have hg := number_gen err2 scan hrem2 hsg hip hfp hep
      (@headD_pad _ w hw (fun c => isdigit c = false) hsd s1)
      (fun he => @headD_pad _ w hw (fun c => c ≠ 101 ∧ c ≠ 69)
        (fun b hb => ⟨(isspace_facts hb).2.2.2.2.2.2.2.2.2.2.1,
          (isspace_facts hb).2.2.2.2.2.2.2.2.2.2.2.1⟩) (s2 he))
      (fun hf he => @headD_pad _ w hw (fun c => c ≠ 46)
        (fun b hb => (isspace_facts hb).2.2.2.2.2.1) (s3 hf he))
    have hst : strtod (mem c2) = strtod (mem c1) := by
      rw [hm2, hr, hm1]; exact strtod_ws _ _ hw
    have hp1 : p =
        (if scan then Ptr.json_ok else Ptr.node (JSON_VALUE.number (strtod (mem c1)))) := by
      have := congrArg Prod.fst hfin
      rw [number_finish_def] at this
      exact this
    refine ⟨steps (sg ++ (ip ++ (fp ++ ep))) c2, err2, ?_, fun _ => ?_⟩
    · rw [hg, number_finish_def, hst, hp1]
    · rw [hc1]
      exact padded_steps ⟨hm1, hm2, w, hw, hr⟩
        (show rem c1 = (sg ++ (ip ++ (fp ++ ep))) ++ rem c1' by rw [hrem1]; simp)

theorem word_padded {c1 c2 : JSON_PARSE_CTX} (h : Padded c1 c2) (scan : Bool)
    (err1 err2 : List Nat) {p : Ptr} {c1' : JSON_PARSE_CTX} {e1 : List Nat}
    (hw1 : word c1 err1 scan = (p, c1', e1)) :
    ∃ c2' e2, word c2 err2 scan = (p, c2', e2) ∧ (p ≠ Ptr.NULL → Padded c1' c2') := by
  obtain ⟨hm1, hm2, w, hw, hr⟩ := h
  have hpad : Padded c1 c2 := ⟨hm1, hm2, w, hw, hr⟩
  by_cases hp : p = Ptr.NULL
  · subst hp
    cases hw2 : word c2 err2 scan with
    | mk p2 rest =>
      obtain ⟨c2', e2⟩ := rest
      have h2 : p2 = Ptr.NULL := by
        by_contra hne
        obtain ⟨lit, r2, hrem2, hl⟩ := word_sound hw2 hne
        have hx : ∃ l0 x, lit = l0 ++ [x] ∧ isspace x = false := by
          rcases hl with hl | hl | hl <;> subst hl
          · exact ⟨[110, 117, 108], 108, rfl, by decide⟩
          · exact ⟨[116, 114, 117], 101, rfl, by decide⟩
          · exact ⟨[102, 97, 108, 115], 101, rfl, by decide⟩
        obtain ⟨l0, x, hlit, hxs⟩ := hx
        have heq : l0 ++ [x] ++ r2 = rem c1 ++ w := by rw [← hlit, ← hr, hrem2]
        obtain ⟨r1, ha, -⟩ := token_prefix hxs hw heq
        rw [← hlit] at ha
        rcases hl with hl | hl | hl <;> subst hl
        · rw [(@word_complete c1 err1 scan r1).1 ha] at hw1
          cases scan <;> simp at hw1
        · rw [(@word_complete c1 err1 scan r1).2.1 ha] at hw1
          cases scan <;> simp at hw1
        · rw [(@word_complete c1 err1 scan r1).2.2 ha] at hw1
          cases scan <;> simp at hw1
      subst h2
      exact ⟨c2', e2, rfl, fun hh => absurd rfl hh⟩
  · obtain ⟨lit, r1, hrem1, hl⟩ := word_sound hw1 hp
    have hrem2 : rem c2 = lit ++ (r1 ++ w) := by rw [hr, hrem1]; simp
    have key : ∀ q : Ptr, word c1 err1 scan = (q, steps lit c1, err1) →
        word c2 err2 scan = (q, steps lit c2, err2) →
        ∃ c2' e2, word c2 err2 scan = (p, c2', e2) ∧ (p ≠ Ptr.NULL → Padded c1' c2') := by
      intro q h1 h2
      rw [hw1] at h1
      simp only [Prod.mk.injEq] at h1
      obtain ⟨hq, hc, -⟩ := h1
      subst hq; subst hc
      exact ⟨_, _, h2, fun _ => padded_steps hpad hrem1⟩
    rcases hl with hl | hl | hl <;> subst hl
    · exact key _ ((@word_complete c1 err1 scan r1).1 hrem1)
        ((@word_complete c2 err2 scan _).1 hrem2)
    · exact key _ ((@word_complete c1 err1 scan r1).2.1 hrem1)
        ((@word_complete c2 err2 scan _).2.1 hrem2)
    · exact key _ ((@word_complete c1 err1 scan r1).2.2 hrem1)
        ((@word_complete c2 err2 scan _).2.2 hrem2)

/-- Where the size scan fails on the text, it fails on the padded text. -/
theorem json_str_size_padded {c1 c2 : JSON_PARSE_CTX} (h : Padded c1 c2) (scan : Bool)
    (err1 err2 : List Nat) (hf : (json_str_size c1 err1 scan).1 = none) :
    (json_str_size c2 err2 scan).1 = none := by
  obtain ⟨hm1, hm2, w, hw, hr⟩ := h
  cases hs : json_str_size c2 err2 scan with
  | mk o rest =>
    obtain ⟨c', e'⟩ := rest
    cases o with
    | none => rfl
    | some n =>
      exfalso
      obtain ⟨items, r2, hv, hrem2, -, -, -⟩ := json_str_size_sound hs
      have heq : (34 :: render items) ++ [34] ++ r2 = rem c1 ++ w := by
        rw [← hr, hrem2]; simp
      obtain ⟨r1, ha, -⟩ := token_prefix (by decide : isspace 34 = false) hw heq
      have hrem1 : rem c1 = 34 :: (render items ++ 34 :: r1) := by rw [ha]; simp
      rw [json_str_size_literal err1 scan hv hrem1] at hf
      simp at hf

theorem string_padded {c1 c2 : JSON_PARSE_CTX} (h : Padded c1 c2) (scan : Bool)
    (err1 err2 : List Nat) {p : Ptr} {c1' : JSON_PARSE_CTX} {e1 : List Nat}
    (hs : string c1 err1 scan = some (p, c1', e1)) :
    ∃ c2' e2, string c2 err2 scan = some (p, c2', e2) ∧ (p ≠ Ptr.NULL → Padded c1' c2') := by
  by_cases hp : p = Ptr.NULL
  · subst hp
    have hf : (json_str_size c1 err1 scan).1 = none := by
      cases hz : json_str_size c1 err1 scan with
      | mk o rest =>
        obtain ⟨c', e'⟩ := rest
        cases o with
        | none => rfl
        | some n =>
          exfalso
          obtain ⟨items, r, hv, hrem, -, -, -⟩ := json_str_size_sound hz
          rw [string_literal err1 scan hv hrem] at hs
          cases scan <;> simp at hs
    have hf2 := json_str_size_padded h scan err1 err2 hf
    cases hz : json_str_size c2 err2 scan with
    | mk o rest =>
      obtain ⟨c', e'⟩ := rest
      rw [hz] at hf2
      simp only [] at hf2
      subst hf2
      exact ⟨c', e', string_of_size_fail hz, fun hh => absurd rfl hh⟩
  · obtain ⟨items, r, hv, hrem, hpp, hc, -⟩ := string_result hs hp
    obtain ⟨hm1, hm2, w, hw, hr⟩ := h
    have hrem2 : rem c2 = 34 :: (render items ++ 34 :: (r ++ w)) := by rw [hr, hrem]; simp
    refine ⟨steps (34 :: (render items ++ [34])) c2, err2, ?_, fun _ => ?_⟩
    · rw [string_literal err2 scan hv hrem2, hpp]
    · rw [hc]
      exact padded_steps ⟨hm1, hm2, w, hw, hr⟩
        (show rem c1 = (34 :: (render items ++ [34])) ++ r by rw [hrem]; simp)

theorem array_pass1_padded {vF : ValueFn} (hv : SamePtr vF) (s1 s2 : JSON_PARSE_CTX)
    (g : Nat) : ∀ (c1 c2 : JSON_PARSE_CTX) (err1 err2 : List Nat) (n : Nat) (r : Option Nat)
      (c1' : JSON_PARSE_CTX) (e1 : List Nat), PaddedS c1 c2 →
      array_pass1 vF s1 g c1 err1 n = some (r, c1', e1) →
      ∃ c2' e2, array_pass1 vF s2 g c2 err2 n = some (r, c2', e2) ∧
        (r ≠ none → Padded c1' c2') := by
  induction g with
  | zero => intro c1 c2 err1 err2 n r c1' e1 _ h; simp [array_pass1] at h
  | succ g ih =>
    intro c1 c2 err1 err2 n r c1' e1 hS h
    have hpk := paddedS_peek hS
    obtain ⟨-, hrdP⟩ := paddedS_readch hS
    rw [array_pass1] at h ⊢
    simp only [] at h ⊢
    rw [hpk]
    by_cases h93 : peekch c1 = 93
    · rw [if_pos h93] at h ⊢
      cases h
      exact ⟨_, _, rfl, fun _ => hrdP⟩
    rw [if_neg h93] at h ⊢
    by_cases h0 : peekch c1 = 0
    · rw [if_pos h0] at h ⊢
      cases h
      exact ⟨_, _, rfl, fun hh => absurd rfl hh⟩
    rw [if_neg h0] at h ⊢
    by_cases hc : n ≠ 0 ∧ peekch c1 ≠ 44
    · rw [if_pos hc] at h ⊢
      cases h
      exact ⟨_, _, rfl, fun hh => absurd rfl hh⟩
    rw [if_neg hc] at h ⊢
    have hP1 : Padded (if n ≠ 0 then (readch c1).2 else c1)
        (if n ≠ 0 then (readch c2).2 else c2) := by
      split_ifs
      · exact hrdP
      · exact hS.1
    cases hv1 : vF true (if n ≠ 0 then (readch c1).2 else c1) err1 with
    | none => rw [hv1] at h; simp at h
    | some x =>
      obtain ⟨p, d1, x1⟩ := x
      rw [hv1] at h
      obtain ⟨d2, x2, hv2, hrel⟩ := hv _ _ hP1 true err1 err2 p d1 x1 hv1
      rw [hv2]
      cases p with
      | NULL =>
        simp only [] at h ⊢
        cases h
        exact ⟨_, _, rfl, fun hh => absurd rfl hh⟩
      | json_ok =>
        simp only [] at h ⊢
        exact ih _ _ _ _ _ _ _ _ (hrel (by simp)) h
      | node v =>
        simp only [] at h ⊢
        exact ih _ _ _ _ _ _ _ _ (hrel (by simp)) h

theorem array_pass2_padded {vF : ValueFn} (hv : SamePtr vF) (s1 s2 : JSON_PARSE_CTX)
    (g : Nat) : ∀ (c1 c2 : JSON_PARSE_CTX) (err1 err2 : List Nat) (n : Nat)
      (data : List JSON_VALUE) (r : Option (List JSON_VALUE))
      (c1' : JSON_PARSE_CTX) (e1 : List Nat), PaddedS c1 c2 →
      array_pass2 vF s1 g c1 err1 n data = some (r, c1', e1) →
      ∃ c2' e2, array_pass2 vF s2 g c2 err2 n data = some (r, c2', e2) ∧
        (r ≠ none → Padded c1' c2') := by
  induction g with
  | zero => intro c1 c2 err1 err2 n data r c1' e1 _ h; simp [array_pass2] at h
  | succ g ih =>
    intro c1 c2 err1 err2 n data r c1' e1 hS h
    have hpk := paddedS_peek hS
    obtain ⟨-, hrdP⟩ := paddedS_readch hS
    rw [array_pass2] at h ⊢
    simp only [] at h ⊢
    rw [hpk]
    by_cases h93 : peekch c1 = 93
    · rw [if_pos h93] at h ⊢
      cases h
      exact ⟨_, _, rfl, fun _ => hrdP⟩
    rw [if_neg h93] at h ⊢
    by_cases h0 : peekch c1 = 0
    · rw [if_pos h0] at h ⊢
      cases h
      exact ⟨_, _, rfl, fun hh => absurd rfl hh⟩
    rw [if_neg h0] at h ⊢
    by_cases hc : n ≠ 0 ∧ peekch c1 ≠ 44
    · rw [if_pos hc] at h ⊢
      cases h
      exact ⟨_, _, rfl, fun hh => absurd rfl hh⟩
    rw [if_neg hc] at h ⊢
    have hP1 : Padded (if n ≠ 0 then (readch c1).2 else c1)
        (if n ≠ 0 then (readch c2).2 else c2) := by
      split_ifs
      · exact hrdP
      · exact hS.1
    cases hv1 : vF false (if n ≠ 0 then (readch c1).2 else c1) err1 with
    | none => rw [hv1] at h; simp at h
    | some x =>
      obtain ⟨p, d1, x1⟩ := x
      rw [hv1] at h
      obtain ⟨d2, x2, hv2, hrel⟩ := hv _ _ hP1 false err1 err2 p d1 x1 hv1
      rw [hv2]
      cases p with
      | NULL =>
        simp only [] at h ⊢
        cases h
        exact ⟨_, _, rfl, fun hh => absurd rfl hh⟩
      | json_ok =>
        simp only [] at h ⊢
        exact ih _ _ _ _ _ _ _ _ _ (hrel (by simp)) h
      | node v =>
        simp only [] at h ⊢
        exact ih _ _ _ _ _ _ _ _ _ (hrel (by simp)) h

theorem array_padded {vF : ValueFn} (hv : SamePtr vF) (g : Nat) {c1 c2 : JSON_PARSE_CTX}
    (hS : PaddedS c1 c2) (scan : Bool) (err1 err2 : List Nat) {p : Ptr}
    {c1' : JSON_PARSE_CTX} {e1 : List Nat} (h : array vF g c1 err1 scan = some (p, c1', e1)) :
    ∃ c2' e2, array vF g c2 err2 scan = some (p, c2', e2) ∧ (p ≠ Ptr.NULL → Padded c1' c2') := by
  obtain ⟨hrd1, hrdP⟩ := paddedS_readch hS
  have hS0 := padded_space hrdP
  unfold array at h ⊢
  simp only [] at h ⊢
  rw [hrd1]
  by_cases h91 : (readch c1).1 ≠ 91
  · rw [if_pos h91] at h ⊢
    cases h
    exact ⟨_, _, rfl, fun hh => absurd rfl hh⟩
  rw [if_neg h91] at h ⊢
  cases h1 : array_pass1 vF c1 g (space (readch c1).2) err1 0 with
  | none => rw [h1] at h; simp at h
  | some x =>
    obtain ⟨oc, d1, x1⟩ := x
    rw [h1] at h
    obtain ⟨d2, x2, h2, hrel⟩ := array_pass1_padded hv c1 c2 g _ _ err1 err2 0 oc d1 x1 hS0 h1
    rw [h2]
    cases oc with
    | none =>
      simp only [] at h ⊢
      cases h
      exact ⟨_, _, rfl, fun hh => absurd rfl hh⟩
    | some count =>
      simp only [] at h ⊢
      cases scan with
      | true =>
        simp only [if_true] at h ⊢
        cases h
        exact ⟨_, _, rfl, fun _ => hrel (by simp)⟩
      | false =>
        simp only [Bool.false_eq_true, if_false] at h ⊢
        cases h3 : array_pass2 vF c1 g (space (readch c1).2) x1 0 [] with
        | none => rw [h3] at h; simp at h
        | some y =>
          obtain ⟨od, d3, x3⟩ := y
          rw [h3] at h
          obtain ⟨d4, x4, h4, hrel2⟩ := array_pass2_padded hv c1 c2 g _ _ x1 x2 0 [] od d3 x3
            hS0 h3
          rw [h4]
          cases od with
          | none =>
            simp only [] at h ⊢
            cases h
            exact ⟨_, _, rfl, fun hh => absurd rfl hh⟩
          | some data =>
            simp only [] at h ⊢
            cases h
            exact ⟨_, _, rfl, fun _ => hrel2 (by simp)⟩

theorem object_loop_padded {vF : ValueFn} (hv : SamePtr vF) (scan : Bool) (g : Nat) :
    ∀ (first : Bool) (c1 c2 : JSON_PARSE_CTX) (err1 err2 : List Nat) (kv : MNCL_KV)
      (r : Option MNCL_KV) (c1' : JSON_PARSE_CTX) (e1 : List Nat), Padded c1 c2 →
      object_loop vF scan g first c1 err1 kv = some (r, c1', e1) →
      ∃ c2' e2, object_loop vF scan g first c2 err2 kv = some (r, c2', e2) ∧
        (r ≠ none → Padded c1' c2') := by
  induction g with
  | zero => intro first c1 c2 err1 err2 kv r c1' e1 _ h; simp [object_loop] at h
  | succ g ih =>
    intro first c1 c2 err1 err2 kv r c1' e1 hP h
    have hS := padded_space hP
    have hpk := paddedS_peek hS
    obtain ⟨-, hrdP⟩ := paddedS_readch hS
    rw [object_loop] at h ⊢
    simp only [] at h ⊢
    rw [hpk]
    by_cases h125 : peekch (space c1) = 125
    · rw [if_pos h125] at h ⊢
      cases h
      exact ⟨_, _, rfl, fun _ => hrdP⟩
    rw [if_neg h125] at h ⊢
    by_cases hc : first = false ∧ peekch (space c1) ≠ 44
    · rw [if_pos hc] at h ⊢
      cases h
      exact ⟨_, _, rfl, fun hh => absurd rfl hh⟩
    rw [if_neg hc] at h ⊢
    have hP1 : Padded (if first then space c1 else space (readch (space c1)).2)
        (if first then space c2 else space (readch (space c2)).2) := by
      cases first with
      | true => exact hS.1
      | false => exact (padded_space hrdP).1
    have key : ∀ (curkey : List Nat) (a1 a2 : JSON_PARSE_CTX) (b1 b2 : List Nat),
        Padded a1 a2 →
        (if (readch (space a1)).1 ≠ 58 then
            some (none, (readch (space a1)).2,
              diag (readch (space a1)).2.line (readch (space a1)).2.col
                (bytes "Expected " ++ [39, 58, 39]))
          else
            match vF scan (readch (space a1)).2 b1 with
            | none => none
            | some (Ptr.NULL, ctx6, err6) => some (none, ctx6, err6)
            | some (p, ctx6, err6) =>
              object_loop vF scan g false ctx6 err6
                (if scan then kv else mncl_kv_insert kv (cstr curkey) p.deref)) =
          some (r, c1', e1) →
        ∃ c2' e2,
          (if (readch (space a2)).1 ≠ 58 then
            some (none, (readch (space a2)).2,
              diag (readch (space a2)).2.line (readch (space a2)).2.col
                (bytes "Expected " ++ [39, 58, 39]))
          else
            match vF scan (readch (space a2)).2 b2 with
            | none => none
            | some (Ptr.NULL, ctx6, err6) => some (none, ctx6, err6)
            | some (p, ctx6, err6) =>
              object_loop vF scan g false ctx6 err6
                (if scan then kv else mncl_kv_insert kv (cstr curkey) p.deref)) =
            some (r, c2', e2) ∧ (r ≠ none → Padded c1' c2') := by
      intro curkey a1 a2 b1 b2 hPa hk
      obtain ⟨hrd3, hrdP3⟩ := paddedS_readch (padded_space hPa)
      rw [hrd3]
      by_cases h58 : (readch (space a1)).1 ≠ 58
      · rw [if_pos h58] at hk ⊢
        cases hk
        exact ⟨_, _, rfl, fun hh => absurd rfl hh⟩
      rw [if_neg h58] at hk ⊢
      cases hv1 : vF scan (readch (space a1)).2 b1 with
      | none => rw [hv1] at hk; simp at hk
      | some x =>
        obtain ⟨p, d1, x1⟩ := x
        rw [hv1] at hk
        obtain ⟨d2, x2, hv2, hrel⟩ := hv _ _ hrdP3 scan b1 b2 p d1 x1 hv1
        rw [hv2]
        cases p with
        | NULL =>
          simp only [] at hk ⊢
          cases hk
          exact ⟨_, _, rfl, fun hh => absurd rfl hh⟩
        | json_ok =>
          simp only [] at hk ⊢
          exact ih _ _ _ _ _ _ _ _ _ (hrel (by simp)).1 hk
        | node v =>
          simp only [] at hk ⊢
          exact ih _ _ _ _ _ _ _ _ _ (hrel (by simp)).1 hk
    cases hs1 : json_str_size (if first then space c1 else space (readch (space c1)).2)
      err1 scan with
    | mk o1 rest1 =>
      obtain ⟨a1, b1⟩ := rest1
      cases o1 with
      | none =>
        rw [hs1] at h
        simp only [] at h
        cases h
        have hf2 := json_str_size_padded hP1 scan err1 err2 (by rw [hs1])
        cases hs2 : json_str_size (if first then space c2 else space (readch (space c2)).2)
          err2 scan with
        | mk o2 rest2 =>
          obtain ⟨a2, b2⟩ := rest2
          rw [hs2] at hf2
          simp only [] at hf2
          subst hf2
          exact ⟨_, _, rfl, fun hh => absurd rfl hh⟩
      | some n =>
        obtain ⟨items, r1, hvl, hrem1, -, -, -⟩ := json_str_size_sound hs1
        obtain ⟨hm1, hm2, w, hw, hr⟩ := hP1
        have hrem2 : rem (if first then space c2 else space (readch (space c2)).2) =
            34 :: (render items ++ 34 :: (r1 ++ w)) := by rw [hr, hrem1]; simp
        have hP3 := padded_steps (⟨hm1, hm2, w, hw, hr⟩ : Padded _ _)
          (show rem (if first then space c1 else space (readch (space c1)).2) =
            (34 :: (render items ++ [34])) ++ r1 by rw [hrem1]; simp)
        rw [json_str_size_literal err1 scan hvl hrem1] at h
        rw [json_str_size_literal err2 scan hvl hrem2]
        cases scan with
        | true =>
          simp only [if_true] at h ⊢
          exact key [] _ _ _ _ hP3 h
        | false =>
          simp only [Bool.false_eq_true, if_false] at h ⊢
          rw [json_strcpy_literal err1 hvl hrem1] at h
          rw [json_strcpy_literal err2 hvl hrem2]
          simp only [] at h ⊢
          exact key _ _ _ _ _ hP3 h

theorem object_padded {vF : ValueFn} (hv : SamePtr vF) (g : Nat) {c1 c2 : JSON_PARSE_CTX}
    (hS : PaddedS c1 c2) (scan : Bool) (err1 err2 : List Nat) {p : Ptr}
    {c1' : JSON_PARSE_CTX} {e1 : List Nat} (h : object vF g c1 err1 scan = some (p, c1', e1)) :
    ∃ c2' e2, object vF g c2 err2 scan = some (p, c2', e2) ∧ (p ≠ Ptr.NULL → Padded c1' c2') := by
  obtain ⟨hrd1, hrdP⟩ := paddedS_readch hS
  unfold object at h ⊢
  simp only [] at h ⊢
  rw [hrd1]
  by_cases h123 : (readch c1).1 ≠ 123
  · rw [if_pos h123] at h ⊢
    cases h
    exact ⟨_, _, rfl, fun hh => absurd rfl hh⟩
  rw [if_neg h123] at h ⊢
  cases h1 : object_loop vF scan g true (readch c1).2 err1 mncl_alloc_kv with
  | none => rw [h1] at h; simp at h
  | some x =>
    obtain ⟨ok, d1, x1⟩ := x
    rw [h1] at h
    obtain ⟨d2, x2, h2, hrel⟩ := object_loop_padded hv scan g true _ _ err1 err2 mncl_alloc_kv
      ok d1 x1 hrdP h1
    rw [h2]
    cases ok with
    | none =>
      simp only [] at h ⊢
      cases h
      exact ⟨_, _, rfl, fun hh => absurd rfl hh⟩
    | some kv =>
      simp only [] at h ⊢
      cases h
      exact ⟨_, _, rfl, fun _ => hrel (by simp)⟩

theorem value_step_padded {vF : ValueFn} (hv : SamePtr vF) (g : Nat) :
    SamePtr (value_step vF g) := by
  intro c1 c2 hP scan err1 err2 p c1' e1 h
  have hS := padded_space hP
  have hpk := paddedS_peek hS
  obtain ⟨cx, hcx, ho | ha | hn | hs | hw⟩ := value_step_inv h
  · obtain ⟨d2, x2, h2, hrel⟩ := object_padded hv g hS scan err1 err2 ho.2
    exact ⟨space d2, x2, value_step_object (by rw [hpk]; exact ho.1) h2,
      fun hp => by rw [hcx]; exact padded_space (hrel hp)⟩
  · obtain ⟨d2, x2, h2, hrel⟩ := array_padded hv g hS scan err1 err2 ha.2
    exact ⟨space d2, x2, value_step_array (by rw [hpk]; exact ha.1) h2,
      fun hp => by rw [hcx]; exact padded_space (hrel hp)⟩
  · obtain ⟨d2, x2, h2, hrel⟩ := number_padded hS.1 scan err1 err2 hn.2
    exact ⟨space d2, x2, value_step_number (by rw [hpk]; exact hn.1) h2,
      fun hp => by rw [hcx]; exact padded_space (hrel hp)⟩
  · obtain ⟨d2, x2, h2, hrel⟩ := string_padded hS.1 scan err1 err2 hs.2
    exact ⟨space d2, x2, value_step_string (by rw [hpk]; exact hs.1) h2,
      fun hp => by rw [hcx]; exact padded_space (hrel hp)⟩
  · obtain ⟨d2, x2, h2, hrel⟩ := word_padded hS.1 scan err1 err2 hw.2.2.2.2.2
    exact ⟨space d2, x2, value_step_word (by rw [hpk]; exact hw.1) (by rw [hpk]; exact hw.2.1)
      (by rw [hpk]; exact hw.2.2.1) (by rw [hpk]; exact hw.2.2.2.1)
      (by rw [hpk]; exact hw.2.2.2.2.1) h2,
      fun hp => by rw [hcx]; exact padded_space (hrel hp)⟩

/-- White space behind the buffer does not change the pointer `value` returns. -/
theorem value_padded (f : Nat) : SamePtr (value f) := by
  induction f with
  | zero => intro c1 c2 _ scan err1 err2 p c1' e1 h; simp [value] at h
  | succ f ih => exact value_step_padded ih f

theorem takeWhile_isspace_append {w x : List Nat} (hw : ∀ b ∈ w, isspace b = true) :
    (w ++ x).takeWhile isspace = w ++ x.takeWhile isspace := by
  induction w with
  | nil => rfl
  | cons a w ih =>
    have ha := hw a (List.mem_cons_self _ _)
    simp only [List.cons_append, List.takeWhile_cons, ha, if_true]
    rw [ih (fun b hb => hw b (List.mem_cons_of_mem _ hb))]

/-- White space in front of the cursor is skipped by `value` before anything else. -/
theorem value_skip (f : Nat) (scan : Bool) {c : JSON_PARSE_CTX} (err : List Nat)
    {w x : List Nat} (hw : ∀ b ∈ w, isspace b = true) (hrem : rem c = w ++ x) :
    value f scan c err = value f scan (steps w c) err := by
  have hsp : space c = space (steps w c) := by
    rw [space_takeWhile, space_takeWhile, rem_steps hrem, hrem, takeWhile_isspace_append hw,
      steps_append]
  rw [← value_space f scan c, ← value_space f scan (steps w c), hsp]

theorem json_parse_of_value {f : Nat} {data : List Nat} {size : Nat} {p : Ptr}
    {c : JSON_PARSE_CTX} {e : List Nat}
    (h : value f false (ctx_init data size) [] = some (p, c, e)) :
    (p = Ptr.NULL ∨ peekch c ≠ 0 → ∃ e', json_parse f data size = some (Ptr.NULL, e')) ∧
      (p ≠ Ptr.NULL → peekch c = 0 → json_parse f data size = some (p, e)) := by
  have hj : json_parse f data size =
      (match value f false (ctx_init data size) [] with
        | none => none
        | some (Ptr.NULL, _, err) => some (Ptr.NULL, err)
        | some (result, ctx, err) =>
          if peekch ctx ≠ 0 then
            some (Ptr.NULL, diag ctx.line ctx.col (bytes "Extra garbage after value"))
          else some (result, err)) := rfl
  rw [hj, h]
  cases p with
  | NULL => exact ⟨fun _ => ⟨_, rfl⟩, fun hp => absurd rfl hp⟩
  | json_ok =>
    simp only []
    refine ⟨fun hh => ?_, fun _ h0 => by rw [if_neg (by simpa using h0)]⟩
    rcases hh with hh | hh
    · simp at hh
    · rw [if_pos hh]; exact ⟨_, rfl⟩
  | node v =>
    simp only []
    refine ⟨fun hh => ?_, fun _ h0 => by rw [if_neg (by simpa using h0)]⟩
    rcases hh with hh | hh
    · simp at hh
    · rw [if_pos hh]; exact ⟨_, rfl⟩

/-- White space around a buffer that is its own memory block (nothing can be read
behind it): for every such `b` and all runs `w1`, `w2` of white space, `json_parse`
returns the same pointer for `w1 ++ b ++ w2` and for `b`: both fail, or both succeed
with structurally equal values (only the text of the diagnostic may differ). Any fuel
above the length of the longer input serves both. With readable bytes behind `b` the
statement fails: `strtod` reads on behind the buffer. -/
theorem surrounding_whitespace_insignificant (b w1 w2 : List Nat)
    (h1 : ∀ x ∈ w1, isspace x = true) (h2 : ∀ x ∈ w2, isspace x = true) (k : Nat) :
    (∃ p e1 e2,
        json_parse ((w1 ++ b ++ w2).length + 1 + k) (w1 ++ b ++ w2) (w1 ++ b ++ w2).length =
          some (p, e1)
        ∧ json_parse ((w1 ++ b ++ w2).length + 1 + k) b b.length = some (p, e2))
      ∧ ∀ v, (∃ e, json_parse ((w1 ++ b ++ w2).length + 1 + k) (w1 ++ b ++ w2)
            (w1 ++ b ++ w2).length = some (Ptr.node v, e)) ↔
          (∃ e, json_parse ((w1 ++ b ++ w2).length + 1 + k) b b.length =
            some (Ptr.node v, e)) := by
  have main : ∃ p e1 e2,
      json_parse ((w1 ++ b ++ w2).length + 1 + k) (w1 ++ b ++ w2) (w1 ++ b ++ w2).length =
        some (p, e1)
      ∧ json_parse ((w1 ++ b ++ w2).length + 1 + k) b b.length = some (p, e2) := by
    generalize hF : (w1 ++ b ++ w2).length + 1 + k = F
    have hlen : b.length < F := by
      rw [← hF]; simp only [List.length_append]; omega
    generalize hX : w1 ++ b ++ w2 = X
    have hremX : rem (ctx_init X X.length) = w1 ++ (b ++ w2) := by
      rw [rem_ctx_init, ← hX]; simp
    have hmemX : mem (ctx_init X X.length) = w1 ++ (b ++ w2) := by
      rw [mem_ctx_init, ← hX]; simp
    have hP : Padded (ctx_init b b.length) (steps w1 (ctx_init X X.length)) :=
      ⟨by rw [mem_ctx_init, rem_ctx_init],
        by rw [mem_steps hmemX, rem_steps hremX],
        w2, h2, by rw [rem_steps hremX, rem_ctx_init]⟩
    obtain ⟨p, d1, x1, hv1, -⟩ := value_progress F false (ctx_init b b.length) []
      (by rw [rem_ctx_init]; exact hlen)
    obtain ⟨d2, x2, hv2, hrel⟩ := value_padded F _ _ hP false [] [] p d1 x1 hv1
    rw [← value_skip F false [] h1 hremX] at hv2
    obtain ⟨a1, a2⟩ := json_parse_of_value hv1
    obtain ⟨b1, b2⟩ := json_parse_of_value hv2
    by_cases hp : p = Ptr.NULL
    · obtain ⟨e1, he1⟩ := b1 (Or.inl hp)
      obtain ⟨e2, he2⟩ := a1 (Or.inl hp)
      exact ⟨Ptr.NULL, e1, e2, he1, he2⟩
    · have hpk := paddedS_peek (hrel hp)
      by_cases h0 : peekch d1 = 0
      · exact ⟨p, x2, x1, b2 hp (by rw [hpk]; exact h0), a2 hp h0⟩
      · obtain ⟨e1, he1⟩ := b1 (Or.inr (by rw [hpk]; exact h0))
        obtain ⟨e2, he2⟩ := a1 (Or.inr h0)
        exact ⟨Ptr.NULL, e1, e2, he1, he2⟩
  refine ⟨main, fun v => ?_⟩
  obtain ⟨p, e1, e2, hX, hb⟩ := main
  constructor
  · rintro ⟨e, he⟩
    rw [hX] at he
    simp only [Option.some.injEq, Prod.mk.injEq] at he
    exact ⟨e2, by rw [hb, he.1]⟩
  · rintro ⟨e, he⟩
    rw [hb] at he
    simp only [Option.some.injEq, Prod.mk.injEq] at he
    exact ⟨e1, by rw [hX, he.1]⟩

theorem surrounding_whitespace_insignificant_witness :
    (∃ p e1 e2,
        json_parse ((bytes " \n" ++ bytes "[1]" ++ bytes "\t ").length + 1 + 0)
          (bytes " \n" ++ bytes "[1]" ++ bytes "\t ")
          (bytes " \n" ++ bytes "[1]" ++ bytes "\t ").length = some (p, e1)
        ∧ json_parse ((bytes " \n" ++ bytes "[1]" ++ bytes "\t ").length + 1 + 0)
          (bytes "[1]") (bytes "[1]").length = some (p, e2))
      ∧ ∀ v, (∃ e, json_parse ((bytes " \n" ++ bytes "[1]" ++ bytes "\t ").length + 1 + 0)
            (bytes " \n" ++ bytes "[1]" ++ bytes "\t ")
            (bytes " \n" ++ bytes "[1]" ++ bytes "\t ").length = some (Ptr.node v, e)) ↔
          (∃ e, json_parse ((bytes " \n" ++ bytes "[1]" ++ bytes "\t ").length + 1 + 0)
            (bytes "[1]") (bytes "[1]").length = some (Ptr.node v, e)) :=
  surrounding_whitespace_insignificant (bytes "[1]") (bytes " \n") (bytes "\t ")
    (by decide) (by decide) 0

/-! ## The cursor location after a successful rule -/

theorem reach_refl (c : JSON_PARSE_CTX) : Reach c c := ⟨[], by simp, rfl⟩

theorem reach_trans {a b c : JSON_PARSE_CTX} (h1 : Reach a b) (h2 : Reach b c) : Reach a c := by
  obtain ⟨bs1, hr1, hc1⟩ := h1
  obtain ⟨bs2, hr2, hc2⟩ := h2
  refine ⟨bs1 ++ bs2, ?_, ?_⟩
  · rw [hr1, hr2, List.append_assoc]
  · rw [hc2, hc1, steps_append]

theorem reach_steps {c : JSON_PARSE_CTX} {bs r : List Nat} (h : rem c = bs ++ r) :
    Reach c (steps bs c) := ⟨bs, by rw [rem_steps h, h], rfl⟩

theorem reach_readch (c : JSON_PARSE_CTX) : Reach c (readch c).2 := by
  by_cases h0 : peekch c = 0
  · rw [readch_zero h0]
    exact reach_refl c
  · obtain ⟨r, hrem⟩ := @rem_of_peekch c _ rfl h0
    rw [readch_cons hrem h0]
    exact @reach_steps c [peekch c] r hrem

theorem reach_space (c : JSON_PARSE_CTX) : Reach c (space c) := by
  rw [space_takeWhile]
  exact @reach_steps c _ ((rem c).dropWhile isspace) (List.takeWhile_append_dropWhile _ _).symm

/-- The context a `Reach` ends in is fixed by the bytes that are left. -/
theorem reach_eq_steps {c c' : JSON_PARSE_CTX} (h : Reach c c') {bs r : List Nat}
    (hrem : rem c = bs ++ r) (hr : rem c' = r) : c' = steps bs c := by
  obtain ⟨bs', h1, h2⟩ := h
  rw [hr, hrem] at h1
  rw [h2, List.append_cancel_right h1.symm]

theorem array_pass1_traced {vF : ValueFn} (hv : Traced vF) (start : JSON_PARSE_CTX)
    (f : Nat) : ∀ (ctx : JSON_PARSE_CTX) (err : List Nat) (count n : Nat)
      (c' : JSON_PARSE_CTX) (e' : List Nat),
      array_pass1 vF start f ctx err count = some (some n, c', e') → Reach ctx c' := by
  induction f with
  | zero => intro ctx err count n c' e' h; simp [array_pass1] at h
  | succ f ih =>
    intro ctx err count n c' e' h
    rcases array_pass1_inv h with ⟨-, -, hc, -⟩ | ⟨-, -, -, p, c2, e2, hvf, hp, hrec⟩
    · rw [hc]; exact reach_readch ctx
    · have h1 : Reach ctx (if count ≠ 0 then (readch ctx).2 else ctx) := by
        split_ifs
        · exact reach_readch ctx
        · exact reach_refl ctx
      exact reach_trans h1 (reach_trans (hv _ _ _ _ _ _ hvf hp) (ih _ _ _ _ _ _ hrec))

theorem array_pass2_traced {vF : ValueFn} (hv : Traced vF) (start : JSON_PARSE_CTX)
    (f : Nat) : ∀ (ctx : JSON_PARSE_CTX) (err : List Nat) (i : Nat) (data out : List JSON_VALUE)
      (c' : JSON_PARSE_CTX) (e' : List Nat),
      array_pass2 vF start f ctx err i data = some (some out, c', e') → Reach ctx c' := by
  induction f with
  | zero => intro ctx err i data out c' e' h; simp [array_pass2] at h
  | succ f ih =>
    intro ctx err i data out c' e' h
    rcases array_pass2_inv h with ⟨-, -, hc, -⟩ | ⟨-, -, -, p, c2, e2, hvf, hp, hrec⟩
    · rw [hc]; exact reach_readch ctx
    · have h1 : Reach ctx (if i ≠ 0 then (readch ctx).2 else ctx) := by
        split_ifs
        · exact reach_readch ctx
        · exact reach_refl ctx
      exact reach_trans h1 (reach_trans (hv _ _ _ _ _ _ hvf hp) (ih _ _ _ _ _ _ _ hrec))

theorem array_traced {vF : ValueFn} (hv : Traced vF) {fuel : Nat} {ctx : JSON_PARSE_CTX}
    {err : List Nat} {scan : Bool} {p : Ptr} {c' : JSON_PARSE_CTX} {e' : List Nat}
    (h : array vF fuel ctx err scan = some (p, c', e')) (hp : p ≠ Ptr.NULL) : Reach ctx c' := by
  obtain ⟨-, count, c1, e1, h1, hs, hm⟩ := array_inv h hp
  have h0 : Reach ctx (space (readch ctx).2) :=
    reach_trans (reach_readch ctx) (reach_space _)
  cases scan with
  | true =>
    rw [(hs rfl).2.1]
    exact reach_trans h0 (array_pass1_traced hv _ _ _ _ _ _ _ _ h1)
  | false =>
    obtain ⟨data, h2, -⟩ := hm rfl
    exact reach_trans h0 (array_pass2_traced hv _ _ _ _ _ _ _ _ _ h2)

theorem object_loop_traced {vF : ValueFn} (hv : Traced vF) (scan : Bool)
    (f : Nat) : ∀ (first : Bool) (ctx : JSON_PARSE_CTX) (err : List Nat) (kv kv' : MNCL_KV)
      (c' : JSON_PARSE_CTX) (e' : List Nat),
      object_loop vF scan f first ctx err kv = some (some kv', c', e') → Reach ctx c' := by
  induction f with
  | zero => intro first ctx err kv kv' c' e' h; simp [object_loop] at h
  | succ f ih =>
    intro first ctx err kv kv' c' e' h
    rcases object_loop_inv h with ⟨-, -, hc, -⟩ |
      ⟨-, -, items, r, p, c6, e6, -, hrem, -, hvf, hp, hrec⟩
    · rw [hc]; exact reach_trans (reach_space ctx) (reach_readch _)
    · have h1 : Reach ctx (if first then space ctx else space (readch (space ctx)).2) := by
        cases first with
        | true => exact reach_space ctx
        | false =>
          exact reach_trans (reach_space ctx) (reach_trans (reach_readch _) (reach_space _))
      have h2 : Reach (if first then space ctx else space (readch (space ctx)).2)
          (steps (34 :: (render items ++ [34]))
            (if first then space ctx else space (readch (space ctx)).2)) :=
        @reach_steps _ (34 :: (render items ++ [34])) r (by rw [hrem]; simp)
      exact reach_trans h1 (reach_trans h2 (reach_trans (reach_space _)
        (reach_trans (reach_readch _)
          (reach_trans (hv _ _ _ _ _ _ hvf hp) (ih _ _ _ _ _ _ _ hrec)))))

theorem object_traced {vF : ValueFn} (hv : Traced vF) {fuel : Nat} {ctx : JSON_PARSE_CTX}
    {err : List Nat} {scan : Bool} {p : Ptr} {c' : JSON_PARSE_CTX} {e' : List Nat}
    (h : object vF fuel ctx err scan = some (p, c', e')) (hp : p ≠ Ptr.NULL) : Reach ctx c' := by
  obtain ⟨-, kv, h1, -⟩ := object_inv h hp
  exact reach_trans (reach_readch ctx) (object_loop_traced hv _ _ _ _ _ _ _ _ _ h1)

theorem value_step_traced {vF : ValueFn} (hv : Traced vF) (fuel : Nat) :
    Traced (value_step vF fuel) := by
  intro scan ctx err p c' e' h hp
  obtain ⟨c1, hc, ho | ha | hn | hs | hw⟩ := value_step_inv h
  all_goals rw [hc]
  all_goals refine reach_trans (reach_space ctx) (reach_trans ?_ (reach_space c1))
  · exact object_traced hv ho.2 hp
  · exact array_traced hv ha.2 hp
  · obtain ⟨N, -, hc1, hr⟩ := number_sound hn.2 hp
    rw [hc1]
    exact reach_steps hr
  · obtain ⟨items, r, -, hrem, -, hc1, -⟩ := string_result hs.2 hp
    rw [hc1]
    exact @reach_steps _ (34 :: (render items ++ [34])) r (by rw [hrem]; simp)
  · obtain ⟨lit, r, v, hrem, -, -, hc1, -, -⟩ := word_result hw.2.2.2.2.2 hp
    rw [hc1]
    exact reach_steps hrem

/-- A successful `value` call ends in the context it started in, advanced over the
bytes it consumed. -/
theorem value_traced (f : Nat) : Traced (value f) := by
  induction f with
  | zero => intro scan ctx err p c' e' h; simp [value] at h
  | succ f ih => exact value_step_traced ih f

/-- As `value_embedded`, with memory behind the buffer that differs from the rest of
the buffer. -/
theorem value_embedded_mem {f : Nat} {v : List Nat} {r : JSON_VALUE} (hnz : ∀ b ∈ v, b ≠ 0)
    (hp : json_parse f v v.length = some (Ptr.node r, [])) {g : Nat} (hg : f ≤ g)
    {d : Nat} (hd : hardstop d = true) {post post' : List Nat} {c : JSON_PARSE_CTX}
    (hrem : rem c = v ++ d :: post) (hmem : mem c = v ++ d :: post') :
    ∃ c', value g false c [] = some (Ptr.node r, c', []) ∧
      value g true c [] = some (Ptr.json_ok, c', []) ∧ rem c' = d :: post ∧
      mem c' = d :: post' := by
  obtain ⟨c1', hv, hpk⟩ := json_parse_inv hp
  have hF : Frame d post post' (ctx_init v v.length) c :=
    ⟨by rw [mem_ctx_init, rem_ctx_init], by rw [rem_ctx_init]; exact hnz,
      by rw [rem_ctx_init]; exact hrem, by rw [rem_ctx_init]; exact hmem⟩
  obtain ⟨c2', hv2, hF2⟩ := value_framed f d post post' false _ c [] _ c1' [] hd hF hv (by simp)
  have hnil : rem c1' = [] := by
    cases hr : rem c1' with
    | nil => rfl
    | cons b t =>
      exfalso
      have h1 := peekch_cons hr
      rw [hpk] at h1
      exact hF2.nz b (by rw [hr]; simp) h1.symm
  refine ⟨c2', value_mono hg _ _ _ _ hv2,
    value_mono hg _ _ _ _ (value_scanOfMat f _ _ _ _ _ hv2 (by simp)), ?_, ?_⟩
  · rw [hF2.rem2, hnil]; rfl
  · rw [hF2.mem2, hnil]; rfl

/-- As `member_key`, with memory behind the buffer that differs from the rest of the
buffer. -/
theorem member_key_mem {key : List Item} {mid tail tail' : List Nat}
    (hmid : ∀ b ∈ mid, isspace b = true) {c1 : JSON_PARSE_CTX}
    (hrem : rem c1 = 34 :: (render key ++ 34 :: (mid ++ 58 :: tail)))
    (hmem : mem c1 = 34 :: (render key ++ 34 :: (mid ++ 58 :: tail'))) :
    (readch (space (steps (34 :: (render key ++ [34])) c1))).1 = 58 ∧
      rem (readch (space (steps (34 :: (render key ++ [34])) c1))).2 = tail ∧
      mem (readch (space (steps (34 :: (render key ++ [34])) c1))).2 = tail' := by
  have hr2 : rem (steps (34 :: (render key ++ [34])) c1) = mid ++ 58 :: tail :=
    rem_steps (by rw [hrem]; simp)
  have hm2 : mem (steps (34 :: (render key ++ [34])) c1) = mid ++ 58 :: tail' :=
    mem_steps (by rw [hmem]; simp)
  have hsp : space (steps (34 :: (render key ++ [34])) c1) =
      steps mid (steps (34 :: (render key ++ [34])) c1) := space_eq hr2 hmid (by rfl)
  have hr3 : rem (space (steps (34 :: (render key ++ [34])) c1)) = 58 :: tail := by
    rw [hsp]; exact rem_steps hr2
  have hm3 : mem (space (steps (34 :: (render key ++ [34])) c1)) = 58 :: tail' := by
    rw [hsp]; exact mem_steps hm2
  rw [readch_cons hr3 (by decide)]
  exact ⟨rfl, rem_step hr3, mem_step hm3⟩

/-- As `member_body_mode`, with memory behind the buffer that differs from the rest of
the buffer. -/
theorem member_body_mode_mem {f F : Nat} (hfF : f ≤ F) {m : Member} (hm : m.ok f)
    (scan : Bool) {d : Nat} (hd : hardstop d = true) {post post' : List Nat}
    {c1 : JSON_PARSE_CTX}
    (hrem : rem c1 = 34 :: (render m.key ++ 34 :: (m.mid ++ 58 :: (m.text ++ d :: post))))
    (hmem : mem c1 = 34 :: (render m.key ++ 34 :: (m.mid ++ 58 :: (m.text ++ d :: post')))) :
    (readch (space (steps (34 :: (render m.key ++ [34])) c1))).1 = 58 ∧
      ∃ p c6, value F scan (readch (space (steps (34 :: (render m.key ++ [34])) c1))).2 [] =
          some (p, c6, []) ∧ p ≠ Ptr.NULL ∧ rem c6 = d :: post ∧ mem c6 = d :: post' := by
  obtain ⟨h58, hr, hmm⟩ := member_key_mem hm.2.1 hrem hmem
  obtain ⟨c', hvm, hvs, hrc, hmc⟩ := value_embedded_mem hm.2.2.2.1 hm.2.2.2.2 hfF hd hr hmm
  refine ⟨h58, ?_⟩
  cases scan with
  | true => exact ⟨_, c', hvs, by simp, hrc, hmc⟩
  | false => exact ⟨_, c', hvm, by simp, hrc, hmc⟩

theorem rem_ctx_init_append (data junk : List Nat) :
    rem (ctx_init (data ++ junk) data.length) = data := by
  simp [rem, ctx_init]
/-! ## Failures below enclosing composites -/

/-- The sizing pass of `array`, at the comma behind an element: it runs through the
elements in front of the position and returns the failure of `value` there. -/
theorem array_pass1_through_q {Q : JSON_PARSE_CTX → List Nat → Prop} {f F : Nat}
    (hfF : f ≤ F) (start : JSON_PARSE_CTX) (tail tail' : List Nat)
    (hin : ∀ c : JSON_PARSE_CTX, rem c = tail → mem c = tail' →
      ∃ c' e, value F true c [] = some (Ptr.NULL, c', e) ∧ Q c e) :
    ∀ (done : List (List Nat)), Layer.ok f (Layer.arr done) →
      ∀ (g n : Nat) (ctx : JSON_PARSE_CTX), done.length < g → n ≠ 0 →
        rem ctx = 44 :: ((done.map (fun v => v ++ [44])).flatten ++ tail) →
        mem ctx = 44 :: ((done.map (fun v => v ++ [44])).flatten ++ tail') →
        ∃ c0 c' e, Reach ctx c0 ∧ rem c0 = tail ∧
          array_pass1 (value F) start g ctx [] n = some (none, c', e) ∧ Q c0 e := by
  intro done
  induction done with
  | nil =>
    intro _ g n ctx hg hn hrem hmem
    obtain ⟨g', rfl⟩ : ∃ g', g = g' + 1 := ⟨g - 1, by omega⟩
    have hrem' : rem ctx = 44 :: tail := by simpa using hrem
    have hmem' : mem ctx = 44 :: tail' := by simpa using hmem
    have hpk : peekch ctx = 44 := peekch_cons hrem'
    obtain ⟨c', e, hv, hq⟩ := hin (step 44 ctx) (rem_step hrem') (mem_step hmem')
    exact ⟨step 44 ctx, c', e, @reach_steps ctx [44] tail hrem', rem_step hrem',
      array_pass1_fail_at g' (by rw [hpk]; decide) (by rw [hpk]; decide)
        (fun _ => hpk) (by rw [if_pos hn, readch_cons hrem' (by decide)]; exact hv), hq⟩
  | cons v done ih =>
    intro hok g n ctx hg hn hrem hmem
    obtain ⟨g', rfl⟩ : ∃ g', g = g' + 1 := ⟨g - 1, by omega⟩
    have hrem' : rem ctx =
        44 :: (v ++ 44 :: ((done.map (fun v => v ++ [44])).flatten ++ tail)) := by
      rw [hrem]; simp
    have hmem' : mem ctx =
        44 :: (v ++ 44 :: ((done.map (fun v => v ++ [44])).flatten ++ tail')) := by
      rw [hmem]; simp
    have hpk : peekch ctx = 44 := peekch_cons hrem'
    obtain ⟨hnz, r, hp⟩ := hok v (List.mem_cons_self _ _)
    obtain ⟨c', -, hvs, hrc, hmc⟩ := value_embedded_mem hnz hp hfF (by decide : hardstop 44 = true)
      (rem_step hrem') (mem_step hmem')
    have hstep := @array_pass1_step (value F) start g' ctx [] n (by rw [hpk]; decide)
      (by rw [hpk]; decide) (fun _ => hpk) Ptr.json_ok c' []
      (by rw [if_pos hn, readch_cons hrem' (by decide)]; exact hvs) (by simp)
    obtain ⟨c0, c'', e, hreach, hr0, hrun, hq⟩ :=
      ih (fun x hx => hok x (List.mem_cons_of_mem _ hx)) g' (n + 1) c'
        (by simpa using hg) (by omega) hrc hmc
    exact ⟨c0, c'', e,
      reach_trans (@reach_steps ctx [44] _ hrem')
        (reach_trans (value_traced F _ _ _ _ _ _ hvs (by simp)) hreach),
      hr0, by rw [hstep, hrun], hq⟩

/-- The array rule on an array layer followed by a position at which `value` fails. -/
theorem array_layer_fail_q {Q : JSON_PARSE_CTX → List Nat → Prop} {f F : Nat} (hfF : f ≤ F)
    (done : List (List Nat)) (hok : Layer.ok f (Layer.arr done)) (hF : done.length + 1 < F)
    (tail tail' : List Nat)
    (hfirst : (tail.dropWhile isspace).headD 0 ≠ 93 ∧ (tail.dropWhile isspace).headD 0 ≠ 0)
    (hin : ∀ c : JSON_PARSE_CTX, rem c = tail → mem c = tail' →
      ∃ c' e, value F true c [] = some (Ptr.NULL, c', e) ∧ Q c e)
    (scan : Bool) {ctx : JSON_PARSE_CTX}
    (hrem : rem ctx = (Layer.arr done).render ++ tail)
    (hmem : mem ctx = (Layer.arr done).render ++ tail') :
    ∃ c0 c' e, Reach ctx c0 ∧ rem c0 = tail ∧
      array (value F) F ctx [] scan = some (Ptr.NULL, c', e) ∧ Q c0 e := by
  obtain ⟨g', rfl⟩ : ∃ g', F = g' + 1 := ⟨F - 1, by omega⟩
  have hrem' : rem ctx = 91 :: ((done.map (fun v => v ++ [44])).flatten ++ tail) := by
    rw [hrem]; simp [Layer.render]
  have hmem' : mem ctx = 91 :: ((done.map (fun v => v ++ [44])).flatten ++ tail') := by
    rw [hmem]; simp [Layer.render]
  have hrd : readch ctx = (91, step 91 ctx) := readch_cons hrem' (by decide)
  have h91 : (readch ctx).1 = 91 := by rw [hrd]
  have hre : Reach ctx (step 91 ctx) := @reach_steps ctx [91] _ hrem'
  cases done with
  | nil =>
    have hr1 : rem (step 91 ctx) = tail := by rw [rem_step hrem']; simp
    have hm1 : mem (step 91 ctx) = tail' := by rw [mem_step hmem']; simp
    obtain ⟨c', e, hv, hq⟩ := hin (step 91 ctx) hr1 hm1
    have hpk : peekch (space (step 91 ctx)) = (tail.dropWhile isspace).headD 0 := by
      rw [peekch_rem, rem_space, hr1]
    obtain ⟨s93, s0⟩ := hfirst
    refine ⟨step 91 ctx, c', e, hre, hr1, array_of_pass1_fail scan h91 ?_, hq⟩
    rw [hrd]
    exact array_pass1_fail_at g' (by rw [hpk]; exact s93) (by rw [hpk]; exact s0)
      (fun h => absurd rfl h) (by rw [if_neg (by simp), value_space]; exact hv)
  | cons v done =>
    have hrem1 : rem (step 91 ctx) =
        v ++ 44 :: ((done.map (fun v => v ++ [44])).flatten ++ tail) := by
      rw [rem_step hrem']; simp
    have hmem1 : mem (step 91 ctx) =
        v ++ 44 :: ((done.map (fun v => v ++ [44])).flatten ++ tail') := by
      rw [mem_step hmem']; simp
    obtain ⟨hnz, r, hp⟩ := hok v (List.mem_cons_self _ _)
    obtain ⟨c', hvm, hvs, hrc, hmc⟩ := value_embedded_mem hnz hp hfF (by decide : hardstop 44 = true)
      hrem1 hmem1
    obtain ⟨s0, s93, -, -, -⟩ := value_start hvm (by simp)
    have hstep := @array_pass1_step (value (g' + 1)) ctx g' (space (step 91 ctx)) [] 0 s93 s0
      (fun h => absurd rfl h) Ptr.json_ok c' []
      (by rw [if_neg (by simp), value_space]; exact hvs) (by simp)
    obtain ⟨c0, c'', e, hreach, hr0, hrun, hq⟩ := array_pass1_through_q hfF ctx tail tail' hin done
      (fun x hx => hok x (List.mem_cons_of_mem _ hx)) g' 1 c'
      (by simp only [List.length_cons] at hF; omega) (by simp) hrc hmc
    refine ⟨c0, c'', e,
      reach_trans hre (reach_trans (value_traced _ _ _ _ _ _ _ hvs (by simp)) hreach), hr0,
      array_of_pass1_fail scan h91 ?_, hq⟩
    rw [hrd, hstep, hrun]

/-- From the opening quote of a key on, the colon behind the key is reached. -/
theorem member_key_reach {key : List Item} {mid tail : List Nat} {c1 : JSON_PARSE_CTX}
    (hrem : rem c1 = 34 :: (render key ++ 34 :: (mid ++ 58 :: tail))) :
    Reach c1 (readch (space (steps (34 :: (render key ++ [34])) c1))).2 :=
  reach_trans (@reach_steps c1 (34 :: (render key ++ [34])) (mid ++ 58 :: tail)
    (by rw [hrem]; simp)) (reach_trans (reach_space _) (reach_readch _))

/-- The loop of `object`, at the comma behind a member: it runs through the members in
front of the position and returns the failure of `value` there. -/
theorem object_loop_through_q {Q : JSON_PARSE_CTX → List Nat → Prop} {f F : Nat}
    (hfF : f ≤ F) (scan : Bool)
    (pre : List Nat) (key : List Item) (mid tail tail' : List Nat)
    (hpre : ∀ b ∈ pre, isspace b = true) (hmid : ∀ b ∈ mid, isspace b = true)
    (hkey : ∀ it ∈ key, it.valid)
    (hin : ∀ c : JSON_PARSE_CTX, rem c = tail → mem c = tail' →
      ∃ c' e, value F scan c [] = some (Ptr.NULL, c', e) ∧ Q c e) :
    ∀ (done : List Member), (∀ m ∈ done, m.ok f) →
      ∀ (g : Nat) (kv : MNCL_KV) (ctx : JSON_PARSE_CTX), done.length < g →
        rem ctx = 44 :: ((done.map (fun m => m.render ++ [44])).flatten ++
          (pre ++ 34 :: (render key ++ 34 :: (mid ++ 58 :: tail)))) →
        mem ctx = 44 :: ((done.map (fun m => m.render ++ [44])).flatten ++
          (pre ++ 34 :: (render key ++ 34 :: (mid ++ 58 :: tail')))) →
        ∃ c0 c' e, Reach ctx c0 ∧ rem c0 = tail ∧
          object_loop (value F) scan g false ctx [] kv = some (none, c', e) ∧ Q c0 e := by
  intro done
  induction done with
  | nil =>
    intro _ g kv ctx hg hrem hmem
    obtain ⟨g', rfl⟩ : ∃ g', g = g' + 1 := ⟨g - 1, by omega⟩
    have hrem' : rem ctx = 44 :: (pre ++ 34 :: (render key ++ 34 :: (mid ++ 58 :: tail))) := by
      simpa using hrem
    have hmem' : mem ctx = 44 :: (pre ++ 34 :: (render key ++ 34 :: (mid ++ 58 :: tail'))) := by
      simpa using hmem
    have hsp : space ctx = ctx := space_id (by rw [peekch_cons hrem']; decide)
    have hpk : peekch (space ctx) = 44 := by rw [hsp]; exact peekch_cons hrem'
    have hrd : readch (space ctx) = (44, step 44 ctx) := by
      rw [hsp]; exact readch_cons hrem' (by decide)
    have hsp2 : space (step 44 ctx) = steps pre (step 44 ctx) :=
      space_eq (rem_step hrem') hpre (by rfl)
    have hr1 : rem (space (step 44 ctx)) = 34 :: (render key ++ 34 :: (mid ++ 58 :: tail)) := by
      rw [hsp2]; exact rem_steps (rem_step hrem')
    have hm1 : mem (space (step 44 ctx)) = 34 :: (render key ++ 34 :: (mid ++ 58 :: tail')) := by
      rw [hsp2]; exact mem_steps (mem_step hmem')
    obtain ⟨h58, hr5, hm5⟩ := member_key_mem hmid hr1 hm1
    obtain ⟨c', e, hv, hq⟩ := hin _ hr5 hm5
    have hctx1 : (if false = true then space ctx else space (readch (space ctx)).2) =
        space (step 44 ctx) := by rw [hrd]; rfl
    exact ⟨_, c', e,
      reach_trans (@reach_steps ctx [44] _ hrem')
        (reach_trans (reach_space _) (member_key_reach hr1)), hr5,
      @object_loop_fail_at (value F) scan g' false ctx [] kv
        (by rw [hpk]; decide) (fun _ => hpk) key _ hkey (by rw [hctx1]; exact hr1)
        (by rw [hctx1]; exact h58) c' _ (by rw [hctx1]; exact hv), hq⟩
  | cons m done ih =>
    intro hok g kv ctx hg hrem hmem
    obtain ⟨g', rfl⟩ : ∃ g', g = g' + 1 := ⟨g - 1, by omega⟩
    have hm := hok m (List.mem_cons_self _ _)
    have hrem' : rem ctx = 44 :: (m.pre ++ 34 :: (render m.key ++ 34 :: (m.mid ++ 58 ::
        (m.text ++ 44 :: ((done.map (fun m => m.render ++ [44])).flatten ++
          (pre ++ 34 :: (render key ++ 34 :: (mid ++ 58 :: tail)))))))) := by
      rw [hrem]; simp [Member.render]
    have hmem' : mem ctx = 44 :: (m.pre ++ 34 :: (render m.key ++ 34 :: (m.mid ++ 58 ::
        (m.text ++ 44 :: ((done.map (fun m => m.render ++ [44])).flatten ++
          (pre ++ 34 :: (render key ++ 34 :: (mid ++ 58 :: tail')))))))) := by
      rw [hmem]; simp [Member.render]
    have hsp : space ctx = ctx := space_id (by rw [peekch_cons hrem']; decide)
    have hpk : peekch (space ctx) = 44 := by rw [hsp]; exact peekch_cons hrem'
    have hrd : readch (space ctx) = (44, step 44 ctx) := by
      rw [hsp]; exact readch_cons hrem' (by decide)
    have hsp2 : space (step 44 ctx) = steps m.pre (step 44 ctx) :=
      space_eq (rem_step hrem') hm.1 (by rfl)
    have hr1 := rem_steps (rem_step hrem')
    have hm1 := mem_steps (@mem_step ctx 44 _ _ hmem')
    rw [← hsp2] at hr1 hm1
    obtain ⟨h58, p, c6, hv, hp, hrc, hmc⟩ := member_body_mode_mem hfF hm scan
      (by decide : hardstop 44 = true) hr1 hm1
    have hctx1 : (if false = true then space ctx else space (readch (space ctx)).2) =
        space (step 44 ctx) := by rw [hrd]; rfl
    have hstep := @object_loop_step (value F) scan g' false ctx [] kv (by rw [hpk]; decide)
      (fun _ => hpk) m.key _ hm.2.2.1 (by rw [hctx1]; exact hr1) (by rw [hctx1]; exact h58)
      p c6 [] (by rw [hctx1]; exact hv) hp
    obtain ⟨c0, c', e, hreach, hr0, hrun, hq⟩ :=
      ih (fun x hx => hok x (List.mem_cons_of_mem _ hx)) g'
        (if scan then kv else mncl_kv_insert kv (cstr (decode m.key ++ [0])) p.deref) c6
        (by simpa using hg) hrc hmc
    exact ⟨c0, c', e,
      reach_trans (@reach_steps ctx [44] _ hrem')
        (reach_trans (reach_space _) (reach_trans (member_key_reach hr1)
          (reach_trans (value_traced F _ _ _ _ _ _ hv hp) hreach))), hr0,
      by rw [hstep, hrun], hq⟩

/-- The object rule on an object layer followed by a position at which `value` fails. -/
theorem object_layer_fail_q {Q : JSON_PARSE_CTX → List Nat → Prop} {f F : Nat} (hfF : f ≤ F)
    (done : List Member) (pre : List Nat)
    (key : List Item) (mid : List Nat) (hok : Layer.ok f (Layer.obj done pre key mid))
    (hF : done.length + 1 < F) (tail tail' : List Nat) (scan : Bool)
    (hin : ∀ c : JSON_PARSE_CTX, rem c = tail → mem c = tail' →
      ∃ c' e, value F scan c [] = some (Ptr.NULL, c', e) ∧ Q c e)
    {ctx : JSON_PARSE_CTX}
    (hrem : rem ctx = (Layer.obj done pre key mid).render ++ tail)
    (hmem : mem ctx = (Layer.obj done pre key mid).render ++ tail') :
    ∃ c0 c' e, Reach ctx c0 ∧ rem c0 = tail ∧
      object (value F) F ctx [] scan = some (Ptr.NULL, c', e) ∧ Q c0 e := by
  obtain ⟨g', rfl⟩ : ∃ g', F = g' + 1 := ⟨F - 1, by omega⟩
  obtain ⟨hdone, hpre, hmid, hkey⟩ := hok
  have hrem' : rem ctx = 123 :: ((done.map (fun m => m.render ++ [44])).flatten ++
      (pre ++ 34 :: (render key ++ 34 :: (mid ++ 58 :: tail)))) := by
    rw [hrem]; simp [Layer.render]
  have hmem' : mem ctx = 123 :: ((done.map (fun m => m.render ++ [44])).flatten ++
      (pre ++ 34 :: (render key ++ 34 :: (mid ++ 58 :: tail')))) := by
    rw [hmem]; simp [Layer.render]
  have hrd : readch ctx = (123, step 123 ctx) := readch_cons hrem' (by decide)
  have h123 : (readch ctx).1 = 123 := by rw [hrd]
  have hre : Reach ctx (step 123 ctx) := @reach_steps ctx [123] _ hrem'
  cases done with
  | nil =>
    have hr0 : rem (step 123 ctx) = pre ++ 34 :: (render key ++ 34 :: (mid ++ 58 :: tail)) := by
      rw [rem_step hrem']; simp
    have hm0 : mem (step 123 ctx) = pre ++ 34 :: (render key ++ 34 :: (mid ++ 58 :: tail')) := by
      rw [mem_step hmem']; simp
    have hsp : space (step 123 ctx) = steps pre (step 123 ctx) := space_eq hr0 hpre (by rfl)
    have hr1 : rem (space (step 123 ctx)) = 34 :: (render key ++ 34 :: (mid ++ 58 :: tail)) := by
      rw [hsp]; exact rem_steps hr0
    have hm1 : mem (space (step 123 ctx)) = 34 :: (render key ++ 34 :: (mid ++ 58 :: tail')) := by
      rw [hsp]; exact mem_steps hm0
    obtain ⟨h58, hr5, hm5⟩ := member_key_mem hmid hr1 hm1
    obtain ⟨c', e, hv, hq⟩ := hin _ hr5 hm5
    have hpk : peekch (space (step 123 ctx)) = 34 := peekch_cons hr1
    have hctx1 : (if true = true then space (step 123 ctx)
        else space (readch (space (step 123 ctx))).2) = space (step 123 ctx) := rfl
    refine ⟨_, c', e, reach_trans hre (reach_trans (reach_space _) (member_key_reach hr1)), hr5,
      object_of_loop_fail h123 ?_, hq⟩
    rw [hrd]
    exact @object_loop_fail_at (value (g' + 1)) scan g' true (step 123 ctx) [] mncl_alloc_kv
      (by rw [hpk]; decide) (fun h => absurd h (by decide)) key _ hkey
      (by rw [hctx1]; exact hr1) (by rw [hctx1]; exact h58) c' _ (by rw [hctx1]; exact hv)
  | cons m done =>
    have hm := hdone m (List.mem_cons_self _ _)
    have hr0 : rem (step 123 ctx) = m.pre ++ 34 :: (render m.key ++ 34 :: (m.mid ++ 58 ::
        (m.text ++ 44 :: ((done.map (fun m => m.render ++ [44])).flatten ++
          (pre ++ 34 :: (render key ++ 34 :: (mid ++ 58 :: tail))))))) := by
      rw [rem_step hrem']; simp [Member.render]
    have hm0 : mem (step 123 ctx) = m.pre ++ 34 :: (render m.key ++ 34 :: (m.mid ++ 58 ::
        (m.text ++ 44 :: ((done.map (fun m => m.render ++ [44])).flatten ++
          (pre ++ 34 :: (render key ++ 34 :: (mid ++ 58 :: tail'))))))) := by
      rw [mem_step hmem']; simp [Member.render]
    have hsp : space (step 123 ctx) = steps m.pre (step 123 ctx) := space_eq hr0 hm.1 (by rfl)
    have hr1 := rem_steps hr0
    have hm1 := mem_steps hm0
    rw [← hsp] at hr1 hm1
    obtain ⟨h58, p, c6, hv, hp, hrc, hmc⟩ := member_body_mode_mem hfF hm scan
      (by decide : hardstop 44 = true) hr1 hm1
    have hpk : peekch (space (step 123 ctx)) = 34 := peekch_cons hr1
    have hctx1 : (if true = true then space (step 123 ctx)
        else space (readch (space (step 123 ctx))).2) = space (step 123 ctx) := rfl
    have hstep := @object_loop_step (value (g' + 1)) scan g' true (step 123 ctx) []
      mncl_alloc_kv (by rw [hpk]; decide) (fun h => absurd h (by decide)) m.key _ hm.2.2.1
      (by rw [hctx1]; exact hr1) (by rw [hctx1]; exact h58) p c6 []
      (by rw [hctx1]; exact hv) hp
    obtain ⟨c0, c', e, hreach, hr00, hrun, hq⟩ :=
      object_loop_through_q hfF scan pre key mid tail tail' hpre hmid hkey hin
        done (fun x hx => hdone x (List.mem_cons_of_mem _ hx)) g'
        (if scan then mncl_alloc_kv
          else mncl_kv_insert mncl_alloc_kv (cstr (decode m.key ++ [0])) p.deref) c6
        (by simp only [List.length_cons] at hF; omega) hrc hmc
    refine ⟨c0, c', e,
      reach_trans hre (reach_trans (reach_space _) (reach_trans (member_key_reach hr1)
        (reach_trans (value_traced _ _ _ _ _ _ _ hv hp) hreach))), hr00,
      object_of_loop_fail h123 ?_, hq⟩
    rw [hrd, hstep, hrun]

/-- Whatever composites enclose it, a position at which `value` fails makes `value`,
called on the outermost composite, fail with the same diagnostic. -/
theorem layers_fail_q {Q : JSON_PARSE_CTX → List Nat → Prop} (f F0 : Nat) (hF0 : f < F0)
    (t t' : List Nat)
    (hfirst : (t.dropWhile isspace).headD 0 ≠ 93 ∧ (t.dropWhile isspace).headD 0 ≠ 0)
    (hin : ∀ F, F0 ≤ F → ∀ (scan : Bool) (c : JSON_PARSE_CTX), rem c = t → mem c = t' →
      ∃ c' e, value F scan c [] = some (Ptr.NULL, c', e) ∧ Q c e) :
    ∀ layers : List Layer, (∀ L ∈ layers, L.ok f) →
      ∀ F, F0 + (layers.map Layer.weight).sum ≤ F →
        ∀ (scan : Bool) (c : JSON_PARSE_CTX),
        rem c = (layers.map Layer.render).flatten ++ t →
        mem c = (layers.map Layer.render).flatten ++ t' →
        ∃ c0 c' e, Reach c c0 ∧ rem c0 = t ∧
          value F scan c [] = some (Ptr.NULL, c', e) ∧ Q c0 e := by
  intro layers
  induction layers with
  | nil =>
    intro _ F hF scan c hrem hmem
    obtain ⟨c', e, hv, hq⟩ := hin F (by omega) scan c (by simpa using hrem) (by simpa using hmem)
    exact ⟨c, c', e, reach_refl c, by simpa using hrem, hv, hq⟩
  | cons L layers ih =>
    intro hok F hF scan c hrem hmem
    have hsum : (List.map Layer.weight (L :: layers)).sum =
        L.weight + (layers.map Layer.weight).sum := by simp
    rw [hsum] at hF
    have hLw : 2 ≤ L.weight := by cases L <;> simp only [Layer.weight] <;> omega
    obtain ⟨F', rfl⟩ : ∃ F', F = F' + 1 := ⟨F - 1, by omega⟩
    have hrem' : rem c = L.render ++ ((layers.map Layer.render).flatten ++ t) := by
      rw [hrem]; simp
    have hmem' : mem c = L.render ++ ((layers.map Layer.render).flatten ++ t') := by
      rw [hmem]; simp
    have hin' : ∀ (scan' : Bool) (c : JSON_PARSE_CTX),
        rem c = (layers.map Layer.render).flatten ++ t →
        mem c = (layers.map Layer.render).flatten ++ t' →
        ∃ c' e, value F' scan' c [] = some (Ptr.NULL, c', e) ∧
          ∃ c0, Reach c c0 ∧ rem c0 = t ∧ Q c0 e := by
      intro scan' c hr hm
      obtain ⟨c0, c', e, h1, h2, h3, h4⟩ :=
        ih (fun x hx => hok x (List.mem_cons_of_mem _ hx)) F'
          (by cases L <;> simp only [Layer.weight] at hF <;> omega) scan' c hr hm
      exact ⟨c', e, h3, c0, h1, h2, h4⟩
    have hL := hok L (List.mem_cons_self _ _)
    have hfst : (((layers.map Layer.render).flatten ++ t).dropWhile isspace).headD 0 ≠ 93 ∧
        (((layers.map Layer.render).flatten ++ t).dropWhile isspace).headD 0 ≠ 0 := by
      cases layers with
      | nil => simpa using hfirst
      | cons L' rest =>
        simp only [List.map_cons, List.flatten_cons, List.append_assoc]
        exact Layer.render_head L' _
    cases L with
    | arr done =>
      simp only [Layer.weight] at hF
      have hhead : rem c = 91 :: ((done.map (fun v => v ++ [44])).flatten ++
          ((layers.map Layer.render).flatten ++ t)) := by
        rw [hrem']; simp [Layer.render]
      have hpk : peekch c = 91 := peekch_cons hhead
      have hsp : space c = c := space_id (by rw [hpk]; decide)
      obtain ⟨c1, c', e, hre, hr1, ha, c0, hre0, hr0, hq⟩ :=
        @array_layer_fail_q _ f F' (by omega) done hL (by omega) _ _ hfst
          (hin' true) scan c hrem' hmem'
      refine ⟨c0, space c', e, reach_trans hre hre0, hr0, ?_, hq⟩
      rw [value_succ]
      exact value_step_array (by rw [hsp, hpk]) (by rw [hsp]; exact ha)
    | obj done pre key mid =>
      simp only [Layer.weight] at hF
      have hhead : rem c = 123 :: ((done.map (fun m => m.render ++ [44])).flatten ++
          (pre ++ 34 :: (render key ++ 34 :: (mid ++ 58 ::
            ((layers.map Layer.render).flatten ++ t))))) := by
        rw [hrem']; simp [Layer.render]
      have hpk : peekch c = 123 := peekch_cons hhead
      have hsp : space c = c := space_id (by rw [hpk]; decide)
      obtain ⟨c1, c', e, hre, hr1, ho, c0, hre0, hr0, hq⟩ :=
        @object_layer_fail_q _ f F' (by omega) done pre key mid hL (by omega)
          _ _ scan (hin' scan) c hrem' hmem'
      refine ⟨c0, space c', e, reach_trans hre hre0, hr0, ?_, hq⟩
      rw [value_succ]
      exact value_step_object (by rw [hsp, hpk]) (by rw [hsp]; exact ho)
/-! ## String literals the size scan rejects -/

theorem json_str_size_loop_fail_ctx (co : JSON_PARSE_CTX) (scan : Bool) (fuel : Nat) :
    ∀ (ctx : JSON_PARSE_CTX) (err : List Nat) (res : Nat) (c' : JSON_PARSE_CTX)
      (e' : List Nat),
      json_str_size_loop co scan fuel ctx err res = (none, c', e') → c' = co := by
  induction fuel with
  | zero =>
    intro ctx err res c' e' h
    rw [json_str_size_loop] at h
    split_ifs at h <;> cases h <;> rfl
  | succ f ih =>
    intro ctx err res c' e' h
    rw [json_str_size_loop] at h
    simp only [] at h
    by_cases h10 : (readch ctx).1 = 10
    · rw [if_pos h10] at h; cases h; rfl
    rw [if_neg h10] at h
    by_cases h32 : (readch ctx).1 < 32
    · rw [if_pos h32] at h; cases h; rfl
    rw [if_neg h32] at h
    by_cases h34 : (readch ctx).1 = 34
    · rw [if_pos h34] at h; cases h
    rw [if_neg h34] at h
    by_cases h92 : (readch ctx).1 = 92
    · rw [if_pos h92] at h
      by_cases hc1 : (readch (readch ctx).2).1 < 32
      · rw [if_pos hc1] at h; cases h; rfl
      rw [if_neg hc1] at h
      by_cases h117 : (readch (readch ctx).2).1 = 117
      · rw [if_pos h117] at h
        cases hh : hex_decode (readch (readch ctx).2).2 err with
        | mk o rest =>
          obtain ⟨c2, e1⟩ := rest
          rw [hh] at h
          cases o with
          | none =>
            simp only [] at h
            cases h
            rfl
          | some ch =>
            simp only [] at h
            split_ifs at h
            · cases h; rfl
            · exact ih _ _ _ _ _ h
            · exact ih _ _ _ _ _ h
            · exact ih _ _ _ _ _ h
      rw [if_neg h117] at h
      split_ifs at h
      · exact ih _ _ _ _ _ h
      · cases h; rfl
    · rw [if_neg h92] at h
      exact ih _ _ _ _ _ h

/-- A failing size scan leaves the caller's context where it was. -/
theorem json_str_size_fail_same {ctx : JSON_PARSE_CTX} {err : List Nat} {scan : Bool}
    {c' : JSON_PARSE_CTX} {e' : List Nat} (h : json_str_size ctx err scan = (none, c', e')) :
    c' = ctx := by
  unfold json_str_size at h
  simp only [] at h
  split_ifs at h
  · cases h; rfl
  · exact json_str_size_loop_fail_ctx _ _ _ _ _ _ _ _ h

/-- Well-formed string content holds no byte below 0x20. -/
theorem render_ge_32 {items : List Item} (hv : ∀ it ∈ items, it.valid) :
    ∀ b ∈ render items, 32 ≤ b := by
  induction items with
  | nil => intro b hb; simp [render] at hb
  | cons it items ih =>
    intro b hb
    rw [render_cons, List.mem_append] at hb
    rcases hb with hb | hb
    · have hit := hv it (List.mem_cons_self _ _)
      cases it with
      | plain x =>
        have hx : b = x := by simpa [Item.render] using hb
        rw [hx]; exact hit.1
      | esc x =>
        have hx : b = 92 ∨ b = x := by simpa [Item.render] using hb
        have hs : x ∈ simple_escapes := hit
        simp only [simple_escapes, List.mem_cons, List.mem_singleton, List.not_mem_nil,
          or_false] at hs
        omega
      | uni h1 h2 h3 h4 =>
        have hx : b = 92 ∨ b = 117 ∨ b = h1 ∨ b = h2 ∨ b = h3 ∨ b = h4 := by
          simpa [Item.render] using hb
        obtain ⟨x1, x2, x3, x4, -⟩ := hit
        have := isxdigit_cases x1
        have := isxdigit_cases x2
        have := isxdigit_cases x3
        have := isxdigit_cases x4
        omega
    · exact ih (fun x hx => hv x (List.mem_cons_of_mem _ hx)) b hb

/-- A backslash followed by a byte below 0x20, or by nothing, ends the size scan with
"Unterminated string constant" at the location of the opening quote. -/
theorem json_str_size_loop_escape_control (co : JSON_PARSE_CTX) (scan : Bool) (f : Nat)
    {ctx : JSON_PARSE_CTX} (err : List Nat) (res : Nat) {t : List Nat}
    (hrem : rem ctx = 92 :: t) (ht : t.headD 0 < 32) :
    json_str_size_loop co scan (f + 1) ctx err res =
      (none, co, diag co.line co.col (bytes "Unterminated string constant")) := by
  have h1 : (readch (step 92 ctx)).1 = t.headD 0 := by
    rw [readch_fst, peekch_rem, rem_step hrem]
  rw [json_str_size_loop, readch_cons hrem (by decide)]
  simp only [show (92 : Nat) ≠ 10 by decide, show ¬ (92 : Nat) < 32 by decide,
    show (92 : Nat) ≠ 34 by decide, if_false, if_true, h1, ht]

/-- The size scan of a literal in which well-formed content is followed by an escape
the scan does not know. -/
theorem json_str_size_bad_escape {ctx : JSON_PARSE_CTX} (err : List Nat) (scan : Bool)
    {pre : List Item} (hpre : ∀ it ∈ pre, it.valid) {c : Nat} {rest : List Nat}
    (hc : 32 ≤ c) (hne : c ∉ [34, 92, 47, 98, 102, 110, 114, 116, 117])
    (hrem : rem ctx = 34 :: (render pre ++ 92 :: c :: rest)) :
    json_str_size ctx err scan =
      (none, ctx, diag (steps (34 :: (render pre ++ [92, c])) ctx).line
        (steps (34 :: (render pre ++ [92, c])) ctx).col (illegal_escape c)) := by
  obtain ⟨h1, h2⟩ := @json_str_size_fail_ctx _ err scan _ hpre _ hrem (by simp)
  obtain ⟨g, hg⟩ : ∃ g, (step 34 ctx).size - (step 34 ctx).i - pre.length = g + 1 :=
    ⟨_, (Nat.succ_pred_eq_of_pos h2).symm⟩
  rw [hg, json_str_size_loop_bad_escape _ _ g _ _ (rem_steps (rem_step hrem)) hc hne] at h1
  rw [h1]
  simp only [steps_cons, steps_append, steps_nil]

/-- The size scan of a literal in which well-formed content is followed by a backslash
and a byte below 0x20, or by a backslash at the end of the input. -/
theorem json_str_size_escape_control {ctx : JSON_PARSE_CTX} (err : List Nat) (scan : Bool)
    {pre : List Item} (hpre : ∀ it ∈ pre, it.valid) {t : List Nat} (ht : t.headD 0 < 32)
    (hrem : rem ctx = 34 :: (render pre ++ 92 :: t)) :
    json_str_size ctx err scan =
      (none, ctx, diag ctx.line ctx.col (bytes "Unterminated string constant")) := by
  obtain ⟨h1, h2⟩ := @json_str_size_fail_ctx _ err scan _ hpre _ hrem (by simp)
  obtain ⟨g, hg⟩ : ∃ g, (step 34 ctx).size - (step 34 ctx).i - pre.length = g + 1 :=
    ⟨_, (Nat.succ_pred_eq_of_pos h2).symm⟩
  rw [hg, json_str_size_loop_escape_control _ _ g _ _ (rem_steps (rem_step hrem)) ht] at h1
  exact h1

/-- The size scan of a literal in which well-formed content is followed by a raw byte
below 0x20. -/
theorem json_str_size_control {ctx : JSON_PARSE_CTX} (err : List Nat) (scan : Bool)
    {pre : List Item} (hpre : ∀ it ∈ pre, it.valid) {c : Nat} {rest : List Nat} (hc : c < 32)
    (hrem : rem ctx = 34 :: (render pre ++ c :: rest)) :
    ∃ l k, json_str_size ctx err scan =
      (none, ctx,
        if c = 10 then diag ctx.line ctx.col (bytes "Unterminated string constant")
        else diag l k (bytes "Illegal string character")) := by
  obtain ⟨h1, -⟩ := @json_str_size_fail_ctx _ err scan _ hpre _ hrem (by simp)
  rw [json_str_size_loop_control _ _ _ _ _ (rem_steps (rem_step hrem)) hc] at h1
  exact ⟨_, _, h1⟩

/-- The size scan never accepts a literal through a raw byte below 0x20: if the
literal is not closed in front of the byte, the scan fails. -/
theorem json_str_size_never_control {ctx : JSON_PARSE_CTX} (err : List Nat) (scan : Bool)
    {pre : List Nat} {c : Nat} {rest : List Nat} (hc : c < 32)
    (hopen : ∀ items : List Item, (∀ it ∈ items, it.valid) → ¬ (render items ++ [34] <+: pre))
    (hrem : rem ctx = 34 :: (pre ++ c :: rest)) :
    ∃ e, json_str_size ctx err scan = (none, ctx, e) ∧ e ≠ [] := by
  cases hs : json_str_size ctx err scan with
  | mk o r1 =>
    obtain ⟨c1, e1⟩ := r1
    cases o with
    | none =>
      have := json_str_size_fail_same hs
      subst this
      exact ⟨e1, rfl, json_str_size_fail_err hs⟩
    | some n =>
      exfalso
      obtain ⟨items, r, hv, hr, -, -, -⟩ := json_str_size_sound hs
      rw [hrem] at hr
      have heq : pre ++ c :: rest = render items ++ 34 :: r := by
        simpa using hr
      have hge := render_ge_32 hv
      rcases List.append_eq_append_iff.mp heq with ⟨a', h1, h2⟩ | ⟨c', h1, h2⟩
      · -- render items = pre ++ a'
        cases a' with
        | nil =>
          simp only [List.nil_append, List.cons.injEq] at h2
          omega
        | cons x a' =>
          have hx : x = c := by
            simp only [List.cons_append] at h2
            injection h2 with h2 _
            exact h2.symm
          have := hge c (by rw [h1, ← hx]; simp)
          omega
      · cases c' with
        | nil =>
          simp only [List.nil_append, List.cons.injEq] at h2
          omega
        | cons x c' =>
          have hx : x = 34 := by
            simp only [List.cons_append] at h2
            injection h2 with h2 _
            exact h2.symm
          subst hx
          exact hopen items hv ⟨c', by rw [h1]; simp⟩
/-! ## A string literal the size scan rejects, at any position -/

theorem object_loop_key_fail_at {vF : ValueFn} {scan : Bool} (f : Nat) {first : Bool}
    {ctx0 : JSON_PARSE_CTX} {err : List Nat} (kv : MNCL_KV)
    (h125 : peekch (space ctx0) ≠ 125) (hc : first = false → peekch (space ctx0) = 44)
    {c2 : JSON_PARSE_CTX} {e2 : List Nat}
    (hk : json_str_size (if first then space ctx0 else space (readch (space ctx0)).2) err scan =
      (none, c2, e2)) :
    object_loop vF scan (f + 1) first ctx0 err kv = some (none, c2, e2) := by
  rw [object_loop]
  have hcc : ¬ (first = false ∧ peekch (space ctx0) ≠ 44) := fun h => h.2 (hc h.1)
  simp only [h125, hcc, if_false, hk]

/-- The loop of `object`, at the comma behind a member: it runs through the members in
front of a key and returns the failure of the size scan of the key. -/
theorem object_loop_key_through {Q : JSON_PARSE_CTX → List Nat → Prop} {f F : Nat}
    (hfF : f ≤ F) (scan : Bool) (pre lit lit' : List Nat)
    (hpre : ∀ b ∈ pre, isspace b = true) (h34 : lit.headD 0 = 34)
    (hlit : ∀ (c : JSON_PARSE_CTX) (scan : Bool), rem c = lit →
      ∃ e, json_str_size c [] scan = (none, c, e) ∧ Q c e) :
    ∀ (done : List Member), (∀ m ∈ done, m.ok f) →
      ∀ (g : Nat) (kv : MNCL_KV) (ctx : JSON_PARSE_CTX), done.length < g →
        rem ctx = 44 :: ((done.map (fun m => m.render ++ [44])).flatten ++ (pre ++ lit)) →
        mem ctx = 44 :: ((done.map (fun m => m.render ++ [44])).flatten ++ (pre ++ lit')) →
        ∃ c0 c' e, Reach ctx c0 ∧ rem c0 = lit ∧
          object_loop (value F) scan g false ctx [] kv = some (none, c', e) ∧ Q c0 e := by
  intro done
  induction done with
  | nil =>
    intro _ g kv ctx hg hrem hmem
    obtain ⟨g', rfl⟩ : ∃ g', g = g' + 1 := ⟨g - 1, by omega⟩
    have hrem' : rem ctx = 44 :: (pre ++ lit) := by simpa using hrem
    have hsp : space ctx = ctx := space_id (by rw [peekch_cons hrem']; decide)
    have hpk : peekch (space ctx) = 44 := by rw [hsp]; exact peekch_cons hrem'
    have hrd : readch (space ctx) = (44, step 44 ctx) := by
      rw [hsp]; exact readch_cons hrem' (by decide)
    have hsp2 : space (step 44 ctx) = steps pre (step 44 ctx) :=
      space_eq (rem_step hrem') hpre (by rw [h34]; rfl)
    have hr1 : rem (space (step 44 ctx)) = lit := by
      rw [hsp2]; exact rem_steps (rem_step hrem')
    obtain ⟨e, hk, hq⟩ := hlit _ scan hr1
    have hctx1 : (if false = true then space ctx else space (readch (space ctx)).2) =
        space (step 44 ctx) := by rw [hrd]; rfl
    exact ⟨_, _, e, reach_trans (@reach_steps ctx [44] _ hrem') (reach_space _), hr1,
      @object_loop_key_fail_at (value F) scan g' false ctx [] kv
        (by rw [hpk]; decide) (fun _ => hpk) _ _ (by rw [hctx1]; exact hk), hq⟩
  | cons m done ih =>
    intro hok g kv ctx hg hrem hmem
    obtain ⟨g', rfl⟩ : ∃ g', g = g' + 1 := ⟨g - 1, by omega⟩
    have hm := hok m (List.mem_cons_self _ _)
    have hrem' : rem ctx = 44 :: (m.pre ++ 34 :: (render m.key ++ 34 :: (m.mid ++ 58 ::
        (m.text ++ 44 :: ((done.map (fun m => m.render ++ [44])).flatten ++
          (pre ++ lit)))))) := by
      rw [hrem]; simp [Member.render]
    have hmem' : mem ctx = 44 :: (m.pre ++ 34 :: (render m.key ++ 34 :: (m.mid ++ 58 ::
        (m.text ++ 44 :: ((done.map (fun m => m.render ++ [44])).flatten ++
          (pre ++ lit')))))) := by
      rw [hmem]; simp [Member.render]
    have hsp : space ctx = ctx := space_id (by rw [peekch_cons hrem']; decide)
    have hpk : peekch (space ctx) = 44 := by rw [hsp]; exact peekch_cons hrem'
    have hrd : readch (space ctx) = (44, step 44 ctx) := by
      rw [hsp]; exact readch_cons hrem' (by decide)
    have hsp2 : space (step 44 ctx) = steps m.pre (step 44 ctx) :=
      space_eq (rem_step hrem') hm.1 (by rfl)
    have hr1 := rem_steps (rem_step hrem')
    have hm1 := mem_steps (@mem_step ctx 44 _ _ hmem')
    rw [← hsp2] at hr1 hm1
    obtain ⟨h58, p, c6, hv, hp, hrc, hmc⟩ := member_body_mode_mem hfF hm scan
      (by decide : hardstop 44 = true) hr1 hm1
    have hctx1 : (if false = true then space ctx else space (readch (space ctx)).2) =
        space (step 44 ctx) := by rw [hrd]; rfl
    have hstep := @object_loop_step (value F) scan g' false ctx [] kv (by rw [hpk]; decide)
      (fun _ => hpk) m.key _ hm.2.2.1 (by rw [hctx1]; exact hr1) (by rw [hctx1]; exact h58)
      p c6 [] (by rw [hctx1]; exact hv) hp
    obtain ⟨c0, c', e, hreach, hr0, hrun, hq⟩ :=
      ih (fun x hx => hok x (List.mem_cons_of_mem _ hx)) g'
        (if scan then kv else mncl_kv_insert kv (cstr (decode m.key ++ [0])) p.deref) c6
        (by simpa using hg) hrc hmc
    exact ⟨c0, c', e,
      reach_trans (@reach_steps ctx [44] _ hrem')
        (reach_trans (reach_space _) (reach_trans (member_key_reach hr1)
          (reach_trans (value_traced F _ _ _ _ _ _ hv hp) hreach))), hr0,
      by rw [hstep, hrun], hq⟩

/-- The value rule on an object in which, behind well-formed members, the size scan of
a key fails. -/
theorem value_key_fail {Q : JSON_PARSE_CTX → List Nat → Prop} {f F : Nat} (hfF : f ≤ F)
    (done : List Member) (hdone : ∀ m ∈ done, m.ok f) (hF : done.length + 1 < F)
    (pre lit lit' : List Nat) (hpre : ∀ b ∈ pre, isspace b = true) (h34 : lit.headD 0 = 34)
    (hlit : ∀ (c : JSON_PARSE_CTX) (scan : Bool), rem c = lit →
      ∃ e, json_str_size c [] scan = (none, c, e) ∧ Q c e)
    (scan : Bool) {ctx : JSON_PARSE_CTX}
    (hrem : rem ctx = 123 :: ((done.map (fun m => m.render ++ [44])).flatten ++ (pre ++ lit)))
    (hmem : mem ctx = 123 :: ((done.map (fun m => m.render ++ [44])).flatten ++ (pre ++ lit'))) :
    ∃ c0 c' e, Reach ctx c0 ∧ rem c0 = lit ∧
      value (F + 1) scan ctx [] = some (Ptr.NULL, c', e) ∧ Q c0 e := by
  obtain ⟨g', rfl⟩ : ∃ g', F = g' + 1 := ⟨F - 1, by omega⟩
  have hrd : readch ctx = (123, step 123 ctx) := readch_cons hrem (by decide)
  have h123 : (readch ctx).1 = 123 := by rw [hrd]
  have hre : Reach ctx (step 123 ctx) := @reach_steps ctx [123] _ hrem
  have hpk0 : peekch ctx = 123 := peekch_cons hrem
  have hsp0 : space ctx = ctx := space_id (by rw [hpk0]; decide)
  have fin : ∀ (c' : JSON_PARSE_CTX) (e : List Nat),
      object (value (g' + 1)) (g' + 1) ctx [] scan = some (Ptr.NULL, c', e) →
      value (g' + 1 + 1) scan ctx [] = some (Ptr.NULL, space c', e) := by
    intro c' e ho
    rw [value_succ]
    exact value_step_object (by rw [hsp0, hpk0]) (by rw [hsp0]; exact ho)
  cases done with
  | nil =>
    have hr0 : rem (step 123 ctx) = pre ++ lit := by rw [rem_step hrem]; simp
    have hsp : space (step 123 ctx) = steps pre (step 123 ctx) :=
      space_eq hr0 hpre (by rw [h34]; rfl)
    have hr1 : rem (space (step 123 ctx)) = lit := by rw [hsp]; exact rem_steps hr0
    obtain ⟨e, hk, hq⟩ := hlit _ scan hr1
    have hpk : peekch (space (step 123 ctx)) = 34 := by rw [peekch_rem, hr1, h34]
    have hctx1 : (if true = true then space (step 123 ctx)
        else space (readch (space (step 123 ctx))).2) = space (step 123 ctx) := rfl
    have hl : object_loop (value (g' + 1)) scan (g' + 1) true (readch ctx).2 [] mncl_alloc_kv =
        some (none, space (step 123 ctx), e) := by
      rw [hrd]
      exact @object_loop_key_fail_at (value (g' + 1)) scan g' true (step 123 ctx) []
        mncl_alloc_kv (by rw [hpk]; decide) (fun h => absurd h (by decide)) _ _
        (by rw [hctx1]; exact hk)
    exact ⟨_, _, e, reach_trans hre (reach_space _), hr1, fin _ _ (object_of_loop_fail h123 hl),
      hq⟩
  | cons m done =>
    have hm := hdone m (List.mem_cons_self _ _)
    have hr0 : rem (step 123 ctx) = m.pre ++ 34 :: (render m.key ++ 34 :: (m.mid ++ 58 ::
        (m.text ++ 44 :: ((done.map (fun m => m.render ++ [44])).flatten ++
          (pre ++ lit))))) := by
      rw [rem_step hrem]; simp [Member.render]
    have hm0 : mem (step 123 ctx) = m.pre ++ 34 :: (render m.key ++ 34 :: (m.mid ++ 58 ::
        (m.text ++ 44 :: ((done.map (fun m => m.render ++ [44])).flatten ++
          (pre ++ lit'))))) := by
      rw [mem_step hmem]; simp [Member.render]
    have hsp : space (step 123 ctx) = steps m.pre (step 123 ctx) := space_eq hr0 hm.1 (by rfl)
    have hr1 := rem_steps hr0
    have hm1 := mem_steps hm0
    rw [← hsp] at hr1 hm1
    obtain ⟨h58, p, c6, hv, hp, hrc, hmc⟩ := member_body_mode_mem hfF hm scan
      (by decide : hardstop 44 = true) hr1 hm1
    have hpk : peekch (space (step 123 ctx)) = 34 := peekch_cons hr1
    have hctx1 : (if true = true then space (step 123 ctx)
        else space (readch (space (step 123 ctx))).2) = space (step 123 ctx) := rfl
    have hstep := @object_loop_step (value (g' + 1)) scan g' true (step 123 ctx) []
      mncl_alloc_kv (by rw [hpk]; decide) (fun h => absurd h (by decide)) m.key _ hm.2.2.1
      (by rw [hctx1]; exact hr1) (by rw [hctx1]; exact h58) p c6 []
      (by rw [hctx1]; exact hv) hp
    obtain ⟨c0, c', e, hreach, hr00, hrun, hq⟩ :=
      object_loop_key_through hfF scan pre lit lit' hpre h34 hlit
        done (fun x hx => hdone x (List.mem_cons_of_mem _ hx)) g'
        (if scan then mncl_alloc_kv
          else mncl_kv_insert mncl_alloc_kv (cstr (decode m.key ++ [0])) p.deref) c6
        (by simp only [List.length_cons] at hF; omega) hrc hmc
    have hl : object_loop (value (g' + 1)) scan (g' + 1) true (readch ctx).2 [] mncl_alloc_kv =
        some (none, c', e) := by
      rw [hrd, hstep, hrun]
    exact ⟨c0, _, e,
      reach_trans hre (reach_trans (reach_space _) (reach_trans (member_key_reach hr1)
        (reach_trans (value_traced _ _ _ _ _ _ _ hv hp) hreach))), hr00,
      fin _ _ (object_of_loop_fail h123 hl), hq⟩

/-- The value rule at a string literal, after white space, of which the size scan
fails. -/
theorem value_string_fail {Q : JSON_PARSE_CTX → List Nat → Prop} {lit : List Nat}
    (h34 : lit.headD 0 = 34)
    (hlit : ∀ (c : JSON_PARSE_CTX) (scan : Bool), rem c = lit →
      ∃ e, json_str_size c [] scan = (none, c, e) ∧ Q c e)
    (F : Nat) (scan : Bool) {ctx : JSON_PARSE_CTX} {ws : List Nat}
    (hws : ∀ b ∈ ws, isspace b = true) (hrem : rem ctx = ws ++ lit) :
    ∃ c0 c' e, Reach ctx c0 ∧ rem c0 = lit ∧
      value (F + 1) scan ctx [] = some (Ptr.NULL, c', e) ∧ Q c0 e := by
  have hsp : space ctx = steps ws ctx := space_eq hrem hws (by rw [h34]; rfl)
  have hr1 : rem (space ctx) = lit := by rw [hsp]; exact rem_steps hrem
  have hpk : peekch (space ctx) = 34 := by rw [peekch_rem, hr1, h34]
  obtain ⟨e, hk, hq⟩ := hlit _ scan hr1
  exact ⟨_, _, e, reach_space ctx, hr1, value_of_string hpk (string_of_size_fail hk), hq⟩

/-- A string literal of which the size scan fails makes `json_parse` fail with the
diagnostic of the scan, at every position at which a literal is read and whatever the
memory behind the buffer holds (`junk`); the scan is the one started at the opening
quote, with the line and column the text in front gives. -/
theorem json_parse_literal_fail {Q : JSON_PARSE_CTX → List Nat → Prop} {lit : List Nat}
    (h34 : lit.headD 0 = 34)
    (hlit : ∀ (c : JSON_PARSE_CTX) (scan : Bool), rem c = lit →
      ∃ e, json_str_size c [] scan = (none, c, e) ∧ Q c e)
    (f : Nat) (sp : Spot) (hok : sp.ok f) (k : Nat) (junk : List Nat) :
    ∃ e, json_parse (f + sp.weight + k) (sp.render ++ lit ++ junk) (sp.render ++ lit).length =
        some (Ptr.NULL, e) ∧
      Q (steps sp.render (ctx_init (sp.render ++ lit ++ junk) (sp.render ++ lit).length)) e := by
  have hdw : ∀ (ws : List Nat), (∀ b ∈ ws, isspace b = true) →
      ((ws ++ lit).dropWhile isspace).headD 0 = 34 := by
    intro ws hws
    rw [dropWhile_isspace_append hws (by rw [h34]; rfl), h34]
  cases sp with
  | val layers ws =>
    obtain ⟨hL, hws⟩ := hok
    have hdata : (Spot.val layers ws).render ++ lit =
        (layers.map Layer.render).flatten ++ (ws ++ lit) := by simp [Spot.render]
    have hdata' : (Spot.val layers ws).render ++ lit ++ junk =
        (layers.map Layer.render).flatten ++ (ws ++ lit ++ junk) := by simp [Spot.render]
    obtain ⟨c0, c', e, hre, hr0, hv, hq⟩ :=
      @layers_fail_q (fun c e => ∃ c0, Reach c c0 ∧ rem c0 = lit ∧ Q c0 e) f (f + 1)
        (by omega) (ws ++ lit) (ws ++ lit ++ junk)
        (by rw [hdw ws hws]; decide)
        (by
          intro F hF scan c hr _
          obtain ⟨F', rfl⟩ : ∃ F', F = F' + 1 := ⟨F - 1, by omega⟩
          obtain ⟨c0, c', e, h1, h2, h3, h4⟩ := value_string_fail h34 hlit F' scan hws hr
          exact ⟨c', e, h3, c0, h1, h2, h4⟩)
        layers hL (f + (Spot.val layers ws).weight + k)
        (by simp only [Spot.weight]; omega) false
        (ctx_init ((Spot.val layers ws).render ++ lit ++ junk)
          ((Spot.val layers ws).render ++ lit).length)
        (by rw [rem_ctx_init_append, hdata]) (by rw [mem_ctx_init, hdata'])
    obtain ⟨c1, hre1, hr1, hq1⟩ := hq
    refine ⟨e, json_parse_of_null hv, ?_⟩
    have hc1 : c1 = steps (Spot.val layers ws).render
        (ctx_init ((Spot.val layers ws).render ++ lit ++ junk)
          ((Spot.val layers ws).render ++ lit).length) :=
      reach_eq_steps (reach_trans hre hre1) (rem_ctx_init_append _ _) hr1
    rw [← hc1]
    exact hq1
  | key layers done pre =>
    obtain ⟨hL, hdone, hpre⟩ := hok
    have hdata : (Spot.key layers done pre).render ++ lit =
        (layers.map Layer.render).flatten ++
          (123 :: ((done.map (fun m => m.render ++ [44])).flatten ++ (pre ++ lit))) := by
      simp [Spot.render]
    have hdata' : (Spot.key layers done pre).render ++ lit ++ junk =
        (layers.map Layer.render).flatten ++
          (123 :: ((done.map (fun m => m.render ++ [44])).flatten ++
            (pre ++ (lit ++ junk)))) := by
      simp [Spot.render]
    obtain ⟨c0, c', e, hre, hr0, hv, hq⟩ :=
      @layers_fail_q (fun c e => ∃ c0, Reach c c0 ∧ rem c0 = lit ∧ Q c0 e) f
        (f + done.length + 3) (by omega)
        (123 :: ((done.map (fun m => m.render ++ [44])).flatten ++ (pre ++ lit)))
        (123 :: ((done.map (fun m => m.render ++ [44])).flatten ++ (pre ++ (lit ++ junk))))
        (by simp [List.dropWhile_cons, isspace])
        (by
          intro F hF scan c hr hm
          obtain ⟨F', rfl⟩ : ∃ F', F = F' + 1 := ⟨F - 1, by omega⟩
          obtain ⟨c0, c', e, h1, h2, h3, h4⟩ :=
            @value_key_fail Q f F' (by omega) done hdone (by omega) pre lit (lit ++ junk) hpre
              h34 hlit scan c hr hm
          exact ⟨c', e, h3, c0, h1, h2, h4⟩)
        layers hL (f + (Spot.key layers done pre).weight + k)
        (by simp only [Spot.weight]; omega) false
        (ctx_init ((Spot.key layers done pre).render ++ lit ++ junk)
          ((Spot.key layers done pre).render ++ lit).length)
        (by rw [rem_ctx_init_append, hdata]) (by rw [mem_ctx_init, hdata'])
    obtain ⟨c1, hre1, hr1, hq1⟩ := hq
    refine ⟨e, json_parse_of_null hv, ?_⟩
    have hc1 : c1 = steps (Spot.key layers done pre).render
        (ctx_init ((Spot.key layers done pre).render ++ lit ++ junk)
          ((Spot.key layers done pre).render ++ lit).length) :=
      reach_eq_steps (reach_trans hre hre1) (rem_ctx_init_append _ _) hr1
    rw [← hc1]
    exact hq1
/-! ## Rejected string literals (C7, C8) -/

/-- C7 (amended): let well-formed content `pre` (raw bytes from 0x20 on other than the
quote and the backslash, the eight one-character escapes, `u` escapes of non-zero
value) be followed by a backslash inside a string literal. If the byte `c` behind the
backslash is 0x20 or above and none of the eight escape characters or `u`, then the
size scan and the string rule fail from every cursor in both modes, and `json_parse`
fails at every position at which a literal is read (a value or an object key at any
nesting depth, with well-formed elements and members in front) and whatever the memory
behind the buffer holds (`junk`), with the "Illegal string escape" diagnostic naming
`c`. If the backslash is followed by a byte below 0x20, or by nothing (`t` is what
follows the backslash), the failure is "Unterminated string constant" with the line
and column of the opening quote instead. -/
theorem illegal_escape_rejected (pre : List Item) (hpre : ∀ it ∈ pre, it.valid) :
    (∀ (c : Nat) (rest : List Nat), 32 ≤ c →
      c ∉ [34, 92, 47, 98, 102, 110, 114, 116, 117] →
      (∀ (ctx : JSON_PARSE_CTX) (err : List Nat) (scan : Bool),
        rem ctx = 34 :: (render pre ++ 92 :: c :: rest) →
        ∃ l m, json_str_size ctx err scan =
            (none, ctx, diag l m (bytes "Illegal string escape" ++ [32, 39, c, 39]))
          ∧ string ctx err scan =
            some (Ptr.NULL, ctx, diag l m (bytes "Illegal string escape" ++ [32, 39, c, 39])))
      ∧ (∀ (f : Nat) (sp : Spot), sp.ok f → ∀ (k : Nat) (junk : List Nat), ∃ l m,
        json_parse (f + sp.weight + k)
            ((sp.render ++ 34 :: (render pre ++ 92 :: c :: rest)) ++ junk)
            (sp.render ++ 34 :: (render pre ++ 92 :: c :: rest)).length =
            some (Ptr.NULL, diag l m (bytes "Illegal string escape" ++ [32, 39, c, 39]))
          ∧ bytes "Illegal string escape" <:+:
            diag l m (bytes "Illegal string escape" ++ [32, 39, c, 39])))
    ∧ (∀ t : List Nat, t.headD 0 < 32 →
      (∀ (ctx : JSON_PARSE_CTX) (err : List Nat) (scan : Bool),
        rem ctx = 34 :: (render pre ++ 92 :: t) →
        json_str_size ctx err scan =
            (none, ctx, diag ctx.line ctx.col (bytes "Unterminated string constant"))
          ∧ string ctx err scan =
            some (Ptr.NULL, ctx, diag ctx.line ctx.col (bytes "Unterminated string constant")))
      ∧ (∀ (f : Nat) (sp : Spot), sp.ok f → ∀ (k : Nat) (junk : List Nat),
        json_parse (f + sp.weight + k) ((sp.render ++ 34 :: (render pre ++ 92 :: t)) ++ junk)
            (sp.render ++ 34 :: (render pre ++ 92 :: t)).length =
          some (Ptr.NULL,
            diag (steps sp.render
                (ctx_init ((sp.render ++ 34 :: (render pre ++ 92 :: t)) ++ junk)
                  (sp.render ++ 34 :: (render pre ++ 92 :: t)).length)).line
              (steps sp.render
                (ctx_init ((sp.render ++ 34 :: (render pre ++ 92 :: t)) ++ junk)
                  (sp.render ++ 34 :: (render pre ++ 92 :: t)).length)).col
              (bytes "Unterminated string constant")))) := by
  constructor
  · intro c rest hc hne
    constructor
    · intro ctx err scan hrem
      have h := json_str_size_bad_escape err scan hpre hc hne hrem
      exact ⟨_, _, h, string_of_size_fail h⟩
    · intro f sp hok k junk
      obtain ⟨e, hp, l, m, he⟩ := @json_parse_literal_fail
        (fun _ e => ∃ l m, e = diag l m (illegal_escape c))
        (34 :: (render pre ++ 92 :: c :: rest)) rfl
        (fun c0 scan hr => ⟨_, json_str_size_bad_escape [] scan hpre hc hne hr, _, _, rfl⟩)
        f sp hok k junk
      subst he
      exact ⟨l, m, hp, infix_diag _ _ _ _⟩
  · intro t ht
    constructor
    · intro ctx err scan hrem
      have h := json_str_size_escape_control err scan hpre ht hrem
      exact ⟨h, string_of_size_fail h⟩
    · intro f sp hok k junk
      obtain ⟨e, hp, he⟩ := @json_parse_literal_fail
        (fun c0 e => e = diag c0.line c0.col (bytes "Unterminated string constant"))
        (34 :: (render pre ++ 92 :: t)) rfl
        (fun c0 scan hr => ⟨_, json_str_size_escape_control [] scan hpre ht hr, rfl⟩)
        f sp hok k junk
      rw [hp, he]

/-- Witness for `illegal_escape_rejected`: the input `"\q"` of the spec; the key `"a\q`
of an object that is the second element of an array, `[1,{ "a\q":2}]`, with the byte
`x` in the memory behind the buffer; and the literal `"\` followed by the byte 0x01 as
the value of a member, `{"k":"\` 0x01 `"}`. -/
theorem illegal_escape_rejected_witness :
    (∃ l m, json_parse (0 + (Spot.val [] []).weight + 0)
          (((Spot.val [] []).render ++ 34 :: (render [] ++ 92 :: 113 :: [34])) ++ [])
          ((Spot.val [] []).render ++ 34 :: (render [] ++ 92 :: 113 :: [34])).length =
          some (Ptr.NULL, diag l m (bytes "Illegal string escape" ++ [32, 39, 113, 39]))
        ∧ bytes "Illegal string escape" <:+:
          diag l m (bytes "Illegal string escape" ++ [32, 39, 113, 39]))
    ∧ (∃ l m, json_parse (1 + (Spot.key [Layer.arr [[49]]] [] [32]).weight + 0)
          (((Spot.key [Layer.arr [[49]]] [] [32]).render ++
            34 :: (render [Item.plain 97] ++ 92 :: 113 :: [34, 58, 50, 125, 93])) ++ [120])
          ((Spot.key [Layer.arr [[49]]] [] [32]).render ++
            34 :: (render [Item.plain 97] ++ 92 :: 113 :: [34, 58, 50, 125, 93])).length =
          some (Ptr.NULL, diag l m (bytes "Illegal string escape" ++ [32, 39, 113, 39]))
        ∧ bytes "Illegal string escape" <:+:
          diag l m (bytes "Illegal string escape" ++ [32, 39, 113, 39]))
    ∧ json_parse (0 + (Spot.val [Layer.obj [] [] [Item.plain 107] []] []).weight + 0)
          (((Spot.val [Layer.obj [] [] [Item.plain 107] []] []).render ++
            34 :: (render [] ++ 92 :: [1, 34, 125])) ++ [])
          ((Spot.val [Layer.obj [] [] [Item.plain 107] []] []).render ++
            34 :: (render [] ++ 92 :: [1, 34, 125])).length =
        some (Ptr.NULL,
          diag (steps (Spot.val [Layer.obj [] [] [Item.plain 107] []] []).render
              (ctx_init (((Spot.val [Layer.obj [] [] [Item.plain 107] []] []).render ++
                  34 :: (render [] ++ 92 :: [1, 34, 125])) ++ [])
                ((Spot.val [Layer.obj [] [] [Item.plain 107] []] []).render ++
                  34 :: (render [] ++ 92 :: [1, 34, 125])).length)).line
            (steps (Spot.val [Layer.obj [] [] [Item.plain 107] []] []).render
              (ctx_init (((Spot.val [Layer.obj [] [] [Item.plain 107] []] []).render ++
                  34 :: (render [] ++ 92 :: [1, 34, 125])) ++ [])
                ((Spot.val [Layer.obj [] [] [Item.plain 107] []] []).render ++
                  34 :: (render [] ++ 92 :: [1, 34, 125])).length)).col
            (bytes "Unterminated string constant")) :=
  ⟨((illegal_escape_rejected [] (by simp)).1 113 [34] (by decide) (by decide)).2 0
      (Spot.val [] []) ⟨by simp, by simp⟩ 0 [],
    ((illegal_escape_rejected [Item.plain 97]
        (by intro it hit; rw [List.mem_singleton] at hit; subst hit; decide)).1 113
        [34, 58, 50, 125, 93] (by decide) (by decide)).2 1
      (Spot.key [Layer.arr [[49]]] [] [32])
      ⟨by
        intro L hL
        simp only [List.mem_singleton] at hL
        subst hL
        intro v hv
        simp only [List.mem_singleton] at hv
        subst hv
        exact ⟨by decide, _, rfl⟩, by simp, by decide⟩ 0 [120],
    ((illegal_escape_rejected [] (by simp)).2 [1, 34, 125] (by decide)).2 0
      (Spot.val [Layer.obj [] [] [Item.plain 107] []] [])
      ⟨by
        intro L hL
        simp only [List.mem_singleton] at hL
        subst hL
        exact ⟨by simp, by simp, by simp, by decide⟩, by simp⟩ 0 []⟩

/-- C7, as stated, fails in three ways. After a backslash the byte 0x01 yields the
"Unterminated string constant" diagnostic (input `"\` 0x01 `"`); in `"\u00\q"` the
escape `\q` stands behind content that is not well formed, the parse fails with
"Expected hex digit"; and in `[x,"\q"]` the literal stands behind an element that is
not well formed, the parse fails with "Expected value". None of the messages mentions
an escape. -/
theorem escape_control_byte_message :
    json_parse 1 [34, 92, 1, 34] 4 =
        some (Ptr.NULL, bytes "0:0: Unterminated string constant")
      ∧ ¬ (bytes "Illegal string escape" <:+: bytes "0:0: Unterminated string constant")
      ∧ json_parse 1 [34, 92, 117, 48, 48, 92, 113, 34] 8 =
        some (Ptr.NULL, bytes "0:6: Expected hex digit")
      ∧ ¬ (bytes "Illegal string escape" <:+: bytes "0:6: Expected hex digit")
      ∧ json_parse 3 [91, 120, 44, 34, 92, 113, 34, 93] 8 =
        some (Ptr.NULL, bytes "0:1: Expected value")
      ∧ ¬ (bytes "Illegal string escape" <:+: bytes "0:1: Expected value") := by
  refine ⟨rfl, by decide, rfl, by decide, rfl, by decide⟩

/-- C8 (amended): a string literal with a raw byte `c` below 0x20 between its quotes is
never accepted. (1) Whatever content `pre` stands in front of the byte, as long as the
literal is not closed there (no prefix of `pre` is well-formed content followed by a
quote), the size scan and the string rule fail from every cursor in both modes, and
`json_parse` fails at every position at which a literal is read (a value or an object
key at any nesting depth, with well-formed elements and members in front), whatever
the memory behind the buffer holds (`junk`). (2) When the content in front of the byte
is well formed, the diagnostic for a newline is "Unterminated string constant" with
the line and column of the opening quote (for another byte below 0x20 it is "Illegal
string character"). (3) Where the size scan or the string rule succeeds, every byte
between the opening quote and the quote at which the literal ends is 0x20 or above: no
String and no key comes from a literal with such a raw byte inside the quotes. -/
theorem raw_control_byte_rejected (c : Nat) (hc : c < 32) (rest : List Nat) :
    (∀ pre : List Nat,
      (∀ items : List Item, (∀ it ∈ items, it.valid) → ¬ (render items ++ [34] <+: pre)) →
      (∀ (ctx : JSON_PARSE_CTX) (err : List Nat) (scan : Bool),
        rem ctx = 34 :: (pre ++ c :: rest) →
        ∃ e, e ≠ [] ∧ json_str_size ctx err scan = (none, ctx, e)
          ∧ string ctx err scan = some (Ptr.NULL, ctx, e))
      ∧ (∀ (f : Nat) (sp : Spot), sp.ok f → ∀ (k : Nat) (junk : List Nat), ∃ e, e ≠ [] ∧
        json_parse (f + sp.weight + k) ((sp.render ++ 34 :: (pre ++ c :: rest)) ++ junk)
          (sp.render ++ 34 :: (pre ++ c :: rest)).length = some (Ptr.NULL, e)))
    ∧ (∀ pre : List Item, (∀ it ∈ pre, it.valid) →
      (∀ (ctx : JSON_PARSE_CTX) (err : List Nat) (scan : Bool),
        rem ctx = 34 :: (render pre ++ c :: rest) →
        ∃ l m, json_str_size ctx err scan =
            (none, ctx,
              if c = 10 then diag ctx.line ctx.col (bytes "Unterminated string constant")
              else diag l m (bytes "Illegal string character"))
          ∧ string ctx err scan =
            some (Ptr.NULL, ctx,
              if c = 10 then diag ctx.line ctx.col (bytes "Unterminated string constant")
              else diag l m (bytes "Illegal string character")))
      ∧ (∀ (f : Nat) (sp : Spot), sp.ok f → ∀ (k : Nat) (junk : List Nat), ∃ l m,
        json_parse (f + sp.weight + k)
            ((sp.render ++ 34 :: (render pre ++ c :: rest)) ++ junk)
            (sp.render ++ 34 :: (render pre ++ c :: rest)).length =
          some (Ptr.NULL,
            if c = 10 then
              diag (steps sp.render
                  (ctx_init ((sp.render ++ 34 :: (render pre ++ c :: rest)) ++ junk)
                    (sp.render ++ 34 :: (render pre ++ c :: rest)).length)).line
                (steps sp.render
                  (ctx_init ((sp.render ++ 34 :: (render pre ++ c :: rest)) ++ junk)
                    (sp.render ++ 34 :: (render pre ++ c :: rest)).length)).col
                (bytes "Unterminated string constant")
            else diag l m (bytes "Illegal string character"))))
    ∧ (∀ (ctx : JSON_PARSE_CTX) (err : List Nat) (scan : Bool),
      ((∃ n c' e', json_str_size ctx err scan = (some n, c', e')) ∨
        (∃ p c' e', string ctx err scan = some (p, c', e') ∧ p ≠ Ptr.NULL)) →
      ∃ items r, rem ctx = 34 :: (render items ++ 34 :: r) ∧ (∀ it ∈ items, it.valid) ∧
        (∀ b ∈ render items, 32 ≤ b) ∧
        json_str_size ctx err scan =
          (some (decode items).length,
            if scan then steps (34 :: (render items ++ [34])) ctx else ctx, err) ∧
        string ctx err scan =
          some (if scan then Ptr.json_ok
              else Ptr.node (JSON_VALUE.string (decode items ++ [0])),
            steps (34 :: (render items ++ [34])) ctx, err)) := by
  refine ⟨?_, ?_, ?_⟩
  · intro pre hopen
    constructor
    · intro ctx err scan hrem
      obtain ⟨e, h, he⟩ := json_str_size_never_control err scan hc hopen hrem
      exact ⟨e, he, h, string_of_size_fail h⟩
    · intro f sp hok k junk
      obtain ⟨e, hp, he⟩ := @json_parse_literal_fail (fun _ e => e ≠ [])
        (34 :: (pre ++ c :: rest)) rfl
        (fun c0 scan hr => json_str_size_never_control [] scan hc hopen hr) f sp hok k junk
      exact ⟨e, he, hp⟩
  · intro pre hpre
    constructor
    · intro ctx err scan hrem
      obtain ⟨l, m, h⟩ := json_str_size_control err scan hpre hc hrem
      exact ⟨l, m, h, string_of_size_fail h⟩
    · intro f sp hok k junk
      obtain ⟨e, hp, l, m, he⟩ := @json_parse_literal_fail
        (fun c0 e => ∃ l m, e =
          if c = 10 then diag c0.line c0.col (bytes "Unterminated string constant")
          else diag l m (bytes "Illegal string character"))
        (34 :: (render pre ++ c :: rest)) rfl
        (fun c0 scan hr => by
          obtain ⟨l, m, h⟩ := json_str_size_control [] scan hpre hc hr
          exact ⟨_, h, l, m, rfl⟩) f sp hok k junk
      exact ⟨l, m, by rw [hp, he]⟩
  · intro ctx err scan h
    have key : ∃ n c' e', json_str_size ctx err scan = (some n, c', e') := by
      rcases h with h | ⟨p, c', e', hs, hp⟩
      · exact h
      · cases hz : json_str_size ctx err scan with
        | mk o r1 =>
          obtain ⟨c1, e1⟩ := r1
          cases o with
          | none =>
            rw [string_of_size_fail hz] at hs
            simp only [Option.some.injEq, Prod.mk.injEq] at hs
            exact absurd hs.1.symm hp
          | some n => exact ⟨n, c1, e1, rfl⟩
    obtain ⟨n, c', e', hz⟩ := key
    obtain ⟨items, r, hv, hrem, hn, hc', he'⟩ := json_str_size_sound hz
    refine ⟨items, r, hrem, hv, render_ge_32 hv, ?_, string_literal err scan hv hrem⟩
    rw [hz, hn, hc', he']

/-- Witness for `raw_control_byte_rejected`, with a newline for the byte: the literal
`"a` newline `b"` as the key of an object that is the second element of an array,
`[1,{ "a` newline `b"`, with the byte `x` in the memory behind the buffer; the same
literal as the value of a member, `{"k":"a` newline `b"`; and the accepted literal
`"a"`. -/
theorem raw_control_byte_rejected_witness :
    (∃ e, e ≠ [] ∧
        json_parse (1 + (Spot.key [Layer.arr [[49]]] [] [32]).weight + 0)
          (((Spot.key [Layer.arr [[49]]] [] [32]).render ++ 34 :: ([97] ++ 10 :: [98, 34])) ++
            [120])
          ((Spot.key [Layer.arr [[49]]] [] [32]).render ++
            34 :: ([97] ++ 10 :: [98, 34])).length = some (Ptr.NULL, e))
    ∧ (∃ l m, json_parse (0 + (Spot.val [Layer.obj [] [] [Item.plain 107] []] []).weight + 0)
          (((Spot.val [Layer.obj [] [] [Item.plain 107] []] []).render ++
            34 :: (render [Item.plain 97] ++ 10 :: [98, 34])) ++ [])
          ((Spot.val [Layer.obj [] [] [Item.plain 107] []] []).render ++
            34 :: (render [Item.plain 97] ++ 10 :: [98, 34])).length =
        some (Ptr.NULL,
          if 10 = 10 then
            diag (steps (Spot.val [Layer.obj [] [] [Item.plain 107] []] []).render
                (ctx_init (((Spot.val [Layer.obj [] [] [Item.plain 107] []] []).render ++
                    34 :: (render [Item.plain 97] ++ 10 :: [98, 34])) ++ [])
                  ((Spot.val [Layer.obj [] [] [Item.plain 107] []] []).render ++
                    34 :: (render [Item.plain 97] ++ 10 :: [98, 34])).length)).line
              (steps (Spot.val [Layer.obj [] [] [Item.plain 107] []] []).render
                (ctx_init (((Spot.val [Layer.obj [] [] [Item.plain 107] []] []).render ++
                    34 :: (render [Item.plain 97] ++ 10 :: [98, 34])) ++ [])
                  ((Spot.val [Layer.obj [] [] [Item.plain 107] []] []).render ++
                    34 :: (render [Item.plain 97] ++ 10 :: [98, 34])).length)).col
              (bytes "Unterminated string constant")
          else diag l m (bytes "Illegal string character")))
    ∧ (∃ items r, rem (ctx_init [34, 97, 34] 3) = 34 :: (render items ++ 34 :: r) ∧
        (∀ it ∈ items, it.valid) ∧ (∀ b ∈ render items, 32 ≤ b) ∧
        json_str_size (ctx_init [34, 97, 34] 3) [] false =
          (some (decode items).length,
            if false = true then steps (34 :: (render items ++ [34])) (ctx_init [34, 97, 34] 3)
            else ctx_init [34, 97, 34] 3, []) ∧
        string (ctx_init [34, 97, 34] 3) [] false =
          some (if false = true then Ptr.json_ok
              else Ptr.node (JSON_VALUE.string (decode items ++ [0])),
            steps (34 :: (render items ++ [34])) (ctx_init [34, 97, 34] 3), [])) :=
  ⟨((raw_control_byte_rejected 10 (by decide) [98, 34]).1 [97]
        (by
          intro items _ hpx
          have hl := hpx.length_le
          simp only [List.length_append, List.length_singleton] at hl
          have h0 : render items = [] := List.length_eq_zero.mp (by omega)
          rw [h0] at hpx
          exact absurd hpx (by decide))).2 1
      (Spot.key [Layer.arr [[49]]] [] [32])
      ⟨by
        intro L hL
        simp only [List.mem_singleton] at hL
        subst hL
        intro v hv
        simp only [List.mem_singleton] at hv
        subst hv
        exact ⟨by decide, _, rfl⟩, by simp, by decide⟩ 0 [120],
    ((raw_control_byte_rejected 10 (by decide) [98, 34]).2.1 [Item.plain 97]
        (by intro it hit; rw [List.mem_singleton] at hit; subst hit; decide)).2 0
      (Spot.val [Layer.obj [] [] [Item.plain 107] []] [])
      ⟨by
        intro L hL
        simp only [List.mem_singleton] at hL
        subst hL
        exact ⟨by simp, by simp, by simp, by decide⟩, by simp⟩ 0 [],
    (raw_control_byte_rejected 10 (by decide) [98, 34]).2.2 (ctx_init [34, 97, 34] 3) [] false
      (Or.inl ⟨1, ctx_init [34, 97, 34] 3, [], rfl⟩)⟩

/-- C8, as stated, fails where the content in front of the newline is not well formed:
in `"\u00` newline `"` the newline is consumed by `hex_decode`, and the diagnostic is
"Expected hex digit" at the location behind the newline, not "Unterminated string
constant" at the opening quote. Behind the raw byte 0x01 a newline is not reached:
the diagnostic is "Illegal string character". And in `[x,"a` newline `"]` the literal
stands behind an element that is not well formed: the diagnostic is "Expected value". -/
theorem newline_in_escape_message :
    json_parse 1 [34, 92, 117, 48, 48, 10, 34] 7 =
        some (Ptr.NULL, bytes "1:1: Expected hex digit")
      ∧ ¬ (bytes "Unterminated string constant" <:+: bytes "1:1: Expected hex digit")
      ∧ json_parse 1 [34, 1, 10, 34] 4 =
        some (Ptr.NULL, bytes "0:2: Illegal string character")
      ∧ ¬ (bytes "Unterminated string constant" <:+: bytes "0:2: Illegal string character")
      ∧ json_parse 3 [91, 120, 44, 34, 97, 10, 34, 93] 8 =
        some (Ptr.NULL, bytes "0:1: Expected value")
      ∧ ¬ (bytes "Unterminated string constant" <:+: bytes "0:1: Expected value") := by
  refine ⟨rfl, by decide, rfl, by decide, rfl, by decide⟩
/-! ## Reads behind the buffer (C14, C18) -/

/-- C14: on the three-byte buffer `[1,` the sizing pass of `array` asks for a value with
the cursor at the end of the buffer, and `value` dispatches to `word` there: the
diagnostic is the one of `word`, issued at column 3, the size of the buffer. `word`
reads `*s` at that cursor before its bound test; the model has no byte there (the
memory from the cursor on is empty) and takes the byte to be 0, which is how it comes
to return at all. -/
theorem word_reads_behind_buffer :
    json_parse 3 [91, 49, 44] 3 = some (Ptr.NULL, bytes "0:3: Expected value")
      ∧ array_pass1 (value 2) (ctx_init [91, 49, 44] 3) 2 (steps [91] (ctx_init [91, 49, 44] 3))
          [] 0 =
        (value 2 true (steps [91, 49, 44] (ctx_init [91, 49, 44] 3)) []).map
          (fun o => (none, o.2.1, o.2.2))
      ∧ value 2 true (steps [91, 49, 44] (ctx_init [91, 49, 44] 3)) [] =
        some (word (steps [91, 49, 44] (ctx_init [91, 49, 44] 3)) [] true)
      ∧ word (steps [91, 49, 44] (ctx_init [91, 49, 44] 3)) [] true =
        (Ptr.NULL, steps [91, 49, 44] (ctx_init [91, 49, 44] 3), bytes "0:3: Expected value")
      ∧ (steps [91, 49, 44] (ctx_init [91, 49, 44] 3)).i =
        (steps [91, 49, 44] (ctx_init [91, 49, 44] 3)).size
      ∧ mem (steps [91, 49, 44] (ctx_init [91, 49, 44] 3)) = [] := by
  refine ⟨by rfl, by rfl, by rfl, by rfl, by rfl, by rfl⟩

/-- C18: the buffer `b` is the single byte `1` and the memory behind it holds `2`. The
parse of `b` yields the Number that `strtod` reads from `12`; the parse of `b` followed
by a blank, and of a blank followed by `b` and a blank, yields the Number read from
`1`. The results are not structurally equal. -/
theorem whitespace_changes_number :
    json_parse 1 [49, 50] 1 = some (Ptr.node (JSON_VALUE.number [49, 50]), [])
      ∧ json_parse 1 ([] ++ [49] ++ [32]) ([] ++ [49] ++ [32]).length =
        some (Ptr.node (JSON_VALUE.number [49]), [])
      ∧ json_parse 1 ([32] ++ [49] ++ [32]) ([32] ++ [49] ++ [32]).length =
        some (Ptr.node (JSON_VALUE.number [49]), [])
      ∧ JSON_VALUE.number [49, 50] ≠ JSON_VALUE.number [49] := by
  refine ⟨by rfl, by rfl, by rfl, by simp⟩

end Json
